import Mathlib

set_option linter.unusedSectionVars false

/-!
# ofxCoverTree

A shallow embedding of `src/src/ofxCoverTree.h` (class `CoverTree<point, numeric>` and its
nested `Node`) together with theorems about it.

Modelling conventions.

* `P` is the point type and `dist : P → P → α` the metric (`Node::dist`, the `L2` norm of the
  difference in the source).  The scalar type `numeric` is an arbitrary linearly ordered field
  `α`, so that rounding is abstracted away; all definitions are computable and can be run
  on `ℚ`.  Statements that need the triangle inequality of `dist` carry it as a hypothesis:
  the exact norm has it, the norm computed in `float` arithmetic (`distFloat`, for points on
  a line) does not.
* The pointer structure is an ownership tree: every `Node*` stored in a `children` vector is
  owned by exactly one parent.  A node is therefore the value `Node.mk _p children level
  maxdistUB tempDist`, and a function that mutates nodes returns the new tree.
* Outcomes that are not a normal return are values of `Fault`.
* Loops whose iteration count is not structurally bounded carry a step budget (`fuel`).
* Memory that the source leaves uninitialised (`new Node` without an initialiser) holds the
  arbitrary value `junk`.
-/

namespace ofxCoverTree

/-- The ways in which a call can fail to return normally. -/
inductive Fault where
  /-- The debug build threw `std::runtime_error("Internal insert got wrong input!")`. -/
  | wrongInput
  /-- The call read `powdict` outside its 2048 entries (undefined behaviour in the source). -/
  | tableRange
  /-- A debug `assert` failed. -/
  | assertion
  /-- `back()`, `pop_back()` or `operator[]` outside a vector (undefined behaviour). -/
  | vectorRange
  /-- A pointer that denotes no node of the tree; pointers are only ever taken from `children`
  vectors, so this does not arise. -/
  | dangling
  /-- The step budget of the model ran out; this is not an outcome of the program. -/
  | fuel
deriving DecidableEq

/-- Decidable equality of outcomes. -/
instance {ε A : Type} [DecidableEq ε] [DecidableEq A] : DecidableEq (Except ε A)
  | .ok a, .ok b => if h : a = b then isTrue (by rw [h]) else isFalse (fun h2 => h (by cases h2; rfl))
  | .error a, .error b =>
    if h : a = b then isTrue (by rw [h]) else isFalse (fun h2 => h (by cases h2; rfl))
  | .ok _, .error _ => isFalse (fun h => by cases h)
  | .error _, .ok _ => isFalse (fun h => by cases h)

/-- The struct `CoverTree::Node`: point, children, level, `maxdistUB` and the scratch field
`tempDist`. -/
inductive Node (P α : Type) where
  | mk (_p : P) (children : List (Node P α)) (level : Int) (maxdistUB : α) (tempDist : α) :
      Node P α

namespace Node

variable {P α : Type}

/-- Field `_p`. -/
def _p : Node P α → P
  | mk p _ _ _ _ => p

/-- Field `children`. -/
def children : Node P α → List (Node P α)
  | mk _ cs _ _ _ => cs

/-- Field `level`. -/
def level : Node P α → Int
  | mk _ _ l _ _ => l

/-- Field `maxdistUB`. -/
def maxdistUB : Node P α → α
  | mk _ _ _ u _ => u

/-- Field `tempDist`. -/
def tempDist : Node P α → α
  | mk _ _ _ _ t => t

/-- Assignment to the field `children`. -/
def setChildren (n : Node P α) (cs : List (Node P α)) : Node P α :=
  mk n._p cs n.level n.maxdistUB n.tempDist

/-- Assignment to the field `level`. -/
def setLevel (n : Node P α) (l : Int) : Node P α :=
  mk n._p n.children l n.maxdistUB n.tempDist

/-- Assignment to the field `maxdistUB`. -/
def setMaxdistUB (n : Node P α) (u : α) : Node P α :=
  mk n._p n.children n.level u n.tempDist

/-- Assignment to the field `tempDist`. -/
def setTempDist (n : Node P α) (t : α) : Node P α :=
  mk n._p n.children n.level n.maxdistUB t

mutual
/-- Decidable equality of nodes. -/
def decEq [DecidableEq P] [DecidableEq α] : (a b : Node P α) → Decidable (a = b)
  | mk p cs l u t, mk p2 cs2 l2 u2 t2 =>
    if hp : p = p2 then
      if hl : l = l2 then
        if hu : u = u2 then
          if ht : t = t2 then
            match decEqList cs cs2 with
            | isTrue hc => isTrue (by subst hp hl hu ht hc; rfl)
            | isFalse hc => isFalse (fun h => hc (by cases h; rfl))
          else isFalse (fun h => ht (by cases h; rfl))
        else isFalse (fun h => hu (by cases h; rfl))
      else isFalse (fun h => hl (by cases h; rfl))
    else isFalse (fun h => hp (by cases h; rfl))
/-- Decidable equality of lists of nodes. -/
def decEqList [DecidableEq P] [DecidableEq α] : (a b : List (Node P α)) → Decidable (a = b)
  | [], [] => isTrue rfl
  | [], _ :: _ => isFalse (fun h => by cases h)
  | _ :: _, [] => isFalse (fun h => by cases h)
  | a :: as, b :: bs =>
    match decEq a b with
    | isTrue h1 =>
      match decEqList as bs with
      | isTrue h2 => isTrue (by subst h1 h2; rfl)
      | isFalse h2 => isFalse (fun h => h2 (by cases h; rfl))
    | isFalse h1 => isFalse (fun h => h1 (by cases h; rfl))
end

instance [DecidableEq P] [DecidableEq α] : DecidableEq (Node P α) := decEq

mutual
/-- Number of levels of the subtree rooted at a node (a leaf has height 1). -/
def height : Node P α → Nat
  | mk _ cs _ _ _ => 1 + heightList cs
/-- Largest height among a list of nodes. -/
def heightList : List (Node P α) → Nat
  | [] => 0
  | c :: cs => max (height c) (heightList cs)
end

mutual
/-- All nodes of the subtree rooted at a node, the node itself first (preorder). -/
def subtrees : Node P α → List (Node P α)
  | mk p cs l u t => mk p cs l u t :: subtreesList cs
/-- All nodes of the subtrees rooted at the nodes of a list. -/
def subtreesList : List (Node P α) → List (Node P α)
  | [] => []
  | c :: cs => subtrees c ++ subtreesList cs
end

/-- The points stored at the nodes of the subtree rooted at a node. -/
def points (n : Node P α) : List P :=
  n.subtrees.map _p

/-- The proper descendants of a node. -/
def descendants (n : Node P α) : List (Node P α) :=
  subtreesList n.children

/-- The points of a list of trees, as a multiset. -/
def mpointsList (cs : List (Node P α)) : Multiset P :=
  ((subtreesList cs).map _p : List P)

/-- The points of a tree, as a multiset. -/
def mpoints (n : Node P α) : Multiset P :=
  (n.points : List P)

end Node

variable {P α : Type} [LinearOrderedField α]

/-- The table `powdict`, filled by every constructor: `powdict[i] = pow(base, i - 1024)`. -/
def powdict (base : α) (i : Nat) : α :=
  base ^ ((i : Int) - 1024)

namespace Node

/-- `Node::covdist`: reads `powdict[level + 1024]`; the table has 2048 entries. -/
def covdist (base : α) (n : Node P α) : Except Fault α :=
  if 0 ≤ n.level + 1024 ∧ n.level + 1024 < 2048 then
    .ok (powdict base (n.level + 1024).toNat)
  else .error .tableRange

/-- `Node::sepdist`: reads `powdict[level + 1023]`. -/
def sepdist (base : α) (n : Node P α) : Except Fault α :=
  if 0 ≤ n.level + 1023 ∧ n.level + 1023 < 2048 then
    .ok (powdict base (n.level + 1023).toNat)
  else .error .tableRange

/-- `Node::setChild(const point&)`: appends a fresh leaf one level below; its `tempDist` is
not initialised. -/
def setChild (junk : α) (n : Node P α) (pIns : P) : Node P α :=
  n.setChildren (n.children ++ [mk pIns [] (n.level - 1) 0 junk])

mutual
/-- The stack walk of `Node::setChild(Node*)`: the node gets level `l` and every child one
less than its parent. -/
def relevel (l : Int) : Node P α → Node P α
  | mk p cs _ u t => mk p (relevelList (l - 1) cs) l u t
/-- The stack walk of `Node::setChild(Node*)` on the children of a node. -/
def relevelList (l : Int) : List (Node P α) → List (Node P α)
  | [] => []
  | c :: cs => relevel l c :: relevelList l cs
end

/-- `Node::setChild(Node*)`: rewrites the levels of the attached subtree when its root is not
already one level below, then appends it. -/
def setChildNode (n : Node P α) (pIns : Node P α) : Node P α :=
  if pIns.level ≠ n.level - 1 then
    n.setChildren (n.children ++ [relevel (n.level - 1) pIns])
  else
    n.setChildren (n.children ++ [pIns])

/-- The `for` loop of the internal `insert(Node*, const point&)`: every child visited gets its
`tempDist`; the first child that covers `p` is descended into (`recurse`) and the loop stops.
Returns the children and, when a child was descended into, the new `minScale`. -/
def insertLoop (dist : P → P → α) (base : α) (p : P)
    (recurse : Int → Node P α → Except Fault (Node P α × Int)) (minScale : Int) :
    List (Node P α) → Except Fault (List (Node P α) × Option Int)
  | [] => pure ([], none)
  | child :: rest => do
    let child := child.setTempDist (dist child._p p)
    let cd ← child.covdist base
    if child.tempDist ≤ cd then
      let r ← recurse minScale child
      pure (r.1 :: rest, some r.2)
    else
      let r ← insertLoop dist base p recurse minScale rest
      pure (child :: r.1, r.2)

/-- The check under `#ifndef NDEBUG` at the head of both internal `insert` functions:
`if (current->dist(p) > current->covdist(powdict)) throw std::runtime_error(...)`. -/
def checkInput (dist : P → P → α) (base : α) (debug : Bool) (current : Node P α) (p : P) :
    Except Fault Unit :=
  if debug then
    match current.covdist base with
    | .ok cd => if dist current._p p > cd then .error .wrongInput else .ok ()
    | .error e => .error e
  else .ok ()

/-- The internal `CoverTree::insert(Node* current, const point& p)`.  `debug` says whether
the check under `#ifndef NDEBUG` is compiled in.  Returns the new subtree and `minScale`. -/
def insert (dist : P → P → α) (base : α) (debug : Bool) (junk : α) (p : P) :
    Nat → Int → Node P α → Except Fault (Node P α × Int)
  | 0, _, _ => .error .fuel
  | fuel + 1, minScale, current => do
    checkInput dist base debug current p
    let r ← insertLoop dist base p (insert dist base debug junk p fuel) minScale current.children
    match r.2 with
    | some minScale' => pure (current.setChildren r.1, minScale')
    | none =>
      let current := (current.setChildren r.1).setChild junk p
      if minScale > current.level - 1 then pure (current, current.level - 1)
      else pure (current, minScale)

mutual
/-- The inner `while` of the root-lifting loops: follows `children.back()` down to a leaf and
pops it from its parent.  Returns the node without that leaf, and the leaf; `none` when the
node has no children (`parent == NULL`). -/
def peel : Node P α → Option (Node P α × Node P α)
  | mk p cs l u t =>
    match peelLast cs with
    | none => none
    | some r => some (mk p r.1 l u t, r.2)
/-- Follows the last node of a non-empty list down to a leaf and pops that leaf. -/
def peelLast : List (Node P α) → Option (List (Node P α) × Node P α)
  | [] => none
  | c :: cs =>
    match peelLast cs with
    | some r => some (c :: r.1, r.2)
    | none =>
      match peel c with
      | some r => some ([r.1], r.2)
      | none => some ([], c)
end

/-- One round of a root-lifting loop: the deepest rightmost leaf becomes the root, one level
above the old root, which becomes its child; a root without children has its level
incremented. -/
def liftRoot (root : Node P α) : Node P α :=
  match peel root with
  | some r => (r.2.setLevel (root.level + 1)).setChildren (r.2.children ++ [r.1])
  | none => root.setLevel (root.level + 1)

/-- The loop `while (root->dist(p) > 2 * root->covdist(powdict))` of the public `insert`. -/
def liftWhile (dist : P → P → α) (base : α) (p : P) : Nat → Node P α → Except Fault (Node P α)
  | 0, _ => .error .fuel
  | fuel + 1, root => do
    let cd ← root.covdist base
    if dist root._p p > 2 * cd then liftWhile dist base p fuel (liftRoot root)
    else pure root

end Node

/-- The class `CoverTree`: `base` (which determines `powdict`), `root`, `minScale`,
`maxScale`. -/
structure CoverTree (P α : Type) where
  base : α
  root : Node P α
  minScale : Int
  maxScale : Int
deriving DecidableEq

namespace CoverTree

/-- Constructor `CoverTree(const point& p, numeric _base)`. -/
def ofPoint (junk : α) (p : P) (base : α) : CoverTree P α :=
  ⟨base, Node.mk p [] 0 0 junk, 1000, 0⟩

/-- The public `CoverTree::insert(const point& p)`.  The lifting loop reads `powdict` at a
level that grows by one in every round, so 2049 rounds exhaust the table. -/
def insert (dist : P → P → α) (debug : Bool) (junk : α) (t : CoverTree P α) (p : P) :
    Except Fault (CoverTree P α) := do
  let cd ← t.root.covdist t.base
  if dist t.root._p p > cd then
    let root ← Node.liftWhile dist t.base p 2049 t.root
    let temp := Node.mk p [root] (root.level + 1) junk junk
    pure ⟨t.base, temp, t.minScale, temp.level⟩
  else
    let root := t.root.setTempDist (dist t.root._p p)
    let r ← Node.insert dist t.base debug junk p root.height t.minScale root
    pure ⟨t.base, r.1, r.2, t.maxScale⟩

/-- The points stored in a tree. -/
def points (t : CoverTree P α) : List P :=
  t.root.points

end CoverTree

/-! ## Queries -/

namespace Node

/-- `std::sort(current->begin(), current->end(), comp_x)` with
`comp_x(a, b) = a->tempDist < b->tempDist`: the children in ascending `tempDist`.  The order
among ties, which `std::sort` leaves open, is that of a stable sort. -/
def sortChildren (cs : List (Node P α)) : List (Node P α) :=
  cs.insertionSort (fun a b => a.tempDist ≤ b.tempDist)

/-- The first loop of every query helper: `child->tempDist = child->dist(p)`. -/
def setTempDists (dist : P → P → α) (p : P) (cs : List (Node P α)) : List (Node P α) :=
  cs.map (fun child => child.setTempDist (dist child._p p))

/-- The pruning loop of the helper `nearestNeighbor`.  Returns the children after the visits
and the best node. -/
def nearestLoop (recurse : Node P α → Node P α → Node P α × Node P α) :
    List (Node P α) → Node P α → List (Node P α) × Node P α
  | [], nn => ([], nn)
  | child :: rest, nn =>
    if nn.tempDist > child.tempDist - child.maxdistUB then
      let r := recurse child nn
      let r2 := nearestLoop recurse rest r.2
      (r.1 :: r2.1, r2.2)
    else
      let r2 := nearestLoop recurse rest nn
      (child :: r2.1, r2.2)

/-- The helper `CoverTree::nearestNeighbor(Node* current, const point& p, Node* nn)`.  Returns
the subtree after the visit (children reordered, `tempDist` written) and the best node; of
the latter only `_p` and `tempDist` are read afterwards.  The budget is one per level; the
public entry passes the height of the tree. -/
def nearestNeighbor (dist : P → P → α) (p : P) :
    Nat → Node P α → Node P α → Node P α × Node P α
  | 0, current, nn => (current, nn)
  | fuel + 1, current, nn =>
    let nn := if current.tempDist < nn.tempDist then current else nn
    let cs := sortChildren (setTempDists dist p current.children)
    let r := nearestLoop (nearestNeighbor dist p fuel) cs nn
    (current.setChildren r.1, r.2)

/-- `nnList.insert(std::upper_bound(nnList.begin(), nnList.end(), current, comp_x), current)`:
`current` goes before the first entry with a larger `tempDist`. -/
def insertUpper (current : Node P α) : List (Node P α) → List (Node P α)
  | [] => [current]
  | e :: es =>
    if current.tempDist < e.tempDist then current :: e :: es
    else e :: insertUpper current es

/-- The pruning loop of the helper `nearNeighbors`. -/
def nearLoop (recurse : Node P α → List (Node P α) → Node P α × List (Node P α)) :
    List (Node P α) → List (Node P α) → List (Node P α) × List (Node P α)
  | [], nnList => ([], nnList)
  | child :: rest, nnList =>
    match nnList.getLast? with
    | none => (child :: rest, nnList)
    | some back =>
      if back.tempDist > child.tempDist - child.maxdistUB then
        let r := recurse child nnList
        let r2 := nearLoop recurse rest r.2
        (r.1 :: r2.1, r2.2)
      else
        let r2 := nearLoop recurse rest nnList
        (child :: r2.1, r2.2)

/-- The helper `CoverTree::nearNeighbors(Node* current, const point& p,
std::vector<Node*>& nnList)`.  Returns the subtree after the visit and the list.  On an empty
list `nnList.back()` is undefined; the public entry excludes it. -/
def nearNeighbors (dist : P → P → α) (p : P) :
    Nat → Node P α → List (Node P α) → Node P α × List (Node P α)
  | 0, current, nnList => (current, nnList)
  | fuel + 1, current, nnList =>
    match nnList.getLast? with
    | none => (current, nnList)
    | some back =>
      let curDist := current.tempDist
      let bestNow := back.tempDist
      let nnList := if curDist < bestNow then (insertUpper current nnList).dropLast else nnList
      let cs := sortChildren (setTempDists dist p current.children)
      let r := nearLoop (nearNeighbors dist p fuel) cs nnList
      (current.setChildren r.1, r.2)

/-- The pruning loop of the helper `rangeNeighbors`. -/
def rangeLoop (range : α) (recurse : Node P α → List (Node P α) → Node P α × List (Node P α)) :
    List (Node P α) → List (Node P α) → List (Node P α) × List (Node P α)
  | [], nnList => ([], nnList)
  | child :: rest, nnList =>
    if range > child.tempDist - child.maxdistUB then
      let r := recurse child nnList
      let r2 := rangeLoop range recurse rest r.2
      (r.1 :: r2.1, r2.2)
    else
      let r2 := rangeLoop range recurse rest nnList
      (child :: r2.1, r2.2)

/-- The helper `CoverTree::rangeNeighbors(Node* current, const point& p, numeric range,
std::vector<Node*>& nnList)`. -/
def rangeNeighbors (dist : P → P → α) (p : P) (range : α) :
    Nat → Node P α → List (Node P α) → Node P α × List (Node P α)
  | 0, current, nnList => (current, nnList)
  | fuel + 1, current, nnList =>
    let nnList := if current.tempDist < range then nnList ++ [current] else nnList
    let cs := sortChildren (setTempDists dist p current.children)
    let r := rangeLoop range (rangeNeighbors dist p range fuel) cs nnList
    (current.setChildren r.1, r.2)

end Node

namespace CoverTree

/-- The public `CoverTree::nearestNeighbor(const point& p)`: the point returned and the tree
as the call leaves it. -/
def nearestNeighbor (dist : P → P → α) (t : CoverTree P α) (p : P) : P × CoverTree P α :=
  let root := t.root.setTempDist (dist t.root._p p)
  let r := Node.nearestNeighbor dist p root.height root root
  (r.2._p, ⟨t.base, r.1, t.minScale, t.maxScale⟩)

/-- The public `CoverTree::nearNeighbors(const point queryPt, size_t numNbrs)`.  The sentinel
is the value-initialised `new Node()` with `tempDist = numericMax`, where `numericMax` stands
for `std::numeric_limits<numeric>::max()`.  With `numNbrs = 0` the helper reads `back()` of
an empty vector. -/
def nearNeighbors [Inhabited P] (dist : P → P → α) (numericMax : α) (t : CoverTree P α)
    (queryPt : P) (numNbrs : Nat) : Except Fault (List P × CoverTree P α) :=
  if numNbrs = 0 then .error .vectorRange
  else
    let root := t.root.setTempDist (dist t.root._p queryPt)
    let dummyNode : Node P α := Node.mk default [] 0 0 numericMax
    let r := Node.nearNeighbors dist queryPt root.height root (List.replicate numNbrs dummyNode)
    .ok (r.2.map Node._p, ⟨t.base, r.1, t.minScale, t.maxScale⟩)

/-- The public `CoverTree::rangeNeighbors(const point queryPt, numeric range)`. -/
def rangeNeighbors (dist : P → P → α) (t : CoverTree P α) (queryPt : P) (range : α) :
    List P × CoverTree P α :=
  let root := t.root.setTempDist (dist t.root._p queryPt)
  let r := Node.rangeNeighbors dist queryPt range root.height root []
  (r.2.map Node._p, ⟨t.base, r.1, t.minScale, t.maxScale⟩)

end CoverTree

/-! ## Queries that recompute distances -/

namespace Node

/-- The loop of the helper `nearestNeighborMulti`.  The threshold `tempDist` is the local
variable of the call: the distance of the best node the call was entered with, which the loop
does not refresh. -/
def nearestMultiLoop (dist : P → P → α) (p : P) (tempDist : α)
    (recurse : Node P α → Node P α → Node P α) : List (Node P α) → Node P α → Node P α
  | [], nn => nn
  | child :: rest, nn =>
    if tempDist > dist child._p p - child.maxdistUB then
      nearestMultiLoop dist p tempDist recurse rest (recurse child nn)
    else
      nearestMultiLoop dist p tempDist recurse rest nn

/-- The helper `CoverTree::nearestNeighborMulti(Node* current, const point& p, Node* nn)`.  It
writes no field of any node, so only the best node is returned.  The budget is one per
level. -/
def nearestNeighborMulti (dist : P → P → α) (p : P) : Nat → Node P α → Node P α → Node P α
  | 0, _, nn => nn
  | fuel + 1, current, nn =>
    let tempDist := dist nn._p p
    let nn := if dist current._p p < tempDist then current else nn
    nearestMultiLoop dist p tempDist (nearestNeighborMulti dist p fuel) current.children nn

/-- The scan `for (; curDist > (*k)->dist(p); ++k)` of the helper `nearNeighborsMulti`,
followed by `nnList.insert(k, current)`: `current` goes before the first entry that is not
nearer to `p`.  A scan that no entry stops runs off the end of the vector. -/
def insertLower (dist : P → P → α) (p : P) (current : Node P α) :
    List (Node P α) → Except Fault (List (Node P α))
  | [] => .error .vectorRange
  | e :: es =>
    if dist current._p p > dist e._p p then do
      let r ← insertLower dist p current es
      pure (e :: r)
    else pure (current :: e :: es)

/-- The pruning loop of the helper `nearNeighborsMulti`; `bestNow` is the local variable of
the call. -/
def nearMultiLoop (dist : P → P → α) (p : P) (bestNow : α)
    (recurse : Node P α → List (Node P α) → Except Fault (List (Node P α))) :
    List (Node P α) → List (Node P α) → Except Fault (List (Node P α))
  | [], nnList => pure nnList
  | child :: rest, nnList =>
    if bestNow > dist child._p p - child.maxdistUB then do
      let r ← recurse child nnList
      nearMultiLoop dist p bestNow recurse rest r
    else
      nearMultiLoop dist p bestNow recurse rest nnList

/-- The helper `CoverTree::nearNeighborsMulti(Node* current, const point& p,
std::vector<Node*>& nnList)`.  It writes no field of any node; the list is returned. -/
def nearNeighborsMulti (dist : P → P → α) (p : P) :
    Nat → Node P α → List (Node P α) → Except Fault (List (Node P α))
  | 0, _, _ => .error .fuel
  | fuel + 1, current, nnList =>
    match nnList.getLast? with
    | none => .error .vectorRange
    | some back => do
      let curDist := dist current._p p
      let bestNow := dist back._p p
      let nnList ←
        if curDist < bestNow then do
          let r ← insertLower dist p current nnList
          pure r.dropLast
        else pure nnList
      nearMultiLoop dist p bestNow (nearNeighborsMulti dist p fuel) current.children nnList

end Node

namespace CoverTree

/-- The public `CoverTree::nearestNeighborMulti(const point& p)`: the point returned and the
tree as the call leaves it; neither the entry nor the helper assigns to a node. -/
def nearestNeighborMulti (dist : P → P → α) (t : CoverTree P α) (p : P) : P × CoverTree P α :=
  ((Node.nearestNeighborMulti dist p t.root.height t.root t.root)._p, t)

/-- The public `CoverTree::nearNeighborsMulti(const point queryPt, size_t numNbrs)`.  The
sentinel is the value-initialised `new Node()` with `_p = numericMax * root->_p` and
`tempDist = numericMax`; `scale` is the product of a scalar and a point.  With `numNbrs = 0`
the helper reads `back()` of an empty vector. -/
def nearNeighborsMulti (dist : P → P → α) (scale : α → P → P) (numericMax : α)
    (t : CoverTree P α) (queryPt : P) (numNbrs : Nat) : Except Fault (List P × CoverTree P α) :=
  let dummyNode : Node P α := Node.mk (scale numericMax t.root._p) [] 0 0 numericMax
  match Node.nearNeighborsMulti dist queryPt t.root.height t.root
      (List.replicate numNbrs dummyNode) with
  | .ok r => .ok (r.map Node._p, t)
  | .error e => .error e

end CoverTree

/-! ## `update()` -/

namespace Node

/-- A `Node*` into a tree: the child indices leading from the root to the node. -/
abbrev Path := List Nat

/-- Dereferences a pointer. -/
def getAt : Node P α → Path → Option (Node P α)
  | n, [] => some n
  | n, i :: rest =>
    match n.children[i]? with
    | some c => getAt c rest
    | none => none

/-- Applies `f` to the node a pointer denotes. -/
def modifyAt (f : Node P α → Node P α) : Node P α → Path → Node P α
  | n, [] => f n
  | n, i :: rest =>
    match n.children[i]? with
    | some c => n.setChildren (n.children.set i (modifyAt f c rest))
    | none => n

/-- The state of `calc_maxdist`: the tree and the two vectors `travel` and `active`, whose
`back()` is the head of the list. -/
structure CalcState (P α : Type) where
  root : Node P α
  travel : List Path
  active : List Path

/-- The assignment `children[i]->maxdistUB = 0` to all children of a node. -/
def resetChildren (m : Node P α) : Node P α :=
  m.setChildren (m.children.map (fun c => c.setMaxdistUB 0))

/-- Pointers to the children of the node at `cur`, `children[0]` first. -/
def childPaths (cur : Path) (n : Nat) : List Path :=
  (List.range n).map (fun i => cur ++ [i])

/-- The loop `while (current->children.size() > 0)` of `calc_maxdist`: `current` is pushed on
`active`, its children get `maxdistUB = 0` and are pushed on `travel` from the last to the
first, and `current` moves to `children[0]`. -/
def descend : Nat → CalcState P α → Path → Except Fault (CalcState P α × Path)
  | 0, _, _ => .error .fuel
  | fuel + 1, s, current =>
    match getAt s.root current with
    | none => .error .dangling
    | some n =>
      if n.children.length > 0 then
        let root := modifyAt resetChildren s.root current
        descend fuel ⟨root, childPaths current n.children.length ++ s.travel,
          current :: s.active⟩ (current ++ [0])
      else .ok (s, current)

/-- The loop `for (const auto& n : active) n->maxdistUB = std::max(n->maxdistUB,
n->dist(current))`, over the entries of `active` from `begin()` on. -/
def updateActive (dist : P → P → α) (current : Path) :
    List Path → Node P α → Except Fault (Node P α)
  | [], root => .ok root
  | n :: rest, root =>
    match getAt root n, getAt root current with
    | some a, some c =>
      updateActive dist current rest
        (modifyAt (fun m => m.setMaxdistUB (max m.maxdistUB (dist a._p c._p))) root n)
    | _, _ => .error .dangling

/-- The branch `if (current->maxdistUB == 0) { ... } else active.pop_back();` of
`calc_maxdist`.  The inner loop descends one level per round, so the height of the tree is a
budget for it. -/
def visit (s : CalcState P α) (current : Path) (n : Node P α) :
    Except Fault (CalcState P α × Path) :=
  if n.maxdistUB = 0 then descend s.root.height s current
  else
    match s.active with
    | [] => .error .vectorRange
    | _ :: active => .ok (⟨s.root, s.travel, active⟩, current)

/-- One round of the loop `while (travel.size() > 0)` of `calc_maxdist`, for
`current = travel.back()` denoting the node `n`. -/
def calcStep (dist : P → P → α) (s : CalcState P α) (current : Path) (n : Node P α) :
    Except Fault (CalcState P α) := do
  let r ← visit s current n
  let root ← updateActive dist r.2 r.1.active.reverse r.1.root
  pure ⟨root, r.1.travel.tail, r.1.active⟩

/-- The loop `while (travel.size() > 0)` of `calc_maxdist`. -/
def calcLoop (dist : P → P → α) : Nat → CalcState P α → Except Fault (Node P α)
  | 0, _ => .error .fuel
  | fuel + 1, s =>
    match s.travel with
    | [] => .ok s.root
    | current :: _ =>
      match getAt s.root current with
      | none => .error .dangling
      | some n => do
        let s' ← calcStep dist s current n
        calcLoop dist fuel s'

/-- `CoverTree::calc_maxdist` on the root. -/
def calc_maxdist (dist : P → P → α) (fuel : Nat) (root : Node P α) :
    Except Fault (Node P α) :=
  calcLoop dist fuel ⟨root.setMaxdistUB 0, [[]], []⟩

end Node

namespace CoverTree

/-- `CoverTree::calc_maxdist`. -/
def calc_maxdist (dist : P → P → α) (fuel : Nat) (t : CoverTree P α) :
    Except Fault (CoverTree P α) := do
  let root ← Node.calc_maxdist dist fuel t.root
  pure ⟨t.base, root, t.minScale, t.maxScale⟩

/-- `CoverTree::update`. -/
def update (dist : P → P → α) (fuel : Nat) (t : CoverTree P α) :
    Except Fault (CoverTree P α) :=
  calc_maxdist dist fuel t

/-- Constructor `CoverTree(std::vector<point>& pList, numeric _base)`: the last point becomes
the root, the others are inserted in order, then `calc_maxdist()` runs. -/
def ofList (dist : P → P → α) (debug : Bool) (junk : α) (fuel : Nat) (pList : List P)
    (base : α) : Except Fault (CoverTree P α) :=
  match pList.getLast? with
  | none => .error .vectorRange
  | some temp => do
    let t ← pList.dropLast.foldlM (insert dist debug junk) (ofPoint junk temp base)
    calc_maxdist dist fuel t

/-- The loop `for (int i = begin + 1; i < end; ++i) insert(pList[i])` of the range
constructor, as the list of its indices. -/
def rangeIndices (b e : Int) : List Int :=
  (List.range (e - (b + 1)).toNat).map (fun (k : Nat) => b + 1 + (k : Int))

/-- Constructor `CoverTree(std::vector<point>& pList, int begin, int end, numeric _base)`. -/
def ofRange (dist : P → P → α) (debug : Bool) (junk : α) (fuel : Nat) (pList : List P)
    (b e : Int) (base : α) : Except Fault (CoverTree P α) :=
  if b < 0 then .error .vectorRange
  else
    match pList[b.toNat]? with
    | none => .error .vectorRange
    | some temp => do
      let t ← (rangeIndices b e).foldlM
        (fun t i =>
          match pList[i.toNat]? with
          | none => .error .vectorRange
          | some p => insert dist debug junk t p)
        (ofPoint junk temp base)
      calc_maxdist dist fuel t

end CoverTree

/-! ## Merge -/

namespace Node

/-- The `for` loop of the internal `insert(Node*, Node*)`. -/
def insertNodeLoop (dist : P → P → α) (base : α) (p : Node P α)
    (recurse : Int → Node P α → Except Fault (Node P α × Int)) (minScale : Int) :
    List (Node P α) → Except Fault (List (Node P α) × Option Int)
  | [] => pure ([], none)
  | child :: rest => do
    let child := child.setTempDist (dist child._p p._p)
    let cd ← child.covdist base
    if child.tempDist ≤ cd then
      let r ← recurse minScale child
      pure (r.1 :: rest, some r.2)
    else
      let r ← insertNodeLoop dist base p recurse minScale rest
      pure (child :: r.1, r.2)

/-- The internal `CoverTree::insert(Node* current, Node* p)`, which attaches the subtree `p`. -/
def insertNode (dist : P → P → α) (base : α) (debug : Bool) (p : Node P α) :
    Nat → Int → Node P α → Except Fault (Node P α × Int)
  | 0, _, _ => .error .fuel
  | fuel + 1, minScale, current => do
    checkInput dist base debug current p._p
    let r ← insertNodeLoop dist base p (insertNode dist base debug p fuel) minScale
      current.children
    match r.2 with
    | some minScale' => pure (current.setChildren r.1, minScale')
    | none =>
      let current := (current.setChildren r.1).setChildNode p
      if minScale > current.level - 1 then pure (current, current.level - 1)
      else pure (current, minScale)

/-- The loop `for (const auto& s : *p)` of `mergeHelper`: the index of the first child `s` with
`s->dist(r) <= s->covdist(powdict)`. -/
def findCover (dist : P → P → α) (base : α) (r : Node P α) :
    List (Node P α) → Except Fault (Option Nat)
  | [] => pure none
  | s :: rest => do
    let cd ← s.covdist base
    if dist s._p r._p ≤ cd then pure (some 0)
    else
      let i ← findCover dist base r rest
      pure (i.map (fun k => k + 1))

/-- The local state of `mergeHelper` while the children of `q` are classified: the node `p`,
`minScale`, and the vectors `sepcov`, `uncovered`, `leftovers`. -/
structure MergeState (P α : Type) where
  p : Node P α
  minScale : Int
  sepcov : List (Node P α)
  uncovered : List (Node P α)
  leftovers : List (Node P α)

/-- The loop `for (const auto& r : *q)` of `mergeHelper`. -/
def classify (dist : P → P → α) (base : α)
    (recurse : Int → Node P α → Node P α → Except Fault (Node P α × Int × List (Node P α))) :
    List (Node P α) → MergeState P α → Except Fault (MergeState P α)
  | [], st => pure st
  | r :: rest, st => do
    let cd ← st.p.covdist base
    if dist st.p._p r._p < cd then
      match ← findCover dist base r st.p.children with
      | some i =>
        match st.p.children[i]? with
        | none => .error .dangling
        | some s =>
          let m ← recurse st.minScale s r
          classify dist base recurse rest
            ⟨st.p.setChildren (st.p.children.set i m.1), m.2.1, st.sepcov, st.uncovered,
              st.leftovers ++ m.2.2⟩
      | none =>
        classify dist base recurse rest
          ⟨st.p, st.minScale, st.sepcov ++ [r], st.uncovered, st.leftovers⟩
    else
      classify dist base recurse rest
        ⟨st.p, st.minScale, st.sepcov, st.uncovered ++ [r], st.leftovers⟩

/-- The loop `for (const auto& r : leftovers)` of `mergeHelper`. -/
def placeLeftovers (dist : P → P → α) (base : α) (debug : Bool) :
    List (Node P α) → Node P α → Int → List (Node P α) →
      Except Fault (Node P α × Int × List (Node P α))
  | [], p, minScale, uncovered => pure (p, minScale, uncovered)
  | r :: rest, p, minScale, uncovered => do
    let cd ← p.covdist base
    if dist p._p r._p ≤ cd then
      let m ← insertNode dist base debug r p.height minScale p
      placeLeftovers dist base debug rest m.1 m.2 uncovered
    else
      placeLeftovers dist base debug rest p minScale (uncovered ++ [r])

/-- `CoverTree::mergeHelper(Node* p, Node* q)`.  Returns `p` after the call, `minScale`, and
the vector `uncovered`.  The recursion descends one level of `q` per call. -/
def mergeHelper (dist : P → P → α) (base : α) (debug : Bool) (junk : α) :
    Nat → Int → Node P α → Node P α → Except Fault (Node P α × Int × List (Node P α))
  | 0, _, _, _ => .error .fuel
  | fuel + 1, minScale, p, q => do
    let st ← classify dist base (mergeHelper dist base debug junk fuel) q.children
      ⟨p, minScale, [], [], []⟩
    let p := st.p.setChildren (st.p.children ++ st.sepcov)
    let m ← insert dist base debug junk q._p p.height st.minScale p
    placeLeftovers dist base debug st.leftovers m.1 m.2 st.uncovered

/-- The loop `while (root->dist(ct->root) > root->covdist(powdict))` of `merge`. -/
def coverWhile (dist : P → P → α) (base : α) (q : Node P α) :
    Nat → Node P α → Except Fault (Node P α)
  | 0, _ => .error .fuel
  | fuel + 1, root => do
    let cd ← root.covdist base
    if dist root._p q._p > cd then coverWhile dist base q fuel (liftRoot root)
    else pure root

/-- The loop `while (root->level > ct->root->level)` of `merge`, which lifts `ct->root`. -/
def levelWhile (level : Int) : Nat → Node P α → Except Fault (Node P α)
  | 0, _ => .error .fuel
  | fuel + 1, q =>
    if level > q.level then levelWhile level fuel (liftRoot q)
    else pure q

/-- The loop `for (const auto& p : leftovers) insert(root, p)` of `merge`. -/
def insertAll (dist : P → P → α) (base : α) (debug : Bool) :
    List (Node P α) → Node P α → Int → Except Fault (Node P α × Int)
  | [], root, minScale => pure (root, minScale)
  | r :: rest, root, minScale => do
    let m ← insertNode dist base debug r root.height minScale root
    insertAll dist base debug rest m.1 m.2

end Node

namespace CoverTree

/-- The check under `#ifndef NDEBUG` at the head of `merge`:
`assert(root->level >= ct->root->level)`. -/
def checkLevels (debug : Bool) (t ct : CoverTree P α) : Except Fault Unit :=
  if debug then
    if t.root.level ≥ ct.root.level then .ok () else .error .assertion
  else .ok ()

/-- `CoverTree::merge(CoverTree* ct)`.  The first loop reads `powdict` at a level that grows
by one per round; the second runs once per level between the two roots. -/
def merge (dist : P → P → α) (debug : Bool) (junk : α) (t ct : CoverTree P α) :
    Except Fault (CoverTree P α) := do
  checkLevels debug t ct
  let root ← Node.coverWhile dist t.base ct.root 2049 t.root
  let q ← Node.levelWhile root.level ((root.level - ct.root.level).toNat + 1) ct.root
  let m ← Node.mergeHelper dist t.base debug junk q.height t.minScale root q
  let r ← Node.insertAll dist t.base debug m.2.2 m.1 m.2.1
  pure ⟨t.base, r.1, r.2, t.maxScale⟩

end CoverTree

/-! ## Parallel construction -/

namespace ParallelMake

/-- `ParallelMake::compute` followed by `get_result`, for the builder with the fields `left`,
`right`, `base` and `pList`.  Below `50000` points `run()` calls the range constructor.
Otherwise the two halves are built by the builders `t1` and `t2`; the source runs them as
concurrent tasks that share only `pList`, which neither writes, so the model runs them one
after the other.  The comparison that selects the receiver of `merge` reads
`t1->CT->get_level()` on both sides.  `fuel` is the step budget of `calc_maxdist` in the
range constructor. -/
def compute (dist : P → P → α) (debug : Bool) (junk : α) (fuel : Nat) (pList : List P)
    (base : α) (left right : Int) : Except Fault (CoverTree P α) :=
  if h : right - left < 50000 then
    CoverTree.ofRange dist debug junk fuel pList left right base
  else
    compute dist debug junk fuel pList base left (left + (right - left) / 2) >>= fun t1 =>
    compute dist debug junk fuel pList base (left + (right - left) / 2) right >>= fun t2 =>
    if t1.root.level > t1.root.level then t1.merge dist debug junk t2
    else t2.merge dist debug junk t1
termination_by (right - left).toNat
decreasing_by
  all_goals simp_wf
  all_goals omega

end ParallelMake

/-! ## Invariants and specifications -/

namespace Node

/-- Nesting: every child is one level below its parent. -/
def Nesting (t : Node P α) : Prop :=
  ∀ n ∈ t.subtrees, ∀ c ∈ n.children, c.level = n.level - 1

/-- Covering: every child lies within `base ^ level` of its parent. -/
def Covering (dist : P → P → α) (base : α) (t : Node P α) : Prop :=
  ∀ n ∈ t.subtrees, ∀ c ∈ n.children, dist n._p c._p ≤ base ^ n.level

/-- Separation: two distinct children of a node at level `l` are more than `base ^ (l - 1)`
apart. -/
def Separation (dist : P → P → α) (base : α) (t : Node P α) : Prop :=
  ∀ n ∈ t.subtrees, n.children.Pairwise
    (fun c1 c2 => base ^ (n.level - 1) < dist c1._p c2._p ∧
      base ^ (n.level - 1) < dist c2._p c1._p)

/-- Soundness of `maxdistUB`: at every node it is a non-negative upper bound of the distance
to each descendant. -/
def SoundUB (dist : P → P → α) (t : Node P α) : Prop :=
  ∀ n ∈ t.subtrees, 0 ≤ n.maxdistUB ∧ ∀ d ∈ n.descendants, dist n._p d._p ≤ n.maxdistUB

/-- Two trees that differ at most in the order of the children lists and in the `tempDist`
fields: the roots have the same point, level and `maxdistUB`, and the children of the one are,
in some order, the children of the other, related in the same way. -/
inductive Reordered : Node P α → Node P α → Prop
  | mk (p : P) (cs bs cs' : List (Node P α)) (l : Int) (u t t' : α) :
      List.Forall₂ Reordered cs bs → bs.Perm cs' →
      Reordered (Node.mk p cs l u t) (Node.mk p cs' l u t')

/-- All levels of a subtree lie between `lo` and `hi`. -/
def LevelsIn (lo hi : Int) (t : Node P α) : Prop :=
  ∀ n ∈ t.subtrees, lo ≤ n.level ∧ n.level ≤ hi

/-- The points of a batch are pairwise more than `a` and at most `b` apart (in either order
of the arguments of `dist`). -/
def Spread (dist : P → P → α) (a b : α) (l : List P) : Prop :=
  l.Pairwise (fun x y => (a < dist x y ∧ dist x y ≤ b) ∧ (a < dist y x ∧ dist y x ≤ b))

/-- What a `k`-nearest-neighbour list reads of a node: its `tempDist` and its point. -/
def entry (n : Node P α) : α × P :=
  (n.tempDist, n._p)

/-- The points of a subtree, each with its distance to the query `q`. -/
def candidates (dist : P → P → α) (q : P) (n : Node P α) : Multiset (α × P) :=
  n.mpoints.map (fun y => (dist y q, y))

/-- The points of a list of subtrees, each with its distance to the query `q`. -/
def candidatesList (dist : P → P → α) (q : P) (cs : List (Node P α)) : Multiset (α × P) :=
  (mpointsList cs).map (fun y => (dist y q, y))

/-- A `k`-nearest-neighbour list in ascending `tempDist`. -/
def Ascending (l : List (Node P α)) : Prop :=
  l.Pairwise (fun a b => a.tempDist ≤ b.tempDist)

/-- The entries of a list, as a multiset. -/
def entries (l : List (Node P α)) : Multiset (α × P) :=
  ((l.map entry : List (α × P)) : Multiset (α × P))

/-- What a stretch of a `k`-nearest-neighbour search does to the list: from the ascending list
`l` and the candidates `cand` it keeps an ascending list `l'` of the same length; what it
leaves out is no nearer than any entry kept; and the list only improves. -/
def NearSpec (cand : Multiset (α × P)) (l l' : List (Node P α)) : Prop :=
  Ascending l' ∧ l'.length = l.length ∧
    (∃ R : Multiset (α × P), entries l + cand = entries l' + R ∧
      ∀ x ∈ R, ∀ a ∈ l', a.tempDist ≤ x.1) ∧
    (∀ v, (∀ a ∈ l, a.tempDist ≤ v) → ∀ a ∈ l', a.tempDist ≤ v)

/-- What the invariants read of a node: its point and its level. -/
def key (n : Node P α) : P × Int :=
  (n._p, n.level)

/-- An invariant that constrains, at every node, the point and level of the node and the
points and levels of its children. -/
def KeyInv (Q : P → Int → List (P × Int) → Prop) (t : Node P α) : Prop :=
  ∀ x ∈ t.subtrees, Q x._p x.level (x.children.map key)

/-- Nesting at one node. -/
def NestAt : P → Int → List (P × Int) → Prop :=
  fun _ l ks => ∀ k ∈ ks, k.2 = l - 1

/-- Covering at one node. -/
def CoverAt (dist : P → P → α) (base : α) : P → Int → List (P × Int) → Prop :=
  fun q l ks => ∀ k ∈ ks, dist q k.1 ≤ base ^ l

/-- Separation at one node. -/
def SepAt (dist : P → P → α) (base : α) : P → Int → List (P × Int) → Prop :=
  fun _ l ks => ks.Pairwise
    (fun a b => base ^ (l - 1) < dist a.1 b.1 ∧ base ^ (l - 1) < dist b.1 a.1)

/-- Nesting and separation at one node, as one invariant. -/
def NestSepAt (dist : P → P → α) (base : α) : P → Int → List (P × Int) → Prop :=
  fun q l ks => NestAt q l ks ∧ SepAt dist base q l ks

/-- The node invariants that root lifting and the internal `insert` keep: they survive the
removal of children, hold of a leaf and of a parent with one nested child, and survive the
appending of a leaf that no child covers. -/
structure Stable (dist : P → P → α) (base : α) (Q : P → Int → List (P × Int) → Prop) :
    Prop where
  sublist : ∀ q l ks ks', List.Sublist ks' ks → Q q l ks → Q q l ks'
  nil : ∀ q l, Q q l []
  single : ∀ q l k, k.2 = l - 1 → Q q l [k]
  leaf : ∀ p q l ks, Q q l ks → (∀ k ∈ ks, base ^ k.2 < dist k.1 p) →
    Q q l (ks ++ [(p, l - 1)])

/-- The effect of a completed internal `insert(current, p)`: either no child covers `p` and a
leaf is appended, or the first covering child is descended into; the children before it have
had their `tempDist` written. -/
inductive Inserted (dist : P → P → α) (base : α) (junk : α) (p : P) :
    Node P α → Node P α → Prop
  | leaf (q : P) (cs : List (Node P α)) (l : Int) (u t : α) :
      (∀ x ∈ cs, base ^ x.level < dist x._p p) →
      Inserted dist base junk p (mk q cs l u t)
        (mk q (setTempDists dist p cs ++ [mk p [] (l - 1) 0 junk]) l u t)
  | descend (q : P) (pre : List (Node P α)) (c : Node P α) (post : List (Node P α)) (l : Int)
      (u t : α) (c' : Node P α) :
      (∀ x ∈ pre, base ^ x.level < dist x._p p) →
      dist c._p p ≤ base ^ c.level →
      Inserted dist base junk p (c.setTempDist (dist c._p p)) c' →
      Inserted dist base junk p (mk q (pre ++ c :: post) l u t)
        (mk q (setTempDists dist p pre ++ c' :: post) l u t)

/-- The largest of `u` and the distances from the point `a` to the points of `l`. -/
def raise (dist : P → P → α) (a : P) (u : α) (l : List P) : α :=
  l.foldl (fun acc y => max acc (dist a y)) u

/-- The tight value of `maxdistUB` at a node: the largest distance to a proper descendant,
`0` for a leaf. -/
def tight (dist : P → P → α) (n : Node P α) : α :=
  raise dist n._p 0 (n.descendants.map _p)

/-- Tightness of `maxdistUB`: at every node it is the largest distance to a proper descendant,
`0` at a leaf. -/
def TightUB (dist : P → P → α) (t : Node P α) : Prop :=
  ∀ n ∈ t.subtrees, n.maxdistUB = tight dist n

/-- No node with children has all its descendants at distance `0`: the trees on which
`calc_maxdist` returns. -/
def Regular (dist : P → P → α) (t : Node P α) : Prop :=
  ∀ n ∈ t.subtrees, n.children ≠ [] → tight dist n ≠ 0

mutual
/-- The tree with every `maxdistUB` replaced by `0`: what `calc_maxdist` never writes. -/
def eraseUB : Node P α → Node P α
  | mk p cs l _ t => mk p (eraseUBList cs) l 0 t
/-- The trees of a list with every `maxdistUB` replaced by `0`. -/
def eraseUBList : List (Node P α) → List (Node P α)
  | [] => []
  | c :: cs => eraseUB c :: eraseUBList cs
end

/-- The value of `maxdistUB` behind a pointer. -/
def ubAt (t : Node P α) (path : Path) : Option α :=
  (getAt t path).map maxdistUB

/-- The tight value of `maxdistUB` behind a pointer. -/
def tightAt (dist : P → P → α) (t : Node P α) (path : Path) : Option α :=
  (getAt t path).map (tight dist)

/-- The value `old` of `maxdistUB` behind a pointer, raised by the distances to the points of
`l`. -/
def raisedAt (dist : P → P → α) (t : Node P α) (l : List P) (old : Option α) (path : Path) :
    Option α :=
  (getAt t path).bind (fun n => old.map (fun u => raise dist n._p u l))

/-- The effect on the tree of a stretch of `calc_maxdist` that works through the nodes that
`under` holds of, whose points are `l`, with `act` on `active`: the fields of those nodes
are tight, the fields of the nodes on `active` are raised by the distances to `l`, and no
other field changes. -/
structure Processed (dist : P → P → α) (under : Path → Prop) (act : List Path) (l : List P)
    (a b : Node P α) : Prop where
  shape : eraseUB b = eraseUB a
  done : ∀ path, under path → ubAt b path = tightAt dist a path
  raised : ∀ path, ¬ under path → path ∈ act →
    ubAt b path = raisedAt dist a l (ubAt a path) path
  frame : ∀ path, ¬ under path → path ∉ act → ubAt b path = ubAt a path

/-- What a run of `calc_maxdist` does from a round at a node of height at most `h` that has
`maxdistUB == 0`, with `act` (pointers to proper ancestors) on `active`: if the run returns,
it reaches, with less budget, the state in which the node is off `travel`, the fields of its
subtree are tight and the fields of the nodes on `active` are raised by the distances to the
points of the subtree; and no node of the subtree that has children has all its descendants
at distance `0`. -/
def SegmentSpec (dist : P → P → α) (h : Nat) : Prop :=
  ∀ (x t r : Node P α) (cur : Path) (rest act : List Path) (fuel : Nat),
    x.height ≤ h → getAt t cur = some x → x.maxdistUB = 0 →
    (∀ a ∈ act, a <+: cur ∧ a ≠ cur) →
    calcLoop dist fuel ⟨t, cur :: rest, act⟩ = .ok r →
    ∃ t1 fuel1, fuel1 < fuel ∧ Regular dist x ∧
      Processed dist (fun path => cur <+: path) act x.points t t1 ∧
      calcLoop dist fuel1 ⟨t1, rest, act⟩ = .ok r

/-- What a run of `calc_maxdist` does from a round at a node of height at most `h` that has
`maxdistUB == 0` and a regular subtree, with `act` (pointers to proper ancestors) on
`active`: after as many rounds as the subtree has nodes the node is off `travel`. -/
def ReturnSpec (dist : P → P → α) (h : Nat) : Prop :=
  ∀ (x t : Node P α) (cur : Path) (act : List Path),
    x.height ≤ h → getAt t cur = some x → x.maxdistUB = 0 → Regular dist x →
    (∀ a ∈ act, a <+: cur ∧ a ≠ cur) →
    ∃ t1, ∀ (rest : List Path) (k : Nat),
      calcLoop dist (k + x.subtrees.length) ⟨t, cur :: rest, act⟩ =
        calcLoop dist k ⟨t1, rest, act⟩

/-- Two runs of `calc_maxdist` in step, the second of which is to end in the tree `final`: the
trees differ in `maxdistUB` fields only, they agree on the fields behind the pointers in
`known` (those on `travel` and `active`), and every field of the second tree either agrees
with the first or still has its value in `final`. -/
structure Rel (final : Node P α) (known : List Path) (a b : Node P α) : Prop where
  shape : eraseUB a = eraseUB b
  agree : ∀ path ∈ known, ubAt a path = ubAt b path
  frame : ∀ path, ubAt b path = ubAt a path ∨ ubAt b path = ubAt final path

end Node

namespace CoverTree

/-- The trees obtained from a constructor followed by public `insert` calls. -/
inductive Built (dist : P → P → α) (debug : Bool) : CoverTree P α → Prop
  | ofPoint (junk : α) (p : P) (base : α) : Built dist debug (ofPoint junk p base)
  | ofList (junk : α) (fuel : Nat) (pList : List P) (base : α) (t : CoverTree P α) :
      ofList dist debug junk fuel pList base = .ok t → Built dist debug t
  | ofRange (junk : α) (fuel : Nat) (pList : List P) (b e : Int) (base : α)
      (t : CoverTree P α) :
      ofRange dist debug junk fuel pList b e base = .ok t → Built dist debug t
  | insert (junk : α) (t : CoverTree P α) (p : P) (t' : CoverTree P α) :
      Built dist debug t → insert dist debug junk t p = .ok t' → Built dist debug t'

end CoverTree

/-- A tree with the points `0` and `1/2`, as `insert` builds it from the singleton `0`. -/
def sampleTwo : CoverTree ℚ ℚ :=
  ⟨13/10, Node.mk 0 [Node.mk (1/2) [] (-1) 0 0] 0 0 (1/2), -1, 0⟩

/-- The tree with the points `3`, `1/2`, `0` that inserting `3` into `sampleTwo` produces: the
leaf `1/2` was lifted above the old root, and `3` became the new root. -/
def sampleThree : CoverTree ℚ ℚ :=
  ⟨13/10, Node.mk 3 [Node.mk (1/2) [Node.mk 0 [] 0 0 (1/2)] 1 0 0] 2 0 0, -1, 2⟩

/-- The tree with the points `0` and `1`, as `insert` builds it from the singleton `0`. -/
def sampleChild : CoverTree ℚ ℚ :=
  ⟨13/10, Node.mk 0 [Node.mk 1 [] (-1) 0 0] 0 0 1, -1, 0⟩

/-- The tree with root `0` and the two children `1` and `-1`, as `insert` builds it. -/
def sampleSiblings : CoverTree ℚ ℚ :=
  ⟨13/10, Node.mk 0 [Node.mk 1 [] (-1) 0 2, Node.mk (-1) [] (-1) 0 0] 0 0 1, -1, 0⟩

/-- The tree that `insert(3/2)` makes of the singleton `0` with the default base `1.3`: the
new root `3/2` at level `1` above the old root. -/
def sampleLifted : CoverTree ℚ ℚ :=
  ⟨13/10, Node.mk (3/2) [Node.mk 0 [] 0 0 0] 1 0 0, 1000, 1⟩

/-- The tree that the batch constructor builds from the points `1/2`, `3`, `0` with base
`1.3`: the chain `3`, `1/2`, `0` with the `maxdistUB` values `3`, `1/2`, `0`. -/
def sampleUpdated : CoverTree ℚ ℚ :=
  ⟨13/10, Node.mk 3 [Node.mk (1/2) [Node.mk 0 [] 0 0 (1/2)] 1 (1/2) 0] 2 3 0, -1, 2⟩

/-- The tree that `insert(0)` makes of the singleton `0`: the root `0` with the child `0`. -/
def sampleDuplicate : CoverTree ℚ ℚ :=
  ⟨13/10, Node.mk 0 [Node.mk 0 [] (-1) 0 0] 0 0 0, -1, 0⟩

/-- The tree that the batch constructor builds from the points `5/2`, `7/2`, `3`. -/
def sampleOther : CoverTree ℚ ℚ :=
  ⟨13/10, Node.mk 3 [Node.mk (5/2) [] (-1) 0 1, Node.mk (7/2) [] (-1) 0 0] 0 (1/2) (1/2), -1, 0⟩

/-- The tree that `sampleUpdated.merge(sampleOther)` leaves in the receiver. -/
def sampleMerged : CoverTree ℚ ℚ :=
  ⟨13/10, Node.mk 3 [Node.mk (1/2) [Node.mk 0 [] 0 0 (1/2)] 1 (1/2) 2,
    Node.mk (7/2) [Node.mk 3 [Node.mk (5/2) [] (-1) 0 0] 0 (1/2) (1/2)] 1 0 1] 2 3 0, -1, 2⟩

/-- The tree with the points `0`, `1`, `1/2` that `insert(1)` and `insert(1/2)` make of the
singleton `0`: the chain `0`, `1`, `1/2`, every `maxdistUB` still `0`. -/
def sampleStale : CoverTree ℚ ℚ :=
  ⟨13/10, Node.mk 0 [Node.mk 1 [Node.mk (1/2) [] (-2) 0 0] (-1) 0 (1/2)] 0 0 (1/2), -2, 0⟩

/-- The tree that `insert(6/5)` makes of the singleton `0`: the new root `6/5` at level `1`
above the old root. -/
def sampleReceiver : CoverTree ℚ ℚ :=
  ⟨13/10, Node.mk (6/5) [Node.mk 0 [] 0 0 0] 1 0 0, 1000, 1⟩

/-- The tree that `insert(3)` makes of the singleton `2`: the root `2` with the child `3`. -/
def sampleArgument : CoverTree ℚ ℚ :=
  ⟨13/10, Node.mk 2 [Node.mk 3 [] (-1) 0 0] 0 0 1, -1, 0⟩

/-- The chain of copies of the point `0` that repeated calls `insert(0)` hang below a node of
level `l`: `n` nodes, one per level. -/
def duplicateChain (l : Int) : Nat → List (Node ℚ ℚ)
  | 0 => []
  | n + 1 => [Node.mk 0 (duplicateChain (l - 1) n) (l - 1) 0 0]

/-- The tree that `n` calls `insert(0)` make of the singleton `0`: the root `0` at level `0`
above a chain of `n` copies, the lowest at level `-n`. -/
def sampleChain (n : Nat) : CoverTree ℚ ℚ :=
  ⟨13/10, Node.mk 0 (duplicateChain 0 n) 0 0 0, if n = 0 then 1000 else -(n : Int), 0⟩

/-- A batch of `50000` points on a line, all of them binary fractions that the type `float`
holds exactly: the even numbers from `0` to `49998`, then the multiples of `1/65536` from
`1/65536` to `25000/65536`. -/
def sampleBatch : List ℚ :=
  (0 :: (List.range 24999).map (fun (i : Nat) => 2 * ((i : ℚ) + 1))) ++
    (1/65536 :: (List.range 24999).map (fun (j : Nat) => ((j : ℚ) + 2) / 65536))

/-- The tree that `insert(-3/4)` makes of `sampleSiblings`: the new leaf below the second
child `-1`; the first child `1` was tested before it and carries its distance `7/4`. -/
def sampleDescended : CoverTree ℚ ℚ :=
  ⟨13/10, Node.mk 0 [Node.mk 1 [] (-1) 0 (7/4),
    Node.mk (-1) [Node.mk (-3/4) [] (-2) 0 0] (-1) 0 (1/4)] 0 0 (3/4), -2, 0⟩

/-- The tree that the batch constructor builds from the points `1`, `0` with base `1.3`: the
root `0` with the child `1` and `maxdistUB = 1`. -/
def sampleZeroRoot : CoverTree ℚ ℚ :=
  ⟨13/10, Node.mk 0 [Node.mk 1 [] (-1) 0 0] 0 1 1, -1, 0⟩

/-- The tree that `insert(1)` makes of the singleton `0` with base `2`: the root `0` with the
child `1`. -/
def sampleBaseTwo : CoverTree ℚ ℚ :=
  ⟨2, Node.mk 0 [Node.mk 1 [] (-1) 0 0] 0 0 1, -1, 0⟩

/-- The product of a scalar and a one-dimensional point. -/
def scale1 (a : ℚ) (x : ℚ) : ℚ :=
  a * x

/-- The metric on one-dimensional points: the norm of the difference is its absolute value. -/
def dist1 (a b : ℚ) : ℚ :=
  |a - b|

/-- The binary exponent of a positive number `x`: the integer `e` with `2 ^ e ≤ x < 2 ^ (e + 1)`,
found by at most `fuel` halvings or doublings. -/
def exponent2 : Nat → ℚ → Int
  | 0, _ => 0
  | fuel + 1, x =>
    if 2 ≤ x then exponent2 fuel (x / 2) + 1
    else if x < 1 then exponent2 fuel (2 * x) - 1
    else 0

/-- The integer nearest to `x`, and the even one of the two when `x` lies half way between two
integers: the rounding mode of IEEE 754 arithmetic. -/
def roundEven (x : ℚ) : Int :=
  if x - ⌊x⌋ < 1/2 then ⌊x⌋
  else if 1/2 < x - ⌊x⌋ then ⌊x⌋ + 1
  else if ⌊x⌋ % 2 = 0 then ⌊x⌋ else ⌊x⌋ + 1

/-- The value of type `float` (IEEE 754 binary32) nearest to `x`: the significand is rounded
to 24 bits, ties to even.  The exponent range is not modelled: every number is treated as
normal, which all numbers between `2 ^ (-126)` and `floatMax` are. -/
def roundFloat (x : ℚ) : ℚ :=
  if x = 0 then 0
  else
    let e := exponent2 300 |x| - 23
    (if x < 0 then -1 else 1) * (roundEven (|x| / 2 ^ e) : ℚ) * 2 ^ e

/-- The largest `n` below `2 ^ bits` with `(r + n) ^ 2 ≤ s`, added to `r` bit by bit from the
top: the integer square root of `s` when `r = 0` and `s < 4 ^ bits`. -/
def sqrtBits : Nat → Nat → Nat → Nat
  | 0, _, r => r
  | b + 1, s, r => if (r + 2 ^ b) ^ 2 ≤ s then sqrtBits b s (r + 2 ^ b) else sqrtBits b s r

/-- The function `std::sqrt` on `float`: the value of type `float` nearest to the square root
of `v` (IEEE 754 requires the square root to be correctly rounded).  With `e` the exponent of
the last bit of the result, the 24-bit significand is the integer nearest to the square root
of `s = v / 4 ^ e`; it is found from the integer square root `n` of `s` by comparing `s` with
`(n + 1/2) ^ 2`. -/
def sqrtFloat (v : ℚ) : ℚ :=
  if v ≤ 0 then 0
  else
    let e := exponent2 300 v / 2 - 23
    let s := v / 4 ^ e
    let n := sqrtBits 24 ⌊s⌋.toNat 0
    let m : Nat :=
      if s < ((n : ℚ) + 1/2) ^ 2 then n
      else if ((n : ℚ) + 1/2) ^ 2 < s then n + 1
      else if n % 2 = 0 then n else n + 1
    (m : ℚ) * 2 ^ e

/-- The metric of the source on one-dimensional points of scalar type `float`, as the machine
computes it: `(a - b).norm()` is the difference rounded to `float`, its square rounded to
`float`, and the square root of that rounded to `float`. -/
def distFloat (a b : ℚ) : ℚ :=
  sqrtFloat (roundFloat (roundFloat (a - b) * roundFloat (a - b)))

/-- The tree that the batch constructor builds from the points `-1/2`, `0`, `13 / 2 ^ 26` of
type `float` with base `1.3`: the chain `13 / 2 ^ 26`, `-1/2`, `0` with the `maxdistUB` values
`1/2 + 3 / 2 ^ 24`, `1/2`, `0`. -/
def sampleRounded : CoverTree ℚ ℚ :=
  ⟨13/10, Node.mk (13/67108864) [Node.mk (-1/2) [Node.mk 0 [] (-2) 0 0] (-1) (1/2) (1/2)] 0
    (8388611/16777216) (13/67108864), -2, 0⟩

/-- The tree that the batch constructor builds from the points `13 / 2 ^ 26`, `-1/2`, `0`, `1/4`
of type `float` with base `1.3`: the chain `1/4`, `13 / 2 ^ 26`, `-1/2`, `0` with the
`maxdistUB` values `3/4`, `1/2 + 3 / 2 ^ 24`, `1/2`, `0`. -/
def sampleRoundedFour : CoverTree ℚ ℚ :=
  ⟨13/10, Node.mk (1/4) [Node.mk (13/67108864) [Node.mk (-1/2) [Node.mk 0 [] (-3) 0 0] (-2)
    (1/2) (1/2)] (-1) (8388611/16777216) (13/67108864)] 0 (3/4) (1/4), -3, 0⟩

/-- A point of the plane with its id: the struct `item`, a `point` with the field `id`, for
vectors of dimension two. -/
structure item (α : Type) where
  x : α
  y : α
  id : Nat

/-- The value-initialised point of `new Node()`. -/
instance {α : Type} [Zero α] : Inhabited (item α) := ⟨⟨0, 0, 0⟩⟩

/-- The metric of the source on the plane, `(a - b).norm()`: the square root of the sum of the
squared coordinate differences.  `sqrt` is the square root of the scalar type. -/
def distL2 {α : Type} [LinearOrderedField α] (sqrt : α → α) (a b : item α) : α :=
  sqrt ((a.x - b.x) * (a.x - b.x) + (a.y - b.y) * (a.y - b.y))

/-- The value of `std::numeric_limits<float>::max()`. -/
def floatMax {α : Type} [LinearOrderedField α] : α :=
  340282346638528859811704183484516925440

/-- The batch of the two points `[0, 0]` with id `0` and `[1, 0]` with id `1`. -/
def twoPoints (α : Type) [LinearOrderedField α] : List (item α) :=
  [⟨0, 0, 0⟩, ⟨1, 0, 1⟩]

/-- The point of the integer lattice at position `(i, j)`, with the id `10 * i + j`. -/
def latticeAt {α : Type} [LinearOrderedField α] (i j : Nat) : item α :=
  ⟨(i : α), (j : α), 10 * i + j⟩

/-- The `100` points of the integer lattice with coordinates `0` to `9`, row by row. -/
def lattice (α : Type) [LinearOrderedField α] : List (item α) :=
  (List.range 100).map (fun n => latticeAt (n / 10) (n % 10))

/-! ## Basic facts -/

theorem bind_eq_ok {ε A B : Type} {x : Except ε A} {f : A → Except ε B} {b : B}
    (h : (x >>= f) = Except.ok b) : ∃ a, x = Except.ok a ∧ f a = Except.ok b := by
  cases x with
  | error e => simp [bind, Except.bind] at h
  | ok a => exact ⟨a, rfl, h⟩

namespace Node

section Plain

variable {P α : Type}

@[simp] theorem _p_mk (p : P) (cs : List (Node P α)) (l : Int) (u t : α) :
    (mk p cs l u t)._p = p := rfl

@[simp] theorem children_mk (p : P) (cs : List (Node P α)) (l : Int) (u t : α) :
    (mk p cs l u t).children = cs := rfl

@[simp] theorem level_mk (p : P) (cs : List (Node P α)) (l : Int) (u t : α) :
    (mk p cs l u t).level = l := rfl

@[simp] theorem maxdistUB_mk (p : P) (cs : List (Node P α)) (l : Int) (u t : α) :
    (mk p cs l u t).maxdistUB = u := rfl

@[simp] theorem tempDist_mk (p : P) (cs : List (Node P α)) (l : Int) (u t : α) :
    (mk p cs l u t).tempDist = t := rfl

theorem eta (n : Node P α) : mk n._p n.children n.level n.maxdistUB n.tempDist = n := by
  cases n; rfl

/-- Induction over trees: a property holds of every node if it holds of a node whenever it
holds of its children. -/
theorem induct {Q : Node P α → Prop}
    (h : ∀ p cs l u t, (∀ c ∈ cs, Q c) → Q (mk p cs l u t)) (n : Node P α) : Q n :=
  @Node.rec P α Q (fun cs => ∀ c ∈ cs, Q c) (fun p cs l u t ih => h p cs l u t ih)
    (fun c hc => by cases hc)
    (fun c cs ihc ihcs x hx => by
      rcases List.mem_cons.1 hx with rfl | hx
      · exact ihc
      · exact ihcs x hx) n

@[simp] theorem subtrees_mk (p : P) (cs : List (Node P α)) (l : Int) (u t : α) :
    (mk p cs l u t).subtrees = mk p cs l u t :: subtreesList cs := by
  rw [subtrees]

@[simp] theorem subtreesList_nil : subtreesList ([] : List (Node P α)) = [] := by
  rw [subtreesList]

@[simp] theorem subtreesList_cons (c : Node P α) (cs : List (Node P α)) :
    subtreesList (c :: cs) = subtrees c ++ subtreesList cs := by
  rw [subtreesList]

theorem subtrees_eq (n : Node P α) : n.subtrees = n :: subtreesList n.children := by
  cases n; simp

@[simp] theorem subtreesList_append (as bs : List (Node P α)) :
    subtreesList (as ++ bs) = subtreesList as ++ subtreesList bs := by
  induction as with
  | nil => simp
  | cons a as ih => simp [ih]

theorem mem_subtreesList {x : Node P α} {cs : List (Node P α)} :
    x ∈ subtreesList cs ↔ ∃ c ∈ cs, x ∈ c.subtrees := by
  induction cs with
  | nil => simp
  | cons c cs ih => simp [ih]

theorem self_mem_subtrees (n : Node P α) : n ∈ n.subtrees := by
  rw [subtrees_eq]; exact List.mem_cons_self _ _

theorem mem_subtrees {x n : Node P α} :
    x ∈ n.subtrees ↔ x = n ∨ ∃ c ∈ n.children, x ∈ c.subtrees := by
  rw [subtrees_eq, List.mem_cons, mem_subtreesList]

/-- A property of all nodes of a tree holds at the root and in every child's subtree. -/
theorem forall_subtrees {Q : Node P α → Prop} {n : Node P α} :
    (∀ x ∈ n.subtrees, Q x) ↔ Q n ∧ ∀ c ∈ n.children, ∀ x ∈ c.subtrees, Q x := by
  constructor
  · intro h
    exact ⟨h n (self_mem_subtrees n), fun c hc x hx => h x (mem_subtrees.2 (Or.inr ⟨c, hc, hx⟩))⟩
  · rintro ⟨h1, h2⟩ x hx
    rcases mem_subtrees.1 hx with rfl | ⟨c, hc, hx⟩
    · exact h1
    · exact h2 c hc x hx

@[simp] theorem height_mk (p : P) (cs : List (Node P α)) (l : Int) (u t : α) :
    (mk p cs l u t).height = 1 + heightList cs := by
  rw [height]

@[simp] theorem heightList_nil : heightList ([] : List (Node P α)) = 0 := by
  rw [heightList]

@[simp] theorem heightList_cons (c : Node P α) (cs : List (Node P α)) :
    heightList (c :: cs) = max (height c) (heightList cs) := by
  rw [heightList]

theorem height_eq (n : Node P α) : n.height = 1 + heightList n.children := by
  cases n; simp

theorem height_le_heightList {c : Node P α} {cs : List (Node P α)} (h : c ∈ cs) :
    c.height ≤ heightList cs := by
  induction cs with
  | nil => cases h
  | cons a as ih =>
    rcases List.mem_cons.1 h with rfl | h
    · simp
    · simp only [heightList_cons]; exact le_trans (ih h) (le_max_right _ _)

theorem height_child_lt {c n : Node P α} (h : c ∈ n.children) : c.height < n.height := by
  rw [height_eq n]; have := height_le_heightList h; omega

@[simp] theorem setTempDist_p (n : Node P α) (d : α) : (n.setTempDist d)._p = n._p := rfl
@[simp] theorem setTempDist_children (n : Node P α) (d : α) :
    (n.setTempDist d).children = n.children := rfl
@[simp] theorem setTempDist_level (n : Node P α) (d : α) : (n.setTempDist d).level = n.level := rfl
@[simp] theorem setTempDist_maxdistUB (n : Node P α) (d : α) :
    (n.setTempDist d).maxdistUB = n.maxdistUB := rfl
@[simp] theorem setTempDist_tempDist (n : Node P α) (d : α) : (n.setTempDist d).tempDist = d := rfl
@[simp] theorem setChildren_p (n : Node P α) (cs : List (Node P α)) :
    (n.setChildren cs)._p = n._p := rfl
@[simp] theorem setChildren_children (n : Node P α) (cs : List (Node P α)) :
    (n.setChildren cs).children = cs := rfl
@[simp] theorem setChildren_level (n : Node P α) (cs : List (Node P α)) :
    (n.setChildren cs).level = n.level := rfl
@[simp] theorem setChildren_maxdistUB (n : Node P α) (cs : List (Node P α)) :
    (n.setChildren cs).maxdistUB = n.maxdistUB := rfl
@[simp] theorem setChildren_tempDist (n : Node P α) (cs : List (Node P α)) :
    (n.setChildren cs).tempDist = n.tempDist := rfl
@[simp] theorem setLevel_p (n : Node P α) (l : Int) : (n.setLevel l)._p = n._p := rfl
@[simp] theorem setLevel_children (n : Node P α) (l : Int) :
    (n.setLevel l).children = n.children := rfl
@[simp] theorem setLevel_level (n : Node P α) (l : Int) : (n.setLevel l).level = l := rfl
@[simp] theorem setMaxdistUB_p (n : Node P α) (u : α) : (n.setMaxdistUB u)._p = n._p := rfl
@[simp] theorem setMaxdistUB_children (n : Node P α) (u : α) :
    (n.setMaxdistUB u).children = n.children := rfl
@[simp] theorem setMaxdistUB_level (n : Node P α) (u : α) :
    (n.setMaxdistUB u).level = n.level := rfl
@[simp] theorem setMaxdistUB_maxdistUB (n : Node P α) (u : α) :
    (n.setMaxdistUB u).maxdistUB = u := rfl
@[simp] theorem setMaxdistUB_tempDist (n : Node P α) (u : α) :
    (n.setMaxdistUB u).tempDist = n.tempDist := rfl

@[simp] theorem height_setTempDist (n : Node P α) (d : α) :
    (n.setTempDist d).height = n.height := by
  rw [height_eq, height_eq n]; rfl

theorem mpoints_eq (n : Node P α) : n.mpoints = n._p ::ₘ mpointsList n.children := by
  unfold mpoints mpointsList points
  rw [subtrees_eq]; rfl

@[simp] theorem mpointsList_nil : mpointsList ([] : List (Node P α)) = 0 := rfl

@[simp] theorem mpointsList_cons (c : Node P α) (cs : List (Node P α)) :
    mpointsList (c :: cs) = c.mpoints + mpointsList cs := by
  unfold mpoints mpointsList points
  simp

@[simp] theorem mpointsList_append (as bs : List (Node P α)) :
    mpointsList (as ++ bs) = mpointsList as + mpointsList bs := by
  unfold mpointsList
  simp

@[simp] theorem mpoints_setTempDist (n : Node P α) (d : α) :
    (n.setTempDist d).mpoints = n.mpoints := by
  rw [mpoints_eq, mpoints_eq n]; rfl

@[simp] theorem mpoints_setLevel (n : Node P α) (l : Int) :
    (n.setLevel l).mpoints = n.mpoints := by
  rw [mpoints_eq, mpoints_eq n]; rfl

@[simp] theorem mpoints_setMaxdistUB (n : Node P α) (u : α) :
    (n.setMaxdistUB u).mpoints = n.mpoints := by
  rw [mpoints_eq, mpoints_eq n]; rfl

theorem mpoints_setChildren (n : Node P α) (cs : List (Node P α)) :
    (n.setChildren cs).mpoints = n._p ::ₘ mpointsList cs := by
  rw [mpoints_eq]; rfl

end Plain

end Node

namespace Node

theorem covdist_eq {base : α} {n : Node P α} {v : α} (h : n.covdist base = .ok v) :
    v = base ^ n.level ∧ -1024 ≤ n.level ∧ n.level ≤ 1023 := by
  unfold covdist at h
  split at h
  · rename_i hr
    injection h with h
    refine ⟨?_, by omega, by omega⟩
    rw [← h, powdict]
    congr 1
    rw [Int.toNat_of_nonneg hr.1]; ring
  · cases h

theorem covdist_setTempDist (base : α) (n : Node P α) (d : α) :
    (n.setTempDist d).covdist base = n.covdist base := rfl

/-- What a completed run of the loop of the internal `insert` has done. -/
theorem insertLoop_spec {dist : P → P → α} {base : α} {p : P}
    {recurse : Int → Node P α → Except Fault (Node P α × Int)}
    (ms : Int) (cs : List (Node P α)) (r : List (Node P α) × Option Int)
    (h : insertLoop dist base p recurse ms cs = .ok r) :
    (r = (setTempDists dist p cs, none) ∧ ∀ x ∈ cs, base ^ x.level < dist x._p p) ∨
    ∃ pre c post c' ms', cs = pre ++ c :: post ∧
      r = (setTempDists dist p pre ++ c' :: post, some ms') ∧
      (∀ x ∈ pre, base ^ x.level < dist x._p p) ∧ dist c._p p ≤ base ^ c.level ∧
      recurse ms (c.setTempDist (dist c._p p)) = .ok (c', ms') := by
  induction cs generalizing r with
  | nil =>
    simp only [insertLoop, pure, Except.pure] at h
    injection h with h
    subst h
    left; simp [setTempDists]
  | cons c cs ih =>
    simp only [insertLoop] at h
    obtain ⟨cd, hcd, h⟩ := bind_eq_ok h
    rw [covdist_setTempDist] at hcd
    obtain ⟨hcd, -, -⟩ := covdist_eq hcd
    subst hcd
    split at h
    · rename_i hle
      obtain ⟨r1, hr1, h⟩ := bind_eq_ok h
      simp only [pure, Except.pure] at h
      injection h with h
      subst h
      right
      exact ⟨[], c, cs, r1.1, r1.2, rfl, by simp [setTempDists], by simp, by simpa using hle, hr1⟩
    · rename_i hle
      obtain ⟨r1, hr1, h⟩ := bind_eq_ok h
      simp only [pure, Except.pure] at h
      injection h with h
      subst h
      have hlt : base ^ c.level < dist c._p p := by simpa using hle
      rcases ih _ hr1 with ⟨h1, h2⟩ | ⟨pre, c0, post, c', ms', h1, h2, h3, h4, h5⟩
      · left
        refine ⟨?_, ?_⟩
        · rw [h1]; simp [setTempDists]
        · intro x hx
          rcases List.mem_cons.1 hx with rfl | hx
          · exact hlt
          · exact h2 x hx
      · right
        refine ⟨c :: pre, c0, post, c', ms', by simp [h1], ?_, ?_, h4, h5⟩
        · rw [h2]; simp [setTempDists]
        · intro x hx
          rcases List.mem_cons.1 hx with rfl | hx
          · exact hlt
          · exact h3 x hx

/-- A completed internal `insert` has the effect described by `Inserted`. -/
theorem insert_inserted {dist : P → P → α} {base : α} {debug : Bool} {junk : α} {p : P}
    (fuel : Nat) (ms : Int) (current : Node P α) (r : Node P α × Int)
    (h : insert dist base debug junk p fuel ms current = .ok r) :
    Inserted dist base junk p current r.1 := by
  induction fuel generalizing ms current r with
  | zero => simp [insert] at h
  | succ fuel ih =>
    simp only [insert] at h
    obtain ⟨u0, -, h⟩ := bind_eq_ok h
    obtain ⟨r1, hr1, h⟩ := bind_eq_ok h
    rcases insertLoop_spec _ _ _ hr1 with ⟨h1, h2⟩ | ⟨pre, c, post, c', ms', h1, h2, h3, h4, h5⟩
    · subst h1
      simp only at h
      have hr : r.1 = (current.setChildren (setTempDists dist p current.children)).setChild junk p := by
        split at h <;> (simp only [pure, Except.pure] at h; injection h with h; subst h; rfl)
      rw [hr]
      cases current with
      | mk q cs l u t => exact Inserted.leaf q cs l u t h2
    · subst h2
      simp only [pure, Except.pure] at h
      injection h with h
      subst h
      cases current with
      | mk q cs l u t =>
        simp only [children_mk] at h1
        subst h1
        exact Inserted.descend q pre c post l u t c' h3 h4 (ih _ _ _ h5)

end Node

end ofxCoverTree

namespace ofxCoverTree
namespace Node
variable {P α : Type} [LinearOrderedField α]

theorem keyInv_iff {Q : P → Int → List (P × Int) → Prop} {n : Node P α} :
    KeyInv Q n ↔ Q n._p n.level (n.children.map key) ∧ ∀ c ∈ n.children, KeyInv Q c := by
  unfold KeyInv
  exact forall_subtrees

theorem keyInv_setTempDist {Q : P → Int → List (P × Int) → Prop} {n : Node P α} {d : α} :
    KeyInv Q (n.setTempDist d) ↔ KeyInv Q n := by
  rw [keyInv_iff, keyInv_iff (n := n)]; rfl

@[simp] theorem key_setTempDist (n : Node P α) (d : α) : (n.setTempDist d).key = n.key := rfl

@[simp] theorem map_key_setTempDists (dist : P → P → α) (p : P) (cs : List (Node P α)) :
    (setTempDists dist p cs).map key = cs.map key := by
  simp [setTempDists, List.map_map, Function.comp_def]

theorem mem_setTempDists {dist : P → P → α} {p : P} {cs : List (Node P α)} {c : Node P α}
    (h : c ∈ setTempDists dist p cs) : ∃ x ∈ cs, c = x.setTempDist (dist x._p p) := by
  simp only [setTempDists, List.mem_map] at h
  obtain ⟨x, hx, rfl⟩ := h
  exact ⟨x, hx, rfl⟩

@[simp] theorem mpointsList_setTempDists (dist : P → P → α) (p : P) (cs : List (Node P α)) :
    mpointsList (setTempDists dist p cs) = mpointsList cs := by
  induction cs with
  | nil => rfl
  | cons c cs ih =>
    simp only [setTempDists, List.map_cons, mpointsList_cons, mpoints_setTempDist] at ih ⊢
    rw [ih]

theorem mpoints_mk (q : P) (cs : List (Node P α)) (l : Int) (u t : α) :
    (mk q cs l u t).mpoints = q ::ₘ mpointsList cs := mpoints_eq _

theorem inserted_key {dist : P → P → α} {base junk : α} {p : P} {cur r : Node P α}
    (h : Inserted dist base junk p cur r) : r.key = cur.key := by
  cases h <;> rfl

/-- The internal `insert` adds exactly the point `p` to the points of the subtree. -/
theorem inserted_mpoints {dist : P → P → α} {base junk : α} {p : P} {cur r : Node P α}
    (h : Inserted dist base junk p cur r) : r.mpoints = p ::ₘ cur.mpoints := by
  induction h with
  | leaf q cs l u t _ =>
    simp only [mpoints_mk, mpointsList_append, mpointsList_setTempDists, mpointsList_cons,
      mpointsList_nil]
    simp [Multiset.cons_swap, add_comm]
  | descend q pre c post l u t c' _ _ _ ih =>
    simp only [mpoints_mk, mpointsList_append, mpointsList_setTempDists, mpointsList_cons, ih,
      mpoints_setTempDist]
    rw [Multiset.cons_swap]
    congr 1
    simp

/-- Nesting and separation together, at one node. -/
theorem nestSep_append {dist : P → P → α} {base : α} (hsymm : ∀ x y, dist x y = dist y x)
    {p : P} {l : Int} {ks : List (P × Int)}
    (hn : ∀ k ∈ ks, k.2 = l - 1)
    (hs : ks.Pairwise (fun a b => base ^ (l - 1) < dist a.1 b.1 ∧ base ^ (l - 1) < dist b.1 a.1))
    (hfar : ∀ k ∈ ks, base ^ k.2 < dist k.1 p) :
    (∀ k ∈ ks ++ [(p, l - 1)], k.2 = l - 1) ∧
    (ks ++ [(p, l - 1)]).Pairwise
      (fun a b => base ^ (l - 1) < dist a.1 b.1 ∧ base ^ (l - 1) < dist b.1 a.1) := by
  constructor
  · intro k hk
    rcases List.mem_append.1 hk with hk | hk
    · exact hn k hk
    · simp at hk; subst hk; rfl
  · rw [List.pairwise_append]
    refine ⟨hs, List.pairwise_singleton _ _, ?_⟩
    intro a ha b hb
    simp at hb; subst hb
    have := hfar a ha
    rw [hn a ha] at this
    exact ⟨this, by rw [hsymm]; exact this⟩

end Node
end ofxCoverTree

namespace ofxCoverTree
namespace Node
variable {P α : Type} [LinearOrderedField α]

theorem peel_mk (p : P) (cs : List (Node P α)) (l : Int) (u t : α) :
    peel (mk p cs l u t) =
      match peelLast cs with
      | none => none
      | some r => some (mk p r.1 l u t, r.2) := by
  rw [peel]

theorem peelLast_nil : peelLast ([] : List (Node P α)) = none := by
  rw [peelLast]

theorem peelLast_cons (c : Node P α) (cs : List (Node P α)) :
    peelLast (c :: cs) =
      match peelLast cs with
      | some r => some (c :: r.1, r.2)
      | none =>
        match peel c with
        | some r => some ([r.1], r.2)
        | none => some ([], c) := by
  rw [peelLast]

theorem peelLast_eq_none {cs : List (Node P α)} (h : peelLast cs = none) : cs = [] := by
  cases cs with
  | nil => rfl
  | cons c cs =>
    rw [peelLast_cons] at h
    split at h
    · cases h
    · split at h <;> cases h

theorem peel_eq_none {n : Node P α} (h : peel n = none) : n.children = [] := by
  cases n with
  | mk p cs l u t =>
    rw [peel_mk] at h
    split at h
    · rename_i h2; exact peelLast_eq_none h2
    · cases h

theorem peel_of_leaf {n : Node P α} (h : n.children = []) : peel n = none := by
  cases n with
  | mk p cs l u t =>
    simp only [children_mk] at h
    subst h
    rw [peel_mk, peelLast_nil]

theorem peel_facts (Q : P → Int → List (P × Int) → Prop)
    (hQ : ∀ q l ks ks', ks'.Sublist ks → Q q l ks → Q q l ks') (n : Node P α) :
    ∀ r, peel n = some r → r.1.key = n.key ∧ r.2.children = [] ∧
      n.mpoints = r.2._p ::ₘ r.1.mpoints ∧ (KeyInv Q n → KeyInv Q r.1) := by
  induction n using Node.induct with
  | h p cs l u t ih =>
    have hL : ∀ r, peelLast cs = some r →
        (r.1.map key).Sublist (cs.map key) ∧ r.2.children = [] ∧
          mpointsList cs = r.2._p ::ₘ mpointsList r.1 ∧
          ((∀ c ∈ cs, KeyInv Q c) → ∀ c ∈ r.1, KeyInv Q c) := by
      clear l u t p
      induction cs with
      | nil => intro r hr; rw [peelLast_nil] at hr; cases hr
      | cons c cs ihcs =>
        intro r hr
        rw [peelLast_cons] at hr
        split at hr
        · rename_i r1 hr1
          injection hr with hr; subst hr
          obtain ⟨h1, h2, h3, h4⟩ := ihcs (fun x hx => ih x (List.mem_cons_of_mem _ hx)) r1 hr1
          refine ⟨?_, h2, ?_, ?_⟩
          · simpa using h1
          · simp only [mpointsList_cons, h3]; simp
          · intro hk x hx
            rcases List.mem_cons.1 hx with rfl | hx
            · exact hk _ (List.mem_cons_self _ _)
            · exact h4 (fun y hy => hk y (List.mem_cons_of_mem _ hy)) x hx
        · rename_i hnone
          have hcs := peelLast_eq_none hnone
          subst hcs
          split at hr
          · rename_i r1 hr1
            injection hr with hr; subst hr
            obtain ⟨h1, h2, h3, h4⟩ := ih c (List.mem_cons_self _ _) r1 hr1
            refine ⟨?_, h2, ?_, ?_⟩
            · simp [h1]
            · simp [h3]
            · intro hk x hx
              simp at hx; subst hx
              exact h4 (hk c (List.mem_cons_self _ _))
          · rename_i hnone2
            injection hr with hr; subst hr
            refine ⟨by simp, peel_eq_none hnone2, ?_, ?_⟩
            · simp only [mpointsList_cons, mpointsList_nil, add_zero]
              rw [mpoints_eq, peel_eq_none hnone2]; simp
            · intro _ x hx; cases hx
    intro r hr
    rw [peel_mk] at hr
    split at hr
    · cases hr
    · rename_i r1 hr1
      injection hr with hr; subst hr
      obtain ⟨h1, h2, h3, h4⟩ := hL r1 hr1
      refine ⟨rfl, h2, ?_, ?_⟩
      · simp only [mpoints_mk, h3]; exact Multiset.cons_swap _ _ _
      · intro hk
        rw [keyInv_iff] at hk ⊢
        exact ⟨hQ _ _ _ _ h1 hk.1, h4 hk.2⟩

theorem level_liftRoot (root : Node P α) : (liftRoot root).level = root.level + 1 := by
  unfold liftRoot
  split <;> rfl

theorem mpoints_liftRoot (root : Node P α) : (liftRoot root).mpoints = root.mpoints := by
  unfold liftRoot
  split
  · rename_i r hr
    obtain ⟨-, h2, h3, -⟩ := peel_facts (fun _ _ _ => True) (fun _ _ _ _ _ _ => trivial) root r hr
    rw [mpoints_setChildren, h2, h3]
    simp
  · simp

theorem stable_nestAt (dist : P → P → α) (base : α) : Stable dist base (NestAt (P := P)) where
  sublist := fun _ _ _ _ h hk k hk' => hk k (h.subset hk')
  nil := fun _ _ k hk => by cases hk
  single := fun _ _ _ h k' hk => by simp at hk; subst hk; exact h
  leaf := fun p _ l ks hk _ k hk' => by
    rcases List.mem_append.1 hk' with hk' | hk'
    · exact hk k hk'
    · simp at hk'; subst hk'; rfl

theorem stable_nestSepAt (dist : P → P → α) (base : α) (hsymm : ∀ x y, dist x y = dist y x) :
    Stable dist base (NestSepAt dist base) where
  sublist := fun _ _ _ _ h hk =>
    And.intro (fun k hk' => hk.1 k (h.subset hk')) (List.Pairwise.sublist h hk.2)
  nil := fun _ _ => And.intro (fun k hk => by cases hk) List.Pairwise.nil
  single := fun _ _ _ h =>
    And.intro (fun k' hk => by simp at hk; subst hk; exact h) (List.pairwise_singleton _ _)
  leaf := fun p _ l ks hk hfar => by
    have := nestSep_append hsymm (p := p) hk.1 hk.2 hfar
    exact And.intro this.1 this.2

theorem keyInv_liftRoot {dist : P → P → α} {base : α} {Q : P → Int → List (P × Int) → Prop}
    (hQ : Stable dist base Q) {root : Node P α}
    (h : KeyInv Q root) : KeyInv Q (liftRoot root) := by
  unfold liftRoot
  split
  · rename_i r hr
    obtain ⟨h1, h2, -, h4⟩ := peel_facts _ hQ.sublist root r hr
    rw [keyInv_iff]
    simp only [setChildren_p, setChildren_level, setChildren_children, setLevel_level,
      setLevel_children, h2, List.nil_append, List.map_cons, List.map_nil, List.mem_singleton,
      forall_eq]
    refine ⟨hQ.single _ _ _ ?_, h4 h⟩
    rw [h1]; simp [key]
  · rename_i hr
    rw [keyInv_iff]
    simp only [setLevel_children, peel_eq_none hr, List.map_nil]
    exact ⟨hQ.nil _ _, fun c hc => by cases hc⟩

theorem liftWhile_facts {dist : P → P → α} {base : α} {p : P}
    {Q : P → Int → List (P × Int) → Prop} (hQ : Stable dist base Q)
    (fuel : Nat) (root r : Node P α)
    (h : liftWhile dist base p fuel root = .ok r) :
    r.mpoints = root.mpoints ∧ (KeyInv Q root → KeyInv Q r) := by
  induction fuel generalizing root with
  | zero => simp [liftWhile] at h
  | succ fuel ih =>
    simp only [liftWhile] at h
    obtain ⟨cd, -, h⟩ := bind_eq_ok h
    split at h
    · obtain ⟨h1, h2⟩ := ih _ h
      exact ⟨by rw [h1, mpoints_liftRoot], fun hk => h2 (keyInv_liftRoot hQ hk)⟩
    · simp only [pure, Except.pure] at h
      injection h with h; subst h
      exact ⟨rfl, id⟩

/-- The internal `insert` keeps every stable invariant. -/
theorem inserted_keyInv {dist : P → P → α} {base junk : α} {p : P}
    {Q : P → Int → List (P × Int) → Prop} (hQ : Stable dist base Q) {cur r : Node P α}
    (h : Inserted dist base junk p cur r) (hk : KeyInv Q cur) : KeyInv Q r := by
  induction h with
  | leaf q cs l u t hfar =>
    rw [keyInv_iff] at hk ⊢
    simp only [_p_mk, level_mk, children_mk, List.map_append, map_key_setTempDists,
      List.map_cons, List.map_nil] at hk ⊢
    constructor
    · refine hQ.leaf p q l _ hk.1 ?_
      intro k hk'
      obtain ⟨x, hx, rfl⟩ := List.mem_map.1 hk'
      exact hfar x hx
    · intro c hc
      rcases List.mem_append.1 hc with hc | hc
      · obtain ⟨x, hx, rfl⟩ := mem_setTempDists hc
        exact keyInv_setTempDist.2 (hk.2 x hx)
      · simp at hc; subst hc
        rw [keyInv_iff]
        exact ⟨hQ.nil _ _, fun c hc => by cases hc⟩
  | descend q pre c post l u t c' _ _ hins ih =>
    rw [keyInv_iff] at hk ⊢
    simp only [_p_mk, level_mk, children_mk, List.map_append, map_key_setTempDists,
      List.map_cons, inserted_key hins, key_setTempDist] at hk ⊢
    refine ⟨hk.1, ?_⟩
    intro x hx
    rcases List.mem_append.1 hx with hx | hx
    · obtain ⟨y, hy, rfl⟩ := mem_setTempDists hx
      exact keyInv_setTempDist.2 (hk.2 y (List.mem_append_left _ hy))
    · rcases List.mem_cons.1 hx with rfl | hx
      · exact ih (keyInv_setTempDist.2 (hk.2 c (by simp)))
      · exact hk.2 x (by simp [hx])

end Node

namespace CoverTree
variable {P α : Type} [LinearOrderedField α]

/-- The public `insert` adds exactly `p` and keeps every stable invariant. -/
theorem insert_facts {dist : P → P → α} {debug : Bool} {junk : α} {t t' : CoverTree P α}
    {p : P} (h : t.insert dist debug junk p = .ok t') :
    t'.base = t.base ∧ t'.root.mpoints = p ::ₘ t.root.mpoints ∧
      ∀ Q, Node.Stable dist t.base Q → Node.KeyInv Q t.root → Node.KeyInv Q t'.root := by
  unfold insert at h
  obtain ⟨cd, -, h⟩ := bind_eq_ok h
  split at h
  · obtain ⟨root, hroot, h⟩ := bind_eq_ok h
    simp only [pure, Except.pure] at h
    injection h with h; subst h
    refine ⟨rfl, ?_, ?_⟩
    · have := (Node.liftWhile_facts (Q := fun _ _ _ => True)
        ⟨fun _ _ _ _ _ _ => trivial, fun _ _ => trivial, fun _ _ _ _ => trivial,
          fun _ _ _ _ _ _ => trivial⟩ _ _ _ hroot).1
      simp [Node.mpoints_mk, this]
    · intro Q hQ hk
      have := (Node.liftWhile_facts hQ _ _ _ hroot).2 hk
      rw [Node.keyInv_iff]
      simp only [Node._p_mk, Node.level_mk, Node.children_mk, List.map_cons, List.map_nil,
        List.mem_singleton, forall_eq]
      exact ⟨hQ.single _ _ _ (by simp [Node.key]), this⟩
  · obtain ⟨r, hr, h⟩ := bind_eq_ok h
    simp only [pure, Except.pure] at h
    injection h with h; subst h
    have hi := Node.insert_inserted _ _ _ _ hr
    refine ⟨rfl, ?_, ?_⟩
    · simp [Node.inserted_mpoints hi]
    · intro Q hQ hk
      exact Node.inserted_keyInv hQ hi (Node.keyInv_setTempDist.2 hk)

theorem foldlM_insert_facts {dist : P → P → α} {debug : Bool} {junk : α} (ps : List P)
    (t t' : CoverTree P α) (h : ps.foldlM (insert dist debug junk) t = .ok t') :
    t'.base = t.base ∧ t'.root.mpoints = (ps : Multiset P) + t.root.mpoints ∧
      ∀ Q, Node.Stable dist t.base Q → Node.KeyInv Q t.root → Node.KeyInv Q t'.root := by
  induction ps generalizing t with
  | nil =>
    simp only [List.foldlM, pure, Except.pure] at h
    injection h with h; subst h
    exact ⟨rfl, by simp, fun _ _ hk => hk⟩
  | cons p ps ih =>
    simp only [List.foldlM] at h
    obtain ⟨t1, ht1, h⟩ := bind_eq_ok h
    obtain ⟨h1, h2, h3⟩ := insert_facts ht1
    obtain ⟨g1, g2, g3⟩ := ih _ h
    refine ⟨by rw [g1, h1], ?_, ?_⟩
    · rw [g2, h2, ← Multiset.cons_coe, Multiset.add_cons, Multiset.cons_add]
    · intro Q hQ hk
      exact g3 Q (by rw [h1]; exact hQ) (h3 Q hQ hk)

end CoverTree

namespace Node
variable {P α : Type} [LinearOrderedField α]

end Node
end ofxCoverTree

namespace ofxCoverTree
namespace Node
variable {P α : Type} [LinearOrderedField α]

theorem eraseUB_mk (p : P) (cs : List (Node P α)) (l : Int) (u t : α) :
    eraseUB (mk p cs l u t) = mk p (eraseUBList cs) l 0 t := by
  rw [eraseUB]

theorem eraseUBList_eq_map (cs : List (Node P α)) : eraseUBList cs = cs.map eraseUB := by
  induction cs with
  | nil => rw [eraseUBList]; rfl
  | cons c cs ih => rw [eraseUBList, ih]; rfl

theorem eraseUB_eq (n : Node P α) :
    eraseUB n = mk n._p (n.children.map eraseUB) n.level 0 n.tempDist := by
  cases n; rw [eraseUB_mk, eraseUBList_eq_map]; rfl

theorem eraseUB_setMaxdistUB (n : Node P α) (u : α) : eraseUB (n.setMaxdistUB u) = eraseUB n := by
  rw [eraseUB_eq, eraseUB_eq n]; rfl

theorem map_set_of_eq {A B : Type} (g : A → B) (cs : List A) (i : Nat) (c x : A)
    (hc : cs[i]? = some c) (hx : g x = g c) : (cs.set i x).map g = cs.map g := by
  induction cs generalizing i with
  | nil => simp
  | cons a as ih =>
    cases i with
    | zero => simp at hc; subst hc; simp [hx]
    | succ i => simp at hc; simp [ih i (by simpa using hc)]

theorem eraseUB_modifyAt (f : Node P α → Node P α) (hf : ∀ m, eraseUB (f m) = eraseUB m)
    (n : Node P α) (path : Path) : eraseUB (modifyAt f n path) = eraseUB n := by
  induction path generalizing n with
  | nil => simp [modifyAt, hf]
  | cons i rest ih =>
    simp only [modifyAt]
    split
    · rename_i c hc
      rw [eraseUB_eq, eraseUB_eq n]
      simp only [setChildren_p, setChildren_children, setChildren_level, setChildren_tempDist]
      rw [map_set_of_eq eraseUB _ _ c _ hc (ih c)]
    · rfl

theorem subtrees_eraseUB (n : Node P α) : (eraseUB n).subtrees = n.subtrees.map eraseUB := by
  induction n using Node.induct with
  | h p cs l u t ih =>
    rw [eraseUB_mk, subtrees_mk, subtrees_mk, List.map_cons, eraseUB_mk, eraseUBList_eq_map]
    congr 1
    clear l u t p
    induction cs with
    | nil => rfl
    | cons c cs ihcs =>
      simp only [List.map_cons, subtreesList_cons, List.map_append]
      rw [ih c (List.mem_cons_self _ _), ihcs (fun x hx => ih x (List.mem_cons_of_mem _ hx))]

theorem mpoints_eraseUB (n : Node P α) : (eraseUB n).mpoints = n.mpoints := by
  unfold mpoints points
  rw [subtrees_eraseUB, List.map_map]
  congr 2
  funext x
  cases x; simp [eraseUB_mk]

theorem keyInv_eraseUB {Q : P → Int → List (P × Int) → Prop} (n : Node P α) :
    KeyInv Q (eraseUB n) ↔ KeyInv Q n := by
  unfold KeyInv
  rw [subtrees_eraseUB]
  simp only [List.mem_map, forall_exists_index, and_imp, forall_apply_eq_imp_iff₂]
  have hx : ∀ x : Node P α, (Q (eraseUB x)._p (eraseUB x).level ((eraseUB x).children.map key)
      ↔ Q x._p x.level (x.children.map key)) := by
    intro x
    rw [eraseUB_eq]
    simp only [_p_mk, level_mk, children_mk, List.map_map]
    have : (key ∘ eraseUB : Node P α → P × Int) = key := by
      funext y; cases y; simp [eraseUB_mk, key]
    rw [this]
  constructor
  · intro h x hx'; exact (hx x).1 (h x hx')
  · intro h x hx'; exact (hx x).2 (h x hx')

theorem descend_erase (fuel : Nat) (s : CalcState P α) (cur : Path)
    (r : CalcState P α × Path) (h : descend fuel s cur = .ok r) :
    eraseUB r.1.root = eraseUB s.root := by
  induction fuel generalizing s cur with
  | zero => simp [descend] at h
  | succ fuel ih =>
    simp only [descend] at h
    split at h
    · cases h
    · split at h
      · rw [ih _ _ h]
        apply eraseUB_modifyAt
        intro m
        rw [eraseUB_eq, eraseUB_eq m]
        simp [resetChildren, List.map_map, Function.comp_def, eraseUB_setMaxdistUB]
      · injection h with h; subst h; rfl

theorem updateActive_erase (dist : P → P → α) (cur : Path) (act : List Path)
    (root r : Node P α) (h : updateActive dist cur act root = .ok r) :
    eraseUB r = eraseUB root := by
  induction act generalizing root with
  | nil => simp only [updateActive] at h; injection h with h; subst h; rfl
  | cons n rest ih =>
    simp only [updateActive] at h
    split at h
    · rw [ih _ h]
      exact eraseUB_modifyAt _ (fun m => eraseUB_setMaxdistUB m _) _ _
    · cases h

theorem visit_erase (s : CalcState P α) (cur : Path) (n : Node P α)
    (r : CalcState P α × Path) (h : visit s cur n = .ok r) :
    eraseUB r.1.root = eraseUB s.root := by
  unfold visit at h
  split at h
  · exact descend_erase _ _ _ _ h
  · split at h
    · cases h
    · injection h with h; subst h; rfl

theorem calcStep_erase (dist : P → P → α) (s : CalcState P α) (cur : Path) (n : Node P α)
    (s' : CalcState P α) (h : calcStep dist s cur n = .ok s') :
    eraseUB s'.root = eraseUB s.root := by
  unfold calcStep at h
  obtain ⟨r1, hr1, h⟩ := bind_eq_ok h
  obtain ⟨root, hroot, h⟩ := bind_eq_ok h
  simp only [pure, Except.pure] at h
  injection h with h; subst h
  simp only
  rw [updateActive_erase _ _ _ _ _ hroot, visit_erase _ _ _ _ hr1]

theorem calcLoop_erase (dist : P → P → α) (fuel : Nat) (s : CalcState P α) (r : Node P α)
    (h : calcLoop dist fuel s = .ok r) : eraseUB r = eraseUB s.root := by
  induction fuel generalizing s with
  | zero => simp [calcLoop] at h
  | succ fuel ih =>
    simp only [calcLoop] at h
    split at h
    · injection h with h; subst h; rfl
    · split at h
      · cases h
      · obtain ⟨s1, hs1, h⟩ := bind_eq_ok h
        rw [ih _ h, calcStep_erase _ _ _ _ _ hs1]

/-- `calc_maxdist` writes nothing but `maxdistUB` fields. -/
theorem calc_maxdist_erase (dist : P → P → α) (fuel : Nat) (root r : Node P α)
    (h : calc_maxdist dist fuel root = .ok r) : eraseUB r = eraseUB root := by
  unfold calc_maxdist at h
  rw [calcLoop_erase _ _ _ _ h]
  exact eraseUB_setMaxdistUB _ _

end Node
end ofxCoverTree

namespace ofxCoverTree
namespace Node
variable {P α : Type} [LinearOrderedField α]

theorem nesting_iff_keyInv (t : Node P α) : Nesting t ↔ KeyInv NestAt t := by
  unfold Nesting KeyInv NestAt
  simp [key]

theorem separation_of_keyInv {dist : P → P → α} {base : α} {t : Node P α}
    (h : KeyInv (NestSepAt dist base) t) : Separation dist base t := by
  intro n hn
  have := (h n hn).2
  unfold SepAt at this
  rw [List.pairwise_map] at this
  exact this

theorem keyInv_leaf {Q : P → Int → List (P × Int) → Prop} (hQ : ∀ q l, Q q l [])
    (p : P) (l : Int) (u t : α) : KeyInv Q (mk p [] l u t) := by
  rw [keyInv_iff]
  exact ⟨hQ _ _, fun c hc => by cases hc⟩

theorem keyInv_of_erase {Q : P → Int → List (P × Int) → Prop} {a b : Node P α}
    (h : eraseUB a = eraseUB b) (hk : KeyInv Q b) : KeyInv Q a := by
  rw [← keyInv_eraseUB, h, keyInv_eraseUB]; exact hk

theorem mpoints_of_erase {a b : Node P α} (h : eraseUB a = eraseUB b) :
    a.mpoints = b.mpoints := by
  rw [← mpoints_eraseUB a, h, mpoints_eraseUB]

end Node

namespace CoverTree
variable {P α : Type} [LinearOrderedField α]

theorem calc_maxdist_facts {dist : P → P → α} {fuel : Nat} {t t' : CoverTree P α}
    (h : t.calc_maxdist dist fuel = .ok t') :
    t'.base = t.base ∧ Node.eraseUB t'.root = Node.eraseUB t.root := by
  unfold calc_maxdist at h
  obtain ⟨r, hr, h⟩ := bind_eq_ok h
  simp only [pure, Except.pure] at h
  injection h with h; subst h
  exact ⟨rfl, Node.calc_maxdist_erase _ _ _ _ hr⟩

theorem ofList_facts {dist : P → P → α} {debug : Bool} {junk : α} {fuel : Nat}
    {pList : List P} {base : α} {t : CoverTree P α}
    (h : ofList dist debug junk fuel pList base = .ok t) :
    t.base = base ∧ t.root.mpoints = (pList : Multiset P) ∧
      ∀ Q, Node.Stable dist base Q → Node.KeyInv Q t.root := by
  unfold ofList at h
  split at h
  · cases h
  · rename_i temp htemp
    obtain ⟨t1, ht1, h⟩ := bind_eq_ok h
    obtain ⟨h1, h2, h3⟩ := foldlM_insert_facts _ _ _ ht1
    obtain ⟨g1, g2⟩ := calc_maxdist_facts h
    refine ⟨by rw [g1, h1]; rfl, ?_, ?_⟩
    · rw [Node.mpoints_of_erase g2, h2]
      have hp : pList = pList.dropLast ++ [temp] := by
        have := List.dropLast_append_getLast? temp htemp
        exact this.symm
      conv_rhs => rw [hp]
      simp [ofPoint, Node.mpoints_mk, ← Multiset.coe_add]
    · intro Q hQ
      exact Node.keyInv_of_erase g2 (h3 Q hQ (Node.keyInv_leaf hQ.nil _ _ _ _))

theorem foldlM_keyInv {dist : P → P → α} {debug : Bool} {junk : α} {B : Type}
    (g : B → Option P) (bs : List B) (t t' : CoverTree P α)
    (h : bs.foldlM (fun t i =>
          match g i with
          | none => Except.error Fault.vectorRange
          | some p => insert dist debug junk t p) t = .ok t') :
    t'.base = t.base ∧
      ∀ Q, Node.Stable dist t.base Q → Node.KeyInv Q t.root → Node.KeyInv Q t'.root := by
  induction bs generalizing t with
  | nil =>
    simp only [List.foldlM, pure, Except.pure] at h
    injection h with h; subst h
    exact ⟨rfl, fun _ _ hk => hk⟩
  | cons b bs ih =>
    simp only [List.foldlM] at h
    obtain ⟨t1, ht1, h⟩ := bind_eq_ok h
    split at ht1
    · cases ht1
    · obtain ⟨h1, -, h3⟩ := insert_facts ht1
      obtain ⟨g1, g3⟩ := ih _ h
      exact ⟨by rw [g1, h1], fun Q hQ hk => g3 Q (by rw [h1]; exact hQ) (h3 Q hQ hk)⟩

theorem ofRange_facts {dist : P → P → α} {debug : Bool} {junk : α} {fuel : Nat}
    {pList : List P} {b e : Int} {base : α} {t : CoverTree P α}
    (h : ofRange dist debug junk fuel pList b e base = .ok t) :
    t.base = base ∧ ∀ Q, Node.Stable dist base Q → Node.KeyInv Q t.root := by
  unfold ofRange at h
  split at h
  · cases h
  · split at h
    · cases h
    · obtain ⟨t1, ht1, h⟩ := bind_eq_ok h
      obtain ⟨h1, h3⟩ := foldlM_keyInv (fun i : Int => pList[i.toNat]?) _ _ _ ht1
      obtain ⟨g1, g2⟩ := calc_maxdist_facts h
      refine ⟨by rw [g1, h1]; rfl, fun Q hQ => ?_⟩
      exact Node.keyInv_of_erase g2 (h3 Q hQ (Node.keyInv_leaf hQ.nil _ _ _ _))

/-- Every stable invariant holds in every tree obtained from a constructor followed by public
`insert` calls. -/
theorem built_keyInv {dist : P → P → α} {debug : Bool} {t : CoverTree P α}
    (h : Built dist debug t) :
    ∀ Q, Node.Stable dist t.base Q → Node.KeyInv Q t.root := by
  induction h with
  | ofPoint junk p base => intro Q hQ; exact Node.keyInv_leaf hQ.nil _ _ _ _
  | ofList junk fuel pList base t h =>
    obtain ⟨h1, -, h3⟩ := ofList_facts h
    intro Q hQ; exact h3 Q (by rw [← h1]; exact hQ)
  | ofRange junk fuel pList b e base t h =>
    obtain ⟨h1, h3⟩ := ofRange_facts h
    intro Q hQ; exact h3 Q (by rw [← h1]; exact hQ)
  | insert junk t p t' _ h ih =>
    obtain ⟨h1, -, h3⟩ := insert_facts h
    intro Q hQ
    exact h3 Q (by rw [← h1]; exact hQ) (ih Q (by rw [← h1]; exact hQ))

/-- C5 (nesting): in every tree obtained from a constructor followed by public `insert`
calls, every child's level is its parent's level minus one. -/
theorem nesting_of_built (dist : P → P → α) (debug : Bool) (t : CoverTree P α)
    (h : Built dist debug t) : t.root.Nesting :=
  (Node.nesting_iff_keyInv _).2 (built_keyInv h _ (Node.stable_nestAt dist t.base))

/-- The tree `sampleThree` is obtained by two inserts from a singleton, and it is nested. -/
theorem nesting_of_built_witness :
    Built dist1 true sampleThree ∧ sampleThree.root.Nesting :=
  have hb : Built dist1 true sampleThree :=
    Built.insert 0 sampleTwo 3 sampleThree
      (Built.insert 0 (ofPoint 0 0 (13/10)) (1/2) sampleTwo (Built.ofPoint 0 0 (13/10))
        (by decide!)) (by decide!)
  ⟨hb, nesting_of_built dist1 true sampleThree hb⟩

/-- C7 (separation): in every tree obtained from a constructor followed by public `insert`
calls, two distinct children of a node at level `l` are more than `base ^ (l - 1)` apart. -/
theorem separation_of_built (dist : P → P → α) (hsymm : ∀ x y, dist x y = dist y x)
    (debug : Bool) (t : CoverTree P α) (h : Built dist debug t) :
    t.root.Separation dist t.base :=
  Node.separation_of_keyInv (built_keyInv h _ (Node.stable_nestSepAt dist t.base hsymm))

end CoverTree
end ofxCoverTree

namespace ofxCoverTree

theorem dist1_comm (x y : ℚ) : dist1 x y = dist1 y x := abs_sub_comm x y

theorem dist1_triangle (x y z : ℚ) : dist1 x z ≤ dist1 x y + dist1 y z := abs_sub_le x y z

theorem dist1_nonneg (x y : ℚ) : 0 ≤ dist1 x y := abs_nonneg _

namespace CoverTree
variable {P α : Type} [LinearOrderedField α]

/-- The tree `sampleSiblings` is obtained by two inserts from a singleton; its two children
`1` and `-1` are more than `(13/10) ^ (-1)` apart. -/
theorem separation_of_built_witness :
    Built dist1 true sampleSiblings ∧ sampleSiblings.root.Separation dist1 (13/10) :=
  have hb : Built dist1 true sampleSiblings :=
    Built.insert 0 sampleChild (-1) sampleSiblings
      (Built.insert 0 (ofPoint 0 0 (13/10)) 1 sampleChild (Built.ofPoint 0 0 (13/10))
        (by decide!)) (by decide!)
  ⟨hb, separation_of_built dist1 dist1_comm true sampleSiblings hb⟩

/-- C6 (covering) fails with the default base: `CoverTree(0, 1.3)` followed by `insert(3/2)`
is a tree whose root `3/2`, at level `1`, lies at distance `3/2 > 1.3 ^ 1` from its child. -/
theorem covering_fails_default_base :
    (ofPoint 0 0 (13/10) : CoverTree ℚ ℚ).insert dist1 true 0 (3/2) = .ok sampleLifted ∧
      Built dist1 true sampleLifted ∧
      ¬ sampleLifted.root.Covering dist1 sampleLifted.base := by
  have h : (ofPoint 0 0 (13/10) : CoverTree ℚ ℚ).insert dist1 true 0 (3/2) = .ok sampleLifted := by
    decide!
  refine ⟨h, Built.insert 0 _ _ _ (Built.ofPoint 0 0 (13/10)) h, ?_⟩
  intro hc
  have := hc sampleLifted.root (Node.self_mem_subtrees _) (Node.mk 0 [] 0 0 0) (by
    simp [sampleLifted])
  simp only [sampleLifted, dist1, Node._p_mk, Node.level_mk] at this
  rw [abs_of_nonneg (by norm_num)] at this
  norm_num at this

end CoverTree

namespace Node
variable {P α : Type} [LinearOrderedField α]

theorem checkInput_ne_fuel (dist : P → P → α) (base : α) (debug : Bool) (current : Node P α)
    (p : P) : checkInput dist base debug current p ≠ .error .fuel := by
  unfold checkInput covdist
  intro h
  split at h
  · split at h
    · rename_i heq
      split at h
      · cases h
      · cases h
    · rename_i e heq
      split at heq
      · cases heq
      · injection heq with heq; subst heq; cases h
  · cases h

theorem covdist_ne_fuel (base : α) (n : Node P α) : n.covdist base ≠ .error .fuel := by
  unfold covdist
  split
  · intro h; cases h
  · intro h; cases h

theorem bind_ne_fuel {A B : Type} {x : Except Fault A} {f : A → Except Fault B}
    (hx : x ≠ .error .fuel) (hf : ∀ a, x = .ok a → f a ≠ .error .fuel) :
    (x >>= f) ≠ .error .fuel := by
  cases x with
  | error e => intro h; exact hx (by simpa [bind, Except.bind] using h)
  | ok a => exact hf a rfl

theorem insertLoop_ne_fuel {dist : P → P → α} {base : α} {p : P}
    {recurse : Int → Node P α → Except Fault (Node P α × Int)} (ms : Int)
    (cs : List (Node P α))
    (hrec : ∀ c ∈ cs, ∀ d, recurse ms (c.setTempDist d) ≠ .error .fuel) :
    insertLoop dist base p recurse ms cs ≠ .error .fuel := by
  induction cs with
  | nil => simp [insertLoop, pure, Except.pure]
  | cons c cs ih =>
    simp only [insertLoop]
    refine bind_ne_fuel (covdist_ne_fuel _ _) (fun cd _ => ?_)
    split
    · refine bind_ne_fuel (hrec c (List.mem_cons_self _ _) _) (fun r _ => ?_)
      simp [pure, Except.pure]
    · refine bind_ne_fuel (ih (fun x hx => hrec x (List.mem_cons_of_mem _ hx))) (fun r _ => ?_)
      simp [pure, Except.pure]

/-- The height of the subtree is a sufficient budget for the internal `insert`. -/
theorem internal_insert_ne_fuel {dist : P → P → α} {base : α} {debug : Bool} {junk : α} {p : P}
    (fuel : Nat) (ms : Int) (current : Node P α) (hf : current.height ≤ fuel) :
    insert dist base debug junk p fuel ms current ≠ .error .fuel := by
  induction fuel generalizing ms current with
  | zero => rw [height_eq] at hf; omega
  | succ fuel ih =>
    simp only [insert]
    refine bind_ne_fuel (checkInput_ne_fuel _ _ _ _ _) (fun _ _ => ?_)
    refine bind_ne_fuel (insertLoop_ne_fuel _ _ (fun c hc d => ih _ _ ?_)) (fun r _ => ?_)
    · have := height_child_lt hc
      rw [height_setTempDist]; omega
    · split
      · simp [pure, Except.pure]
      · split <;> simp [pure, Except.pure]

/-- The lifting loop of the public `insert` faults on the table before a budget that exceeds
the remaining table entries runs out. -/
theorem liftWhile_ne_fuel {dist : P → P → α} {base : α} {p : P} (fuel : Nat) (root : Node P α)
    (hf : 1025 ≤ root.level + fuel) (h1 : 1 ≤ fuel) :
    liftWhile dist base p fuel root ≠ .error .fuel := by
  induction fuel generalizing root with
  | zero => omega
  | succ fuel ih =>
    simp only [liftWhile]
    refine bind_ne_fuel (covdist_ne_fuel _ _) (fun cd hcd => ?_)
    obtain ⟨-, -, hl⟩ := covdist_eq hcd
    split
    · apply ih
      · rw [level_liftRoot]; push_cast at hf ⊢; omega
      · push_cast at hf; omega
    · simp [pure, Except.pure]

end Node

namespace CoverTree
variable {P α : Type} [LinearOrderedField α]

/-- The budgets built into the model of the public `insert` are sufficient: the call returns
or ends in a fault of the program. -/
theorem insert_ne_fuel {dist : P → P → α} {debug : Bool} {junk : α} (t : CoverTree P α)
    (p : P) : t.insert dist debug junk p ≠ .error .fuel := by
  unfold insert
  refine Node.bind_ne_fuel (Node.covdist_ne_fuel _ _) (fun cd hcd => ?_)
  obtain ⟨-, hl, -⟩ := Node.covdist_eq hcd
  split
  · refine Node.bind_ne_fuel (Node.liftWhile_ne_fuel _ _ (by omega) (by omega)) (fun r _ => ?_)
    simp [pure, Except.pure]
  · refine Node.bind_ne_fuel (Node.internal_insert_ne_fuel _ _ _ (le_refl _)) (fun r _ => ?_)
    simp [pure, Except.pure]

/-- C4 (coverage): the public `insert(p)` returns or ends in a fault of the program (the
budgets of the model never stop it); when it returns, the tree stores exactly the points
stored before plus `p`, as a multiset, whether the root was lifted or the tree was descended;
and a tree built by the batch constructor stores exactly the points of the batch. -/
theorem coverage (dist : P → P → α) (debug : Bool) (junk : α) :
    (∀ (t : CoverTree P α) (p : P), t.insert dist debug junk p ≠ .error .fuel) ∧
    (∀ (t t' : CoverTree P α) (p : P), t.insert dist debug junk p = .ok t' →
      (t'.points : Multiset P) = p ::ₘ (t.points : Multiset P)) ∧
    (∀ (fuel : Nat) (pList : List P) (base : α) (t : CoverTree P α),
      ofList dist debug junk fuel pList base = .ok t →
        (t.points : Multiset P) = (pList : Multiset P)) :=
  ⟨fun t p => insert_ne_fuel t p, fun _ _ _ h => (insert_facts h).2.1,
    fun _ _ _ _ h => (ofList_facts h).2.1⟩

/-- Inserting `3` into the tree with points `0` and `1/2` lifts the leaf `1/2` to the root and
stores `3`, `1/2`, `0`. -/
theorem coverage_witness :
    sampleTwo.insert dist1 true 0 3 = .ok sampleThree ∧
      (sampleThree.points : Multiset ℚ) = 3 ::ₘ (sampleTwo.points : Multiset ℚ) :=
  ⟨by decide!, (coverage dist1 true 0).2.1 sampleTwo sampleThree 3 (by decide!)⟩

end CoverTree
end ofxCoverTree

namespace ofxCoverTree
namespace Node
variable {P α : Type} [LinearOrderedField α]

theorem mem_mpointsList {y : P} {cs : List (Node P α)} :
    y ∈ mpointsList cs ↔ ∃ c ∈ cs, y ∈ c.mpoints := by
  induction cs with
  | nil => simp
  | cons c cs ih => simp [ih]

theorem mem_mpoints {y : P} {n : Node P α} :
    y ∈ n.mpoints ↔ y = n._p ∨ ∃ c ∈ n.children, y ∈ c.mpoints := by
  rw [mpoints_eq, Multiset.mem_cons, mem_mpointsList]

theorem mem_mpoints_iff {y : P} {n : Node P α} : y ∈ n.mpoints ↔ y ∈ n.points := by
  unfold mpoints; simp

theorem sortChildren_perm (cs : List (Node P α)) : (sortChildren cs).Perm cs :=
  List.perm_insertionSort _ cs

theorem mem_queryChildren {dist : P → P → α} {q : P} {cs : List (Node P α)} {c : Node P α}
    (h : c ∈ sortChildren (setTempDists dist q cs)) :
    ∃ x ∈ cs, c = x.setTempDist (dist x._p q) :=
  mem_setTempDists ((sortChildren_perm _).subset h)

theorem mpointsList_perm {as bs : List (Node P α)} (h : as.Perm bs) :
    mpointsList as = mpointsList bs := by
  induction h with
  | nil => rfl
  | cons x _ ih => simp [ih]
  | swap x y l => simp only [mpointsList_cons]; rw [← add_assoc, ← add_assoc, add_comm y.mpoints]
  | trans _ _ ih1 ih2 => rw [ih1, ih2]

theorem mpointsList_queryChildren (dist : P → P → α) (q : P) (cs : List (Node P α)) :
    mpointsList (sortChildren (setTempDists dist q cs)) = mpointsList cs := by
  rw [mpointsList_perm (sortChildren_perm _), mpointsList_setTempDists]

theorem soundUB_iff {dist : P → P → α} {n : Node P α} :
    SoundUB dist n ↔ (0 ≤ n.maxdistUB ∧ ∀ y ∈ mpointsList n.children, dist n._p y ≤ n.maxdistUB) ∧
      ∀ c ∈ n.children, SoundUB dist c := by
  unfold SoundUB
  rw [forall_subtrees]
  unfold descendants mpointsList
  simp

theorem soundUB_setTempDist {dist : P → P → α} {n : Node P α} {d : α} :
    SoundUB dist (n.setTempDist d) ↔ SoundUB dist n := by
  rw [soundUB_iff, soundUB_iff (n := n)]; rfl

/-- Every point of a subtree with sound `maxdistUB` is at least `tempDist - maxdistUB` away from
the query. -/
theorem prune_bound {dist : P → P → α} (htri : ∀ x y z, dist x z ≤ dist x y + dist y z)
    {q : P} {c : Node P α} (hs : SoundUB dist c) (htd : c.tempDist = dist c._p q)
    {y : P} (hy : y ∈ c.mpoints) : c.tempDist - c.maxdistUB ≤ dist y q := by
  have hs' := (soundUB_iff.1 hs).1
  rw [mpoints_eq, Multiset.mem_cons] at hy
  rcases hy with rfl | hy
  · rw [htd]; linarith [hs'.1]
  · have h1 := hs'.2 y hy
    have h2 := htri c._p y q
    rw [htd]; linarith

/-- The pruning loop of `nearestNeighbor` keeps a best node that is at least as near as the
one it started from and as every point below the children it was given. -/
theorem nearestLoop_spec {dist : P → P → α} (htri : ∀ x y z, dist x z ≤ dist x y + dist y z)
    {q : P} (recurse : Node P α → Node P α → Node P α × Node P α) (cs : List (Node P α))
    (hcs : ∀ c ∈ cs, SoundUB dist c ∧ c.tempDist = dist c._p q)
    (hrec : ∀ c ∈ cs, ∀ nn : Node P α, nn.tempDist = dist nn._p q →
      (recurse c nn).2.tempDist = dist (recurse c nn).2._p q ∧
      (recurse c nn).2.tempDist ≤ nn.tempDist ∧
      ((recurse c nn).2 = nn ∨ (recurse c nn).2._p ∈ c.mpoints) ∧
      ∀ y ∈ c.mpoints, (recurse c nn).2.tempDist ≤ dist y q)
    (nn : Node P α) (hnn : nn.tempDist = dist nn._p q) :
    (nearestLoop recurse cs nn).2.tempDist = dist (nearestLoop recurse cs nn).2._p q ∧
      (nearestLoop recurse cs nn).2.tempDist ≤ nn.tempDist ∧
      ((nearestLoop recurse cs nn).2 = nn ∨ (nearestLoop recurse cs nn).2._p ∈ mpointsList cs) ∧
      ∀ y ∈ mpointsList cs, (nearestLoop recurse cs nn).2.tempDist ≤ dist y q := by
  induction cs generalizing nn with
  | nil => simp [nearestLoop, hnn]
  | cons c cs ih =>
    have ih' := fun nn hnn => ih (fun x hx => hcs x (List.mem_cons_of_mem _ hx))
      (fun x hx => hrec x (List.mem_cons_of_mem _ hx)) nn hnn
    simp only [nearestLoop]
    split
    · obtain ⟨h1, h2, h3, h4⟩ := hrec c (List.mem_cons_self _ _) nn hnn
      obtain ⟨g1, g2, g3, g4⟩ := ih' _ h1
      refine ⟨g1, le_trans g2 h2, ?_, ?_⟩
      · rcases g3 with g3 | g3
        · rw [g3]
          rcases h3 with h3 | h3
          · left; exact h3
          · right; simp [h3]
        · right; simp [g3]
      · intro y hy
        simp only [mpointsList_cons, Multiset.mem_add] at hy
        rcases hy with hy | hy
        · exact le_trans g2 (h4 y hy)
        · exact g4 y hy
    · rename_i hprune
      obtain ⟨g1, g2, g3, g4⟩ := ih' nn hnn
      refine ⟨g1, g2, ?_, ?_⟩
      · rcases g3 with g3 | g3
        · left; exact g3
        · right; simp [g3]
      · intro y hy
        simp only [mpointsList_cons, Multiset.mem_add] at hy
        rcases hy with hy | hy
        · have hc := hcs c (List.mem_cons_self _ _)
          have := prune_bound htri hc.1 hc.2 hy
          have hp : nn.tempDist ≤ c.tempDist - c.maxdistUB := not_lt.1 hprune
          linarith
        · exact g4 y hy

/-- The helper `nearestNeighbor`, on a subtree with sound `maxdistUB` whose root carries its
distance to the query, returns a best node that is at least as near as every point of the
subtree and as the best node it was given. -/
theorem nearestNeighbor_spec {dist : P → P → α}
    (htri : ∀ x y z, dist x z ≤ dist x y + dist y z) {q : P} (fuel : Nat)
    (current : Node P α) (hf : current.height ≤ fuel) (hs : SoundUB dist current)
    (htd : current.tempDist = dist current._p q)
    (nn : Node P α) (hnn : nn.tempDist = dist nn._p q) :
    (nearestNeighbor dist q fuel current nn).2.tempDist =
        dist (nearestNeighbor dist q fuel current nn).2._p q ∧
      (nearestNeighbor dist q fuel current nn).2.tempDist ≤ nn.tempDist ∧
      ((nearestNeighbor dist q fuel current nn).2 = nn ∨
        (nearestNeighbor dist q fuel current nn).2._p ∈ current.mpoints) ∧
      ∀ y ∈ current.mpoints, (nearestNeighbor dist q fuel current nn).2.tempDist ≤ dist y q := by
  induction fuel generalizing current nn with
  | zero => rw [height_eq] at hf; omega
  | succ fuel ih =>
    simp only [nearestNeighbor]
    have hnn1 : (if current.tempDist < nn.tempDist then current else nn).tempDist =
        dist (if current.tempDist < nn.tempDist then current else nn)._p q := by
      split
      · exact htd
      · exact hnn
    have hle1 : (if current.tempDist < nn.tempDist then current else nn).tempDist ≤ nn.tempDist := by
      split
      · rename_i h; exact le_of_lt h
      · exact le_refl _
    have hle2 : (if current.tempDist < nn.tempDist then current else nn).tempDist ≤
        current.tempDist := by
      split
      · exact le_refl _
      · rename_i h; exact not_lt.1 h
    have hor : (if current.tempDist < nn.tempDist then current else nn) = nn ∨
        (if current.tempDist < nn.tempDist then current else nn)._p = current._p := by
      split
      · right; rfl
      · left; rfl
    have hloop := nearestLoop_spec htri (nearestNeighbor dist q fuel)
      (sortChildren (setTempDists dist q current.children))
      (by
        intro c hc
        obtain ⟨x, hx, rfl⟩ := mem_queryChildren hc
        exact ⟨soundUB_setTempDist.2 ((soundUB_iff.1 hs).2 x hx), rfl⟩)
      (by
        intro c hc nn' hnn'
        obtain ⟨x, hx, rfl⟩ := mem_queryChildren hc
        apply ih
        · have := height_child_lt hx
          rw [height_setTempDist]; omega
        · exact soundUB_setTempDist.2 ((soundUB_iff.1 hs).2 x hx)
        · rfl
        · exact hnn')
      _ hnn1
    rw [mpointsList_queryChildren] at hloop
    obtain ⟨g1, g2, g3, g4⟩ := hloop
    refine ⟨g1, le_trans g2 hle1, ?_, ?_⟩
    · rcases g3 with g3 | g3
      · rw [g3]
        rcases hor with hor | hor
        · left; exact hor
        · right; rw [hor, mpoints_eq]; exact Multiset.mem_cons_self _ _
      · right; rw [mpoints_eq]; exact Multiset.mem_cons_of_mem g3
    · intro y hy
      rw [mpoints_eq, Multiset.mem_cons] at hy
      rcases hy with rfl | hy
      · rw [← htd]; exact le_trans g2 hle2
      · exact g4 y hy

end Node

namespace CoverTree
variable {P α : Type} [LinearOrderedField α]

/-- On a tree whose `maxdistUB` fields are sound, `nearestNeighbor(q)` returns a stored point
that no stored point is nearer to `q` than. -/
theorem nearestNeighbor_min (dist : P → P → α)
    (htri : ∀ x y z, dist x z ≤ dist x y + dist y z) (t : CoverTree P α)
    (hs : t.root.SoundUB dist) (q : P) :
    (t.nearestNeighbor dist q).1 ∈ t.points ∧
      ∀ y ∈ t.points, dist (t.nearestNeighbor dist q).1 q ≤ dist y q := by
  have h := Node.nearestNeighbor_spec htri (q := q) (t.root.setTempDist (dist t.root._p q)).height
    (t.root.setTempDist (dist t.root._p q)) (le_refl _) (Node.soundUB_setTempDist.2 hs) rfl
    (t.root.setTempDist (dist t.root._p q)) rfl
  obtain ⟨h1, -, h3, h4⟩ := h
  simp only [Node.mpoints_setTempDist] at h3 h4
  unfold nearestNeighbor points
  simp only
  constructor
  · rcases h3 with h3 | h3
    · rw [h3]
      rw [← Node.mem_mpoints_iff, Node.mpoints_eq]
      exact Multiset.mem_cons_self _ _
    · exact Node.mem_mpoints_iff.1 h3
  · intro y hy
    rw [← h1]
    exact h4 y (Node.mem_mpoints_iff.2 hy)

/-- C1 (agreement with brute force): on a tree whose `maxdistUB` fields are sound, for a
metric with the triangle inequality, `nearestNeighbor(q)` returns a stored point that is at
least as near to `q` as every stored point. -/
theorem nearestNeighbor_correct (dist : P → P → α)
    (htri : ∀ x y z, dist x z ≤ dist x y + dist y z) (t : CoverTree P α)
    (hs : t.root.SoundUB dist) (q : P) :
    (t.nearestNeighbor dist q).1 ∈ t.points ∧
      ∀ y ∈ t.points, dist (t.nearestNeighbor dist q).1 q ≤ dist y q :=
  nearestNeighbor_min dist htri t hs q

end CoverTree
end ofxCoverTree

namespace ofxCoverTree
namespace CoverTree

theorem sampleUpdated_built :
    ofList dist1 true 0 10 [1/2, 3, 0] (13/10) = .ok sampleUpdated := by decide!

theorem sampleUpdated_sound : sampleUpdated.root.SoundUB dist1 := by
  unfold Node.SoundUB
  decide!

/-- On the tree built from `1/2`, `3`, `0`, the nearest neighbour of `1/4` is a stored point
at least as near as every stored point. -/
theorem nearestNeighbor_correct_witness :
    sampleUpdated.root.SoundUB dist1 ∧
      ((sampleUpdated.nearestNeighbor dist1 (1/4)).1 ∈ sampleUpdated.points ∧
        ∀ y ∈ sampleUpdated.points,
          dist1 (sampleUpdated.nearestNeighbor dist1 (1/4)).1 (1/4) ≤ dist1 y (1/4)) :=
  ⟨sampleUpdated_sound,
    nearestNeighbor_correct dist1 dist1_triangle sampleUpdated sampleUpdated_sound (1/4)⟩

end CoverTree
end ofxCoverTree

namespace ofxCoverTree
namespace Node
variable {P α : Type} [LinearOrderedField α]

/-- The pruning loop of `rangeNeighbors` appends, for the children it is given, exactly the
points in range. -/
theorem rangeLoop_spec {dist : P → P → α} (htri : ∀ x y z, dist x z ≤ dist x y + dist y z)
    {q : P} (range : α)
    (recurse : Node P α → List (Node P α) → Node P α × List (Node P α)) (cs : List (Node P α))
    (hcs : ∀ c ∈ cs, SoundUB dist c ∧ c.tempDist = dist c._p q)
    (hrec : ∀ c ∈ cs, ∀ nnList : List (Node P α), ∃ L : List (Node P α),
      (recurse c nnList).2 = nnList ++ L ∧
      ((L.map _p : List P) : Multiset P) = c.mpoints.filter (fun y => dist y q < range))
    (nnList : List (Node P α)) :
    ∃ L : List (Node P α), (rangeLoop range recurse cs nnList).2 = nnList ++ L ∧
      ((L.map _p : List P) : Multiset P) = (mpointsList cs).filter (fun y => dist y q < range) := by
  induction cs generalizing nnList with
  | nil => exact ⟨[], by simp [rangeLoop], by simp⟩
  | cons c cs ih =>
    have ih' := fun nnList => ih (fun x hx => hcs x (List.mem_cons_of_mem _ hx))
      (fun x hx => hrec x (List.mem_cons_of_mem _ hx)) nnList
    simp only [rangeLoop]
    split
    · obtain ⟨L1, h1, h2⟩ := hrec c (List.mem_cons_self _ _) nnList
      obtain ⟨L2, g1, g2⟩ := ih' (recurse c nnList).2
      refine ⟨L1 ++ L2, ?_, ?_⟩
      · rw [g1, h1, List.append_assoc]
      · simp only [List.map_append, mpointsList_cons, Multiset.filter_add, ← h2, ← g2,
          Multiset.coe_add]
    · rename_i hprune
      obtain ⟨L2, g1, g2⟩ := ih' nnList
      refine ⟨L2, g1, ?_⟩
      have hc := hcs c (List.mem_cons_self _ _)
      have hz : c.mpoints.filter (fun y => dist y q < range) = 0 := by
        rw [Multiset.filter_eq_nil]
        intro y hy
        have := prune_bound htri hc.1 hc.2 hy
        have hp : range ≤ c.tempDist - c.maxdistUB := not_lt.1 hprune
        exact not_lt.2 (le_trans hp this)
      simp only [mpointsList_cons, Multiset.filter_add, hz, zero_add, g2]

/-- The helper `rangeNeighbors` appends to the list exactly the points of the subtree that are
in range. -/
theorem rangeNeighbors_spec {dist : P → P → α}
    (htri : ∀ x y z, dist x z ≤ dist x y + dist y z) {q : P} (range : α) (fuel : Nat)
    (current : Node P α) (hf : current.height ≤ fuel) (hs : SoundUB dist current)
    (htd : current.tempDist = dist current._p q) (nnList : List (Node P α)) :
    ∃ L : List (Node P α), (rangeNeighbors dist q range fuel current nnList).2 = nnList ++ L ∧
      ((L.map _p : List P) : Multiset P) =
        current.mpoints.filter (fun y => dist y q < range) := by
  induction fuel generalizing current nnList with
  | zero => rw [height_eq] at hf; omega
  | succ fuel ih =>
    simp only [rangeNeighbors]
    have hloop := fun nnList => rangeLoop_spec htri range
      (rangeNeighbors dist q range fuel)
      (sortChildren (setTempDists dist q current.children))
      (by
        intro c hc
        obtain ⟨x, hx, rfl⟩ := mem_queryChildren hc
        exact ⟨soundUB_setTempDist.2 ((soundUB_iff.1 hs).2 x hx), rfl⟩)
      (by
        intro c hc nnList'
        obtain ⟨x, hx, rfl⟩ := mem_queryChildren hc
        have := ih (x.setTempDist (dist x._p q)) (by
            have := height_child_lt hx
            rw [height_setTempDist]; omega)
          (soundUB_setTempDist.2 ((soundUB_iff.1 hs).2 x hx)) rfl nnList'
        simpa using this)
      nnList
    simp only [mpointsList_queryChildren] at hloop
    rw [mpoints_eq, Multiset.filter_cons]
    split
    · rename_i hin
      obtain ⟨L, h1, h2⟩ := hloop (nnList ++ [current])
      refine ⟨current :: L, by simp [h1], ?_⟩
      rw [htd] at hin
      simp only [List.map_cons, if_pos hin, ← h2]
      rfl
    · rename_i hin
      obtain ⟨L, h1, h2⟩ := hloop nnList
      refine ⟨L, h1, ?_⟩
      rw [htd] at hin
      simp only [if_neg hin, ← h2, zero_add]

end Node

namespace CoverTree
variable {P α : Type} [LinearOrderedField α]

/-- On a tree whose `maxdistUB` fields are sound, `rangeNeighbors(q, r)` returns, as a
multiset, the stored points at distance less than `r` from `q`. -/
theorem rangeNeighbors_filter (dist : P → P → α)
    (htri : ∀ x y z, dist x z ≤ dist x y + dist y z) (t : CoverTree P α)
    (hs : t.root.SoundUB dist) (q : P) (r : α) :
    ((t.rangeNeighbors dist q r).1 : Multiset P) =
      (t.points : Multiset P).filter (fun y => dist y q < r) := by
  obtain ⟨L, h1, h2⟩ := Node.rangeNeighbors_spec htri (q := q) r
    (t.root.setTempDist (dist t.root._p q)).height
    (t.root.setTempDist (dist t.root._p q)) (le_refl _) (Node.soundUB_setTempDist.2 hs) rfl []
  unfold rangeNeighbors points
  simp only [h1, List.nil_append, h2, Node.mpoints_setTempDist]
  rfl

/-- C3 (range query, for a metric with the triangle inequality): on a tree whose `maxdistUB`
fields are sound, when `dist` satisfies the triangle inequality, `rangeNeighbors(q, r)`
returns, as a multiset, exactly the stored points whose distance to `q` is less than `r`: each
of them once, and no point at distance `r` or more. -/
theorem rangeNeighbors_correct (dist : P → P → α)
    (htri : ∀ x y z, dist x z ≤ dist x y + dist y z) (t : CoverTree P α)
    (hs : t.root.SoundUB dist) (q : P) (r : α) :
    ((t.rangeNeighbors dist q r).1 : Multiset P) =
      (t.points : Multiset P).filter (fun y => dist y q < r) :=
  rangeNeighbors_filter dist htri t hs q r

/-- On the tree built from `1/2`, `3`, `0`, the points within `1` of `1/4` are returned. -/
theorem rangeNeighbors_correct_witness :
    sampleUpdated.root.SoundUB dist1 ∧
      ((sampleUpdated.rangeNeighbors dist1 (1/4) 1).1 : Multiset ℚ) =
        (sampleUpdated.points : Multiset ℚ).filter (fun y => dist1 y (1/4) < 1) :=
  ⟨sampleUpdated_sound,
    rangeNeighbors_correct dist1 dist1_triangle sampleUpdated sampleUpdated_sound (1/4) 1⟩

end CoverTree
end ofxCoverTree

namespace ofxCoverTree
namespace Node
variable {P α : Type} [LinearOrderedField α]

theorem insertUpper_perm (x : Node P α) (l : List (Node P α)) :
    (insertUpper x l).Perm (x :: l) := by
  induction l with
  | nil => simp [insertUpper]
  | cons e es ih =>
    simp only [insertUpper]
    split
    · exact List.Perm.refl _
    · exact (List.Perm.cons e ih).trans (List.Perm.swap x e es)

theorem insertUpper_ascending (x : Node P α) (l : List (Node P α)) (h : Ascending l) :
    Ascending (insertUpper x l) := by
  unfold Ascending at h ⊢
  induction l with
  | nil => simp [insertUpper]
  | cons e es ih =>
    simp only [insertUpper]
    rw [List.pairwise_cons] at h
    split
    · rename_i hlt
      refine List.Pairwise.cons ?_ (List.Pairwise.cons h.1 h.2)
      intro a ha
      rcases List.mem_cons.1 ha with rfl | ha
      · exact le_of_lt hlt
      · exact le_trans (le_of_lt hlt) (h.1 a ha)
    · rename_i hlt
      refine List.Pairwise.cons ?_ (ih h.2)
      intro a ha
      rcases List.mem_cons.1 ((insertUpper_perm x es).subset ha) with rfl | ha
      · exact not_lt.1 hlt
      · exact h.1 a ha

theorem ascending_le_last {l : List (Node P α)} {b : Node P α} (h : Ascending l)
    (hb : l.getLast? = some b) : ∀ a ∈ l, a.tempDist ≤ b.tempDist := by
  have hl := List.dropLast_append_getLast? b hb
  intro a ha
  rw [← hl] at ha h
  unfold Ascending at h
  rw [List.pairwise_append] at h
  rcases List.mem_append.1 ha with ha | ha
  · exact h.2.2 a ha b (List.mem_singleton_self _)
  · simp at ha; subst ha; exact le_refl _

theorem entries_cons (x : Node P α) (l : List (Node P α)) :
    entries (x :: l) = entry x ::ₘ entries l := rfl

theorem entries_append (l1 l2 : List (Node P α)) :
    entries (l1 ++ l2) = entries l1 + entries l2 := by
  unfold entries; simp

theorem entries_perm {l1 l2 : List (Node P α)} (h : l1.Perm l2) : entries l1 = entries l2 := by
  unfold entries
  exact Quot.sound (h.map _)

theorem mem_entries {x : α × P} {l : List (Node P α)} :
    x ∈ entries l ↔ ∃ a ∈ l, entry a = x := by
  unfold entries; simp

/-- The first step of the helper `nearNeighbors`: the visited node enters the list when it
beats the last entry, which is then dropped. -/
theorem enter_spec {current back : Node P α} {l : List (Node P α)} (hl : Ascending l)
    (hb : l.getLast? = some back) :
    Ascending (if current.tempDist < back.tempDist then (insertUpper current l).dropLast else l) ∧
    (if current.tempDist < back.tempDist then (insertUpper current l).dropLast else l).length
      = l.length ∧
    (∃ R : Multiset (α × P), entries l + {entry current} =
        entries (if current.tempDist < back.tempDist then (insertUpper current l).dropLast
          else l) + R ∧
      ∀ x ∈ R, ∀ a ∈ (if current.tempDist < back.tempDist then (insertUpper current l).dropLast
          else l), a.tempDist ≤ x.1) ∧
    (∀ v, (∀ a ∈ l, a.tempDist ≤ v) →
      ∀ a ∈ (if current.tempDist < back.tempDist then (insertUpper current l).dropLast else l),
        a.tempDist ≤ v) := by
  split
  · rename_i hlt
    have hperm := insertUpper_perm current l
    have hasc := insertUpper_ascending current l hl
    have hne : insertUpper current l ≠ [] := by
      intro h
      have := hperm.length_eq
      rw [h] at this
      simp at this
    obtain ⟨m, hm⟩ : ∃ m, (insertUpper current l).getLast? = some m := by
      cases h : (insertUpper current l).getLast? with
      | none => exact absurd (List.getLast?_eq_none_iff.1 h) hne
      | some m => exact ⟨m, rfl⟩
    have hsplit := List.dropLast_append_getLast? m hm
    refine ⟨?_, ?_, ⟨{entry m}, ?_, ?_⟩, ?_⟩
    · unfold Ascending at hasc ⊢
      rw [← hsplit, List.pairwise_append] at hasc
      exact hasc.1
    · rw [List.length_dropLast, hperm.length_eq]; simp
    · have := entries_perm hperm
      rw [← hsplit, entries_append] at this
      have h1 : entries [m] = {entry m} := rfl
      rw [h1] at this
      rw [this, add_comm, Multiset.singleton_add]
      rfl
    · intro x hx a ha
      simp only [Multiset.mem_singleton] at hx
      subst hx
      exact ascending_le_last hasc hm a (List.mem_of_mem_dropLast ha)
    · intro v hv a ha
      rcases List.mem_cons.1 (hperm.subset (List.mem_of_mem_dropLast ha)) with rfl | ha
      · have hbl : back ∈ l := by
          rw [← List.dropLast_append_getLast? back hb]; simp
        exact le_trans (le_of_lt hlt) (hv back hbl)
      · exact hv a ha
  · rename_i hlt
    refine ⟨hl, rfl, ⟨{entry current}, rfl, ?_⟩, fun v hv => hv⟩
    intro x hx a ha
    simp only [Multiset.mem_singleton] at hx
    subst hx
    exact le_trans (ascending_le_last hl hb a ha) (not_lt.1 hlt)

end Node
end ofxCoverTree

namespace ofxCoverTree
namespace Node
variable {P α : Type} [LinearOrderedField α]

theorem nearSpec_skip {cand : Multiset (α × P)} {l : List (Node P α)} (hl : Ascending l)
    (h : ∀ x ∈ cand, ∀ a ∈ l, a.tempDist ≤ x.1) : NearSpec cand l l :=
  ⟨hl, rfl, ⟨cand, rfl, h⟩, fun _ hv => hv⟩

theorem nearSpec_trans {c1 c2 : Multiset (α × P)} {l l1 l2 : List (Node P α)}
    (h1 : NearSpec c1 l l1) (h2 : NearSpec c2 l1 l2) : NearSpec (c1 + c2) l l2 := by
  obtain ⟨-, a2, ⟨R1, a3, a4⟩, a5⟩ := h1
  obtain ⟨b1, b2, ⟨R2, b3, b4⟩, b5⟩ := h2
  refine ⟨b1, by rw [b2, a2], ⟨R1 + R2, ?_, ?_⟩, fun v hv => b5 v (a5 v hv)⟩
  · rw [← add_assoc, a3, add_assoc, add_comm R1, ← add_assoc, b3, add_assoc, add_comm R2]
  · intro x hx a ha
    rcases Multiset.mem_add.1 hx with hx | hx
    · exact b5 x.1 (a4 x hx) a ha
    · exact b4 x hx a ha

theorem nearSpec_nonempty {cand : Multiset (α × P)} {l l' : List (Node P α)}
    (h : NearSpec cand l l') (hl : l ≠ []) : l' ≠ [] := by
  intro h'
  have := h.2.1
  rw [h'] at this
  exact hl (List.length_eq_zero.1 this.symm)

theorem candidates_eq (dist : P → P → α) (q : P) (n : Node P α) :
    candidates dist q n = (dist n._p q, n._p) ::ₘ candidatesList dist q n.children := by
  unfold candidates candidatesList
  rw [mpoints_eq, Multiset.map_cons]

theorem candidatesList_cons (dist : P → P → α) (q : P) (c : Node P α) (cs : List (Node P α)) :
    candidatesList dist q (c :: cs) = candidates dist q c + candidatesList dist q cs := by
  unfold candidates candidatesList
  rw [mpointsList_cons, Multiset.map_add]

theorem candidates_setTempDist (dist : P → P → α) (q : P) (n : Node P α) (d : α) :
    candidates dist q (n.setTempDist d) = candidates dist q n := by
  unfold candidates; rw [mpoints_setTempDist]

/-- The pruning loop of the helper `nearNeighbors`. -/
theorem nearLoop_spec {dist : P → P → α} (htri : ∀ x y z, dist x z ≤ dist x y + dist y z)
    {q : P} (recurse : Node P α → List (Node P α) → Node P α × List (Node P α))
    (cs : List (Node P α))
    (hcs : ∀ c ∈ cs, SoundUB dist c ∧ c.tempDist = dist c._p q)
    (hrec : ∀ c ∈ cs, ∀ l : List (Node P α), l ≠ [] → Ascending l →
      NearSpec (candidates dist q c) l (recurse c l).2)
    (l : List (Node P α)) (hne : l ≠ []) (hl : Ascending l) :
    NearSpec (candidatesList dist q cs) l (nearLoop recurse cs l).2 := by
  induction cs generalizing l with
  | nil =>
    simp only [nearLoop]
    exact nearSpec_skip hl (fun x hx => by simp [candidatesList] at hx)
  | cons c cs ih =>
    have ih' := fun l hne hl => ih (fun x hx => hcs x (List.mem_cons_of_mem _ hx))
      (fun x hx => hrec x (List.mem_cons_of_mem _ hx)) l hne hl
    simp only [nearLoop]
    rw [candidatesList_cons]
    split
    · rename_i hnone
      exact absurd (List.getLast?_eq_none_iff.1 hnone) hne
    · rename_i back hb
      split
      · have h1 := hrec c (List.mem_cons_self _ _) l hne hl
        exact nearSpec_trans h1 (ih' _ (nearSpec_nonempty h1 hne) h1.1)
      · rename_i hprune
        have hc := hcs c (List.mem_cons_self _ _)
        refine nearSpec_trans (nearSpec_skip hl ?_) (ih' l hne hl)
        intro x hx a ha
        unfold candidates at hx
        obtain ⟨y, hy, rfl⟩ := Multiset.mem_map.1 hx
        have h1 := prune_bound htri hc.1 hc.2 hy
        have h2 : back.tempDist ≤ c.tempDist - c.maxdistUB := not_lt.1 hprune
        have h3 := ascending_le_last hl hb a ha
        simp only
        linarith

/-- The helper `nearNeighbors` keeps the list ascending and of the same length, and accounts
for every point of the subtree: it is in the list, or no nearer than any entry. -/
theorem nearNeighbors_spec {dist : P → P → α}
    (htri : ∀ x y z, dist x z ≤ dist x y + dist y z) {q : P} (fuel : Nat)
    (current : Node P α) (hf : current.height ≤ fuel) (hs : SoundUB dist current)
    (htd : current.tempDist = dist current._p q)
    (l : List (Node P α)) (hne : l ≠ []) (hl : Ascending l) :
    NearSpec (candidates dist q current) l (nearNeighbors dist q fuel current l).2 := by
  induction fuel generalizing current l with
  | zero => rw [height_eq] at hf; omega
  | succ fuel ih =>
    simp only [nearNeighbors]
    split
    · rename_i hnone
      exact absurd (List.getLast?_eq_none_iff.1 hnone) hne
    · rename_i back hb
      have h1 : NearSpec {entry current} l
          (if current.tempDist < back.tempDist then (insertUpper current l).dropLast else l) :=
        enter_spec hl hb
      have h2 := nearLoop_spec htri (nearNeighbors dist q fuel)
        (sortChildren (setTempDists dist q current.children))
        (by
          intro c hc
          obtain ⟨x, hx, rfl⟩ := mem_queryChildren hc
          exact ⟨soundUB_setTempDist.2 ((soundUB_iff.1 hs).2 x hx), rfl⟩)
        (by
          intro c hc l' hne' hl'
          obtain ⟨x, hx, rfl⟩ := mem_queryChildren hc
          apply ih
          · have := height_child_lt hx
            rw [height_setTempDist]; omega
          · exact soundUB_setTempDist.2 ((soundUB_iff.1 hs).2 x hx)
          · rfl
          · exact hne'
          · exact hl')
        _ (nearSpec_nonempty h1 hne) h1.1
      have h3 := nearSpec_trans h1 h2
      have hc : candidates dist q current = {entry current} +
          candidatesList dist q (sortChildren (setTempDists dist q current.children)) := by
        rw [candidates_eq, Multiset.singleton_add]
        unfold candidatesList entry
        rw [mpointsList_queryChildren, htd]
      rw [hc]
      exact h3

end Node
end ofxCoverTree

namespace ofxCoverTree
namespace Node
variable {P α : Type} [LinearOrderedField α]

theorem ascending_replicate (k : Nat) (d : Node P α) : Ascending (List.replicate k d) := by
  unfold Ascending
  induction k with
  | zero => exact List.Pairwise.nil
  | succ k ih =>
    rw [List.replicate_succ]
    refine List.Pairwise.cons ?_ ih
    intro a ha
    rw [List.eq_of_mem_replicate ha]

/-- A list of the `k` smallest values of a multiset, in ascending order, is the sorted
truncation of any list of the values. -/
theorem take_sort_eq {V A : List α} {B : Multiset α}
    (hV : (V : Multiset α) = (A : Multiset α) + B) (hA : A.Pairwise (· ≤ ·))
    (hAB : ∀ b ∈ B, ∀ a ∈ A, a ≤ b) :
    (V.insertionSort (· ≤ ·)).take A.length = A := by
  have hW : (A ++ B.sort (· ≤ ·)).Sorted (· ≤ ·) := by
    unfold List.Sorted
    rw [List.pairwise_append]
    refine ⟨hA, Multiset.sort_sorted _ _, ?_⟩
    intro a ha b hb
    exact hAB b ((Multiset.mem_sort _).1 hb) a ha
  have hperm : (V.insertionSort (· ≤ ·)).Perm (A ++ B.sort (· ≤ ·)) := by
    refine (List.perm_insertionSort _ V).trans ?_
    apply Multiset.coe_eq_coe.1
    have : ((B.sort (· ≤ ·) : List α) : Multiset α) = B := Multiset.sort_eq _ _
    rw [hV, ← Multiset.coe_add, this]
  rw [List.eq_of_perm_of_sorted hperm (List.sorted_insertionSort _ V) hW]
  exact List.take_left' rfl

end Node

namespace CoverTree
variable {P α : Type} [LinearOrderedField α]

/-- On a tree whose `maxdistUB` fields are sound, `nearNeighbors(q, k)` returns `k` stored
points whose distances are the first `k` entries of the ascending sort of all distances. -/
theorem nearNeighbors_sorted [Inhabited P] (dist : P → P → α)
    (htri : ∀ x y z, dist x z ≤ dist x y + dist y z) (numericMax : α) (t : CoverTree P α)
    (hs : t.root.SoundUB dist) (q : P) (k : Nat) (hk1 : 1 ≤ k) (hkn : k ≤ t.points.length)
    (hmax : ∀ y ∈ t.points, dist y q < numericMax) :
    ∃ res t', t.nearNeighbors dist numericMax q k = .ok (res, t') ∧ res.length = k ∧
      (res : Multiset P) ≤ (t.points : Multiset P) ∧
      res.map (fun y => dist y q) =
        ((t.points.map (fun y => dist y q)).insertionSort (· ≤ ·)).take k := by
  have hk0 : k ≠ 0 := by omega
  have hne : List.replicate k (Node.mk (default : P) [] 0 (0 : α) numericMax) ≠ [] := by
    intro h
    have := congrArg List.length h
    simp at this
    exact hk0 this
  have hspec := Node.nearNeighbors_spec htri (q := q)
    (t.root.setTempDist (dist t.root._p q)).height (t.root.setTempDist (dist t.root._p q))
    (le_refl _) (Node.soundUB_setTempDist.2 hs) rfl _ hne (Node.ascending_replicate k _)
  rw [Node.candidates_setTempDist] at hspec
  unfold nearNeighbors
  rw [if_neg hk0]
  refine ⟨_, _, rfl, ?_⟩
  generalize (Node.nearNeighbors dist q (t.root.setTempDist (dist t.root._p q)).height
    (t.root.setTempDist (dist t.root._p q))
    (List.replicate k (Node.mk (default : P) [] 0 (0 : α) numericMax))).2 = l' at hspec
  obtain ⟨hasc, hlen, ⟨R, heq, hR⟩, -⟩ := hspec
  rw [List.length_replicate] at hlen
  have hcard : Multiset.card (Node.candidates dist q t.root) = t.points.length := by
    unfold Node.candidates Node.mpoints
    simp [points]
  have hcand : ∀ x ∈ Node.candidates dist q t.root, x.1 < numericMax := by
    intro x hx
    unfold Node.candidates at hx
    obtain ⟨y, hy, rfl⟩ := Multiset.mem_map.1 hx
    exact hmax y (Node.mem_mpoints_iff.1 hy)
  have hdummy : Multiset.filter (fun x : α × P => x.1 < numericMax)
      (Node.entries (List.replicate k (Node.mk (default : P) [] 0 (0 : α) numericMax))) = 0 := by
    rw [Multiset.filter_eq_nil]
    intro x hx
    obtain ⟨a, ha, rfl⟩ := Node.mem_entries.1 hx
    rw [List.eq_of_mem_replicate ha]
    simp [Node.entry]
  have hfilt := congrArg (Multiset.filter (fun x : α × P => x.1 < numericMax)) heq
  rw [Multiset.filter_add, Multiset.filter_add, hdummy, zero_add,
    Multiset.filter_eq_self.2 hcand] at hfilt
  -- no sentinel is left in the list
  have hreal : ∀ a ∈ l', a.tempDist < numericMax := by
    by_contra hcon
    push_neg at hcon
    obtain ⟨a0, ha0, hbig⟩ := hcon
    have hRz : Multiset.filter (fun x : α × P => x.1 < numericMax) R = 0 := by
      rw [Multiset.filter_eq_nil]
      intro x hx
      exact not_lt.2 (le_trans hbig (hR x hx a0 ha0))
    rw [hRz, add_zero] at hfilt
    have hsum := Multiset.filter_add_not (fun x : α × P => x.1 < numericMax) (Node.entries l')
    have hc1 : 0 < Multiset.card
        (Multiset.filter (fun x : α × P => ¬ x.1 < numericMax) (Node.entries l')) := by
      rw [Multiset.card_pos_iff_exists_mem]
      exact ⟨Node.entry a0, Multiset.mem_filter.2
        ⟨Node.mem_entries.2 ⟨a0, ha0, rfl⟩, not_lt.2 hbig⟩⟩
    have hc2 := congrArg Multiset.card hsum
    rw [Multiset.card_add, ← hfilt, hcard] at hc2
    have hc3 : Multiset.card (Node.entries l') = k := by
      unfold Node.entries; simp [hlen]
    omega
  have hself : Multiset.filter (fun x : α × P => x.1 < numericMax) (Node.entries l') =
      Node.entries l' := by
    rw [Multiset.filter_eq_self]
    intro x hx
    obtain ⟨a, ha, rfl⟩ := Node.mem_entries.1 hx
    exact hreal a ha
  rw [hself] at hfilt
  have hR' : ∀ x ∈ Multiset.filter (fun x : α × P => x.1 < numericMax) R,
      ∀ a ∈ l', a.tempDist ≤ x.1 := fun x hx => hR x (Multiset.mem_of_mem_filter hx)
  generalize Multiset.filter (fun x : α × P => x.1 < numericMax) R = R' at hfilt hR'
  -- every entry carries the distance of its point
  have htd : ∀ a ∈ l', a.tempDist = dist a._p q := by
    intro a ha
    have : Node.entry a ∈ Node.candidates dist q t.root := by
      rw [hfilt]; exact Multiset.mem_add.2 (Or.inl (Node.mem_entries.2 ⟨a, ha, rfl⟩))
    unfold Node.candidates at this
    obtain ⟨y, -, hy⟩ := Multiset.mem_map.1 this
    have h1 := congrArg Prod.fst hy
    have h2 := congrArg Prod.snd hy
    simp only [Node.entry] at h1 h2
    rw [← h1, h2]
  refine ⟨by simp [hlen], ?_, ?_⟩
  · have h2 := congrArg (Multiset.map Prod.snd) hfilt
    rw [Multiset.map_add] at h2
    have h3 : Multiset.map Prod.snd (Node.candidates dist q t.root) = (t.points : Multiset P) := by
      unfold Node.candidates Node.mpoints points
      rw [Multiset.map_map]
      simp
    have h4 : Multiset.map Prod.snd (Node.entries l') = ((l'.map Node._p : List P) : Multiset P) := by
      unfold Node.entries
      rw [Multiset.map_coe, List.map_map]
      rfl
    rw [h3, h4] at h2
    rw [h2]
    exact Multiset.le_add_right _ _
  · have h1 : List.map (fun y => dist y q) (List.map Node._p l') = l'.map Node.tempDist := by
      rw [List.map_map]
      apply List.map_congr_left
      intro a ha
      exact (htd a ha).symm
    rw [h1]
    have hk : k = (l'.map Node.tempDist).length := by simp [hlen]
    rw [hk]
    symm
    apply Node.take_sort_eq (B := Multiset.map Prod.fst R')
    · have h2 := congrArg (Multiset.map Prod.fst) hfilt
      rw [Multiset.map_add] at h2
      have h3 : Multiset.map Prod.fst (Node.candidates dist q t.root) =
          ((t.points.map (fun y => dist y q) : List α) : Multiset α) := by
        unfold Node.candidates Node.mpoints points
        rw [Multiset.map_map]
        simp
      have h4 : Multiset.map Prod.fst (Node.entries l') =
          ((l'.map Node.tempDist : List α) : Multiset α) := by
        unfold Node.entries
        rw [Multiset.map_coe, List.map_map]
        rfl
      rw [← h3, h2, h4]
    · rw [List.pairwise_map]
      exact hasc
    · intro b hb a ha
      obtain ⟨x, hx, rfl⟩ := Multiset.mem_map.1 hb
      obtain ⟨n, hn, rfl⟩ := List.mem_map.1 ha
      exact hR' x hx n hn

/-- C2 (`k` nearest neighbours, for a metric with the triangle inequality): on a tree with
sound `maxdistUB` that stores `n` points, all nearer to `q` than the sentinel value, when
`dist` satisfies the triangle inequality and `1 ≤ k ≤ n`, the call `nearNeighbors(q, k)`
returns `k` stored points whose distances to `q`, in the order returned, are the first `k`
entries of the ascending sort of the distances from `q` to all stored points. -/
theorem nearNeighbors_correct [Inhabited P] (dist : P → P → α)
    (htri : ∀ x y z, dist x z ≤ dist x y + dist y z) (numericMax : α) (t : CoverTree P α)
    (hs : t.root.SoundUB dist) (q : P) (k : Nat) (hk1 : 1 ≤ k) (hkn : k ≤ t.points.length)
    (hmax : ∀ y ∈ t.points, dist y q < numericMax) :
    ∃ res t', t.nearNeighbors dist numericMax q k = .ok (res, t') ∧ res.length = k ∧
      (res : Multiset P) ≤ (t.points : Multiset P) ∧
      res.map (fun y => dist y q) =
        ((t.points.map (fun y => dist y q)).insertionSort (· ≤ ·)).take k :=
  nearNeighbors_sorted dist htri numericMax t hs q k hk1 hkn hmax

end CoverTree
end ofxCoverTree

namespace ofxCoverTree
namespace CoverTree

/-- On the tree built from `1/2`, `3`, `0`, the two nearest neighbours of `1/4` are returned in
ascending distance. -/
theorem nearNeighbors_correct_witness :
    sampleUpdated.root.SoundUB dist1 ∧ 1 ≤ 2 ∧ 2 ≤ sampleUpdated.points.length ∧
      (∀ y ∈ sampleUpdated.points, dist1 y (1/4) < 1000) ∧
      ∃ res t', sampleUpdated.nearNeighbors dist1 1000 (1/4) 2 = .ok (res, t') ∧
        res.length = 2 ∧ (res : Multiset ℚ) ≤ (sampleUpdated.points : Multiset ℚ) ∧
        res.map (fun y => dist1 y (1/4)) =
          ((sampleUpdated.points.map (fun y => dist1 y (1/4))).insertionSort (· ≤ ·)).take 2 :=
  ⟨sampleUpdated_sound, by decide, by decide, by decide!,
    nearNeighbors_correct dist1 dist1_triangle 1000 sampleUpdated sampleUpdated_sound (1/4) 2
      (by decide) (by decide) (by decide!)⟩

end CoverTree
end ofxCoverTree

namespace ofxCoverTree
namespace CoverTree

theorem updateActive_duplicate (m : Nat) :
    Node.updateActive dist1 [0] (List.replicate m []) sampleDuplicate.root =
      .ok sampleDuplicate.root := by
  induction m with
  | zero => rfl
  | succ m ih =>
    rw [List.replicate_succ, Node.updateActive]
    have h1 : Node.getAt sampleDuplicate.root [] = some sampleDuplicate.root := rfl
    have h2 : Node.getAt sampleDuplicate.root [0] = some (Node.mk 0 [] (-1) 0 0) := rfl
    rw [h1, h2]
    simp only
    have h3 : Node.modifyAt
        (fun m : Node ℚ ℚ => m.setMaxdistUB (max m.maxdistUB
          (dist1 sampleDuplicate.root._p (Node.mk (0 : ℚ) [] (-1) (0 : ℚ) 0)._p)))
        sampleDuplicate.root [] = sampleDuplicate.root := by
      decide!
    rw [h3]
    exact ih

/-- One round of the loop of `calc_maxdist` on the tree `sampleDuplicate`: the root, whose
`maxdistUB` is still `0` after its child has been visited, is expanded again, so `travel` is
back to the root alone and `active` has grown by one. -/
theorem calcStep_duplicate (k : Nat) :
    Node.calcStep dist1 ⟨sampleDuplicate.root, [[]], List.replicate k []⟩ []
        sampleDuplicate.root =
      .ok ⟨sampleDuplicate.root, [[]], List.replicate (k + 1) []⟩ := by
  have hv : Node.visit ⟨sampleDuplicate.root, [[]], List.replicate k []⟩ []
      sampleDuplicate.root =
      .ok (⟨sampleDuplicate.root, [[0], []], List.replicate (k + 1) []⟩, [0]) := by
    rfl
  unfold Node.calcStep
  rw [hv]
  simp only [bind, Except.bind, List.reverse_replicate]
  rw [updateActive_duplicate]
  rfl

theorem calcLoop_duplicate (fuel k : Nat) :
    Node.calcLoop dist1 fuel ⟨sampleDuplicate.root, [[]], List.replicate k []⟩ =
      .error .fuel := by
  induction fuel generalizing k with
  | zero => rfl
  | succ fuel ih =>
    rw [Node.calcLoop]
    simp only
    have h1 : Node.getAt sampleDuplicate.root [] = some sampleDuplicate.root := rfl
    rw [h1]
    simp only [calcStep_duplicate, bind, Except.bind]
    exact ih (k + 1)

/-- C8 fails on a tree with a duplicate point: `CoverTree(0)` followed by `insert(0)` is the
root `0` with the child `0`, and on it `update()` does not return, whatever the budget: after
the child has been visited the root still has `maxdistUB == 0`, which `calc_maxdist` takes for
"not yet expanded". -/
theorem update_diverges_on_duplicate :
    (ofPoint 0 0 (13/10) : CoverTree ℚ ℚ).insert dist1 true 0 0 = .ok sampleDuplicate ∧
      ∀ fuel, sampleDuplicate.update dist1 fuel = .error .fuel := by
  refine ⟨by decide!, fun fuel => ?_⟩
  unfold update calc_maxdist Node.calc_maxdist
  have h : sampleDuplicate.root.setMaxdistUB 0 = sampleDuplicate.root := by decide!
  rw [h]
  have := calcLoop_duplicate fuel 0
  simp only [List.replicate_zero] at this
  rw [this]
  rfl

end CoverTree
end ofxCoverTree

namespace ofxCoverTree
namespace Node
variable {P α : Type} [LinearOrderedField α]

theorem getAt_nil (t : Node P α) : getAt t [] = some t := by
  cases t; rfl

theorem getAt_cons (t : Node P α) (i : Nat) (rest : Path) :
    getAt t (i :: rest) =
      match t.children[i]? with
      | some c => getAt c rest
      | none => none := by
  cases t; rfl

theorem modifyAt_nil (f : Node P α → Node P α) (t : Node P α) : modifyAt f t [] = f t := by
  cases t; rfl

theorem modifyAt_cons (f : Node P α → Node P α) (t : Node P α) (i : Nat) (rest : Path) :
    modifyAt f t (i :: rest) =
      match t.children[i]? with
      | some c => t.setChildren (t.children.set i (modifyAt f c rest))
      | none => t := by
  cases t; rfl

theorem children_eraseUB (t : Node P α) : (eraseUB t).children = t.children.map eraseUB := by
  rw [eraseUB_eq]; rfl

/-- Dereferencing commutes with erasing `maxdistUB`. -/
theorem getAt_eraseUB (t : Node P α) (path : Path) :
    getAt (eraseUB t) path = (getAt t path).map eraseUB := by
  induction path generalizing t with
  | nil => simp [getAt_nil]
  | cons i rest ih =>
    rw [getAt_cons, getAt_cons, children_eraseUB, List.getElem?_map]
    cases h : t.children[i]? with
    | none => simp
    | some c => simp [ih]

theorem getAt_of_shape {a b : Node P α} (h : eraseUB a = eraseUB b) {path : Path}
    {x : Node P α} (hx : getAt a path = some x) :
    ∃ y, getAt b path = some y ∧ eraseUB x = eraseUB y := by
  have h1 := getAt_eraseUB a path
  have h2 := getAt_eraseUB b path
  rw [h, h2, hx] at h1
  cases hb : getAt b path with
  | none => rw [hb] at h1; simp at h1
  | some y => rw [hb] at h1; simp at h1; exact ⟨y, rfl, h1.symm⟩

theorem p_of_shape {x y : Node P α} (h : eraseUB x = eraseUB y) : x._p = y._p := by
  have := congrArg _p h
  rw [eraseUB_eq, eraseUB_eq y] at this
  exact this

theorem length_of_shape {x y : Node P α} (h : eraseUB x = eraseUB y) :
    x.children.length = y.children.length := by
  have := congrArg (fun n => n.children.length) h
  simp only [children_eraseUB, List.length_map] at this
  exact this

theorem height_eraseUB (t : Node P α) : (eraseUB t).height = t.height := by
  induction t using Node.induct with
  | h p cs l u t ih =>
    rw [eraseUB_mk, height_mk, height_mk, eraseUBList_eq_map]
    congr 1
    clear l u t p
    induction cs with
    | nil => rfl
    | cons c cs ihcs =>
      simp only [List.map_cons, heightList_cons]
      rw [ih c (List.mem_cons_self _ _), ihcs (fun x hx => ih x (List.mem_cons_of_mem _ hx))]

theorem height_of_shape {x y : Node P α} (h : eraseUB x = eraseUB y) : x.height = y.height := by
  rw [← height_eraseUB x, h, height_eraseUB]

theorem ubAt_nil (t : Node P α) : ubAt t [] = some t.maxdistUB := by
  simp [ubAt, getAt_nil]

theorem ubAt_cons (t : Node P α) (i : Nat) (rest : Path) :
    ubAt t (i :: rest) =
      match t.children[i]? with
      | some c => ubAt c rest
      | none => none := by
  unfold ubAt
  rw [getAt_cons]
  cases t.children[i]? <;> rfl

/-- Trees that differ in `maxdistUB` fields only and agree on every such field are equal. -/
theorem ext_of_shape (a : Node P α) :
    ∀ b : Node P α, eraseUB a = eraseUB b → (∀ path, ubAt a path = ubAt b path) → a = b := by
  induction a using Node.induct with
  | h p cs l u t ih =>
    intro b hshape hub
    cases b with
    | mk p2 cs2 l2 u2 t2 =>
      rw [eraseUB_mk, eraseUB_mk, eraseUBList_eq_map, eraseUBList_eq_map] at hshape
      injection hshape with hp hcs hl _ ht
      have hu := hub []
      rw [ubAt_nil, ubAt_nil] at hu
      injection hu with hu
      simp only [maxdistUB_mk] at hu
      subst hp hl ht hu
      congr 1
      apply List.ext_getElem?
      intro i
      have hi := congrArg (fun l : List (Node P α) => l[i]?) hcs
      simp only [List.getElem?_map] at hi
      cases h1 : cs[i]? with
      | none =>
        cases h2 : cs2[i]? with
        | none => rfl
        | some y => rw [h1, h2] at hi; simp at hi
      | some x =>
        cases h2 : cs2[i]? with
        | none => rw [h1, h2] at hi; simp at hi
        | some y =>
          rw [h1, h2] at hi
          simp only [Option.map_some', Option.some.injEq] at hi
          congr 1
          apply ih x (List.getElem?_mem h1) y hi
          intro path
          have := hub (i :: path)
          rw [ubAt_cons, ubAt_cons] at this
          simp only [children_mk, h1, h2] at this
          exact this

theorem ubAt_isSome_of_shape {a b : Node P α} (h : eraseUB a = eraseUB b) (path : Path)
    (v : α) : (ubAt a path).map (fun _ => v) = (ubAt b path).map (fun _ => v) := by
  unfold ubAt
  cases ha : getAt a path with
  | none =>
    cases hb : getAt b path with
    | none => rfl
    | some y =>
      obtain ⟨x, hx, -⟩ := getAt_of_shape h.symm hb
      rw [ha] at hx; cases hx
  | some x =>
    obtain ⟨y, hy, -⟩ := getAt_of_shape h ha
    rw [hy]; rfl

/-- Writing `maxdistUB` behind one pointer changes the field behind that pointer only. -/
theorem ubAt_modify_ub (g : Node P α → α) (t : Node P α) (path path' : Path) :
    ubAt (modifyAt (fun m => m.setMaxdistUB (g m)) t path) path' =
      if path' = path then (getAt t path).map g else ubAt t path' := by
  induction path generalizing t path' with
  | nil =>
    rw [modifyAt_nil, getAt_nil]
    cases path' with
    | nil => simp [ubAt_nil]
    | cons i rest => simp [ubAt_cons]
  | cons j rest ih =>
    rw [modifyAt_cons, getAt_cons]
    cases hj : t.children[j]? with
    | none =>
      simp only
      split
      · rename_i heq; subst heq; rw [ubAt_cons, hj]; rfl
      · rfl
    | some c =>
      simp only
      cases path' with
      | nil => simp [ubAt_nil]
      | cons i rest' =>
        rw [ubAt_cons, ubAt_cons, setChildren_children]
        by_cases hij : i = j
        · subst hij
          have hlt : i < t.children.length := by
            rcases List.getElem?_eq_some.1 hj with ⟨h, -⟩; exact h
          rw [List.getElem?_set_self hlt]
          simp only [ih, List.cons.injEq, true_and, hj]
        · rw [List.getElem?_set_ne (Ne.symm hij)]
          simp [hij]

end Node
end ofxCoverTree

namespace ofxCoverTree
namespace Node
variable {P α : Type} [LinearOrderedField α]

theorem ubAt_setMaxdistUB_cons (t : Node P α) (v : α) (i : Nat) (rest : Path) :
    ubAt (t.setMaxdistUB v) (i :: rest) = ubAt t (i :: rest) := by
  rw [ubAt_cons, ubAt_cons]; rfl

open Classical in
theorem ubAt_resetChildren (t : Node P α) (path' : Path) :
    ubAt (resetChildren t) path' =
      if ∃ i, path' = [i] then (ubAt t path').map (fun _ => 0) else ubAt t path' := by
  cases path' with
  | nil => simp [ubAt_nil, resetChildren]
  | cons i rest =>
    rw [ubAt_cons, ubAt_cons]
    simp only [resetChildren, setChildren_children, List.getElem?_map]
    cases hi : t.children[i]? with
    | none => simp
    | some c =>
      simp only [Option.map_some']
      cases rest with
      | nil => simp [ubAt_nil]
      | cons j rest' => simp [ubAt_setMaxdistUB_cons]

open Classical in
/-- Resetting the children of the node behind a pointer changes the `maxdistUB` fields of
those children only, to `0`. -/
theorem ubAt_modify_reset (t : Node P α) (path path' : Path) :
    ubAt (modifyAt resetChildren t path) path' =
      if ∃ i, path' = path ++ [i] then (ubAt t path').map (fun _ => 0) else ubAt t path' := by
  induction path generalizing t path' with
  | nil =>
    rw [modifyAt_nil, ubAt_resetChildren]
    simp
  | cons j rest ih =>
    rw [modifyAt_cons]
    cases hj : t.children[j]? with
    | none =>
      simp only
      split
      · rename_i heq
        obtain ⟨i, rfl⟩ := heq
        simp only [List.cons_append]
        rw [ubAt_cons, hj]; rfl
      · rfl
    | some c =>
      simp only
      cases path' with
      | nil => simp [ubAt_nil]
      | cons i rest' =>
        rw [ubAt_cons, ubAt_cons, setChildren_children]
        by_cases hij : i = j
        · subst hij
          have hlt : i < t.children.length := by
            rcases List.getElem?_eq_some.1 hj with ⟨h, -⟩; exact h
          rw [List.getElem?_set_self hlt]
          simp only [ih, List.cons_append, List.cons.injEq, true_and, hj]
        · rw [List.getElem?_set_ne (Ne.symm hij)]
          simp [hij]

theorem rel_mono {final : Node P α} {known known' : List Path} {a b : Node P α}
    (h : Rel final known a b) (hsub : ∀ path ∈ known', path ∈ known) : Rel final known' a b :=
  ⟨h.shape, fun path hp => h.agree path (hsub path hp), h.frame⟩

/-- Both runs reset the children of the node behind `cur`. -/
theorem rel_reset {final : Node P α} {known known' : List Path} {a b : Node P α}
    (h : Rel final known a b) (cur : Path)
    (hsub : ∀ path ∈ known', path ∈ known ∨ ∃ i, path = cur ++ [i]) :
    Rel final known' (modifyAt resetChildren a cur) (modifyAt resetChildren b cur) := by
  have hshape : eraseUB (modifyAt resetChildren a cur) = eraseUB (modifyAt resetChildren b cur) := by
    have hf : ∀ m : Node P α, eraseUB (resetChildren m) = eraseUB m := by
      intro m
      rw [eraseUB_eq, eraseUB_eq m]
      simp [resetChildren, List.map_map, Function.comp_def, eraseUB_setMaxdistUB]
    rw [eraseUB_modifyAt _ hf, eraseUB_modifyAt _ hf]
    exact h.shape
  refine ⟨hshape, ?_, ?_⟩
  · intro path hp
    rw [ubAt_modify_reset, ubAt_modify_reset]
    split
    · exact ubAt_isSome_of_shape h.shape path 0
    · rename_i hne
      rcases hsub path hp with hk | hk
      · exact h.agree path hk
      · exact absurd hk hne
  · intro path
    rw [ubAt_modify_reset, ubAt_modify_reset]
    split
    · left; exact (ubAt_isSome_of_shape h.shape path 0).symm
    · exact h.frame path

/-- Both runs raise `maxdistUB` behind the pointer `n`, on which they agree, to at least `d`. -/
theorem rel_raise {final : Node P α} {known : List Path} {a b : Node P α}
    (h : Rel final known a b) (n : Path) (hn : n ∈ known) (d : α) :
    Rel final known (modifyAt (fun m => m.setMaxdistUB (max m.maxdistUB d)) a n)
      (modifyAt (fun m => m.setMaxdistUB (max m.maxdistUB d)) b n) := by
  have hf : ∀ m : Node P α, eraseUB (m.setMaxdistUB (max m.maxdistUB d)) = eraseUB m :=
    fun m => eraseUB_setMaxdistUB m _
  have hn' : (getAt a n).map (fun m => max m.maxdistUB d) =
      (getAt b n).map (fun m => max m.maxdistUB d) := by
    have := h.agree n hn
    unfold ubAt at this
    have h2 := congrArg (Option.map (fun u => max u d)) this
    simpa [Option.map_map, Function.comp_def] using h2
  refine ⟨by rw [eraseUB_modifyAt _ hf, eraseUB_modifyAt _ hf]; exact h.shape, ?_, ?_⟩
  · intro path hp
    rw [ubAt_modify_ub (fun m => max m.maxdistUB d), ubAt_modify_ub (fun m => max m.maxdistUB d)]
    split
    · exact hn'
    · exact h.agree path hp
  · intro path
    rw [ubAt_modify_ub (fun m => max m.maxdistUB d), ubAt_modify_ub (fun m => max m.maxdistUB d)]
    split
    · left; exact hn'.symm
    · exact h.frame path

end Node
end ofxCoverTree

namespace ofxCoverTree
namespace Node
variable {P α : Type} [LinearOrderedField α]

theorem mem_childPaths {cur path : Path} {n : Nat} (h : path ∈ childPaths cur n) :
    ∃ i, path = cur ++ [i] := by
  unfold childPaths at h
  obtain ⟨i, -, rfl⟩ := List.mem_map.1 h
  exact ⟨i, rfl⟩

theorem first_mem_childPaths (cur : Path) {n : Nat} (h : 0 < n) :
    cur ++ [0] ∈ childPaths cur n := by
  unfold childPaths
  exact List.mem_map.2 ⟨0, List.mem_range.2 h, rfl⟩

/-- The inner loop of `calc_maxdist` keeps two runs in step. -/
theorem descend_sim {final : Node P α} (fuel : Nat) (s1 s2 : CalcState P α) (cur : Path)
    (ht : s1.travel = s2.travel) (ha : s1.active = s2.active)
    (hrel : Rel final (s1.travel ++ s1.active) s1.root s2.root) (hcur : cur ∈ s1.travel)
    (r1 : CalcState P α × Path) (h : descend fuel s1 cur = .ok r1) :
    ∃ r2, descend fuel s2 cur = .ok r2 ∧ r2.2 = r1.2 ∧ r2.1.travel = r1.1.travel ∧
      r2.1.active = r1.1.active ∧
      Rel final (r1.1.travel ++ r1.1.active) r1.1.root r2.1.root := by
  induction fuel generalizing s1 s2 cur with
  | zero => simp [descend] at h
  | succ fuel ih =>
    simp only [descend] at h ⊢
    cases hg : getAt s1.root cur with
    | none => rw [hg] at h; cases h
    | some n1 =>
      rw [hg] at h
      obtain ⟨n2, hg2, hn⟩ := getAt_of_shape hrel.shape hg
      rw [hg2]
      simp only at h ⊢
      rw [← length_of_shape hn]
      split at h
      · rename_i hpos
        rw [if_pos hpos]
        rw [← ht, ← ha]
        refine ih ⟨modifyAt resetChildren s1.root cur,
          childPaths cur n1.children.length ++ s1.travel, cur :: s1.active⟩
          ⟨modifyAt resetChildren s2.root cur,
          childPaths cur n1.children.length ++ s1.travel, cur :: s1.active⟩ _ rfl rfl ?_ ?_ h
        · simp only
          apply rel_reset hrel
          intro path hp
          simp only [List.append_assoc, List.mem_append, List.mem_cons] at hp
          rcases hp with hp | hp | hp | hp
          · right; exact mem_childPaths hp
          · left; exact List.mem_append_left _ hp
          · left; rw [hp]; exact List.mem_append_left _ hcur
          · left; exact List.mem_append_right _ hp
        · simp only
          exact List.mem_append_left _ (first_mem_childPaths cur hpos)
      · rename_i hpos
        rw [if_neg hpos]
        injection h with h
        subst h
        exact ⟨_, rfl, rfl, ht.symm, ha.symm, hrel⟩

/-- The loop over `active` keeps two runs in step. -/
theorem updateActive_sim {final : Node P α} (dist : P → P → α) (cur : Path)
    {known : List Path} (act : List Path) (hact : ∀ n ∈ act, n ∈ known) (a b : Node P α)
    (hrel : Rel final known a b) (a' : Node P α) (h : updateActive dist cur act a = .ok a') :
    ∃ b', updateActive dist cur act b = .ok b' ∧ Rel final known a' b' := by
  induction act generalizing a b with
  | nil =>
    simp only [updateActive] at h ⊢
    injection h with h; subst h
    exact ⟨b, rfl, hrel⟩
  | cons n rest ih =>
    simp only [updateActive] at h ⊢
    cases hx : getAt a n with
    | none => rw [hx] at h; cases h
    | some x =>
      cases hc : getAt a cur with
      | none => rw [hx, hc] at h; cases h
      | some c =>
        rw [hx, hc] at h
        obtain ⟨x2, hx2, hxs⟩ := getAt_of_shape hrel.shape hx
        obtain ⟨c2, hc2, hcs⟩ := getAt_of_shape hrel.shape hc
        rw [hx2, hc2]
        simp only at h ⊢
        rw [← p_of_shape hxs, ← p_of_shape hcs]
        exact ih (fun m hm => hact m (List.mem_cons_of_mem _ hm)) _ _
          (rel_raise hrel n (hact n (List.mem_cons_self _ _)) _) h

/-- One round of the outer loop of `calc_maxdist` keeps two runs in step. -/
theorem calcStep_sim {final : Node P α} (dist : P → P → α) (s1 s2 : CalcState P α)
    (cur : Path) (rest : List Path) (n1 n2 : Node P α)
    (ht : s1.travel = s2.travel) (ha : s1.active = s2.active)
    (hrel : Rel final (s1.travel ++ s1.active) s1.root s2.root)
    (htop : s1.travel = cur :: rest)
    (hn1 : getAt s1.root cur = some n1) (hn2 : getAt s2.root cur = some n2)
    (s1' : CalcState P α) (h : calcStep dist s1 cur n1 = .ok s1') :
    ∃ s2', calcStep dist s2 cur n2 = .ok s2' ∧ s1'.travel = s2'.travel ∧
      s1'.active = s2'.active ∧ Rel final (s1'.travel ++ s1'.active) s1'.root s2'.root := by
  have hcur : cur ∈ s1.travel := by rw [htop]; exact List.mem_cons_self _ _
  have hub : n1.maxdistUB = n2.maxdistUB := by
    have := hrel.agree cur (List.mem_append_left _ hcur)
    unfold ubAt at this
    rw [hn1, hn2] at this
    simpa using this
  unfold calcStep at h ⊢
  obtain ⟨r1, hr1, h⟩ := bind_eq_ok h
  obtain ⟨root1, hroot1, h⟩ := bind_eq_ok h
  simp only [pure, Except.pure] at h
  injection h with h; subst h
  -- the branch taken is the same
  have hv : ∃ r2, visit s2 cur n2 = .ok r2 ∧ r2.2 = r1.2 ∧ r2.1.travel = r1.1.travel ∧
      r2.1.active = r1.1.active ∧
      Rel final (r1.1.travel ++ r1.1.active) r1.1.root r2.1.root := by
    unfold visit at hr1 ⊢
    rw [← hub, ← height_of_shape hrel.shape]
    split at hr1
    · rename_i hz
      rw [if_pos hz]
      exact descend_sim _ _ _ _ ht ha hrel hcur _ hr1
    · rename_i hz
      rw [if_neg hz]
      rw [← ha, ← ht]
      cases hact : s1.active with
      | nil => rw [hact] at hr1; cases hr1
      | cons top active =>
        rw [hact] at hr1
        simp only at hr1 ⊢
        injection hr1 with hr1; subst hr1
        refine ⟨_, rfl, rfl, rfl, rfl, ?_⟩
        simp only
        apply rel_mono hrel
        intro path hp
        rw [hact]
        rcases List.mem_append.1 hp with hp | hp
        · exact List.mem_append_left _ hp
        · exact List.mem_append_right _ (List.mem_cons_of_mem _ hp)
  obtain ⟨r2, hr2, e1, e2, e3, hrel2⟩ := hv
  obtain ⟨root2, hroot2, hrel3⟩ := updateActive_sim dist r1.2 r1.1.active.reverse
    (fun n hn => List.mem_append_right _ (List.mem_reverse.1 hn)) _ _ hrel2 _ hroot1
  rw [hr2]
  simp only [bind, Except.bind, e1, e3, hroot2, pure, Except.pure]
  refine ⟨_, rfl, by simp only [e2], rfl, ?_⟩
  simp only
  apply rel_mono hrel3
  intro path hp
  rcases List.mem_append.1 hp with hp | hp
  · exact List.mem_append_left _ (List.mem_of_mem_tail hp)
  · exact List.mem_append_right _ hp

/-- A run of `calc_maxdist` that ends in the tree `final` is repeated step by step by a run
from any state related to it, which ends in `final` too. -/
theorem calcLoop_sim {final : Node P α} (dist : P → P → α) (fuel : Nat)
    (s1 s2 : CalcState P α) (ht : s1.travel = s2.travel) (ha : s1.active = s2.active)
    (hrel : Rel final (s1.travel ++ s1.active) s1.root s2.root)
    (h : calcLoop dist fuel s1 = .ok final) : calcLoop dist fuel s2 = .ok final := by
  induction fuel generalizing s1 s2 with
  | zero => simp [calcLoop] at h
  | succ fuel ih =>
    simp only [calcLoop] at h ⊢
    rw [← ht]
    cases htr : s1.travel with
    | nil =>
      rw [htr] at h
      simp only at h ⊢
      injection h with h
      congr 1
      rw [← h]
      symm
      apply ext_of_shape _ _ hrel.shape
      intro path
      rcases hrel.frame path with hf | hf
      · exact hf.symm
      · rw [hf, h]
    | cons cur rest =>
      rw [htr] at h
      simp only at h ⊢
      cases hn1 : getAt s1.root cur with
      | none => rw [hn1] at h; cases h
      | some n1 =>
        rw [hn1] at h
        obtain ⟨n2, hn2, -⟩ := getAt_of_shape hrel.shape hn1
        rw [hn2]
        simp only at h ⊢
        obtain ⟨s1', hs1', h⟩ := bind_eq_ok h
        obtain ⟨s2', hs2', e1, e2, hrel'⟩ :=
          calcStep_sim dist s1 s2 cur rest n1 n2 ht ha hrel htr hn1 hn2 s1' hs1'
        rw [hs2']
        exact ih s1' s2' e1 e2 hrel' h

/-- A second `calc_maxdist`, started on the result of the first, ends in the same tree. -/
theorem calc_maxdist_idempotent (dist : P → P → α) (fuel : Nat) (root final : Node P α)
    (h : calc_maxdist dist fuel root = .ok final) :
    calc_maxdist dist fuel final = .ok final := by
  have hshape := calc_maxdist_erase dist fuel root final h
  unfold calc_maxdist at h ⊢
  refine calcLoop_sim dist fuel ⟨root.setMaxdistUB 0, [[]], []⟩
    ⟨final.setMaxdistUB 0, [[]], []⟩ rfl rfl ?_ h
  refine ⟨?_, ?_, ?_⟩
  · rw [eraseUB_setMaxdistUB, eraseUB_setMaxdistUB, hshape]
  · intro path hp
    simp only [List.append_nil, List.mem_singleton] at hp
    subst hp
    rw [ubAt_nil, ubAt_nil]; rfl
  · intro path
    cases path with
    | nil => left; rw [ubAt_nil, ubAt_nil]; rfl
    | cons i rest => right; exact ubAt_setMaxdistUB_cons _ _ _ _

end Node

namespace CoverTree
variable {P α : Type} [LinearOrderedField α]

/-- C9 (idempotence of update): when `update()` has returned, calling it again returns the
very same tree, so every node keeps the `maxdistUB` the first call gave it. -/
theorem update_idempotent (dist : P → P → α) (fuel : Nat) (t t' : CoverTree P α)
    (h : t.update dist fuel = .ok t') : t'.update dist fuel = .ok t' := by
  unfold update calc_maxdist at h ⊢
  obtain ⟨r, hr, h⟩ := bind_eq_ok h
  simp only [pure, Except.pure] at h
  injection h with h; subst h
  simp only [Node.calc_maxdist_idempotent dist fuel _ _ hr, bind, Except.bind, pure, Except.pure]

/-- The tree `sampleThree`, which `insert` calls built, is updated to `sampleUpdated`, and a
second update leaves `sampleUpdated` as it is. -/
theorem update_idempotent_witness :
    sampleThree.update dist1 10 = .ok sampleUpdated ∧
      sampleUpdated.update dist1 10 = .ok sampleUpdated :=
  ⟨by decide!, update_idempotent dist1 10 sampleThree sampleUpdated (by decide!)⟩

end CoverTree
end ofxCoverTree

namespace ofxCoverTree
namespace Node
variable {P α : Type} [LinearOrderedField α]

theorem relevel_mk (l : Int) (p : P) (cs : List (Node P α)) (l0 : Int) (u t : α) :
    relevel l (mk p cs l0 u t) = mk p (relevelList (l - 1) cs) l u t := by
  rw [relevel]

theorem relevelList_eq_map (l : Int) (cs : List (Node P α)) :
    relevelList l cs = cs.map (relevel l) := by
  induction cs with
  | nil => rw [relevelList]; rfl
  | cons c cs ih => rw [relevelList, ih]; rfl

theorem mpoints_relevel (n : Node P α) : ∀ l : Int, (relevel l n).mpoints = n.mpoints := by
  induction n using Node.induct with
  | h p cs l0 u t ih =>
    intro l
    rw [relevel_mk, mpoints_mk, mpoints_mk, relevelList_eq_map]
    congr 1
    clear l0 u t p
    induction cs with
    | nil => rfl
    | cons c cs ihcs =>
      simp only [List.map_cons, mpointsList_cons]
      rw [ih c (List.mem_cons_self _ _), ihcs (fun x hx => ih x (List.mem_cons_of_mem _ hx))]

theorem mpoints_setChildNode (n pIns : Node P α) :
    (n.setChildNode pIns).mpoints = n.mpoints + pIns.mpoints := by
  unfold setChildNode
  split
  · rw [mpoints_setChildren, mpointsList_append, mpointsList_cons, mpointsList_nil, add_zero,
      mpoints_relevel, mpoints_eq n, Multiset.cons_add]
  · rw [mpoints_setChildren, mpointsList_append, mpointsList_cons, mpointsList_nil, add_zero,
      mpoints_eq n, Multiset.cons_add]

theorem insertNodeLoop_points {dist : P → P → α} {base : α} {p : Node P α}
    {recurse : Int → Node P α → Except Fault (Node P α × Int)}
    (hrec : ∀ ms c r, recurse ms c = .ok r → r.1.mpoints = c.mpoints + p.mpoints)
    (ms : Int) (cs : List (Node P α)) (r : List (Node P α) × Option Int)
    (h : insertNodeLoop dist base p recurse ms cs = .ok r) :
    (r.2 = none → mpointsList r.1 = mpointsList cs) ∧
      (r.2 ≠ none → mpointsList r.1 = mpointsList cs + p.mpoints) := by
  induction cs generalizing r with
  | nil =>
    simp only [insertNodeLoop, pure, Except.pure] at h
    injection h with h
    subst h
    simp
  | cons c cs ih =>
    simp only [insertNodeLoop] at h
    obtain ⟨cd, hcd, h⟩ := bind_eq_ok h
    split at h
    · obtain ⟨r1, hr1, h⟩ := bind_eq_ok h
      simp only [pure, Except.pure] at h
      injection h with h
      subst h
      have := hrec _ _ _ hr1
      simp only [mpoints_setTempDist] at this
      simp [this, add_assoc, add_comm p.mpoints]
    · obtain ⟨r1, hr1, h⟩ := bind_eq_ok h
      simp only [pure, Except.pure] at h
      injection h with h
      subst h
      have := ih _ hr1
      constructor
      · intro h2; simp [this.1 h2]
      · intro h2; simp [this.2 h2, add_assoc]

/-- The internal `insert(current, p)` of a subtree adds exactly the points of `p`. -/
theorem insertNode_points {dist : P → P → α} {base : α} {debug : Bool} {p : Node P α}
    (fuel : Nat) (ms : Int) (current : Node P α) (r : Node P α × Int)
    (h : insertNode dist base debug p fuel ms current = .ok r) :
    r.1.mpoints = current.mpoints + p.mpoints := by
  induction fuel generalizing ms current r with
  | zero => simp [insertNode] at h
  | succ fuel ih =>
    simp only [insertNode] at h
    obtain ⟨u0, -, h⟩ := bind_eq_ok h
    obtain ⟨r1, hr1, h⟩ := bind_eq_ok h
    have hl := insertNodeLoop_points (fun ms c r hr => ih ms c r hr) _ _ _ hr1
    cases hr2 : r1.2 with
    | some ms' =>
      rw [hr2] at h
      simp only [pure, Except.pure] at h
      injection h with h
      subst h
      rw [mpoints_setChildren, hl.2 (by rw [hr2]; simp), mpoints_eq current, Multiset.cons_add]
    | none =>
      rw [hr2] at h
      simp only at h
      have hr : r.1 = (current.setChildren r1.1).setChildNode p := by
        split at h <;> (simp only [pure, Except.pure] at h; injection h with h; subst h; rfl)
      rw [hr, mpoints_setChildNode, mpoints_setChildren, hl.1 hr2, mpoints_eq current]

theorem mpointsList_set {cs : List (Node P α)} {i : Nat} {s : Node P α} (s' : Node P α)
    (h : cs[i]? = some s) : mpointsList (cs.set i s') + s.mpoints = mpointsList cs + s'.mpoints := by
  induction cs generalizing i with
  | nil => simp at h
  | cons c cs ih =>
    cases i with
    | zero =>
      simp only [List.getElem?_cons_zero, Option.some.injEq] at h
      subst h
      simp only [List.set_cons_zero, mpointsList_cons]
      abel
    | succ i =>
      simp only [List.getElem?_cons_succ] at h
      simp only [List.set_cons_succ, mpointsList_cons, add_assoc, ih h]

/-- The points held by the local state of `mergeHelper` while it classifies. -/
theorem classify_points {dist : P → P → α} {base : α}
    {recurse : Int → Node P α → Node P α → Except Fault (Node P α × Int × List (Node P α))}
    (hrec : ∀ ms s r m, recurse ms s r = .ok m →
      m.1.mpoints + mpointsList m.2.2 = s.mpoints + r.mpoints)
    (rs : List (Node P α)) (st st' : MergeState P α)
    (h : classify dist base recurse rs st = .ok st') :
    st'.p.mpoints + mpointsList st'.sepcov + mpointsList st'.uncovered +
        mpointsList st'.leftovers =
      st.p.mpoints + mpointsList st.sepcov + mpointsList st.uncovered +
        mpointsList st.leftovers + mpointsList rs := by
  induction rs generalizing st with
  | nil =>
    simp only [classify, pure, Except.pure] at h
    injection h with h
    subst h
    simp
  | cons r rest ih =>
    simp only [classify] at h
    obtain ⟨cd, -, h⟩ := bind_eq_ok h
    split at h
    · obtain ⟨found, -, h⟩ := bind_eq_ok h
      cases found with
      | some i =>
        simp only at h
        cases hs : st.p.children[i]? with
        | none => rw [hs] at h; cases h
        | some s =>
          rw [hs] at h
          simp only at h
          obtain ⟨m, hm, h⟩ := bind_eq_ok h
          rw [ih _ h]
          simp only [mpoints_setChildren, mpointsList_append, mpointsList_cons]
          have h1 := hrec _ _ _ _ hm
          have h2 := mpointsList_set m.1 hs
          rw [mpoints_eq st.p]
          have h3 : st.p._p ::ₘ mpointsList (st.p.children.set i m.1) + mpointsList m.2.2 =
              st.p._p ::ₘ mpointsList st.p.children + r.mpoints := by
            rw [Multiset.cons_add, Multiset.cons_add]
            congr 1
            have : mpointsList (st.p.children.set i m.1) + mpointsList m.2.2 + s.mpoints =
                mpointsList st.p.children + r.mpoints + s.mpoints := by
              rw [add_right_comm, h2, add_assoc, h1, add_assoc, add_comm s.mpoints]
            exact add_right_cancel this
          calc st.p._p ::ₘ mpointsList (st.p.children.set i m.1) + mpointsList st.sepcov +
                mpointsList st.uncovered + (mpointsList st.leftovers + mpointsList m.2.2) +
                mpointsList rest
              = (st.p._p ::ₘ mpointsList (st.p.children.set i m.1) + mpointsList m.2.2) +
                mpointsList st.sepcov + mpointsList st.uncovered + mpointsList st.leftovers +
                mpointsList rest := by abel
            _ = st.p._p ::ₘ mpointsList st.p.children + mpointsList st.sepcov +
                mpointsList st.uncovered + mpointsList st.leftovers +
                (r.mpoints + mpointsList rest) := by rw [h3]; abel
      | none =>
        simp only at h
        rw [ih _ h]
        simp only [mpointsList_append, mpointsList_cons, mpointsList_nil, add_zero]
        abel
    · rw [ih _ h]
      simp only [mpointsList_append, mpointsList_cons, mpointsList_nil, add_zero]
      abel

theorem placeLeftovers_points {dist : P → P → α} {base : α} {debug : Bool}
    (ls : List (Node P α)) (p : Node P α) (ms : Int) (unc : List (Node P α))
    (m : Node P α × Int × List (Node P α))
    (h : placeLeftovers dist base debug ls p ms unc = .ok m) :
    m.1.mpoints + mpointsList m.2.2 = p.mpoints + mpointsList unc + mpointsList ls := by
  induction ls generalizing p ms unc with
  | nil =>
    simp only [placeLeftovers, pure, Except.pure] at h
    injection h with h
    subst h
    simp
  | cons r rest ih =>
    simp only [placeLeftovers] at h
    obtain ⟨cd, -, h⟩ := bind_eq_ok h
    split at h
    · obtain ⟨m1, hm1, h⟩ := bind_eq_ok h
      rw [ih _ _ _ h, insertNode_points _ _ _ _ hm1, mpointsList_cons]
      abel
    · rw [ih _ _ _ h]
      simp only [mpointsList_append, mpointsList_cons, mpointsList_nil, add_zero]
      abel

/-- `mergeHelper(p, q)` keeps every point: those of `p` and `q` are in `p` afterwards or in the
subtrees returned as uncovered. -/
theorem mergeHelper_points {dist : P → P → α} {base : α} {debug : Bool} {junk : α}
    (fuel : Nat) (ms : Int) (p q : Node P α) (m : Node P α × Int × List (Node P α))
    (h : mergeHelper dist base debug junk fuel ms p q = .ok m) :
    m.1.mpoints + mpointsList m.2.2 = p.mpoints + q.mpoints := by
  induction fuel generalizing ms p q m with
  | zero => simp [mergeHelper] at h
  | succ fuel ih =>
    simp only [mergeHelper] at h
    obtain ⟨st, hst, h⟩ := bind_eq_ok h
    obtain ⟨m1, hm1, h⟩ := bind_eq_ok h
    have h1 := classify_points (fun ms s r m hm => ih ms s r m hm) _ _ _ hst
    simp only [mpointsList_nil, add_zero] at h1
    have h2 := inserted_mpoints (insert_inserted _ _ _ _ hm1)
    rw [placeLeftovers_points _ _ _ _ _ h, h2, mpoints_setChildren, mpointsList_append,
      mpoints_eq q]
    rw [mpoints_eq st.p] at h1
    calc q._p ::ₘ (st.p._p ::ₘ (mpointsList st.p.children + mpointsList st.sepcov)) +
          mpointsList st.uncovered + mpointsList st.leftovers
        = q._p ::ₘ (st.p._p ::ₘ mpointsList st.p.children + mpointsList st.sepcov +
          mpointsList st.uncovered + mpointsList st.leftovers) := by
            simp only [Multiset.cons_add, add_assoc]
      _ = p.mpoints + q._p ::ₘ mpointsList q.children := by
            rw [h1, Multiset.add_cons]

theorem coverWhile_points {dist : P → P → α} {base : α} {q : Node P α} (fuel : Nat)
    (root r : Node P α) (h : coverWhile dist base q fuel root = .ok r) :
    r.mpoints = root.mpoints := by
  induction fuel generalizing root with
  | zero => simp [coverWhile] at h
  | succ fuel ih =>
    simp only [coverWhile] at h
    obtain ⟨cd, -, h⟩ := bind_eq_ok h
    split at h
    · rw [ih _ h, mpoints_liftRoot]
    · simp only [pure, Except.pure] at h
      injection h with h; subst h; rfl

theorem levelWhile_points (level : Int) (fuel : Nat) (q r : Node P α)
    (h : levelWhile level fuel q = .ok r) : r.mpoints = q.mpoints := by
  induction fuel generalizing q with
  | zero => simp [levelWhile] at h
  | succ fuel ih =>
    simp only [levelWhile] at h
    split at h
    · rw [ih _ h, mpoints_liftRoot]
    · simp only [pure, Except.pure] at h
      injection h with h; subst h; rfl

theorem insertAll_points {dist : P → P → α} {base : α} {debug : Bool}
    (ls : List (Node P α)) (root : Node P α) (ms : Int) (r : Node P α × Int)
    (h : insertAll dist base debug ls root ms = .ok r) :
    r.1.mpoints = root.mpoints + mpointsList ls := by
  induction ls generalizing root ms with
  | nil =>
    simp only [insertAll, pure, Except.pure] at h
    injection h with h
    subst h
    simp
  | cons l rest ih =>
    simp only [insertAll] at h
    obtain ⟨m, hm, h⟩ := bind_eq_ok h
    rw [ih _ _ h, insertNode_points _ _ _ _ hm, mpointsList_cons, add_assoc]

theorem insertNodeLoop_ne_fuel {dist : P → P → α} {base : α} {p : Node P α}
    {recurse : Int → Node P α → Except Fault (Node P α × Int)} (ms : Int)
    (cs : List (Node P α))
    (hrec : ∀ c ∈ cs, ∀ d, recurse ms (c.setTempDist d) ≠ .error .fuel) :
    insertNodeLoop dist base p recurse ms cs ≠ .error .fuel := by
  induction cs with
  | nil => simp [insertNodeLoop, pure, Except.pure]
  | cons c cs ih =>
    simp only [insertNodeLoop]
    refine bind_ne_fuel (covdist_ne_fuel _ _) (fun cd _ => ?_)
    split
    · refine bind_ne_fuel (hrec c (List.mem_cons_self _ _) _) (fun r _ => ?_)
      simp [pure, Except.pure]
    · refine bind_ne_fuel (ih (fun x hx => hrec x (List.mem_cons_of_mem _ hx))) (fun r _ => ?_)
      simp [pure, Except.pure]

/-- The height of the receiving subtree is a sufficient budget for the internal
`insert(Node*, Node*)`. -/
theorem insertNode_ne_fuel {dist : P → P → α} {base : α} {debug : Bool} {p : Node P α}
    (fuel : Nat) (ms : Int) (current : Node P α) (hf : current.height ≤ fuel) :
    insertNode dist base debug p fuel ms current ≠ .error .fuel := by
  induction fuel generalizing ms current with
  | zero => rw [height_eq] at hf; omega
  | succ fuel ih =>
    simp only [insertNode]
    refine bind_ne_fuel (checkInput_ne_fuel _ _ _ _ _) (fun _ _ => ?_)
    refine bind_ne_fuel (insertNodeLoop_ne_fuel _ _ (fun c hc d => ih _ _ ?_)) (fun r _ => ?_)
    · have := height_child_lt hc
      rw [height_setTempDist]; omega
    · split
      · simp [pure, Except.pure]
      · split <;> simp [pure, Except.pure]

theorem findCover_ne_fuel (dist : P → P → α) (base : α) (r : Node P α) (cs : List (Node P α)) :
    findCover dist base r cs ≠ .error .fuel := by
  induction cs with
  | nil => simp [findCover, pure, Except.pure]
  | cons s rest ih =>
    simp only [findCover]
    refine bind_ne_fuel (covdist_ne_fuel _ _) (fun cd _ => ?_)
    split
    · simp [pure, Except.pure]
    · refine bind_ne_fuel ih (fun i _ => ?_)
      simp [pure, Except.pure]

theorem classify_ne_fuel {dist : P → P → α} {base : α}
    {recurse : Int → Node P α → Node P α → Except Fault (Node P α × Int × List (Node P α))}
    (rs : List (Node P α)) (hrec : ∀ r ∈ rs, ∀ ms s, recurse ms s r ≠ .error .fuel)
    (st : MergeState P α) : classify dist base recurse rs st ≠ .error .fuel := by
  induction rs generalizing st with
  | nil => simp [classify, pure, Except.pure]
  | cons r rest ih =>
    have ih' := fun st => ih (fun x hx => hrec x (List.mem_cons_of_mem _ hx)) st
    simp only [classify]
    refine bind_ne_fuel (covdist_ne_fuel _ _) (fun cd _ => ?_)
    split
    · refine bind_ne_fuel (findCover_ne_fuel _ _ _ _) (fun found _ => ?_)
      cases found with
      | some i =>
        simp only
        cases hs : st.p.children[i]? with
        | none => simp
        | some s =>
          simp only
          exact bind_ne_fuel (hrec r (List.mem_cons_self _ _) _ _) (fun m _ => ih' _)
      | none => exact ih' _
    · exact ih' _

theorem placeLeftovers_ne_fuel {dist : P → P → α} {base : α} {debug : Bool}
    (ls : List (Node P α)) (p : Node P α) (ms : Int) (unc : List (Node P α)) :
    placeLeftovers dist base debug ls p ms unc ≠ .error .fuel := by
  induction ls generalizing p ms unc with
  | nil => simp [placeLeftovers, pure, Except.pure]
  | cons r rest ih =>
    simp only [placeLeftovers]
    refine bind_ne_fuel (covdist_ne_fuel _ _) (fun cd _ => ?_)
    split
    · exact bind_ne_fuel (insertNode_ne_fuel _ _ _ (le_refl _)) (fun m _ => ih _ _ _)
    · exact ih _ _ _

/-- The height of `q` is a sufficient budget for `mergeHelper(p, q)`. -/
theorem mergeHelper_ne_fuel {dist : P → P → α} {base : α} {debug : Bool} {junk : α}
    (fuel : Nat) (ms : Int) (p q : Node P α) (hf : q.height ≤ fuel) :
    mergeHelper dist base debug junk fuel ms p q ≠ .error .fuel := by
  induction fuel generalizing ms p q with
  | zero => rw [height_eq] at hf; omega
  | succ fuel ih =>
    simp only [mergeHelper]
    refine bind_ne_fuel (classify_ne_fuel _ (fun r hr ms s => ih _ _ _ ?_) _) (fun st _ => ?_)
    · have := height_child_lt hr
      omega
    · refine bind_ne_fuel (internal_insert_ne_fuel _ _ _ (le_refl _)) (fun m _ => ?_)
      exact placeLeftovers_ne_fuel _ _ _ _

theorem coverWhile_ne_fuel {dist : P → P → α} {base : α} {q : Node P α} (fuel : Nat)
    (root : Node P α) (hf : 1025 ≤ root.level + fuel ∨ root.level < -1024) (h1 : 1 ≤ fuel) :
    coverWhile dist base q fuel root ≠ .error .fuel := by
  induction fuel generalizing root with
  | zero => omega
  | succ fuel ih =>
    simp only [coverWhile]
    refine bind_ne_fuel (covdist_ne_fuel _ _) (fun cd hcd => ?_)
    obtain ⟨-, hlo, hl⟩ := covdist_eq hcd
    split
    · apply ih
      · left; rw [level_liftRoot]; push_cast at hf ⊢; omega
      · push_cast at hf; omega
    · simp [pure, Except.pure]

theorem levelWhile_ne_fuel (level : Int) (fuel : Nat) (q : Node P α)
    (hf : level - q.level < fuel) (h1 : 1 ≤ fuel) :
    levelWhile level fuel q ≠ .error .fuel := by
  induction fuel generalizing q with
  | zero => omega
  | succ fuel ih =>
    simp only [levelWhile]
    split
    · rename_i hgt
      apply ih
      · rw [level_liftRoot]; push_cast at hf ⊢; omega
      · push_cast at hf; omega
    · simp [pure, Except.pure]

theorem insertAll_ne_fuel {dist : P → P → α} {base : α} {debug : Bool}
    (ls : List (Node P α)) (root : Node P α) (ms : Int) :
    insertAll dist base debug ls root ms ≠ .error .fuel := by
  induction ls generalizing root ms with
  | nil => simp [insertAll, pure, Except.pure]
  | cons l rest ih =>
    simp only [insertAll]
    exact bind_ne_fuel (insertNode_ne_fuel _ _ _ (le_refl _)) (fun m _ => ih _ _)

end Node

namespace CoverTree
variable {P α : Type} [LinearOrderedField α]

/-- The budgets built into the model of `merge` are sufficient: the call returns or ends in a
fault of the program. -/
theorem merge_ne_fuel {dist : P → P → α} {debug : Bool} {junk : α} (t ct : CoverTree P α) :
    t.merge dist debug junk ct ≠ .error .fuel := by
  unfold merge
  refine Node.bind_ne_fuel ?_ (fun _ _ => ?_)
  · unfold checkLevels
    split
    · split <;> (intro h; cases h)
    · intro h; cases h
  refine Node.bind_ne_fuel (Node.coverWhile_ne_fuel _ _ (by omega) (by omega)) (fun root _ => ?_)
  refine Node.bind_ne_fuel (Node.levelWhile_ne_fuel _ _ _ (by omega) (by omega)) (fun q _ => ?_)
  refine Node.bind_ne_fuel (Node.mergeHelper_ne_fuel _ _ _ _ (le_refl _)) (fun m _ => ?_)
  refine Node.bind_ne_fuel (Node.insertAll_ne_fuel _ _ _) (fun r _ => ?_)
  simp [pure, Except.pure]

/-- C10 (merge totality): `A.merge(B)` returns or ends in a fault of the program (the budgets
of the model never stop it); when it returns, the points stored in `A` are, as a multiset,
those stored in `A` and in `B` before the call; none is lost or duplicated.  This holds
whatever the levels of the two roots. -/
theorem merge_totality (dist : P → P → α) (debug : Bool) (junk : α) (t ct : CoverTree P α) :
    t.merge dist debug junk ct ≠ .error .fuel ∧
      ∀ t' : CoverTree P α, t.merge dist debug junk ct = .ok t' →
        (t'.points : Multiset P) = (t.points : Multiset P) + (ct.points : Multiset P) := by
  refine ⟨merge_ne_fuel t ct, fun t' h => ?_⟩
  unfold merge at h
  obtain ⟨u0, -, h⟩ := bind_eq_ok h
  obtain ⟨root, hroot, h⟩ := bind_eq_ok h
  obtain ⟨q, hq, h⟩ := bind_eq_ok h
  obtain ⟨m, hm, h⟩ := bind_eq_ok h
  obtain ⟨r, hr, h⟩ := bind_eq_ok h
  simp only [pure, Except.pure] at h
  injection h with h
  subst h
  have h1 := Node.coverWhile_points _ _ _ hroot
  have h2 := Node.levelWhile_points _ _ _ _ hq
  have h3 := Node.mergeHelper_points _ _ _ _ _ hm
  have h4 := Node.insertAll_points _ _ _ _ hr
  show r.1.mpoints = t.root.mpoints + ct.root.mpoints
  rw [h4, h3, h1, h2]

/-- Merging the tree built from `5/2`, `7/2`, `3` into the tree built from `1/2`, `3`, `0`
completes, and the receiver then stores the six points. -/
theorem merge_totality_witness :
    sampleUpdated.merge dist1 true 0 sampleOther = .ok sampleMerged ∧
      (sampleMerged.points : Multiset ℚ) =
        (sampleUpdated.points : Multiset ℚ) + (sampleOther.points : Multiset ℚ) :=
  ⟨by decide!,
    (merge_totality dist1 true 0 sampleUpdated sampleOther).2 sampleMerged (by decide!)⟩

end CoverTree
end ofxCoverTree

namespace ofxCoverTree
namespace Node
variable {P α : Type} [LinearOrderedField α]

theorem raise_nil (dist : P → P → α) (a : P) (u : α) : raise dist a u [] = u := rfl

theorem raise_cons (dist : P → P → α) (a : P) (u : α) (y : P) (l : List P) :
    raise dist a u (y :: l) = raise dist a (max u (dist a y)) l := rfl

theorem raise_append (dist : P → P → α) (a : P) (u : α) (l1 l2 : List P) :
    raise dist a u (l1 ++ l2) = raise dist a (raise dist a u l1) l2 := by
  unfold raise; rw [List.foldl_append]

theorem raise_max (dist : P → P → α) (a : P) (u v : α) (l : List P) :
    raise dist a (max u v) l = max (raise dist a u l) v := by
  induction l generalizing u with
  | nil => rfl
  | cons y l ih =>
    rw [raise_cons, raise_cons, ← ih]
    congr 1
    rw [max_assoc, max_comm v, ← max_assoc]

theorem le_raise (dist : P → P → α) (a : P) (u : α) (l : List P) : u ≤ raise dist a u l := by
  induction l generalizing u with
  | nil => exact le_refl _
  | cons y l ih => rw [raise_cons]; exact le_trans (le_max_left _ _) (ih _)

theorem dist_le_raise (dist : P → P → α) (a : P) (u : α) (l : List P) {y : P} (hy : y ∈ l) :
    dist a y ≤ raise dist a u l := by
  induction l generalizing u with
  | nil => cases hy
  | cons z l ih =>
    rw [raise_cons]
    rcases List.mem_cons.1 hy with rfl | hy
    · exact le_trans (le_max_right _ _) (le_raise _ _ _ _)
    · exact ih _ hy

/-- A tree with tight `maxdistUB` has sound `maxdistUB`. -/
theorem soundUB_of_tightUB {dist : P → P → α} {t : Node P α} (h : TightUB dist t) :
    SoundUB dist t := by
  intro n hn
  rw [h n hn]
  unfold tight
  refine ⟨le_raise _ _ _ _, fun d hd => ?_⟩
  exact dist_le_raise _ _ _ _ (List.mem_map.2 ⟨d, hd, rfl⟩)

theorem getAt_append (t : Node P α) (path rest : Path) :
    getAt t (path ++ rest) = (getAt t path).bind (fun x => getAt x rest) := by
  induction path generalizing t with
  | nil => simp [getAt_nil]
  | cons i more ih =>
    rw [List.cons_append, getAt_cons, getAt_cons]
    cases t.children[i]? with
    | none => rfl
    | some c => exact ih c

theorem getAt_child (t : Node P α) (path : Path) (i : Nat) :
    getAt t (path ++ [i]) = (getAt t path).bind (fun x => x.children[i]?) := by
  rw [getAt_append]
  congr 1
  funext x
  rw [getAt_cons]
  cases x.children[i]? with
  | none => rfl
  | some c => exact getAt_nil c

/-- Every node of a tree is behind a pointer, and conversely. -/
theorem mem_subtrees_iff_getAt {t n : Node P α} :
    n ∈ t.subtrees ↔ ∃ path, getAt t path = some n := by
  constructor
  · intro h
    induction t using Node.induct with
    | h p cs l u td ih =>
      rcases mem_subtrees.1 h with rfl | ⟨c, hc, hn⟩
      · exact ⟨[], getAt_nil _⟩
      · obtain ⟨path, hp⟩ := ih c hc hn
        obtain ⟨i, hi, hget⟩ := List.getElem_of_mem hc
        refine ⟨i :: path, ?_⟩
        have hi2 : cs[i]? = some c := List.getElem?_eq_some.2 ⟨hi, hget⟩
        rw [getAt_cons]
        simp only [children_mk, hi2]
        exact hp
  · rintro ⟨path, hp⟩
    induction path generalizing t with
    | nil => rw [getAt_nil] at hp; injection hp with hp; subst hp; exact self_mem_subtrees _
    | cons i rest ih =>
      rw [getAt_cons] at hp
      cases hc : t.children[i]? with
      | none => rw [hc] at hp; cases hp
      | some c =>
        rw [hc] at hp
        exact mem_subtrees.2 (Or.inr ⟨c, List.getElem?_mem hc, ih hp⟩)

theorem points_eraseUB (n : Node P α) : (eraseUB n).points = n.points := by
  unfold points
  rw [subtrees_eraseUB, List.map_map]
  apply List.map_congr_left
  intro x _
  cases x; simp [eraseUB_mk]

theorem points_of_shape {x y : Node P α} (h : eraseUB x = eraseUB y) : x.points = y.points := by
  rw [← points_eraseUB x, h, points_eraseUB]

theorem descPoints_of_shape {x y : Node P α} (h : eraseUB x = eraseUB y) :
    x.descendants.map _p = y.descendants.map _p := by
  have h1 := points_of_shape h
  unfold points at h1
  rw [subtrees_eq x, subtrees_eq y] at h1
  simp only [List.map_cons, List.cons.injEq] at h1
  exact h1.2

theorem tight_of_shape {dist : P → P → α} {x y : Node P α} (h : eraseUB x = eraseUB y) :
    tight dist x = tight dist y := by
  unfold tight
  rw [p_of_shape h, descPoints_of_shape h]

theorem descend_mono (fuel : Nat) (s : CalcState P α) (cur : Path)
    (r : CalcState P α × Path) (h : descend fuel s cur = .ok r) :
    descend (fuel + 1) s cur = .ok r := by
  induction fuel generalizing s cur with
  | zero => simp [descend] at h
  | succ fuel ih =>
    rw [descend] at h ⊢
    cases hg : getAt s.root cur with
    | none => rw [hg] at h; cases h
    | some n =>
      rw [hg] at h
      simp only at h ⊢
      split at h
      · rename_i hpos
        rw [if_pos hpos]
        exact ih _ _ h
      · rename_i hpos
        rw [if_neg hpos]
        exact h

end Node
end ofxCoverTree

namespace ofxCoverTree
namespace Node
variable {P α : Type} [LinearOrderedField α]

theorem tightAt_of_shape {dist : P → P → α} {a b : Node P α} (h : eraseUB a = eraseUB b)
    (path : Path) : tightAt dist a path = tightAt dist b path := by
  unfold tightAt
  cases ha : getAt a path with
  | none =>
    cases hb : getAt b path with
    | none => rfl
    | some y =>
      obtain ⟨x, hx, -⟩ := getAt_of_shape h.symm hb
      rw [ha] at hx; cases hx
  | some x =>
    obtain ⟨y, hy, hxy⟩ := getAt_of_shape h ha
    rw [hy]
    simp only [Option.map_some']
    rw [tight_of_shape hxy]

theorem raisedAt_of_shape {dist : P → P → α} {a b : Node P α} (h : eraseUB a = eraseUB b)
    (l : List P) (old : Option α) (path : Path) :
    raisedAt dist a l old path = raisedAt dist b l old path := by
  unfold raisedAt
  cases ha : getAt a path with
  | none =>
    cases hb : getAt b path with
    | none => rfl
    | some y =>
      obtain ⟨x, hx, -⟩ := getAt_of_shape h.symm hb
      rw [ha] at hx; cases hx
  | some x =>
    obtain ⟨y, hy, hxy⟩ := getAt_of_shape h ha
    rw [hy]
    simp only [Option.some_bind]
    rw [p_of_shape hxy]

theorem raisedAt_nil (dist : P → P → α) (t : Node P α) (path : Path) :
    raisedAt dist t [] (ubAt t path) path = ubAt t path := by
  unfold raisedAt ubAt
  cases getAt t path with
  | none => rfl
  | some x => simp [raise_nil]

theorem raisedAt_append (dist : P → P → α) (t : Node P α) (l1 l2 : List P) (old : Option α)
    (path : Path) :
    raisedAt dist t l2 (raisedAt dist t l1 old path) path =
      raisedAt dist t (l1 ++ l2) old path := by
  unfold raisedAt
  cases getAt t path with
  | none => rfl
  | some x =>
    cases old with
    | none => rfl
    | some u => simp [raise_append]

theorem raisedAt_self (dist : P → P → α) (t : Node P α) (q : P) (old : Option α)
    (path : Path) :
    raisedAt dist t [q] (raisedAt dist t [q] old path) path = raisedAt dist t [q] old path := by
  unfold raisedAt
  cases getAt t path with
  | none => rfl
  | some x =>
    cases old with
    | none => rfl
    | some u => simp [raise_cons, raise_nil]

/-- The loop over `active` raises the field of every node on `active` by the distance to
`current`, and changes no other field. -/
theorem updateActive_spec (dist : P → P → α) (cur : Path) (c : Node P α) (act : List Path)
    (t r : Node P α) (hc : getAt t cur = some c)
    (h : updateActive dist cur act t = .ok r) :
    eraseUB r = eraseUB t ∧
      (∀ path ∈ act, ubAt r path = raisedAt dist t [c._p] (ubAt t path) path) ∧
      (∀ path, path ∉ act → ubAt r path = ubAt t path) := by
  induction act generalizing t c with
  | nil =>
    simp only [updateActive] at h
    injection h with h; subst h
    exact ⟨rfl, fun _ hp => absurd hp (List.not_mem_nil _), fun _ _ => rfl⟩
  | cons n rest ih =>
    simp only [updateActive] at h
    split at h
    · rename_i a c2 ha hc2
      rw [hc] at hc2
      injection hc2 with hc2; subst hc2
      have hshape1 : eraseUB (modifyAt (fun m => m.setMaxdistUB
          (max m.maxdistUB (dist a._p c._p))) t n) = eraseUB t :=
        eraseUB_modifyAt _ (fun m => eraseUB_setMaxdistUB m _) _ _
      obtain ⟨c1, hc1, hcc1⟩ := getAt_of_shape hshape1.symm hc
      obtain ⟨hs, hin, hout⟩ := ih c1 _ hc1 h
      have hp1 : c1._p = c._p := (p_of_shape hcc1).symm
      have hn : ubAt (modifyAt (fun m => m.setMaxdistUB
          (max m.maxdistUB (dist a._p c._p))) t n) n =
          raisedAt dist t [c._p] (ubAt t n) n := by
        rw [ubAt_modify_ub, if_pos rfl, ha]
        simp [raisedAt, ubAt, ha, raise_cons, raise_nil]
      have hne : ∀ path, path ≠ n → ubAt (modifyAt (fun m => m.setMaxdistUB
          (max m.maxdistUB (dist a._p c._p))) t n) path = ubAt t path := by
        intro path hpn
        rw [ubAt_modify_ub, if_neg hpn]
      refine ⟨hs.trans hshape1, ?_, ?_⟩
      · intro path hpath
        by_cases hr : path ∈ rest
        · rw [hin path hr, hp1, raisedAt_of_shape hshape1]
          by_cases hpn : path = n
          · subst hpn
            rw [hn, raisedAt_self]
          · rw [hne path hpn]
        · have hpn : path = n := by
            rcases List.mem_cons.1 hpath with h1 | h1
            · exact h1
            · exact absurd h1 hr
          subst hpn
          rw [hout path hr, hn]
      · intro path hpath
        have hr : path ∉ rest := fun h1 => hpath (List.mem_cons_of_mem _ h1)
        have hpn : path ≠ n := fun h1 => hpath (h1 ▸ List.mem_cons_self _ _)
        rw [hout path hr, hne path hpn]
    · cases h

theorem height_pos (t : Node P α) : ∃ k, t.height = k + 1 := by
  refine ⟨heightList t.children, ?_⟩
  rw [height_eq]; omega

/-- A round of `calc_maxdist` at a leaf that has `maxdistUB == 0`. -/
theorem calcLoop_leaf (dist : P → P → α) (f : Nat) (t x r : Node P α) (cur : Path)
    (rest act : List Path) (hx : getAt t cur = some x) (hc : x.children = [])
    (hu : x.maxdistUB = 0) (h : calcLoop dist (f + 1) ⟨t, cur :: rest, act⟩ = .ok r) :
    ∃ t1, updateActive dist cur act.reverse t = .ok t1 ∧
      calcLoop dist f ⟨t1, rest, act⟩ = .ok r := by
  simp only [calcLoop, hx] at h
  obtain ⟨s1, hs1, h⟩ := bind_eq_ok h
  unfold calcStep at hs1
  obtain ⟨r1, hr1, hs1⟩ := bind_eq_ok hs1
  obtain ⟨root, hroot, hs1⟩ := bind_eq_ok hs1
  simp only [pure, Except.pure] at hs1
  injection hs1 with hs1; subst hs1
  unfold visit at hr1
  rw [if_pos hu] at hr1
  obtain ⟨k, hk⟩ := height_pos t
  simp only [hk, descend, hx, hc, List.length_nil, gt_iff_lt, lt_self_iff_false,
    if_false] at hr1
  injection hr1 with hr1; subst hr1
  exact ⟨root, hroot, h⟩

/-- A round of `calc_maxdist` at a node that has `maxdistUB != 0`. -/
theorem calcLoop_close (dist : P → P → α) (f : Nat) (t x r : Node P α) (cur a : Path)
    (rest act : List Path) (hx : getAt t cur = some x)
    (hu : x.maxdistUB ≠ 0) (h : calcLoop dist (f + 1) ⟨t, cur :: rest, a :: act⟩ = .ok r) :
    ∃ t1, updateActive dist cur act.reverse t = .ok t1 ∧
      calcLoop dist f ⟨t1, rest, act⟩ = .ok r := by
  simp only [calcLoop, hx] at h
  obtain ⟨s1, hs1, h⟩ := bind_eq_ok h
  unfold calcStep at hs1
  obtain ⟨r1, hr1, hs1⟩ := bind_eq_ok hs1
  obtain ⟨root, hroot, hs1⟩ := bind_eq_ok hs1
  simp only [pure, Except.pure] at hs1
  injection hs1 with hs1; subst hs1
  unfold visit at hr1
  rw [if_neg hu] at hr1
  injection hr1 with hr1; subst hr1
  exact ⟨root, hroot, h⟩

theorem childPaths_succ (cur : Path) (n : Nat) :
    childPaths cur (n + 1) = (cur ++ [0]) :: (childPaths cur (n + 1)).drop 1 := by
  unfold childPaths
  rw [List.range_succ_eq_map]
  rfl

theorem childPaths_drop (cur : Path) (n j : Nat) (h : j < n) :
    (childPaths cur n).drop j = (cur ++ [j]) :: (childPaths cur n).drop (j + 1) := by
  unfold childPaths
  rw [List.drop_eq_getElem_cons (by simpa using h)]
  simp

theorem childPaths_drop_all (cur : Path) (n : Nat) : (childPaths cur n).drop n = [] := by
  apply List.drop_of_length_le
  simp [childPaths]

/-- A round of `calc_maxdist` at a node that has `maxdistUB == 0` and children continues as a
round at its first child, with the node on `active`, its children reset and on `travel`. -/
theorem calcLoop_expand (dist : P → P → α) (f : Nat) (t x r : Node P α) (cur : Path)
    (rest act : List Path) (hx : getAt t cur = some x) (hc : 0 < x.children.length)
    (hu : x.maxdistUB = 0) (h : calcLoop dist (f + 1) ⟨t, cur :: rest, act⟩ = .ok r) :
    calcLoop dist (f + 1) ⟨modifyAt resetChildren t cur,
      childPaths cur x.children.length ++ cur :: rest, cur :: act⟩ = .ok r := by
  have hshape : eraseUB (modifyAt resetChildren t cur) = eraseUB t := by
    apply eraseUB_modifyAt
    intro m
    rw [eraseUB_eq, eraseUB_eq m]
    simp [resetChildren, List.map_map, Function.comp_def, eraseUB_setMaxdistUB]
  obtain ⟨c0, hc0⟩ : ∃ c0, x.children[0]? = some c0 :=
    ⟨x.children[0], List.getElem?_eq_getElem hc⟩
  have hg0 : getAt t (cur ++ [0]) = some c0 := by rw [getAt_child, hx]; exact hc0
  obtain ⟨c1, hc1, -⟩ := getAt_of_shape hshape.symm hg0
  have hub : c1.maxdistUB = 0 := by
    have h1 := ubAt_modify_reset t cur (cur ++ [0])
    rw [if_pos ⟨0, rfl⟩] at h1
    unfold ubAt at h1
    rw [hc1, hg0] at h1
    simpa using h1
  obtain ⟨n, hn⟩ : ∃ n, x.children.length = n + 1 := ⟨x.children.length - 1, by omega⟩
  simp only [calcLoop, hx] at h
  obtain ⟨s1, hs1, h⟩ := bind_eq_ok h
  unfold calcStep at hs1
  obtain ⟨r1, hr1, hs1⟩ := bind_eq_ok hs1
  unfold visit at hr1
  rw [if_pos hu] at hr1
  obtain ⟨k, hk⟩ := height_pos t
  simp only [hk, descend, hx, gt_iff_lt, hc, if_true] at hr1
  have hr2 := descend_mono _ _ _ _ hr1
  rw [hn, childPaths_succ]
  simp only [calcLoop, List.cons_append, hc1]
  have hstep : calcStep dist ⟨modifyAt resetChildren t cur,
      (cur ++ [0]) :: ((childPaths cur (n + 1)).drop 1 ++ cur :: rest), cur :: act⟩
      (cur ++ [0]) c1 = .ok s1 := by
    unfold calcStep visit
    rw [if_pos hub]
    simp only
    rw [height_of_shape hshape, hk]
    rw [hn, childPaths_succ] at hr2
    simp only [List.cons_append] at hr2
    rw [hr2]
    exact hs1
  rw [hstep]
  exact h

theorem prefix_child_inj {cur path : Path} {i j : Nat} (hi : (cur ++ [i]) <+: path)
    (hj : (cur ++ [j]) <+: path) : i = j := by
  have h1 : (cur ++ [i]) <+: (cur ++ [j]) :=
    List.prefix_of_prefix_length_le hi hj (by simp)
  have h2 := h1.eq_of_length (by simp)
  simpa using h2

theorem prefix_cases {cur path : Path} (h : cur <+: path) :
    path = cur ∨ ∃ i, (cur ++ [i]) <+: path := by
  obtain ⟨rest, rfl⟩ := h
  cases rest with
  | nil => left; simp
  | cons i more =>
    right
    exact ⟨i, ⟨more, by simp⟩⟩

theorem prefix_of_child {cur path : Path} {i : Nat} (h : (cur ++ [i]) <+: path) :
    cur <+: path :=
  (List.prefix_append cur [i]).trans h

theorem not_child_prefix_of_prefix {cur a : Path} {i : Nat} (ha : a <+: cur) :
    ¬ (cur ++ [i]) <+: a := by
  intro h
  have h1 := ha.length_le
  have h2 := h.length_le
  simp at h2
  omega

end Node
end ofxCoverTree

namespace ofxCoverTree
namespace Node
variable {P α : Type} [LinearOrderedField α]

theorem getAt_none_of_child {t x : Node P α} {cur path : Path} {i : Nat}
    (hx : getAt t cur = some x) (hi : x.children[i]? = none) (h : (cur ++ [i]) <+: path) :
    getAt t path = none := by
  obtain ⟨rest, rfl⟩ := h
  rw [getAt_append, getAt_child, hx]
  simp [hi]

theorem descPoints_list_of_shape {cs cs' : List (Node P α)}
    (h : cs.map eraseUB = cs'.map eraseUB) :
    (subtreesList cs).map _p = (subtreesList cs').map _p := by
  induction cs generalizing cs' with
  | nil =>
    cases cs' with
    | nil => rfl
    | cons c' cs' => simp at h
  | cons c cs ih =>
    cases cs' with
    | nil => simp at h
    | cons c' cs' =>
      simp only [List.map_cons, List.cons.injEq] at h
      simp only [subtreesList_cons, List.map_append]
      rw [ih h.2]
      congr 1
      exact points_of_shape h.1

theorem descPoints_drop_of_shape {x y : Node P α} (h : eraseUB x = eraseUB y) (m : Nat) :
    (subtreesList (x.children.drop m)).map _p = (subtreesList (y.children.drop m)).map _p := by
  apply descPoints_list_of_shape
  have h1 := congrArg children h
  rw [children_eraseUB, children_eraseUB] at h1
  rw [List.map_drop, List.map_drop, h1]

theorem raisedAt_swap (dist : P → P → α) (t : Node P α) (l : List P) (q : P)
    (old : Option α) (path : Path) :
    raisedAt dist t (l ++ [q]) old path = raisedAt dist t (q :: l) old path := by
  unfold raisedAt
  cases getAt t path with
  | none => rfl
  | some x =>
    cases old with
    | none => rfl
    | some u =>
      simp only [Option.some_bind, Option.map_some']
      rw [raise_append, raise_cons, raise_cons, raise_nil, raise_max]

theorem regular_iff (dist : P → P → α) (x : Node P α) :
    Regular dist x ↔
      (x.children ≠ [] → tight dist x ≠ 0) ∧ ∀ c ∈ x.children, Regular dist c := by
  unfold Regular
  constructor
  · intro h
    exact ⟨h x (self_mem_subtrees x),
      fun c hc n hn => h n (mem_subtrees.2 (Or.inr ⟨c, hc, hn⟩))⟩
  · rintro ⟨h1, h2⟩ n hn
    rcases mem_subtrees.1 hn with rfl | ⟨c, hc, hn⟩
    · exact h1
    · exact h2 c hc n hn

theorem regular_of_shape {dist : P → P → α} {x y : Node P α} (h : eraseUB x = eraseUB y)
    (hx : Regular dist x) : Regular dist y := by
  intro n hn hc
  obtain ⟨path, hpath⟩ := mem_subtrees_iff_getAt.1 hn
  obtain ⟨m, hm, hsh⟩ := getAt_of_shape h.symm hpath
  have hm2 : m ∈ x.subtrees := mem_subtrees_iff_getAt.2 ⟨path, hm⟩
  have hcm : m.children ≠ [] := by
    intro h0
    apply hc
    have := length_of_shape hsh
    rw [h0] at this
    exact List.length_eq_zero.1 this
  rw [tight_of_shape hsh]
  exact hx m hm2 hcm

theorem regular_drop_of_shape {dist : P → P → α} {x y : Node P α}
    (h : eraseUB x = eraseUB y) (m : Nat)
    (hx : ∀ c ∈ x.children.drop m, Regular dist c) :
    ∀ c ∈ y.children.drop m, Regular dist c := by
  intro c hc
  obtain ⟨i, hi, hget⟩ := List.getElem_of_mem hc
  have h1 := congrArg children h
  rw [children_eraseUB, children_eraseUB] at h1
  have h2 := congrArg (fun l : List (Node P α) => (l.drop m)[i]?) h1
  simp only [← List.map_drop, List.getElem?_map] at h2
  rw [List.getElem?_eq_getElem hi, hget] at h2
  cases hxi : (x.children.drop m)[i]? with
  | none => rw [hxi] at h2; simp at h2
  | some d =>
    rw [hxi] at h2
    simp only [Option.map_some', Option.some.injEq] at h2
    exact regular_of_shape h2 (hx d (List.getElem?_mem hxi))

/-- The stretch of `calc_maxdist` that works through the children `j`, `j + 1`, ... of a
node, which are on top of `travel` with `maxdistUB == 0`. -/
theorem children_segment (dist : P → P → α) (h : Nat) (hA : SegmentSpec dist h) :
    ∀ (k : Nat) (x t r : Node P α) (cur : Path) (rest act : List Path) (fuel j : Nat),
      x.height ≤ h + 1 → getAt t cur = some x → j + k = x.children.length →
      (∀ i, j ≤ i → i < x.children.length → ubAt t (cur ++ [i]) = some 0) →
      (∀ a ∈ act, a <+: cur) →
      calcLoop dist fuel
        ⟨t, (childPaths cur x.children.length).drop j ++ cur :: rest, act⟩ = .ok r →
      ∃ t1 fuel1, fuel1 ≤ fuel ∧ (0 < k → fuel1 < fuel) ∧
        (∀ c ∈ x.children.drop j, Regular dist c) ∧
        Processed dist (fun path => ∃ i, j ≤ i ∧ (cur ++ [i]) <+: path) act
          ((subtreesList (x.children.drop j)).map _p) t t1 ∧
        calcLoop dist fuel1 ⟨t1, cur :: rest, act⟩ = .ok r := by
  intro k
  induction k with
  | zero =>
    intro x t r cur rest act fuel j hh hx hjk hfresh hact hrun
    have hj : j = x.children.length := by omega
    subst hj
    rw [childPaths_drop_all, List.nil_append] at hrun
    refine ⟨t, fuel, le_refl _, fun h0 => absurd h0 (lt_irrefl 0), ?_, ⟨rfl, ?_, ?_, ?_⟩,
      hrun⟩
    · intro c hc
      rw [List.drop_length] at hc
      exact absurd hc (List.not_mem_nil _)
    · rintro path ⟨i, hi, hpre⟩
      have hnone : x.children[i]? = none := List.getElem?_eq_none hi
      have := getAt_none_of_child hx hnone hpre
      simp [ubAt, tightAt, this]
    · intro path _ _
      rw [List.drop_length, subtreesList_nil, List.map_nil, raisedAt_nil]
    · intro path _ _
      rfl
  | succ k ih =>
    intro x t r cur rest act fuel j hh hx hjk hfresh hact hrun
    have hj : j < x.children.length := by omega
    have hcj : x.children[j]? = some x.children[j] := List.getElem?_eq_getElem hj
    have hgj : getAt t (cur ++ [j]) = some x.children[j] := by
      rw [getAt_child, hx]; exact hcj
    have huj : (x.children[j]).maxdistUB = 0 := by
      have := hfresh j (le_refl _) hj
      unfold ubAt at this
      rw [hgj] at this
      simpa using this
    have hhj : (x.children[j]).height ≤ h := by
      have := height_child_lt (List.getElem_mem hj)
      omega
    have hactj : ∀ a ∈ act, a <+: (cur ++ [j]) ∧ a ≠ cur ++ [j] := by
      intro a ha
      refine ⟨(hact a ha).trans (List.prefix_append _ _), ?_⟩
      intro heq
      have := (hact a ha).length_le
      rw [heq] at this
      simp at this
    rw [childPaths_drop _ _ _ hj, List.cons_append] at hrun
    obtain ⟨ta, fa, hfa, hrega, pa, hruna⟩ := hA _ _ _ _ _ _ _ hhj hgj huj hactj hrun
    obtain ⟨xa, hxa, hshx⟩ := getAt_of_shape pa.shape.symm hx
    have hlen : xa.children.length = x.children.length := (length_of_shape hshx).symm
    have hha : xa.height ≤ h + 1 := by rw [← height_of_shape hshx]; exact hh
    have hfresh2 : ∀ i, j + 1 ≤ i → i < xa.children.length →
        ubAt ta (cur ++ [i]) = some 0 := by
      intro i hji hi
      rw [pa.frame]
      · exact hfresh i (by omega) (by omega)
      · intro hpre
        have := prefix_child_inj hpre (List.prefix_refl _)
        omega
      · intro hmem
        have := (hact _ hmem).length_le
        simp at this
    rw [← hlen] at hruna
    obtain ⟨t1, f1, hf1, -, hregb, pb, hrun1⟩ :=
      ih xa ta r cur rest act fa (j + 1) hha hxa (by omega) hfresh2 hact hruna
    refine ⟨t1, f1, by omega, fun _ => by omega, ?_, ⟨pb.shape.trans pa.shape, ?_, ?_, ?_⟩,
      hrun1⟩
    · intro c hc
      rw [List.drop_eq_getElem_cons hj] at hc
      rcases List.mem_cons.1 hc with rfl | hc
      · exact hrega
      · exact regular_drop_of_shape hshx.symm (j + 1) hregb c hc
    · rintro path ⟨i, hi, hpre⟩
      by_cases hij : i = j
      · subst hij
        rw [pb.frame, pa.done path hpre]
        · rintro ⟨i2, hi2, hpre2⟩
          have := prefix_child_inj hpre hpre2
          omega
        · intro hmem
          exact not_child_prefix_of_prefix (hact _ hmem) hpre
      · rw [pb.done path ⟨i, by omega, hpre⟩]
        exact tightAt_of_shape pa.shape path
    · intro path hnot hmem
      have hna : ¬ (cur ++ [j]) <+: path := fun hpre => hnot ⟨j, le_refl _, hpre⟩
      have hnb : ¬ ∃ i, j + 1 ≤ i ∧ (cur ++ [i]) <+: path := by
        rintro ⟨i, hi, hpre⟩
        exact hnot ⟨i, by omega, hpre⟩
      rw [pb.raised path hnb hmem, pa.raised path hna hmem, raisedAt_of_shape pa.shape,
        raisedAt_append]
      congr 1
      rw [List.drop_eq_getElem_cons hj, subtreesList_cons, List.map_append,
        descPoints_drop_of_shape hshx]
      rfl
    · intro path hnot hmem
      have hna : ¬ (cur ++ [j]) <+: path := fun hpre => hnot ⟨j, le_refl _, hpre⟩
      have hnb : ¬ ∃ i, j + 1 ≤ i ∧ (cur ++ [i]) <+: path := by
        rintro ⟨i, hi, hpre⟩
        exact hnot ⟨i, by omega, hpre⟩
      rw [pb.frame path hnb hmem, pa.frame path hna hmem]

/-- A round of `calc_maxdist` at a node that has `maxdistUB == 0` and children leads to the
round in which the node is on top of `travel` again, after all its descendants. -/
theorem expand_children (dist : P → P → α) (h : Nat) (hA : SegmentSpec dist h)
    (x t r : Node P α) (cur : Path) (rest act : List Path) (f : Nat)
    (hh : x.height ≤ h + 1) (hx : getAt t cur = some x) (hc : 0 < x.children.length)
    (hu : x.maxdistUB = 0) (hact : ∀ a ∈ act, a <+: cur)
    (hrun : calcLoop dist (f + 1) ⟨t, cur :: rest, act⟩ = .ok r) :
    ∃ t2 f2 x2, f2 < f + 1 ∧ calcLoop dist f2 ⟨t2, cur :: rest, cur :: act⟩ = .ok r ∧
      getAt t2 cur = some x2 ∧ eraseUB x = eraseUB x2 ∧ x2.maxdistUB = tight dist x ∧
      (∀ c ∈ x.children, Regular dist c) ∧
      Processed dist (fun path => ∃ i, (cur ++ [i]) <+: path) (cur :: act)
        (x.descendants.map _p) t t2 := by
  have hexp := calcLoop_expand dist f t x r cur rest act hx hc hu hrun
  have hshape : eraseUB (modifyAt resetChildren t cur) = eraseUB t := by
    apply eraseUB_modifyAt
    intro m
    rw [eraseUB_eq, eraseUB_eq m]
    simp [resetChildren, List.map_map, Function.comp_def, eraseUB_setMaxdistUB]
  obtain ⟨x1, hx1, hsh1⟩ := getAt_of_shape hshape.symm hx
  have hlen : x1.children.length = x.children.length := (length_of_shape hsh1).symm
  have hfresh : ∀ i, 0 ≤ i → i < x1.children.length →
      ubAt (modifyAt resetChildren t cur) (cur ++ [i]) = some 0 := by
    intro i _ hi
    rw [ubAt_modify_reset, if_pos ⟨i, rfl⟩]
    unfold ubAt
    rw [getAt_child, hx]
    have hi2 : i < x.children.length := by omega
    simp [List.getElem?_eq_getElem hi2]
  have hact1 : ∀ a ∈ cur :: act, a <+: cur := by
    intro a ha
    rcases List.mem_cons.1 ha with rfl | ha
    · exact List.prefix_refl _
    · exact hact a ha
  rw [← hlen] at hexp
  obtain ⟨t2, f2, -, hlt, hreg, pb, hrun2⟩ :=
    children_segment dist h hA x1.children.length x1 _ r cur rest (cur :: act) (f + 1) 0
      (by rw [← height_of_shape hsh1]; exact hh) hx1 (by omega) hfresh hact1
      (by rw [List.drop_zero]; exact hexp)
  obtain ⟨x2, hx2, hsh2⟩ := getAt_of_shape pb.shape.symm hx1
  have hnotc : ¬ ∃ i, 0 ≤ i ∧ (cur ++ [i]) <+: cur := by
    rintro ⟨i, -, hpre⟩
    exact not_child_prefix_of_prefix (List.prefix_refl cur) hpre
  have hreset : ∀ path, (¬ ∃ i, (cur ++ [i]) <+: path) →
      ubAt (modifyAt resetChildren t cur) path = ubAt t path := by
    intro path hnot
    rw [ubAt_modify_reset, if_neg]
    rintro ⟨i, rfl⟩
    exact hnot ⟨i, List.prefix_refl _⟩
  have hdesc : (subtreesList (x1.children.drop 0)).map _p = x.descendants.map _p := by
    rw [List.drop_zero]
    exact (descPoints_of_shape hsh1).symm
  have hub2 : x2.maxdistUB = tight dist x := by
    have h1 := pb.raised cur hnotc (List.mem_cons_self _ _)
    rw [hreset cur (fun ⟨i, hpre⟩ => hnotc ⟨i, Nat.zero_le _, hpre⟩), hdesc,
      raisedAt_of_shape hshape] at h1
    unfold ubAt raisedAt at h1
    rw [hx2, hx] at h1
    simp only [Option.map_some', Option.some_bind, Option.some.injEq, hu] at h1
    rw [h1]
    rfl
  refine ⟨t2, f2, x2, hlt (by omega), hrun2, hx2, hsh1.trans hsh2, hub2, ?_,
    ⟨pb.shape.trans hshape, ?_, ?_, ?_⟩⟩
  · have := regular_drop_of_shape hsh1.symm 0 hreg
    simpa using this
  · rintro path ⟨i, hpre⟩
    rw [pb.done path ⟨i, Nat.zero_le _, hpre⟩]
    exact tightAt_of_shape hshape path
  · intro path hnot hmem
    rw [pb.raised path (fun ⟨i, _, hpre⟩ => hnot ⟨i, hpre⟩) hmem, hreset path hnot, hdesc,
      raisedAt_of_shape hshape]
  · intro path hnot hmem
    rw [pb.frame path (fun ⟨i, _, hpre⟩ => hnot ⟨i, hpre⟩) hmem, hreset path hnot]

/-- A node with children that still has `maxdistUB == 0` when it is on top of `travel` after
its descendants is expanded again, and so on: the run does not return. -/
theorem calcLoop_diverges (dist : P → P → α) (h : Nat) (hA : SegmentSpec dist h) :
    ∀ (fuel : Nat) (x t r : Node P α) (cur : Path) (rest act : List Path),
      x.height ≤ h + 1 → getAt t cur = some x → 0 < x.children.length →
      x.maxdistUB = 0 → tight dist x = 0 → (∀ a ∈ act, a <+: cur) →
      calcLoop dist fuel ⟨t, cur :: rest, act⟩ ≠ .ok r := by
  intro fuel
  induction fuel using Nat.strong_induction_on with
  | _ fuel ih =>
    intro x t r cur rest act hh hx hc hu ht hact hrun
    cases fuel with
    | zero => simp [calcLoop] at hrun
    | succ f =>
      obtain ⟨t2, f2, x2, hlt, hrun2, hx2, hsh, hub2, -, -⟩ :=
        expand_children dist h hA x t r cur rest act f hh hx hc hu hact hrun
      have hact1 : ∀ a ∈ cur :: act, a <+: cur := by
        intro a ha
        rcases List.mem_cons.1 ha with rfl | ha
        · exact List.prefix_refl _
        · exact hact a ha
      exact ih f2 hlt x2 t2 r cur rest (cur :: act)
        (by rw [← height_of_shape hsh]; exact hh) hx2
        (by rw [← length_of_shape hsh]; exact hc) (by rw [hub2, ht])
        (by rw [← tight_of_shape hsh]; exact ht) hact1 hrun2

theorem segmentSpec_succ (dist : P → P → α) (h : Nat) (hA : SegmentSpec dist h) :
    SegmentSpec dist (h + 1) := by
  intro x t r cur rest act fuel hh hx hu hact hrun
  have hnotin : ∀ path, cur <+: path → path ∉ act := by
    intro path hpre hmem
    obtain ⟨h1, h2⟩ := hact path hmem
    exact h2 (List.IsPrefix.eq_of_length h1 (le_antisymm h1.length_le hpre.length_le))
  cases fuel with
  | zero => simp [calcLoop] at hrun
  | succ f =>
    by_cases hc : x.children = []
    · obtain ⟨t1, hupd, hrun1⟩ := calcLoop_leaf dist f t x r cur rest act hx hc hu hrun
      obtain ⟨hs, hin, hout⟩ := updateActive_spec dist cur x act.reverse t t1 hx hupd
      refine ⟨t1, f, Nat.lt_succ_self _, ?_, ⟨hs, ?_, ?_, ?_⟩, hrun1⟩
      · rw [regular_iff]
        refine ⟨fun h0 => absurd hc h0, fun c hcc => ?_⟩
        rw [hc] at hcc
        exact absurd hcc (List.not_mem_nil _)
      · intro path hpre
        rw [hout path (fun hm => hnotin path hpre (List.mem_reverse.1 hm))]
        rcases prefix_cases hpre with rfl | ⟨i, hi⟩
        · unfold ubAt tightAt
          rw [hx]
          simp [hu, tight, descendants, hc, raise_nil]
        · have hnone : x.children[i]? = none := by rw [hc]; rfl
          have := getAt_none_of_child hx hnone hi
          simp [ubAt, tightAt, this]
      · intro path _ hmem
        rw [hin path (List.mem_reverse.2 hmem)]
        congr 1
        unfold points
        rw [subtrees_eq, hc]
        rfl
      · intro path _ hmem
        exact hout path (fun hm => hmem (List.mem_reverse.1 hm))
    · have hpos : 0 < x.children.length := List.length_pos.2 hc
      obtain ⟨t2, f2, x2, hlt, hrun2, hx2, hsh, hub2, hreg, p2⟩ :=
        expand_children dist h hA x t r cur rest act f hh hx hpos hu
          (fun a ha => (hact a ha).1) hrun
      have hact1 : ∀ a ∈ cur :: act, a <+: cur := by
        intro a ha
        rcases List.mem_cons.1 ha with rfl | ha
        · exact List.prefix_refl _
        · exact (hact a ha).1
      by_cases ht : tight dist x = 0
      · exact absurd hrun2 (calcLoop_diverges dist h hA f2 x2 t2 r cur rest (cur :: act)
          (by rw [← height_of_shape hsh]; exact hh) hx2
          (by rw [← length_of_shape hsh]; exact hpos) (by rw [hub2, ht])
          (by rw [← tight_of_shape hsh]; exact ht) hact1)
      · cases f2 with
        | zero => simp [calcLoop] at hrun2
        | succ f3 =>
          obtain ⟨t3, hupd, hrun3⟩ := calcLoop_close dist f3 t2 x2 r cur cur rest act hx2
            (by rw [hub2]; exact ht) hrun2
          obtain ⟨hs, hin, hout⟩ := updateActive_spec dist cur x2 act.reverse t2 t3 hx2 hupd
          refine ⟨t3, f3, by omega, (regular_iff dist x).2 ⟨fun _ => ht, hreg⟩,
            ⟨hs.trans p2.shape, ?_, ?_, ?_⟩, hrun3⟩
          · intro path hpre
            rw [hout path (fun hm => hnotin path hpre (List.mem_reverse.1 hm))]
            rcases prefix_cases hpre with rfl | hi
            · unfold ubAt tightAt
              rw [hx2, hx]
              simp [hub2]
            · exact p2.done path hi
          · intro path hnot hmem
            have hnc : ¬ ∃ i, (cur ++ [i]) <+: path :=
              fun ⟨i, hpre⟩ => hnot (prefix_of_child hpre)
            rw [hin path (List.mem_reverse.2 hmem),
              p2.raised path hnc (List.mem_cons_of_mem _ hmem),
              raisedAt_of_shape p2.shape, raisedAt_append, raisedAt_swap,
              ← p_of_shape hsh]
            congr 1
            unfold points descendants
            rw [subtrees_eq]
            rfl
          · intro path hnot hmem
            have hnc : ¬ ∃ i, (cur ++ [i]) <+: path :=
              fun ⟨i, hpre⟩ => hnot (prefix_of_child hpre)
            have hne : path ∉ cur :: act := by
              intro hm
              rcases List.mem_cons.1 hm with rfl | hm
              · exact hnot (List.prefix_refl _)
              · exact hmem hm
            rw [hout path (fun hm => hmem (List.mem_reverse.1 hm)), p2.frame path hnc hne]

theorem segmentSpec (dist : P → P → α) (h : Nat) : SegmentSpec dist h := by
  induction h with
  | zero =>
    intro x t r cur rest act fuel hh
    obtain ⟨k, hk⟩ := height_pos x
    omega
  | succ h ih => exact segmentSpec_succ dist h ih

/-- When `calc_maxdist` returns, every `maxdistUB` is tight: the largest distance from the
node to a proper descendant, `0` at a leaf. -/
theorem calc_maxdist_tight (dist : P → P → α) (fuel : Nat) (root r : Node P α)
    (h : calc_maxdist dist fuel root = .ok r) : TightUB dist r := by
  unfold calc_maxdist at h
  obtain ⟨t1, f1, -, -, p, hrun⟩ := segmentSpec dist (root.setMaxdistUB 0).height
    (root.setMaxdistUB 0) (root.setMaxdistUB 0) r [] [] [] fuel (le_refl _) (getAt_nil _)
    (by cases root; rfl) (fun a ha => absurd ha (List.not_mem_nil _)) h
  cases f1 with
  | zero => simp [calcLoop] at hrun
  | succ f1 =>
    simp only [calcLoop] at hrun
    injection hrun with hrun
    subst hrun
    intro n hn
    obtain ⟨path, hpath⟩ := mem_subtrees_iff_getAt.1 hn
    have h1 := p.done path List.nil_prefix
    obtain ⟨n0, hn0, hsh⟩ := getAt_of_shape p.shape hpath
    unfold ubAt tightAt at h1
    rw [hpath, hn0] at h1
    simp only [Option.map_some', Option.some.injEq] at h1
    rw [h1, tight_of_shape hsh]

/-- When `calc_maxdist` returns, no node of the tree that has children has all its
descendants at distance `0`. -/
theorem calc_maxdist_regular (dist : P → P → α) (fuel : Nat) (root r : Node P α)
    (h : calc_maxdist dist fuel root = .ok r) : Regular dist root := by
  unfold calc_maxdist at h
  obtain ⟨t1, f1, -, hreg, -, -⟩ := segmentSpec dist (root.setMaxdistUB 0).height
    (root.setMaxdistUB 0) (root.setMaxdistUB 0) r [] [] [] fuel (le_refl _) (getAt_nil _)
    (by cases root; rfl) (fun a ha => absurd ha (List.not_mem_nil _)) h
  exact regular_of_shape (eraseUB_setMaxdistUB root 0) hreg

end Node
end ofxCoverTree

namespace ofxCoverTree
namespace Node
variable {P α : Type} [LinearOrderedField α]

theorem getAt_prefix {t x : Node P α} {cur a : Path} (hx : getAt t cur = some x)
    (ha : a <+: cur) : ∃ y, getAt t a = some y := by
  obtain ⟨rest, rfl⟩ := ha
  rw [getAt_append] at hx
  cases hy : getAt t a with
  | none => rw [hy] at hx; cases hx
  | some y => exact ⟨y, rfl⟩

theorem height_getAt {t x : Node P α} {cur : Path} (hx : getAt t cur = some x) :
    x.height + cur.length ≤ t.height := by
  induction cur generalizing t with
  | nil =>
    rw [getAt_nil] at hx
    injection hx with hx; subst hx
    simp
  | cons i rest ih =>
    rw [getAt_cons] at hx
    cases hc : t.children[i]? with
    | none => rw [hc] at hx; cases hx
    | some c =>
      rw [hc] at hx
      have h1 := ih hx
      have h2 := height_child_lt (List.getElem?_mem hc)
      simp only [List.length_cons]
      omega

theorem eraseUB_reset (t : Node P α) (cur : Path) :
    eraseUB (modifyAt resetChildren t cur) = eraseUB t := by
  apply eraseUB_modifyAt
  intro m
  rw [eraseUB_eq, eraseUB_eq m]
  simp [resetChildren, List.map_map, Function.comp_def, eraseUB_setMaxdistUB]

/-- The loop over `active` dereferences valid pointers only. -/
theorem updateActive_total (dist : P → P → α) (cur : Path) (act : List Path) (t : Node P α)
    (hact : ∀ a ∈ act, ∃ y, getAt t a = some y) (hcur : ∃ c, getAt t cur = some c) :
    ∃ t1, updateActive dist cur act t = .ok t1 := by
  induction act generalizing t with
  | nil => exact ⟨t, rfl⟩
  | cons n rest ih =>
    obtain ⟨a, ha⟩ := hact n (List.mem_cons_self _ _)
    obtain ⟨c, hc⟩ := hcur
    simp only [updateActive, ha, hc]
    have hshape : eraseUB (modifyAt (fun m => m.setMaxdistUB
        (max m.maxdistUB (dist a._p c._p))) t n) = eraseUB t :=
      eraseUB_modifyAt _ (fun m => eraseUB_setMaxdistUB m _) _ _
    apply ih
    · intro b hb
      obtain ⟨y, hy⟩ := hact b (List.mem_cons_of_mem _ hb)
      obtain ⟨z, hz, -⟩ := getAt_of_shape hshape.symm hy
      exact ⟨z, hz⟩
    · obtain ⟨z, hz, -⟩ := getAt_of_shape hshape.symm hc
      exact ⟨z, hz⟩

/-- The inner loop of `calc_maxdist` ends within as many rounds as the node is high. -/
theorem descend_total (fuel : Nat) (s : CalcState P α) (cur : Path) (n : Node P α)
    (hn : getAt s.root cur = some n) (hf : n.height ≤ fuel) :
    ∃ r, descend fuel s cur = .ok r := by
  induction fuel generalizing s cur n with
  | zero =>
    obtain ⟨k, hk⟩ := height_pos n
    omega
  | succ fuel ih =>
    rw [descend]
    simp only [hn]
    by_cases hc : n.children.length > 0
    · rw [if_pos hc]
      have hc0 : n.children[0]? = some n.children[0] := List.getElem?_eq_getElem hc
      have hg0 : getAt s.root (cur ++ [0]) = some n.children[0] := by
        rw [getAt_child, hn]; exact hc0
      obtain ⟨c1, hc1, hsh⟩ := getAt_of_shape (eraseUB_reset s.root cur).symm hg0
      apply ih _ _ c1 hc1
      have := height_child_lt (List.getElem_mem hc)
      rw [← height_of_shape hsh]
      omega
    · rw [if_neg hc]
      exact ⟨_, rfl⟩

theorem calcLoop_leaf_eq (dist : P → P → α) (t x : Node P α) (cur : Path)
    (act : List Path) (hx : getAt t cur = some x) (hc : x.children = [])
    (hu : x.maxdistUB = 0) (hact : ∀ a ∈ act, ∃ y, getAt t a = some y) :
    ∃ t1, ∀ (rest : List Path) (k : Nat),
      calcLoop dist (k + 1) ⟨t, cur :: rest, act⟩ = calcLoop dist k ⟨t1, rest, act⟩ := by
  obtain ⟨t1, ht1⟩ := updateActive_total dist cur act.reverse t
    (fun a ha => hact a (List.mem_reverse.1 ha)) ⟨x, hx⟩
  refine ⟨t1, fun rest k => ?_⟩
  have hstep : calcStep dist ⟨t, cur :: rest, act⟩ cur x = .ok ⟨t1, rest, act⟩ := by
    unfold calcStep visit
    rw [if_pos hu]
    obtain ⟨h, hh⟩ := height_pos t
    simp only [hh, descend, hx, hc, List.length_nil, gt_iff_lt, lt_self_iff_false, if_false]
    simp only [bind, Except.bind, ht1]
    rfl
  simp only [calcLoop, hx, hstep]
  rfl

theorem calcLoop_close_eq (dist : P → P → α) (t x : Node P α) (cur a : Path)
    (act : List Path) (hx : getAt t cur = some x) (hu : x.maxdistUB ≠ 0)
    (hact : ∀ b ∈ act, ∃ y, getAt t b = some y) :
    ∃ t1, ∀ (rest : List Path) (k : Nat),
      calcLoop dist (k + 1) ⟨t, cur :: rest, a :: act⟩ = calcLoop dist k ⟨t1, rest, act⟩ := by
  obtain ⟨t1, ht1⟩ := updateActive_total dist cur act.reverse t
    (fun b hb => hact b (List.mem_reverse.1 hb)) ⟨x, hx⟩
  refine ⟨t1, fun rest k => ?_⟩
  have hstep : calcStep dist ⟨t, cur :: rest, a :: act⟩ cur x = .ok ⟨t1, rest, act⟩ := by
    unfold calcStep visit
    rw [if_neg hu]
    simp only [bind, Except.bind, ht1]
    rfl
  simp only [calcLoop, hx, hstep]
  rfl

theorem calcLoop_expand_eq (dist : P → P → α) (t x : Node P α) (cur : Path)
    (rest act : List Path) (k : Nat) (hx : getAt t cur = some x)
    (hc : 0 < x.children.length) (hu : x.maxdistUB = 0) :
    calcLoop dist (k + 1) ⟨t, cur :: rest, act⟩ =
      calcLoop dist (k + 1) ⟨modifyAt resetChildren t cur,
        childPaths cur x.children.length ++ cur :: rest, cur :: act⟩ := by
  have hshape := eraseUB_reset t cur
  have hc0 : x.children[0]? = some x.children[0] := List.getElem?_eq_getElem hc
  have hg0 : getAt t (cur ++ [0]) = some x.children[0] := by rw [getAt_child, hx]; exact hc0
  obtain ⟨c1, hc1, hsh⟩ := getAt_of_shape hshape.symm hg0
  have hub : c1.maxdistUB = 0 := by
    have h1 := ubAt_modify_reset t cur (cur ++ [0])
    rw [if_pos ⟨0, rfl⟩] at h1
    unfold ubAt at h1
    rw [hc1, hg0] at h1
    simpa using h1
  obtain ⟨n, hn⟩ : ∃ n, x.children.length = n + 1 := ⟨x.children.length - 1, by omega⟩
  obtain ⟨h, hh⟩ := height_pos t
  have hheight : c1.height ≤ h := by
    have h1 := height_getAt hc1
    rw [height_of_shape hshape, hh] at h1
    simp at h1
    omega
  obtain ⟨r, hr⟩ := descend_total h ⟨modifyAt resetChildren t cur,
    childPaths cur x.children.length ++ cur :: rest, cur :: act⟩ (cur ++ [0]) c1 hc1 hheight
  have hr2 := descend_mono _ _ _ _ hr
  have hv1 : visit ⟨t, cur :: rest, act⟩ cur x = .ok r := by
    unfold visit
    rw [if_pos hu]
    simp only [hh, descend, hx, gt_iff_lt, hc, if_true]
    exact hr
  have hv2 : visit ⟨modifyAt resetChildren t cur,
      childPaths cur x.children.length ++ cur :: rest, cur :: act⟩ (cur ++ [0]) c1 = .ok r := by
    unfold visit
    rw [if_pos hub]
    simp only
    rw [height_of_shape hshape, hh]
    exact hr2
  have hstep : calcStep dist ⟨t, cur :: rest, act⟩ cur x =
      calcStep dist ⟨modifyAt resetChildren t cur,
        childPaths cur x.children.length ++ cur :: rest, cur :: act⟩ (cur ++ [0]) c1 := by
    unfold calcStep
    rw [hv1, hv2]
  have htop : childPaths cur x.children.length ++ cur :: rest =
      (cur ++ [0]) :: ((childPaths cur x.children.length).drop 1 ++ cur :: rest) := by
    rw [hn, childPaths_succ]
    rfl
  rw [calcLoop, calcLoop]
  simp only [hx, hstep]
  rw [htop]
  simp only [hc1]

end Node
end ofxCoverTree

namespace ofxCoverTree
namespace Node
variable {P α : Type} [LinearOrderedField α]

/-- The tree that a returning stretch of `calc_maxdist` at a node leads to. -/
theorem returnSpec_processed (dist : P → P → α) (x t t1 : Node P α) (cur : Path)
    (act : List Path) (hx : getAt t cur = some x) (hu : x.maxdistUB = 0)
    (hact : ∀ a ∈ act, a <+: cur ∧ a ≠ cur)
    (hrun : ∀ (rest : List Path) (k : Nat),
      calcLoop dist (k + x.subtrees.length) ⟨t, cur :: rest, act⟩ =
        calcLoop dist k ⟨t1, rest, act⟩) :
    Processed dist (fun path => cur <+: path) act x.points t t1 := by
  have h1 := hrun [] 1
  have h2 : calcLoop dist 1 ⟨t1, [], act⟩ = .ok t1 := rfl
  rw [h2] at h1
  obtain ⟨t2, f2, -, -, p, hrun2⟩ :=
    segmentSpec dist x.height x t t1 cur [] act _ (le_refl _) hx hu hact h1
  cases f2 with
  | zero => simp [calcLoop] at hrun2
  | succ f2 =>
    simp only [calcLoop] at hrun2
    injection hrun2 with hrun2
    subst hrun2
    exact p

/-- The rounds of `calc_maxdist` that work through the children `j`, `j + 1`, ... of a node,
when their subtrees are regular. -/
theorem children_run (dist : P → P → α) (h : Nat) (hA : ReturnSpec dist h) :
    ∀ (m : Nat) (x t : Node P α) (cur : Path) (act : List Path) (j : Nat),
      x.height ≤ h + 1 → getAt t cur = some x → j + m = x.children.length →
      (∀ i, j ≤ i → i < x.children.length → ubAt t (cur ++ [i]) = some 0) →
      (∀ a ∈ act, a <+: cur) → cur ∈ act →
      (∀ c ∈ x.children.drop j, Regular dist c) →
      ∃ t1, eraseUB t1 = eraseUB t ∧
        ubAt t1 cur =
          raisedAt dist t ((subtreesList (x.children.drop j)).map _p) (ubAt t cur) cur ∧
        ∀ (rest : List Path) (k : Nat),
          calcLoop dist (k + (subtreesList (x.children.drop j)).length)
            ⟨t, (childPaths cur x.children.length).drop j ++ cur :: rest, act⟩ =
          calcLoop dist k ⟨t1, cur :: rest, act⟩ := by
  intro m
  induction m with
  | zero =>
    intro x t cur act j hh hx hjm hfresh hact hcur hreg
    have hj : j = x.children.length := by omega
    subst hj
    refine ⟨t, rfl, ?_, fun rest k => ?_⟩
    · rw [List.drop_length, subtreesList_nil, List.map_nil, raisedAt_nil]
    · rw [childPaths_drop_all, List.drop_length, subtreesList_nil]
      rfl
  | succ m ih =>
    intro x t cur act j hh hx hjm hfresh hact hcur hreg
    have hj : j < x.children.length := by omega
    have hcj : x.children[j]? = some x.children[j] := List.getElem?_eq_getElem hj
    have hgj : getAt t (cur ++ [j]) = some x.children[j] := by
      rw [getAt_child, hx]; exact hcj
    have huj : (x.children[j]).maxdistUB = 0 := by
      have := hfresh j (le_refl _) hj
      unfold ubAt at this
      rw [hgj] at this
      simpa using this
    have hhj : (x.children[j]).height ≤ h := by
      have := height_child_lt (List.getElem_mem hj)
      omega
    have hactj : ∀ a ∈ act, a <+: (cur ++ [j]) ∧ a ≠ cur ++ [j] := by
      intro a ha
      refine ⟨(hact a ha).trans (List.prefix_append _ _), ?_⟩
      intro heq
      have := (hact a ha).length_le
      rw [heq] at this
      simp at this
    have hdrop : x.children.drop j = x.children[j] :: x.children.drop (j + 1) :=
      List.drop_eq_getElem_cons hj
    have hregj : Regular dist x.children[j] := by
      apply hreg
      rw [hdrop]
      exact List.mem_cons_self _ _
    obtain ⟨ta, hruna⟩ := hA _ t (cur ++ [j]) act hhj hgj huj hregj hactj
    have pa := returnSpec_processed dist _ t ta (cur ++ [j]) act hgj huj hactj hruna
    obtain ⟨xa, hxa, hshx⟩ := getAt_of_shape pa.shape.symm hx
    have hlen : xa.children.length = x.children.length := (length_of_shape hshx).symm
    have hha : xa.height ≤ h + 1 := by rw [← height_of_shape hshx]; exact hh
    have hfresh2 : ∀ i, j + 1 ≤ i → i < xa.children.length →
        ubAt ta (cur ++ [i]) = some 0 := by
      intro i hji hi
      rw [pa.frame]
      · exact hfresh i (by omega) (by omega)
      · intro hpre
        have := prefix_child_inj hpre (List.prefix_refl _)
        omega
      · intro hmem
        have := (hact _ hmem).length_le
        simp at this
    have hreg2 : ∀ c ∈ xa.children.drop (j + 1), Regular dist c := by
      apply regular_drop_of_shape hshx (j + 1)
      intro c hc
      apply hreg
      rw [hdrop]
      exact List.mem_cons_of_mem _ hc
    obtain ⟨t1, hs1, hub1, hrun1⟩ :=
      ih xa ta cur act (j + 1) hha hxa (by omega) hfresh2 hact hcur hreg2
    have hpts : (subtreesList (xa.children.drop (j + 1))).map _p =
        (subtreesList (x.children.drop (j + 1))).map _p :=
      (descPoints_drop_of_shape hshx (j + 1)).symm
    have hcnt : (subtreesList (xa.children.drop (j + 1))).length =
        (subtreesList (x.children.drop (j + 1))).length := by
      have := congrArg List.length hpts
      simpa using this
    refine ⟨t1, hs1.trans pa.shape, ?_, fun rest k => ?_⟩
    · have hna : ¬ (cur ++ [j]) <+: cur :=
        not_child_prefix_of_prefix (List.prefix_refl cur)
      rw [hub1, pa.raised cur hna hcur, raisedAt_of_shape pa.shape, raisedAt_append, hpts,
        hdrop, subtreesList_cons, List.map_append]
      rfl
    · rw [hdrop, subtreesList_cons, List.length_append, childPaths_drop _ _ _ hj,
        List.cons_append]
      have harith : k + ((x.children[j]).subtrees.length +
          (subtreesList (x.children.drop (j + 1))).length) =
          (k + (subtreesList (x.children.drop (j + 1))).length) +
            (x.children[j]).subtrees.length := by omega
      rw [harith, hruna, ← hcnt, ← hlen]
      exact hrun1 rest k

theorem returnSpec_succ (dist : P → P → α) (h : Nat) (hA : ReturnSpec dist h) :
    ReturnSpec dist (h + 1) := by
  intro x t cur act hh hx hu hreg hact
  have hvalid : ∀ a ∈ act, ∃ y, getAt t a = some y :=
    fun a ha => getAt_prefix hx (hact a ha).1
  by_cases hc : x.children = []
  · obtain ⟨t1, hrun⟩ := calcLoop_leaf_eq dist t x cur act hx hc hu hvalid
    refine ⟨t1, fun rest k => ?_⟩
    rw [subtrees_eq, hc, subtreesList_nil]
    exact hrun rest k
  · have hpos : 0 < x.children.length := List.length_pos.2 hc
    obtain ⟨ht, hregc⟩ := (regular_iff dist x).1 hreg
    have hshape := eraseUB_reset t cur
    obtain ⟨x1, hx1, hsh1⟩ := getAt_of_shape hshape.symm hx
    have hlen : x1.children.length = x.children.length := (length_of_shape hsh1).symm
    have hfresh : ∀ i, 0 ≤ i → i < x1.children.length →
        ubAt (modifyAt resetChildren t cur) (cur ++ [i]) = some 0 := by
      intro i _ hi
      rw [ubAt_modify_reset, if_pos ⟨i, rfl⟩]
      unfold ubAt
      rw [getAt_child, hx]
      have hi2 : i < x.children.length := by omega
      simp [List.getElem?_eq_getElem hi2]
    have hact1 : ∀ a ∈ cur :: act, a <+: cur := by
      intro a ha
      rcases List.mem_cons.1 ha with rfl | ha
      · exact List.prefix_refl _
      · exact (hact a ha).1
    have hreg1 : ∀ c ∈ x1.children.drop 0, Regular dist c := by
      apply regular_drop_of_shape hsh1 0
      intro c hcm
      rw [List.drop_zero] at hcm
      exact hregc c hcm
    obtain ⟨t2, hs2, hub2, hrun2⟩ :=
      children_run dist h hA x1.children.length x1 _ cur (cur :: act) 0
        (by rw [← height_of_shape hsh1]; exact hh) hx1 (by omega) hfresh hact1
        (List.mem_cons_self _ _) hreg1
    obtain ⟨x2, hx2, hsh2⟩ := getAt_of_shape hs2.symm hx1
    have hdesc : (subtreesList (x1.children.drop 0)).map _p = x.descendants.map _p := by
      rw [List.drop_zero]
      exact (descPoints_of_shape hsh1).symm
    have hcnt : (subtreesList (x1.children.drop 0)).length =
        (subtreesList x.children).length := by
      have := congrArg List.length hdesc
      simpa [descendants] using this
    have hx2ub : x2.maxdistUB = tight dist x := by
      have hreset : ubAt (modifyAt resetChildren t cur) cur = ubAt t cur := by
        rw [ubAt_modify_reset, if_neg]
        rintro ⟨i, hi⟩
        have := congrArg List.length hi
        simp at this
      rw [hreset, hdesc, raisedAt_of_shape hshape] at hub2
      unfold ubAt raisedAt at hub2
      rw [hx2, hx] at hub2
      simp only [Option.map_some', Option.some_bind, Option.some.injEq, hu] at hub2
      rw [hub2]
      rfl
    have hvalid2 : ∀ b ∈ act, ∃ y, getAt t2 b = some y := by
      intro b hb
      exact getAt_prefix hx2 (hact b hb).1
    obtain ⟨t3, hrun3⟩ := calcLoop_close_eq dist t2 x2 cur cur act hx2
      (by rw [hx2ub]; exact ht hc) hvalid2
    refine ⟨t3, fun rest k => ?_⟩
    have harith : k + x.subtrees.length = (k + (subtreesList x.children).length) + 1 := by
      rw [subtrees_eq]
      simp only [List.length_cons]
      omega
    rw [harith, calcLoop_expand_eq dist t x cur rest act _ hx hpos hu]
    have harith2 : k + (subtreesList x.children).length + 1 =
        (k + 1) + (subtreesList (x1.children.drop 0)).length := by
      rw [hcnt]; omega
    have h2 := hrun2 rest (k + 1)
    rw [List.drop_zero, hlen] at h2
    rw [harith2, List.drop_zero]
    rw [List.drop_zero] at h2
    rw [h2]
    exact hrun3 rest k

theorem returnSpec (dist : P → P → α) (h : Nat) : ReturnSpec dist h := by
  induction h with
  | zero =>
    intro x t cur act hh
    obtain ⟨k, hk⟩ := height_pos x
    omega
  | succ h ih => exact returnSpec_succ dist h ih

/-- On a tree in which no node with children has all its descendants at distance `0`,
`calc_maxdist` returns within one round per node (and one more to leave the loop). -/
theorem calc_maxdist_returns (dist : P → P → α) (root : Node P α) (hreg : Regular dist root)
    (fuel : Nat) (hfuel : root.subtrees.length < fuel) :
    ∃ r, calc_maxdist dist fuel root = .ok r := by
  unfold calc_maxdist
  have hsh : eraseUB (root.setMaxdistUB 0) = eraseUB root := eraseUB_setMaxdistUB root 0
  have hlen : (root.setMaxdistUB 0).subtrees.length = root.subtrees.length := by
    have := congrArg List.length (points_of_shape hsh)
    simpa [points] using this
  obtain ⟨t1, hrun⟩ := returnSpec dist (root.setMaxdistUB 0).height
    (root.setMaxdistUB 0) (root.setMaxdistUB 0) [] [] (le_refl _) (getAt_nil _)
    (by cases root; rfl) (regular_of_shape hsh.symm hreg)
    (fun a ha => absurd ha (List.not_mem_nil _))
  obtain ⟨k, hk⟩ : ∃ k, fuel = (k + 1) + (root.setMaxdistUB 0).subtrees.length :=
    ⟨fuel - root.subtrees.length - 1, by omega⟩
  refine ⟨t1, ?_⟩
  rw [hk, hrun [] (k + 1)]
  rfl

end Node
end ofxCoverTree

namespace ofxCoverTree
namespace CoverTree
variable {P α : Type} [LinearOrderedField α]

/-- When `calc_maxdist` returns, every `maxdistUB` of the tree is tight. -/
theorem calc_maxdist_tightUB (dist : P → P → α) (fuel : Nat) (t t1 : CoverTree P α)
    (h : t.calc_maxdist dist fuel = .ok t1) : Node.TightUB dist t1.root := by
  unfold calc_maxdist at h
  obtain ⟨root, hroot, h⟩ := bind_eq_ok h
  simp only [pure, Except.pure] at h
  injection h with h; subst h
  exact Node.calc_maxdist_tight dist fuel _ _ hroot

/-- When `update()` returns, every `maxdistUB` of the tree is tight. -/
theorem update_tightUB (dist : P → P → α) (fuel : Nat) (t t1 : CoverTree P α)
    (h : t.update dist fuel = .ok t1) : Node.TightUB dist t1.root :=
  calc_maxdist_tightUB dist fuel t t1 h

/-- When `update()` returns, every `maxdistUB` of the tree is a sound bound. -/
theorem update_soundUB (dist : P → P → α) (fuel : Nat) (t t1 : CoverTree P α)
    (h : t.update dist fuel = .ok t1) : Node.SoundUB dist t1.root :=
  Node.soundUB_of_tightUB (update_tightUB dist fuel t t1 h)

/-- A tree returned by the batch constructor has tight `maxdistUB` fields. -/
theorem ofList_tightUB (dist : P → P → α) (debug : Bool) (junk : α) (fuel : Nat)
    (pList : List P) (base : α) (t : CoverTree P α)
    (h : ofList dist debug junk fuel pList base = .ok t) : Node.TightUB dist t.root := by
  unfold ofList at h
  split at h
  · cases h
  · obtain ⟨t0, -, h⟩ := bind_eq_ok h
    exact calc_maxdist_tightUB dist fuel t0 t h

/-- When `update()` returns, no node of the tree that has children has all its descendants
at distance `0`. -/
theorem update_regular (dist : P → P → α) (fuel : Nat) (t t1 : CoverTree P α)
    (h : t.update dist fuel = .ok t1) : Node.Regular dist t.root := by
  unfold update calc_maxdist at h
  obtain ⟨root, hroot, -⟩ := bind_eq_ok h
  exact Node.calc_maxdist_regular dist fuel _ _ hroot

/-- On a tree in which no node with children has all its descendants at distance `0`,
`update()` returns, within one round per node and one more, a tree with tight `maxdistUB`
fields. -/
theorem update_returns (dist : P → P → α) (t : CoverTree P α)
    (hreg : Node.Regular dist t.root) (fuel : Nat) (hfuel : t.root.subtrees.length < fuel) :
    ∃ t1, t.update dist fuel = .ok t1 ∧ Node.TightUB dist t1.root := by
  obtain ⟨r, hr⟩ := Node.calc_maxdist_returns dist t.root hreg fuel hfuel
  have h1 : t.update dist fuel = .ok ⟨t.base, r, t.minScale, t.maxScale⟩ := by
    unfold update calc_maxdist
    rw [hr]
    rfl
  exact ⟨_, h1, update_tightUB dist fuel t _ h1⟩

end CoverTree
end ofxCoverTree

namespace ofxCoverTree
namespace CoverTree

/-- C11 fails: `CoverTree(0)`, `insert(1)`, `insert(1/2)` with no `update()` is the chain
`0`, `1`, `1/2` in which every `maxdistUB` is `0`; on it `nearestNeighbor(2/5)` prunes the
child `1` (its `tempDist - maxdistUB` is `3/5`, not below the best distance `2/5`) and
returns `0`, at distance `2/5`, although the stored point `1/2` is at distance `1/10`. -/
theorem nearestNeighbor_wrong_without_update :
    Built dist1 true sampleStale ∧ (1/2 : ℚ) ∈ sampleStale.points ∧
      (sampleStale.nearestNeighbor dist1 (2/5)).1 = 0 ∧
      dist1 (1/2) (2/5) < dist1 (sampleStale.nearestNeighbor dist1 (2/5)).1 (2/5) := by
  refine ⟨?_, by decide!, by decide!, by decide!⟩
  exact Built.insert 0 sampleChild (1/2) sampleStale
    (Built.insert 0 (ofPoint 0 0 (13/10)) 1 sampleChild (Built.ofPoint 0 0 (13/10))
      (by decide!)) (by decide!)

/-- C17 fails: the batch constructor on the batch `[0, 0]` makes the root `0` with the child
`0` and then calls `calc_maxdist`, which does not return, whatever the budget. -/
theorem batch_constructor_diverges_on_duplicate :
    ∀ fuel, ofList dist1 true 0 fuel [0, 0] (13/10) = .error .fuel := by
  intro fuel
  have h1 : ([0, 0] : List ℚ).getLast? = some 0 := rfl
  have h2 : ([0, 0] : List ℚ).dropLast = [0] := rfl
  have h3 : (ofPoint 0 0 (13/10) : CoverTree ℚ ℚ).insert dist1 true 0 0 = .ok sampleDuplicate := by
    decide!
  unfold ofList
  simp only [h1, h2, List.foldlM_cons, List.foldlM_nil, h3, bind, Except.bind, pure, Except.pure]
  unfold calc_maxdist Node.calc_maxdist
  have h : sampleDuplicate.root.setMaxdistUB 0 = sampleDuplicate.root := by decide!
  rw [h]
  have := calcLoop_duplicate fuel 0
  simp only [List.replicate_zero] at this
  rw [this]
  rfl

/-- C18 fails: in the singleton `0` every `maxdistUB` is a bound; after `insert(1)` the root
still has `maxdistUB == 0`, below its distance `1` to its new child. -/
theorem stale_bound_unsound_after_insert :
    (ofPoint 0 0 (13/10) : CoverTree ℚ ℚ).root.SoundUB dist1 ∧
      (ofPoint 0 0 (13/10) : CoverTree ℚ ℚ).insert dist1 true 0 1 = .ok sampleChild ∧
      (Node.mk 1 [] (-1) 0 0 : Node ℚ ℚ) ∈ sampleChild.root.descendants ∧
      sampleChild.root.maxdistUB < dist1 sampleChild.root._p 1 := by
  refine ⟨?_, by decide!, by decide!, by decide!⟩
  intro n hn
  have : n = Node.mk 0 [] 0 0 0 := by simpa [ofPoint] using hn
  subst this
  refine ⟨le_refl _, fun d hd => ?_⟩
  simp [Node.descendants] at hd

/-- C19 fails: the receiver `6/5` (level `1`) above `0` and the argument `2` (level `0`) above
`3` are built by `insert`, so they are nested and separated, and they are covered; the first
loop of `merge` finds `dist(6/5, 2) <= covdist`, the second lifts the leaf `3` of the
argument to its root, at distance `9/5 > 13/10 = covdist` from the receiver's root, and the
debug check of the internal `insert` throws.  Also the leftovers are inserted at the root
without a test: merging the root `1` above `2` into the singleton `0` throws as well. -/
theorem merge_check_fails :
    (Built dist1 true sampleReceiver ∧ sampleReceiver.root.Nesting ∧
      sampleReceiver.root.Covering dist1 (13/10) ∧
      sampleReceiver.root.Separation dist1 (13/10)) ∧
    (Built dist1 true sampleArgument ∧ sampleArgument.root.Nesting ∧
      sampleArgument.root.Covering dist1 (13/10) ∧
      sampleArgument.root.Separation dist1 (13/10)) ∧
    sampleReceiver.root.level ≥ sampleArgument.root.level ∧
    Node.coverWhile dist1 (13/10) sampleArgument.root 2049 sampleReceiver.root =
      .ok sampleReceiver.root ∧
    Node.levelWhile 1 2 sampleArgument.root = .ok (Node.mk 3 [Node.mk 2 [] 0 0 1] 1 0 0) ∧
    ¬ dist1 sampleReceiver.root._p 3 ≤ (13/10) ^ sampleReceiver.root.level ∧
    sampleReceiver.merge dist1 true 0 sampleArgument = .error .wrongInput ∧
    (ofPoint 0 0 (13/10) : CoverTree ℚ ℚ).merge dist1 true 0
      ⟨13/10, Node.mk 1 [Node.mk 2 [] (-1) 0 0] 0 0 1, -1, 0⟩ = .error .wrongInput := by
  have hb1 : Built dist1 true sampleReceiver :=
    Built.insert 0 (ofPoint 0 0 (13/10)) (6/5) sampleReceiver (Built.ofPoint 0 0 (13/10))
      (by decide!)
  have hb2 : Built dist1 true sampleArgument :=
    Built.insert 0 (ofPoint 0 2 (13/10)) 3 sampleArgument (Built.ofPoint 0 2 (13/10))
      (by decide!)
  refine ⟨⟨hb1, (Node.nesting_iff_keyInv _).2 (built_keyInv hb1 _ (Node.stable_nestAt dist1 _)),
      ?_, Node.separation_of_keyInv
        (built_keyInv hb1 _ (Node.stable_nestSepAt dist1 _ dist1_comm))⟩,
    ⟨hb2, (Node.nesting_iff_keyInv _).2 (built_keyInv hb2 _ (Node.stable_nestAt dist1 _)),
      ?_, Node.separation_of_keyInv
        (built_keyInv hb2 _ (Node.stable_nestSepAt dist1 _ dist1_comm))⟩,
    by decide, by decide!, by decide!, by decide!, by decide!, by decide!⟩
  · intro n hn c hc
    have hn2 : n = sampleReceiver.root ∨ n = Node.mk 0 [] 0 0 0 := by
      simpa [sampleReceiver] using hn
    rcases hn2 with rfl | rfl
    · have : c = Node.mk 0 [] 0 0 0 := by simpa [sampleReceiver] using hc
      subst this
      decide!
    · simp at hc
  · intro n hn c hc
    have hn2 : n = sampleArgument.root ∨ n = Node.mk 3 [] (-1) 0 0 := by
      simpa [sampleArgument] using hn
    rcases hn2 with rfl | rfl
    · have : c = Node.mk 3 [] (-1) 0 0 := by simpa [sampleArgument] using hc
      subst this
      decide!
    · simp at hc

end CoverTree
end ofxCoverTree

namespace ofxCoverTree
namespace Node
variable {P α : Type} [LinearOrderedField α]

theorem nesting_iff (n : Node P α) :
    Nesting n ↔ ∀ c ∈ n.children, c.level = n.level - 1 ∧ Nesting c := by
  rw [nesting_iff_keyInv, keyInv_iff]
  constructor
  · rintro ⟨h1, h2⟩ c hc
    exact ⟨h1 c.key (List.mem_map.2 ⟨c, hc, rfl⟩), (nesting_iff_keyInv c).2 (h2 c hc)⟩
  · intro h
    refine ⟨?_, fun c hc => (nesting_iff_keyInv c).1 (h c hc).2⟩
    intro k hk
    obtain ⟨c, hc, rfl⟩ := List.mem_map.1 hk
    exact (h c hc).1

theorem nesting_setTempDist {n : Node P α} {d : α} : Nesting (n.setTempDist d) ↔ Nesting n := by
  rw [nesting_iff, nesting_iff n]; rfl

theorem level_relevel (l : Int) (n : Node P α) : (relevel l n).level = l := by
  cases n; rw [relevel_mk]; rfl

/-- The stack walk of `setChild(Node*)` leaves a nested subtree. -/
theorem nesting_relevel (n : Node P α) : ∀ l : Int, Nesting (relevel l n) := by
  induction n using Node.induct with
  | h p cs l0 u t ih =>
    intro l
    rw [relevel_mk, nesting_iff]
    simp only [children_mk, level_mk, relevelList_eq_map]
    intro c hc
    obtain ⟨x, hx, rfl⟩ := List.mem_map.1 hc
    exact ⟨level_relevel _ _, ih x hx _⟩

theorem level_setChildNode (n pIns : Node P α) : (n.setChildNode pIns).level = n.level := by
  unfold setChildNode
  split <;> rfl

theorem nesting_setChildNode {n pIns : Node P α} (hn : Nesting n) (hp : Nesting pIns) :
    Nesting (n.setChildNode pIns) := by
  rw [nesting_iff] at hn
  unfold setChildNode
  split
  · rw [nesting_iff]
    simp only [setChildren_children, setChildren_level]
    intro c hc
    rcases List.mem_append.1 hc with hc | hc
    · exact hn c hc
    · simp only [List.mem_singleton] at hc
      subst hc
      exact ⟨level_relevel _ _, nesting_relevel _ _⟩
  · rename_i hl
    rw [nesting_iff]
    simp only [setChildren_children, setChildren_level]
    intro c hc
    rcases List.mem_append.1 hc with hc | hc
    · exact hn c hc
    · simp only [List.mem_singleton] at hc
      subst hc
      exact ⟨by simpa using hl, hp⟩

theorem insertNodeLoop_nesting {dist : P → P → α} {base : α} {p : Node P α}
    {recurse : Int → Node P α → Except Fault (Node P α × Int)} {l : Int}
    (hrec : ∀ ms c r, recurse ms c = .ok r → Nesting c → r.1.level = c.level ∧ Nesting r.1)
    (ms : Int) (cs : List (Node P α)) (r : List (Node P α) × Option Int)
    (h : insertNodeLoop dist base p recurse ms cs = .ok r)
    (hcs : ∀ c ∈ cs, c.level = l ∧ Nesting c) : ∀ c ∈ r.1, c.level = l ∧ Nesting c := by
  induction cs generalizing r with
  | nil =>
    simp only [insertNodeLoop, pure, Except.pure] at h
    injection h with h
    subst h
    intro c hc; cases hc
  | cons c cs ih =>
    simp only [insertNodeLoop] at h
    obtain ⟨cd, hcd, h⟩ := bind_eq_ok h
    have hc0 := hcs c (List.mem_cons_self _ _)
    split at h
    · obtain ⟨r1, hr1, h⟩ := bind_eq_ok h
      simp only [pure, Except.pure] at h
      injection h with h
      subst h
      have := hrec _ _ _ hr1 (nesting_setTempDist.2 hc0.2)
      intro x hx
      rcases List.mem_cons.1 hx with rfl | hx
      · exact ⟨by rw [this.1]; exact hc0.1, this.2⟩
      · exact hcs x (List.mem_cons_of_mem _ hx)
    · obtain ⟨r1, hr1, h⟩ := bind_eq_ok h
      simp only [pure, Except.pure] at h
      injection h with h
      subst h
      intro x hx
      rcases List.mem_cons.1 hx with rfl | hx
      · exact ⟨hc0.1, nesting_setTempDist.2 hc0.2⟩
      · exact ih _ hr1 (fun y hy => hcs y (List.mem_cons_of_mem _ hy)) x hx

/-- The internal `insert(current, p)` of a subtree keeps the level of `current` and nesting:
the subtree is attached one level below its parent, its levels rewritten when needed. -/
theorem insertNode_nesting {dist : P → P → α} {base : α} {debug : Bool} {p : Node P α}
    (hp : Nesting p) (fuel : Nat) (ms : Int) (current : Node P α) (r : Node P α × Int)
    (h : insertNode dist base debug p fuel ms current = .ok r) (hc : Nesting current) :
    r.1.level = current.level ∧ Nesting r.1 := by
  induction fuel generalizing ms current r with
  | zero => simp [insertNode] at h
  | succ fuel ih =>
    simp only [insertNode] at h
    obtain ⟨u0, -, h⟩ := bind_eq_ok h
    obtain ⟨r1, hr1, h⟩ := bind_eq_ok h
    have hl := insertNodeLoop_nesting (l := current.level - 1)
      (fun ms c r hr hn => ih ms c r hr hn) _ _ _ hr1 ((nesting_iff current).1 hc)
    have hn1 : Nesting (current.setChildren r1.1) := by
      rw [nesting_iff]; exact hl
    cases hr2 : r1.2 with
    | some ms' =>
      rw [hr2] at h
      simp only [pure, Except.pure] at h
      injection h with h
      subst h
      exact ⟨rfl, hn1⟩
    | none =>
      rw [hr2] at h
      simp only at h
      have hr : r.1 = (current.setChildren r1.1).setChildNode p := by
        split at h <;> (simp only [pure, Except.pure] at h; injection h with h; subst h; rfl)
      rw [hr]
      exact ⟨level_setChildNode _ _, nesting_setChildNode hn1 hp⟩

theorem insert_point_nesting {dist : P → P → α} {base : α} {debug : Bool} {junk : α} {p : P}
    (fuel : Nat) (ms : Int) (current : Node P α) (r : Node P α × Int)
    (h : insert dist base debug junk p fuel ms current = .ok r) (hc : Nesting current) :
    r.1.level = current.level ∧ Nesting r.1 := by
  have hi := insert_inserted _ _ _ _ h
  have hk := congrArg Prod.snd (inserted_key hi)
  exact ⟨hk, (nesting_iff_keyInv _).2
    (inserted_keyInv (stable_nestAt dist base) hi ((nesting_iff_keyInv _).1 hc))⟩

theorem nesting_liftRoot {root : Node P α} (h : Nesting root) : Nesting (liftRoot root) :=
  (nesting_iff_keyInv _).2
    (keyInv_liftRoot (stable_nestAt (fun _ _ => (0 : α)) 0) ((nesting_iff_keyInv _).1 h))

theorem coverWhile_nesting {dist : P → P → α} {base : α} {q : Node P α} (fuel : Nat)
    (root r : Node P α) (h : coverWhile dist base q fuel root = .ok r) (hn : Nesting root) :
    root.level ≤ r.level ∧ Nesting r := by
  induction fuel generalizing root with
  | zero => simp [coverWhile] at h
  | succ fuel ih =>
    simp only [coverWhile] at h
    obtain ⟨cd, -, h⟩ := bind_eq_ok h
    split at h
    · have := ih _ h (nesting_liftRoot hn)
      rw [level_liftRoot] at this
      exact ⟨by omega, this.2⟩
    · simp only [pure, Except.pure] at h
      injection h with h; subst h
      exact ⟨le_refl _, hn⟩

theorem levelWhile_nesting (level : Int) (fuel : Nat) (q r : Node P α)
    (h : levelWhile level fuel q = .ok r) (hn : Nesting q) (hl : q.level ≤ level) :
    r.level = level ∧ Nesting r := by
  induction fuel generalizing q with
  | zero => simp [levelWhile] at h
  | succ fuel ih =>
    simp only [levelWhile] at h
    split at h
    · rename_i hgt
      exact ih _ h (nesting_liftRoot hn) (by rw [level_liftRoot]; omega)
    · rename_i hgt
      simp only [pure, Except.pure] at h
      injection h with h; subst h
      exact ⟨by omega, hn⟩

end Node
end ofxCoverTree

namespace ofxCoverTree
namespace Node
variable {P α : Type} [LinearOrderedField α]

theorem nesting_set {cs : List (Node P α)} {l : Int} (i : Nat) (m : Node P α)
    (hcs : ∀ c ∈ cs, c.level = l ∧ Nesting c) (hm : m.level = l ∧ Nesting m) :
    ∀ c ∈ cs.set i m, c.level = l ∧ Nesting c := by
  intro c hc
  rcases List.mem_or_eq_of_mem_set hc with hc | rfl
  · exact hcs c hc
  · exact hm

/-- The nesting facts that the classification loop of `mergeHelper` keeps: `p` stays nested
at its level, the separated-covered nodes are nested and one level below `p`, and the
uncovered nodes and the leftovers are nested. -/
theorem classify_nesting {dist : P → P → α} {base : α}
    {recurse : Int → Node P α → Node P α → Except Fault (Node P α × Int × List (Node P α))}
    (hrec : ∀ ms s r m, recurse ms s r = .ok m → Nesting s → Nesting r → s.level = r.level →
      m.1.level = s.level ∧ Nesting m.1 ∧ ∀ u ∈ m.2.2, Nesting u)
    (rs : List (Node P α)) (st st' : MergeState P α)
    (h : classify dist base recurse rs st = .ok st')
    (hrs : ∀ r ∈ rs, r.level = st.p.level - 1 ∧ Nesting r)
    (hp : Nesting st.p)
    (hsep : ∀ c ∈ st.sepcov, c.level = st.p.level - 1 ∧ Nesting c)
    (hunc : ∀ c ∈ st.uncovered, Nesting c) (hleft : ∀ c ∈ st.leftovers, Nesting c) :
    st'.p.level = st.p.level ∧ Nesting st'.p ∧
      (∀ c ∈ st'.sepcov, c.level = st.p.level - 1 ∧ Nesting c) ∧
      (∀ c ∈ st'.uncovered, Nesting c) ∧ (∀ c ∈ st'.leftovers, Nesting c) := by
  induction rs generalizing st with
  | nil =>
    simp only [classify, pure, Except.pure] at h
    injection h with h
    subst h
    exact ⟨rfl, hp, hsep, hunc, hleft⟩
  | cons r rest ih =>
    have hr := hrs r (List.mem_cons_self _ _)
    have hrest : ∀ x ∈ rest, x.level = st.p.level - 1 ∧ Nesting x :=
      fun x hx => hrs x (List.mem_cons_of_mem _ hx)
    simp only [classify] at h
    obtain ⟨cd, -, h⟩ := bind_eq_ok h
    split at h
    · obtain ⟨found, -, h⟩ := bind_eq_ok h
      cases found with
      | some i =>
        simp only at h
        cases hs : st.p.children[i]? with
        | none => rw [hs] at h; cases h
        | some s =>
          rw [hs] at h
          simp only at h
          obtain ⟨m, hm, h⟩ := bind_eq_ok h
          have hsmem := List.getElem?_mem hs
          have hs1 := (nesting_iff st.p).1 hp s hsmem
          obtain ⟨m1, m2, m3⟩ := hrec _ _ _ _ hm hs1.2 hr.2 (by rw [hs1.1, hr.1])
          have hp2 : Nesting (st.p.setChildren (st.p.children.set i m.1)) := by
            rw [nesting_iff]
            simp only [setChildren_children, setChildren_level]
            exact nesting_set i m.1 ((nesting_iff st.p).1 hp) ⟨by rw [m1, hs1.1], m2⟩
          have := ih _ h (by simpa using hrest) hp2 (by simpa using hsep) hunc (by
            intro c hc
            rcases List.mem_append.1 hc with hc | hc
            · exact hleft c hc
            · exact m3 c hc)
          simpa using this
      | none =>
        simp only at h
        have := ih _ h hrest hp (by
          intro c hc
          rcases List.mem_append.1 hc with hc | hc
          · exact hsep c hc
          · simp only [List.mem_singleton] at hc
            subst hc
            exact hr) hunc hleft
        exact this
    · have := ih _ h hrest hp hsep (by
        intro c hc
        rcases List.mem_append.1 hc with hc | hc
        · exact hunc c hc
        · simp only [List.mem_singleton] at hc
          subst hc
          exact hr.2) hleft
      exact this

theorem placeLeftovers_nesting {dist : P → P → α} {base : α} {debug : Bool}
    (ls : List (Node P α)) (p : Node P α) (ms : Int) (unc : List (Node P α))
    (m : Node P α × Int × List (Node P α))
    (h : placeLeftovers dist base debug ls p ms unc = .ok m)
    (hls : ∀ c ∈ ls, Nesting c) (hp : Nesting p) (hunc : ∀ c ∈ unc, Nesting c) :
    m.1.level = p.level ∧ Nesting m.1 ∧ ∀ u ∈ m.2.2, Nesting u := by
  induction ls generalizing p ms unc with
  | nil =>
    simp only [placeLeftovers, pure, Except.pure] at h
    injection h with h
    subst h
    exact ⟨rfl, hp, hunc⟩
  | cons r rest ih =>
    have hr := hls r (List.mem_cons_self _ _)
    have hrest : ∀ x ∈ rest, Nesting x := fun x hx => hls x (List.mem_cons_of_mem _ hx)
    simp only [placeLeftovers] at h
    obtain ⟨cd, -, h⟩ := bind_eq_ok h
    split at h
    · obtain ⟨m1, hm1, h⟩ := bind_eq_ok h
      have h1 := insertNode_nesting hr _ _ _ _ hm1 hp
      have := ih _ _ _ h hrest h1.2 hunc
      exact ⟨by rw [this.1, h1.1], this.2⟩
    · refine ih _ _ _ h hrest hp ?_
      intro c hc
      rcases List.mem_append.1 hc with hc | hc
      · exact hunc c hc
      · simp only [List.mem_singleton] at hc
        subst hc
        exact hr

/-- `mergeHelper(p, q)` on nested subtrees of equal level leaves `p` nested at its level, and
returns nested subtrees. -/
theorem mergeHelper_nesting {dist : P → P → α} {base : α} {debug : Bool} {junk : α}
    (fuel : Nat) (ms : Int) (p q : Node P α) (m : Node P α × Int × List (Node P α))
    (h : mergeHelper dist base debug junk fuel ms p q = .ok m)
    (hp : Nesting p) (hq : Nesting q) (hl : p.level = q.level) :
    m.1.level = p.level ∧ Nesting m.1 ∧ ∀ u ∈ m.2.2, Nesting u := by
  induction fuel generalizing ms p q m with
  | zero => simp [mergeHelper] at h
  | succ fuel ih =>
    simp only [mergeHelper] at h
    obtain ⟨st, hst, h⟩ := bind_eq_ok h
    obtain ⟨m1, hm1, h⟩ := bind_eq_ok h
    obtain ⟨c1, c2, c3, c4, c5⟩ := classify_nesting
      (fun ms s r m hm hs hr hsr => ih ms s r m hm hs hr hsr) _ _ _ hst
      (by
        intro r hr
        have := (nesting_iff q).1 hq r hr
        exact ⟨by rw [this.1, hl], this.2⟩)
      hp (fun c hc => by cases hc) (fun c hc => by cases hc) (fun c hc => by cases hc)
    simp only at c1 c3
    have hp2 : Nesting (st.p.setChildren (st.p.children ++ st.sepcov)) := by
      rw [nesting_iff]
      simp only [setChildren_children, setChildren_level]
      intro c hc
      rcases List.mem_append.1 hc with hc | hc
      · exact (nesting_iff st.p).1 c2 c hc
      · have := c3 c hc
        exact ⟨by rw [this.1, c1], this.2⟩
    have h2 := insert_point_nesting _ _ _ _ hm1 hp2
    have h3 := placeLeftovers_nesting _ _ _ _ _ h c5 h2.2 c4
    refine ⟨?_, h3.2⟩
    rw [h3.1, h2.1]
    exact c1

theorem insertAll_nesting {dist : P → P → α} {base : α} {debug : Bool}
    (ls : List (Node P α)) (root : Node P α) (ms : Int) (r : Node P α × Int)
    (h : insertAll dist base debug ls root ms = .ok r)
    (hls : ∀ c ∈ ls, Nesting c) (hroot : Nesting root) :
    r.1.level = root.level ∧ Nesting r.1 := by
  induction ls generalizing root ms with
  | nil =>
    simp only [insertAll, pure, Except.pure] at h
    injection h with h
    subst h
    exact ⟨rfl, hroot⟩
  | cons l rest ih =>
    simp only [insertAll] at h
    obtain ⟨m, hm, h⟩ := bind_eq_ok h
    have h1 := insertNode_nesting (hls l (List.mem_cons_self _ _)) _ _ _ _ hm hroot
    have := ih _ _ h (fun x hx => hls x (List.mem_cons_of_mem _ hx)) h1.2
    exact ⟨by rw [this.1, h1.1], this.2⟩

end Node

namespace CoverTree
variable {P α : Type} [LinearOrderedField α]

/-- C20 (merge preserves nesting): for nested trees `A` and `B` with
`A.root.level >= B.root.level`, `A.merge(B)` returns or ends in a fault of the program (the
budgets of the model never stop it); when it returns, its two lifting loops have brought the
two roots to the same level, and `A` is nested: every child is one level below its parent. -/
theorem merge_nesting (dist : P → P → α) (debug : Bool) (junk : α) (t ct : CoverTree P α)
    (ht : t.root.Nesting) (hct : ct.root.Nesting) (hlev : t.root.level ≥ ct.root.level) :
    t.merge dist debug junk ct ≠ .error .fuel ∧
      ∀ t' : CoverTree P α, t.merge dist debug junk ct = .ok t' →
        (∃ root q, Node.coverWhile dist t.base ct.root 2049 t.root = .ok root ∧
          Node.levelWhile root.level ((root.level - ct.root.level).toNat + 1) ct.root = .ok q ∧
          root.level = q.level) ∧
        t'.root.Nesting := by
  refine ⟨merge_ne_fuel t ct, fun t' h => ?_⟩
  unfold merge at h
  obtain ⟨u0, -, h⟩ := bind_eq_ok h
  obtain ⟨root, hroot, h⟩ := bind_eq_ok h
  obtain ⟨q, hq, h⟩ := bind_eq_ok h
  obtain ⟨m, hm, h⟩ := bind_eq_ok h
  obtain ⟨r, hr, h⟩ := bind_eq_ok h
  simp only [pure, Except.pure] at h
  injection h with h
  subst h
  have h1 := Node.coverWhile_nesting _ _ _ hroot ht
  have h2 := Node.levelWhile_nesting _ _ _ _ hq hct (by omega)
  have h3 := Node.mergeHelper_nesting _ _ _ _ _ hm h1.2 h2.2 h2.1.symm
  have h4 := Node.insertAll_nesting _ _ _ _ hr h3.2.2 h3.2.1
  exact ⟨⟨root, q, hroot, hq, h2.1.symm⟩, h4.2⟩

/-- The receiver built from `1/2`, `3`, `0` (root level `2`) and the argument built from
`5/2`, `7/2`, `3` (root level `0`) are nested, and so is the receiver after the merge. -/
theorem merge_nesting_witness :
    sampleUpdated.root.Nesting ∧ sampleOther.root.Nesting ∧
      sampleUpdated.merge dist1 true 0 sampleOther = .ok sampleMerged ∧
      sampleMerged.root.Nesting :=
  have h1 : sampleUpdated.root.Nesting :=
    (Node.nesting_iff_keyInv _).2
      (built_keyInv (Built.ofList 0 10 [1/2, 3, 0] (13/10) sampleUpdated sampleUpdated_built) _
        (Node.stable_nestAt dist1 _))
  have h2 : sampleOther.root.Nesting := by
    intro n hn c hc
    have hn2 : n = sampleOther.root ∨ n = Node.mk (5/2) [] (-1) 0 1 ∨
        n = Node.mk (7/2) [] (-1) 0 0 := by
      simpa [sampleOther] using hn
    rcases hn2 with rfl | rfl | rfl
    · have hc2 : c = Node.mk (5/2) [] (-1) 0 1 ∨ c = Node.mk (7/2) [] (-1) 0 0 := by
        simpa [sampleOther] using hc
      rcases hc2 with rfl | rfl <;> rfl
    · simp at hc
    · simp at hc
  have h3 : sampleUpdated.merge dist1 true 0 sampleOther = .ok sampleMerged := by decide!
  ⟨h1, h2, h3,
    ((merge_nesting dist1 true 0 sampleUpdated sampleOther h1 h2 (by decide)).2
      sampleMerged h3).2⟩

end CoverTree
end ofxCoverTree

namespace ofxCoverTree
namespace Node
variable {P α : Type} [LinearOrderedField α]

theorem levelsIn_iff (lo hi : Int) (n : Node P α) :
    LevelsIn lo hi n ↔
      (lo ≤ n.level ∧ n.level ≤ hi) ∧ ∀ c ∈ n.children, LevelsIn lo hi c :=
  forall_subtrees

theorem levelsIn_setTempDist {lo hi : Int} {n : Node P α} {d : α} :
    LevelsIn lo hi (n.setTempDist d) ↔ LevelsIn lo hi n := by
  rw [levelsIn_iff, levelsIn_iff lo hi n]; rfl

theorem covdist_of_range (base : α) (n : Node P α) (h1 : -1024 ≤ n.level)
    (h2 : n.level ≤ 1023) : n.covdist base = .ok (base ^ n.level) := by
  unfold covdist
  rw [if_pos ⟨by omega, by omega⟩, powdict]
  congr 2
  rw [Int.toNat_of_nonneg (by omega)]; ring

theorem insertLoop_returns {dist : P → P → α} {base : α} {p : P}
    {recurse : Int → Node P α → Except Fault (Node P α × Int)} (ms : Int)
    (cs : List (Node P α)) (hlev : ∀ c ∈ cs, -1024 ≤ c.level ∧ c.level ≤ 1023)
    (hrec : ∀ c ∈ cs, dist c._p p ≤ base ^ c.level →
      ∃ r, recurse ms (c.setTempDist (dist c._p p)) = .ok r) :
    ∃ r, insertLoop dist base p recurse ms cs = .ok r := by
  induction cs with
  | nil => exact ⟨_, rfl⟩
  | cons c cs ih =>
    have hc := hlev c (List.mem_cons_self _ _)
    simp only [insertLoop, covdist_setTempDist, covdist_of_range base c hc.1 hc.2, bind,
      Except.bind, setTempDist_tempDist]
    split
    · rename_i hle
      obtain ⟨r, hr⟩ := hrec c (List.mem_cons_self _ _) hle
      rw [hr]
      exact ⟨_, rfl⟩
    · obtain ⟨r, hr⟩ := ih (fun x hx => hlev x (List.mem_cons_of_mem _ hx))
        (fun x hx => hrec x (List.mem_cons_of_mem _ hx))
      rw [hr]
      exact ⟨_, rfl⟩

/-- The internal `insert` returns when the levels it meets are within the power table and, in
the debug build, `current` covers `p`. -/
theorem internal_insert_returns {dist : P → P → α} {base : α} {debug : Bool} {junk : α} {p : P}
    (fuel : Nat) (ms : Int) (current : Node P α) (hf : current.height ≤ fuel)
    (hlev : LevelsIn (-1024) 1023 current) (hcov : dist current._p p ≤ base ^ current.level) :
    ∃ r, insert dist base debug junk p fuel ms current = .ok r := by
  induction fuel generalizing ms current with
  | zero => rw [height_eq] at hf; omega
  | succ fuel ih =>
    rw [levelsIn_iff] at hlev
    have hcheck : checkInput dist base debug current p = .ok () := by
      unfold checkInput
      cases debug with
      | false => rfl
      | true =>
        simp only [if_true, covdist_of_range base current hlev.1.1 hlev.1.2]
        rw [if_neg (not_lt.2 hcov)]
    obtain ⟨r, hr⟩ := @insertLoop_returns P α _ dist base p
      (insert dist base debug junk p fuel) ms current.children
      (fun c hc => ((levelsIn_iff _ _ c).1 (hlev.2 c hc)).1)
      (fun c hc hle => ih ms (c.setTempDist (dist c._p p))
        (by have := height_child_lt hc; rw [height_setTempDist]; omega)
        (levelsIn_setTempDist.2 (hlev.2 c hc)) hle)
    simp only [insert, hcheck, hr, bind, Except.bind]
    cases r.2 with
    | some ms2 => exact ⟨_, rfl⟩
    | none =>
      simp only
      split <;> exact ⟨_, rfl⟩

/-- The internal `insert` keeps the levels within `lo` and `hi` when `p` is farther than
`base ^ lo` from every point of the subtree: the parent of the new leaf covers `p`, so it is
above level `lo`. -/
theorem inserted_levelsIn {dist : P → P → α} {base junk : α} {p : P} (hbase : 1 < base)
    {lo hi : Int} {cur r : Node P α} (h : Inserted dist base junk p cur r) :
    LevelsIn lo hi cur → (∀ x ∈ cur.mpoints, base ^ lo < dist x p) →
      dist cur._p p ≤ base ^ cur.level → LevelsIn lo hi r := by
  induction h with
  | leaf q cs l u t hfar =>
    intro hlev hp hcov
    rw [levelsIn_iff] at hlev ⊢
    simp only [level_mk, children_mk, _p_mk] at hlev hcov ⊢
    refine ⟨hlev.1, fun c hc => ?_⟩
    rcases List.mem_append.1 hc with hc | hc
    · obtain ⟨x, hx, rfl⟩ := mem_setTempDists hc
      exact levelsIn_setTempDist.2 (hlev.2 x hx)
    · simp only [List.mem_singleton] at hc
      subst hc
      have h1 : base ^ lo < base ^ l :=
        lt_of_lt_of_le (hp q (by rw [mpoints_mk]; exact Multiset.mem_cons_self _ _)) hcov
      have h2 : lo < l := (zpow_lt_zpow_iff_right₀ hbase).1 h1
      rw [levelsIn_iff]
      simp only [level_mk, children_mk]
      exact ⟨⟨by omega, by omega⟩, fun c hc => by cases hc⟩
  | descend q pre c post l u t c' hpre hc hins ih =>
    intro hlev hp hcov
    rw [levelsIn_iff] at hlev ⊢
    simp only [level_mk, children_mk, _p_mk] at hlev hcov ⊢
    refine ⟨hlev.1, fun x hx => ?_⟩
    rcases List.mem_append.1 hx with hx | hx
    · obtain ⟨y, hy, rfl⟩ := mem_setTempDists hx
      exact levelsIn_setTempDist.2 (hlev.2 y (List.mem_append_left _ hy))
    · rcases List.mem_cons.1 hx with rfl | hx
      · apply ih (levelsIn_setTempDist.2 (hlev.2 c (by simp)))
        · intro y hy
          apply hp y
          rw [mpoints_mk]
          apply Multiset.mem_cons_of_mem
          rw [mem_mpointsList]
          exact ⟨c, by simp, by simpa using hy⟩
        · simpa using hc
      · exact hlev.2 x (by simp [hx])

theorem levelsIn_liftRoot {lo hi : Int} {root : Node P α} (h : LevelsIn lo hi root)
    (hl : root.level + 1 ≤ hi) : LevelsIn lo hi (liftRoot root) := by
  have hr := ((levelsIn_iff lo hi root).1 h).1
  unfold liftRoot
  split
  · rename_i r hpeel
    obtain ⟨-, h2, -, h4⟩ := peel_facts (fun _ l _ => lo ≤ l ∧ l ≤ hi)
      (fun _ _ _ _ _ hq => hq) root r hpeel
    rw [levelsIn_iff]
    simp only [setChildren_level, setChildren_children, setLevel_level, h2, List.nil_append,
      List.mem_singleton, forall_eq]
    exact ⟨⟨by omega, hl⟩, h4 h⟩
  · rw [levelsIn_iff]
    rename_i hnone
    simp only [setLevel_level, setLevel_children, peel_eq_none hnone]
    exact ⟨⟨by omega, hl⟩, fun c hc => by cases hc⟩

/-- The lifting loop of the public `insert` returns, with levels up to `hi - 1`, when no
stored point is farther than `base ^ (hi - 1)` from `p`. -/
theorem liftWhile_returns {dist : P → P → α} {base : α} {p : P} (hbase : 1 < base)
    {lo hi : Int} (hlo : -1024 ≤ lo) (hhi : hi ≤ 1023) (fuel : Nat) (root : Node P α)
    (hlev : LevelsIn lo hi root) (hl : root.level ≤ hi - 1)
    (hnear : ∀ x ∈ root.mpoints, dist x p ≤ base ^ (hi - 1))
    (hf : (hi - root.level).toNat ≤ fuel) :
    ∃ r, liftWhile dist base p fuel root = .ok r ∧ LevelsIn lo hi r ∧ r.level ≤ hi - 1 ∧
      r.mpoints = root.mpoints ∧ root.level ≤ r.level := by
  induction fuel generalizing root with
  | zero => omega
  | succ fuel ih =>
    have hr := ((levelsIn_iff lo hi root).1 hlev).1
    simp only [liftWhile, covdist_of_range base root (by omega) (by omega), bind, Except.bind]
    split
    · rename_i hgt
      have hpos : 0 < base ^ root.level := zpow_pos (lt_trans zero_lt_one hbase) _
      have h1 : base ^ root.level < base ^ (hi - 1) := by
        have := hnear root._p (by rw [mpoints_eq]; exact Multiset.mem_cons_self _ _)
        linarith
      have h2 : root.level < hi - 1 := (zpow_lt_zpow_iff_right₀ hbase).1 h1
      obtain ⟨r, g1, g2, g3, g4, g5⟩ := ih (liftRoot root)
        (levelsIn_liftRoot hlev (by omega)) (by rw [level_liftRoot]; omega)
        (by rw [mpoints_liftRoot]; exact hnear) (by rw [level_liftRoot]; omega)
      rw [level_liftRoot] at g5
      exact ⟨r, g1, g2, g3, by rw [g4, mpoints_liftRoot], by omega⟩
    · exact ⟨root, rfl, hlev, hl, rfl, le_refl _⟩

end Node

namespace CoverTree
variable {P α : Type} [LinearOrderedField α]

/-- The public `insert(p)` returns, and the levels stay within `lo` and `hi`, when `p` is more
than `base ^ lo` and at most `base ^ (hi - 1)` away from every stored point. -/
theorem insert_returns {dist : P → P → α} {debug : Bool} {junk : α} {lo hi : Int}
    (hlo : -1024 ≤ lo) (hhi : hi ≤ 1023) (t : CoverTree P α) (hbase : 1 < t.base) (p : P)
    (hlev : Node.LevelsIn lo hi t.root)
    (hfar : ∀ x ∈ t.root.mpoints, t.base ^ lo < dist x p ∧ dist x p ≤ t.base ^ (hi - 1)) :
    ∃ t', t.insert dist debug junk p = .ok t' ∧ Node.LevelsIn lo hi t'.root := by
  have hr := ((Node.levelsIn_iff lo hi t.root).1 hlev).1
  have hroot := hfar t.root._p (by rw [Node.mpoints_eq]; exact Multiset.mem_cons_self _ _)
  simp only [insert, Node.covdist_of_range t.base t.root (by omega) (by omega), bind,
    Except.bind]
  split
  · rename_i hgt
    have h1 : t.base ^ t.root.level < t.base ^ (hi - 1) := lt_of_lt_of_le hgt hroot.2
    have h2 : t.root.level < hi - 1 := (zpow_lt_zpow_iff_right₀ hbase).1 h1
    obtain ⟨r, g1, g2, g3, g4, g5⟩ := @Node.liftWhile_returns P α _ dist _ p hbase _ _ hlo hhi
      2049 t.root hlev (by omega) (fun x hx => (hfar x hx).2) (by omega)
    rw [g1]
    refine ⟨_, rfl, ?_⟩
    rw [Node.levelsIn_iff]
    simp only [Node.level_mk, Node.children_mk, List.mem_singleton, forall_eq]
    have hr2 := ((Node.levelsIn_iff lo hi r).1 g2).1
    exact ⟨⟨by omega, by omega⟩, g2⟩
  · rename_i hle
    have hcov : dist t.root._p p ≤ t.base ^ t.root.level := not_lt.1 hle
    obtain ⟨r, hr2⟩ := @Node.internal_insert_returns P α _ dist t.base
      debug junk p
      (t.root.setTempDist (dist t.root._p p)).height t.minScale
      (t.root.setTempDist (dist t.root._p p)) (le_refl _)
      (Node.levelsIn_setTempDist.2 (fun n hn => ⟨by have := hlev n hn; omega,
        by have := hlev n hn; omega⟩)) hcov
    rw [hr2]
    refine ⟨_, rfl, ?_⟩
    exact Node.inserted_levelsIn hbase (Node.insert_inserted _ _ _ _ hr2)
      (Node.levelsIn_setTempDist.2 hlev) (fun x hx => (hfar x (by simpa using hx)).1) hcov

end CoverTree
end ofxCoverTree

namespace ofxCoverTree
namespace Node
variable {P α : Type} [LinearOrderedField α]

theorem spread_perm {dist : P → P → α} {a b : α} {l l' : List P} (h : l.Perm l')
    (hs : Spread dist a b l) : Spread dist a b l' := by
  unfold Spread at hs ⊢
  exact (List.Perm.pairwise_iff (fun {x y} hxy => And.intro hxy.2 hxy.1) h).1 hs

theorem subtrees_sublist_list {c : Node P α} {cs : List (Node P α)} (h : c ∈ cs) :
    c.subtrees.Sublist (subtreesList cs) := by
  induction cs with
  | nil => cases h
  | cons x xs ih =>
    rw [subtreesList_cons]
    rcases List.mem_cons.1 h with rfl | h
    · exact List.sublist_append_left _ _
    · exact (ih h).trans (List.sublist_append_right _ _)

/-- The nodes of a subtree form a sublist of the nodes of the tree. -/
theorem subtrees_sublist {t n : Node P α} (h : n ∈ t.subtrees) :
    n.subtrees.Sublist t.subtrees := by
  induction t using Node.induct with
  | h p cs l u td ih =>
    rcases mem_subtrees.1 h with rfl | ⟨c, hc, hn⟩
    · exact List.Sublist.refl _
    · rw [subtrees_mk]
      exact ((ih c hc hn).trans (subtrees_sublist_list hc)).trans (List.sublist_cons_self _ _)

/-- A tree whose points are pairwise at positive distance is regular. -/
theorem regular_of_pos {dist : P → P → α} {t : Node P α}
    (h : t.points.Pairwise (fun x y => 0 < dist x y)) : Regular dist t := by
  intro n hn hc
  have h1 : n.points.Pairwise (fun x y => 0 < dist x y) :=
    List.Pairwise.sublist ((subtrees_sublist hn).map _p) h
  obtain ⟨c, hcm⟩ := List.exists_mem_of_ne_nil _ hc
  have hcd : c ∈ n.descendants :=
    (subtrees_sublist_list hcm).subset (self_mem_subtrees c)
  unfold points at h1
  rw [subtrees_eq, List.map_cons, List.pairwise_cons] at h1
  have h2 : 0 < dist n._p c._p := h1.1 c._p (List.mem_map.2 ⟨c, hcd, rfl⟩)
  have h3 : dist n._p c._p ≤ tight dist n :=
    dist_le_raise _ _ _ _ (List.mem_map.2 ⟨c, hcd, rfl⟩)
  exact ne_of_gt (lt_of_lt_of_le h2 h3)

theorem levelsIn_of_erase {lo hi : Int} {a b : Node P α} (h : eraseUB a = eraseUB b)
    (hk : LevelsIn lo hi b) : LevelsIn lo hi a :=
  keyInv_of_erase (Q := fun _ l _ => lo ≤ l ∧ l ≤ hi) h hk

theorem key_of_erase {a b : Node P α} (h : eraseUB a = eraseUB b) : a.key = b.key := by
  have := congrArg key h
  rw [eraseUB_eq, eraseUB_eq b] at this
  exact this

end Node

namespace CoverTree
variable {P α : Type} [LinearOrderedField α]

theorem points_perm_of_mpoints {a : Node P α} {l : List P} (h : a.mpoints = (l : Multiset P)) :
    a.points.Perm l :=
  Multiset.coe_eq_coe.1 h

/-- A sequence of public `insert` calls returns when the stored points and the points inserted
are pairwise more than `base ^ lo` and at most `base ^ (hi - 1)` apart. -/
theorem foldlM_insert_returns {dist : P → P → α} {debug : Bool} {junk : α} {lo hi : Int}
    (hlo : -1024 ≤ lo) (hhi : hi ≤ 1023) (ps : List P) (t : CoverTree P α)
    (hbase : 1 < t.base) (hlev : Node.LevelsIn lo hi t.root)
    (hsp : Node.Spread dist (t.base ^ lo) (t.base ^ (hi - 1)) (t.points ++ ps)) :
    ∃ t', ps.foldlM (insert dist debug junk) t = .ok t' ∧ Node.LevelsIn lo hi t'.root := by
  induction ps generalizing t with
  | nil => exact ⟨t, rfl, hlev⟩
  | cons p ps ih =>
    have hsp2 := hsp
    unfold Node.Spread at hsp2
    rw [List.pairwise_append] at hsp2
    obtain ⟨t1, ht1, hl1⟩ := @insert_returns P α _ dist debug junk _ _
      hlo hhi t hbase p hlev
      (fun x hx => (hsp2.2.2 x (Node.mem_mpoints_iff.1 hx) p (List.mem_cons_self _ _)).1)
    obtain ⟨hb, hm, -⟩ := insert_facts ht1
    have hperm : (t1.points ++ ps).Perm (t.points ++ p :: ps) := by
      have h1 : t1.points.Perm (p :: t.points) := by
        apply points_perm_of_mpoints
        rw [hm]
        rfl
      exact (h1.append_right ps).trans (List.perm_middle.symm)
    obtain ⟨t2, ht2, hl2⟩ := ih t1 (by rw [hb]; exact hbase) hl1
      (by rw [hb]; exact Node.spread_perm hperm.symm hsp)
    refine ⟨t2, ?_, hl2⟩
    simp only [List.foldlM_cons, ht1, bind, Except.bind]
    exact ht2

theorem calc_maxdist_returns_of_spread {dist : P → P → α} {a b : α} (ha : 0 ≤ a)
    (t : CoverTree P α) (hsp : Node.Spread dist a b t.points) (fuel : Nat)
    (hfuel : t.points.length < fuel) :
    ∃ t', t.calc_maxdist dist fuel = .ok t' := by
  have hreg : Node.Regular dist t.root := by
    apply Node.regular_of_pos
    exact List.Pairwise.imp (fun hxy => lt_of_le_of_lt ha hxy.1.1) hsp
  obtain ⟨r, hr⟩ := Node.calc_maxdist_returns dist t.root hreg fuel
    (by simpa [points, Node.points] using hfuel)
  exact ⟨⟨t.base, r, t.minScale, t.maxScale⟩, by unfold calc_maxdist; rw [hr]; rfl⟩

/-- The batch constructor returns on every batch whose points are pairwise more than
`base ^ lo` and at most `base ^ (hi - 1)` apart, for levels `lo` and `hi` within the power
table. -/
theorem ofList_returns {dist : P → P → α} {debug : Bool} {junk : α} {base : α} {lo hi : Int}
    (hlo : -1024 ≤ lo) (hlo0 : lo ≤ 0) (hhi0 : 0 ≤ hi) (hhi : hi ≤ 1023) (hbase : 1 < base)
    (pList : List P) (hne : pList ≠ [])
    (hsp : Node.Spread dist (base ^ lo) (base ^ (hi - 1)) pList) (fuel : Nat)
    (hfuel : pList.length < fuel) :
    ∃ t, ofList dist debug junk fuel pList base = .ok t ∧ Node.LevelsIn lo hi t.root := by
  obtain ⟨temp, htemp⟩ : ∃ temp, pList.getLast? = some temp := by
    cases h : pList.getLast? with
    | none => exact absurd (List.getLast?_eq_none_iff.1 h) hne
    | some x => exact ⟨x, rfl⟩
  have hp : pList = pList.dropLast ++ [temp] := (List.dropLast_append_getLast? temp htemp).symm
  have hperm : ([temp] ++ pList.dropLast).Perm pList := by
    conv_rhs => rw [hp]
    exact List.perm_append_comm
  obtain ⟨t1, ht1, hl1⟩ := @foldlM_insert_returns P α _ dist debug junk _ _
    hlo hhi pList.dropLast (ofPoint junk temp base) hbase
    (by
      intro n hn
      have : n = Node.mk temp [] 0 0 junk := by simpa [ofPoint] using hn
      subst this
      exact ⟨hlo0, hhi0⟩)
    (Node.spread_perm hperm.symm hsp)
  obtain ⟨hb, hm, -⟩ := foldlM_insert_facts _ _ _ ht1
  have hperm1 : t1.points.Perm pList := by
    apply points_perm_of_mpoints
    rw [hm]
    conv_rhs => rw [hp]
    simp [ofPoint, Node.mpoints_mk, ← Multiset.coe_add]
  obtain ⟨t2, ht2⟩ := calc_maxdist_returns_of_spread
    (zpow_nonneg (le_of_lt (lt_trans zero_lt_one hbase)) lo) t1
    (Node.spread_perm hperm1.symm hsp) fuel (by rw [hperm1.length_eq]; exact hfuel)
  refine ⟨t2, ?_, Node.levelsIn_of_erase (calc_maxdist_facts ht2).2 hl1⟩
  unfold ofList
  simp only [htemp, ht1, bind, Except.bind]
  exact ht2

end CoverTree
end ofxCoverTree

namespace ofxCoverTree
namespace CoverTree
variable {P α : Type} [LinearOrderedField α]

/-- The batch constructor returns a tree with sound `maxdistUB` fields that stores the batch,
when the points of the batch are pairwise more than `base ^ lo` and at most `base ^ (hi - 1)`
apart. -/
theorem ofList_returns_sound {dist : P → P → α} {debug : Bool} {junk : α} {base : α}
    {lo hi : Int} (hlo : -1024 ≤ lo) (hlo0 : lo ≤ 0) (hhi0 : 0 ≤ hi) (hhi : hi ≤ 1023)
    (hbase : 1 < base) (pList : List P) (hne : pList ≠ [])
    (hsp : Node.Spread dist (base ^ lo) (base ^ (hi - 1)) pList) (fuel : Nat)
    (hfuel : pList.length < fuel) :
    ∃ t, ofList dist debug junk fuel pList base = .ok t ∧ Node.LevelsIn lo hi t.root ∧
      t.root.SoundUB dist ∧ t.points.Perm pList := by
  obtain ⟨t, ht, hl⟩ := @ofList_returns P α _ dist debug junk base lo hi hlo hlo0 hhi0 hhi hbase
    pList hne hsp fuel hfuel
  exact ⟨t, ht, hl, Node.soundUB_of_tightUB (ofList_tightUB dist debug junk fuel pList base t ht),
    points_perm_of_mpoints (ofList_facts ht).2.1⟩

end CoverTree

theorem distL2_eq_abs (a b : item ℝ) :
    distL2 Real.sqrt a b = Complex.abs (⟨a.x - b.x, a.y - b.y⟩ : ℂ) := by
  rw [Complex.abs_apply, Complex.normSq_mk]
  rfl

theorem distL2_triangle (x y z : item ℝ) :
    distL2 Real.sqrt x z ≤ distL2 Real.sqrt x y + distL2 Real.sqrt y z := by
  rw [distL2_eq_abs, distL2_eq_abs, distL2_eq_abs]
  have h : (⟨x.x - z.x, x.y - z.y⟩ : ℂ) = ⟨x.x - y.x, x.y - y.y⟩ + ⟨y.x - z.x, y.y - z.y⟩ := by
    apply Complex.ext <;> simp
  rw [h]
  exact Complex.abs.add_le _ _

theorem distL2_comm (a b : item ℝ) : distL2 Real.sqrt a b = distL2 Real.sqrt b a := by
  unfold distL2
  congr 1
  ring

/-- Between two points of the same row the distance is the absolute difference of the first
coordinates. -/
theorem distL2_row (a b : item ℝ) (h : a.y = b.y) : distL2 Real.sqrt a b = |a.x - b.x| := by
  unfold distL2
  rw [h, sub_self, mul_zero, add_zero, Real.sqrt_mul_self_eq_abs]

namespace CoverTree

theorem twoPoints_spread :
    Node.Spread (distL2 Real.sqrt) ((13/10 : ℝ) ^ (-1 : Int)) ((13/10 : ℝ) ^ ((1 : Int) - 1))
      (twoPoints ℝ) := by
  have h1 : distL2 Real.sqrt (⟨0, 0, 0⟩ : item ℝ) ⟨1, 0, 1⟩ = 1 := by
    rw [distL2_row ⟨0, 0, 0⟩ ⟨1, 0, 1⟩ rfl]; norm_num
  have h2 : distL2 Real.sqrt (⟨1, 0, 1⟩ : item ℝ) ⟨0, 0, 0⟩ = 1 := by
    rw [distL2_row ⟨1, 0, 1⟩ ⟨0, 0, 0⟩ rfl]; norm_num
  unfold Node.Spread twoPoints
  refine List.Pairwise.cons ?_ (List.pairwise_singleton _ _)
  intro y hy
  rw [List.mem_singleton] at hy
  subst hy
  rw [h1, h2]
  norm_num

/-- The batch constructor returns on the two points `[0, 0]` and `[1, 0]`; in the tree it
builds, the range query at `[0.5, 0]` with range `0.4` finds no point and with range `0.6`
both, and the nearest neighbours of `[0.4, 0]` and `[0.6, 0]` are the points with the ids `0`
and `1`. -/
theorem twoPoints_answers (debug : Bool) (junk : ℝ) (fuel : Nat) (hfuel : 2 < fuel)
    (i j k : Nat) :
    ∃ t, ofList (distL2 Real.sqrt) debug junk fuel (twoPoints ℝ) (13/10) = .ok t ∧
      (t.rangeNeighbors (distL2 Real.sqrt) ⟨1/2, 0, i⟩ (2/5)).1 = [] ∧
      ((t.rangeNeighbors (distL2 Real.sqrt) ⟨1/2, 0, i⟩ (3/5)).1 : Multiset (item ℝ)) =
        (twoPoints ℝ : Multiset (item ℝ)) ∧
      (t.nearestNeighbor (distL2 Real.sqrt) ⟨2/5, 0, j⟩).1 = ⟨0, 0, 0⟩ ∧
      (t.nearestNeighbor (distL2 Real.sqrt) ⟨3/5, 0, k⟩).1 = ⟨1, 0, 1⟩ := by
  obtain ⟨t, ht, -, hs, hp⟩ := @ofList_returns_sound _ _ _ _ debug junk _ _ _
    (by norm_num : (-1024 : Int) ≤ -1) (by norm_num) (by norm_num : (0 : Int) ≤ 1) (by norm_num)
    (by norm_num : (1 : ℝ) < 13/10) (twoPoints ℝ) (by simp [twoPoints]) twoPoints_spread fuel
    (by simpa [twoPoints] using hfuel)
  have hm : (t.points : Multiset (item ℝ)) = (twoPoints ℝ : Multiset (item ℝ)) :=
    Multiset.coe_eq_coe.2 hp
  have hmem : ∀ y, y ∈ t.points ↔ y = ⟨0, 0, 0⟩ ∨ y = ⟨1, 0, 1⟩ := by
    intro y
    rw [hp.mem_iff]
    simp [twoPoints]
  have d0 : ∀ (x : ℝ) (n : Nat), distL2 Real.sqrt (⟨0, 0, 0⟩ : item ℝ) ⟨x, 0, n⟩ = |x| := by
    intro x n
    rw [distL2_row ⟨0, 0, 0⟩ ⟨x, 0, n⟩ rfl]
    simp
  have d1 : ∀ (x : ℝ) (n : Nat), distL2 Real.sqrt (⟨1, 0, 1⟩ : item ℝ) ⟨x, 0, n⟩ = |1 - x| := by
    intro x n
    rw [distL2_row ⟨1, 0, 1⟩ ⟨x, 0, n⟩ rfl]
  refine ⟨t, ht, ?_, ?_, ?_, ?_⟩
  · have h := rangeNeighbors_filter (distL2 Real.sqrt) distL2_triangle t hs ⟨1/2, 0, i⟩ (2/5)
    rw [hm] at h
    have h0 : ¬ distL2 Real.sqrt (⟨0, 0, 0⟩ : item ℝ) ⟨1/2, 0, i⟩ < 2/5 := by
      rw [d0, abs_of_nonneg (by norm_num)]; norm_num
    have h1 : ¬ distL2 Real.sqrt (⟨1, 0, 1⟩ : item ℝ) ⟨1/2, 0, i⟩ < 2/5 := by
      rw [d1, abs_of_nonneg (by norm_num)]; norm_num
    have h2 : Multiset.filter (fun y => distL2 Real.sqrt y ⟨1/2, 0, i⟩ < 2/5)
        (twoPoints ℝ : Multiset (item ℝ)) = 0 := by
      rw [Multiset.filter_eq_nil]
      intro a ha
      rw [Multiset.mem_coe] at ha
      simp only [twoPoints, List.mem_cons, List.mem_singleton, List.not_mem_nil, or_false] at ha
      rcases ha with rfl | rfl
      · exact h0
      · exact h1
    rw [h2] at h
    exact (Multiset.coe_eq_zero _).1 h
  · have h := rangeNeighbors_filter (distL2 Real.sqrt) distL2_triangle t hs ⟨1/2, 0, i⟩ (3/5)
    rw [hm] at h
    rw [h, Multiset.filter_eq_self]
    intro a ha
    rw [Multiset.mem_coe] at ha
    simp only [twoPoints, List.mem_cons, List.mem_singleton, List.not_mem_nil, or_false] at ha
    rcases ha with rfl | rfl
    · rw [d0, abs_of_nonneg (by norm_num)]; norm_num
    · rw [d1, abs_of_nonneg (by norm_num)]; norm_num
  · obtain ⟨h1, h2⟩ := nearestNeighbor_min (distL2 Real.sqrt) distL2_triangle t hs ⟨2/5, 0, j⟩
    rcases (hmem _).1 h1 with h | h
    · exact h
    · have h3 := h2 ⟨0, 0, 0⟩ ((hmem _).2 (Or.inl rfl))
      rw [h, d0, d1, abs_of_nonneg (by norm_num), abs_of_nonneg (by norm_num)] at h3
      norm_num at h3
  · obtain ⟨h1, h2⟩ := nearestNeighbor_min (distL2 Real.sqrt) distL2_triangle t hs ⟨3/5, 0, k⟩
    rcases (hmem _).1 h1 with h | h
    · have h3 := h2 ⟨1, 0, 1⟩ ((hmem _).2 (Or.inr rfl))
      rw [h, d0, d1, abs_of_nonneg (by norm_num), abs_of_nonneg (by norm_num)] at h3
      norm_num at h3
    · exact h

/-- C14 (scenario 2, as the code answers it): for every build and step budget above the batch
size, the batch constructor with base `1.3` returns a tree on the points `[0, 0]` (id `0`) and
`[1, 0]` (id `1`); `rangeNeighbors([0.5, 0], 0.4)` returns no point, since both points are at
distance `0.5`; `rangeNeighbors([0.5, 0], 0.6)` returns both; `nearestNeighbor([0.4, 0])`
returns the point with id `0` and `nearestNeighbor([0.6, 0])` the point with id `1`. -/
theorem scenario_two_points (debug : Bool) (junk : ℝ) (fuel : Nat) (hfuel : 2 < fuel)
    (i j k : Nat) :
    ∃ t, ofList (distL2 Real.sqrt) debug junk fuel (twoPoints ℝ) (13/10) = .ok t ∧
      (t.rangeNeighbors (distL2 Real.sqrt) ⟨1/2, 0, i⟩ (2/5)).1 = [] ∧
      ((t.rangeNeighbors (distL2 Real.sqrt) ⟨1/2, 0, i⟩ (3/5)).1 : Multiset (item ℝ)) =
        (twoPoints ℝ : Multiset (item ℝ)) ∧
      (t.nearestNeighbor (distL2 Real.sqrt) ⟨2/5, 0, j⟩).1 = ⟨0, 0, 0⟩ ∧
      (t.nearestNeighbor (distL2 Real.sqrt) ⟨3/5, 0, k⟩).1 = ⟨1, 0, 1⟩ :=
  twoPoints_answers debug junk fuel hfuel i j k

/-- The debug build with step budget `3` and query ids `2`, `3`, `4`. -/
theorem scenario_two_points_witness :
    2 < 3 ∧ ∃ t, ofList (distL2 Real.sqrt) true 0 3 (twoPoints ℝ) (13/10) = .ok t ∧
      (t.rangeNeighbors (distL2 Real.sqrt) ⟨1/2, 0, 2⟩ (2/5)).1 = [] ∧
      ((t.rangeNeighbors (distL2 Real.sqrt) ⟨1/2, 0, 2⟩ (3/5)).1 : Multiset (item ℝ)) =
        (twoPoints ℝ : Multiset (item ℝ)) ∧
      (t.nearestNeighbor (distL2 Real.sqrt) ⟨2/5, 0, 3⟩).1 = ⟨0, 0, 0⟩ ∧
      (t.nearestNeighbor (distL2 Real.sqrt) ⟨3/5, 0, 4⟩).1 = ⟨1, 0, 1⟩ :=
  ⟨by decide, scenario_two_points true 0 3 (by decide) 2 3 4⟩

/-- The range query of scenario 2 does not return both points: on the tree that the batch
constructor builds from `[0, 0]` and `[1, 0]`, `rangeNeighbors([0.5, 0], 0.4)` returns the
empty list, and neither point is within `0.4` of `[0.5, 0]`. -/
theorem scenario_two_points_range_empty :
    ∃ t, ofList (distL2 Real.sqrt) true 0 3 (twoPoints ℝ) (13/10) = .ok t ∧
      (t.rangeNeighbors (distL2 Real.sqrt) ⟨1/2, 0, 2⟩ (2/5)).1 = [] ∧
      ∀ y ∈ twoPoints ℝ, distL2 Real.sqrt y ⟨1/2, 0, 2⟩ = 1/2 := by
  obtain ⟨t, ht, h, -⟩ := twoPoints_answers true 0 3 (by decide) 2 3 4
  refine ⟨t, ht, h, ?_⟩
  intro y hy
  simp only [twoPoints, List.mem_cons, List.mem_singleton, List.not_mem_nil, or_false] at hy
  rcases hy with rfl | rfl
  · rw [distL2_row ⟨0, 0, 0⟩ ⟨1/2, 0, 2⟩ rfl]; norm_num [abs_of_nonneg]
  · rw [distL2_row ⟨1, 0, 1⟩ ⟨1/2, 0, 2⟩ rfl]; norm_num [abs_of_nonneg]

end CoverTree
end ofxCoverTree

namespace ofxCoverTree
namespace CoverTree

/-- One hundred times the squared distance from the lattice point with index `n` to the query
point `[5.2, 5.1]`. -/
theorem distL2_lattice_query (i j k : Nat) :
    distL2 Real.sqrt (latticeAt i j : item ℝ) ⟨26/5, 51/10, k⟩ =
      Real.sqrt ((((10 * (i : Int) - 52) ^ 2 + (10 * (j : Int) - 51) ^ 2 : Int) : ℝ) / 100) := by
  unfold distL2 latticeAt
  congr 1
  push_cast
  ring

theorem distL2_lattice (i j k l : Nat) :
    distL2 Real.sqrt (latticeAt i j : item ℝ) (latticeAt k l) =
      Real.sqrt ((((i : Int) - (k : Int)) ^ 2 + ((j : Int) - (l : Int)) ^ 2 : Int) : ℝ) := by
  unfold distL2 latticeAt
  congr 1
  push_cast
  ring

theorem lattice_length : (lattice ℝ).length = 100 := by
  simp [lattice]

theorem mem_lattice (a : item ℝ) :
    a ∈ lattice ℝ ↔ ∃ n, n < 100 ∧ latticeAt (n / 10) (n % 10) = a := by
  unfold lattice
  rw [List.mem_map]
  simp only [List.mem_range]

theorem lattice_nodup : (lattice ℝ).Nodup := by
  unfold lattice
  refine List.Nodup.map ?_ (List.nodup_range 100)
  intro n m h
  have h2 := congrArg item.id h
  simp only [latticeAt] at h2
  omega

theorem sq_diff_bounds (i j : Nat) (hi : i < 10) (hj : j < 10) :
    ((i : Int) - j) ^ 2 ≤ 81 ∧ (i ≠ j → 1 ≤ ((i : Int) - j) ^ 2) := by
  have h1 : -9 ≤ (i : Int) - j := by omega
  have h2 : (i : Int) - j ≤ 9 := by omega
  refine ⟨by nlinarith, fun hne => ?_⟩
  rcases lt_or_gt_of_ne hne with h | h
  · have h3 : (i : Int) - j ≤ -1 := by omega
    nlinarith
  · have h3 : 1 ≤ (i : Int) - j := by omega
    nlinarith

/-- Two distinct lattice points are more than `1.3 ^ (-1)` and at most `1.3 ^ 10` apart. -/
theorem lattice_spread :
    Node.Spread (distL2 Real.sqrt) ((13/10 : ℝ) ^ (-1 : Int)) ((13/10 : ℝ) ^ ((11 : Int) - 1))
      (lattice ℝ) := by
  have key : ∀ a ∈ lattice ℝ, ∀ b ∈ lattice ℝ, a ≠ b →
      (13/10 : ℝ) ^ (-1 : Int) < distL2 Real.sqrt a b ∧
        distL2 Real.sqrt a b ≤ (13/10 : ℝ) ^ ((11 : Int) - 1) := by
    intro a ha b hb hab
    obtain ⟨n, hn, rfl⟩ := (mem_lattice a).1 ha
    obtain ⟨m, hm, rfl⟩ := (mem_lattice b).1 hb
    have hne : n / 10 ≠ m / 10 ∨ n % 10 ≠ m % 10 := by
      by_contra hcon
      push_neg at hcon
      apply hab
      rw [hcon.1, hcon.2]
    obtain ⟨hx1, hx2⟩ := sq_diff_bounds (n / 10) (m / 10) (by omega) (by omega)
    obtain ⟨hy1, hy2⟩ := sq_diff_bounds (n % 10) (m % 10) (by omega) (by omega)
    have hx0 : 0 ≤ (((n / 10 : Nat) : Int) - ((m / 10 : Nat) : Int)) ^ 2 := sq_nonneg _
    have hy0 : 0 ≤ (((n % 10 : Nat) : Int) - ((m % 10 : Nat) : Int)) ^ 2 := sq_nonneg _
    have hs1 : 1 ≤ (((n / 10 : Nat) : Int) - ((m / 10 : Nat) : Int)) ^ 2 +
        (((n % 10 : Nat) : Int) - ((m % 10 : Nat) : Int)) ^ 2 := by
      rcases hne with h | h
      · have := hx2 h
        omega
      · have := hy2 h
        omega
    have hs2 : (((n / 10 : Nat) : Int) - ((m / 10 : Nat) : Int)) ^ 2 +
        (((n % 10 : Nat) : Int) - ((m % 10 : Nat) : Int)) ^ 2 ≤ 162 := by omega
    rw [distL2_lattice]
    have c1 : (1 : ℝ) ≤ (((((n / 10 : Nat) : Int) - ((m / 10 : Nat) : Int)) ^ 2 +
          (((n % 10 : Nat) : Int) - ((m % 10 : Nat) : Int)) ^ 2 : Int) : ℝ) := by
      exact_mod_cast hs1
    have c2 : (((((n / 10 : Nat) : Int) - ((m / 10 : Nat) : Int)) ^ 2 +
          (((n % 10 : Nat) : Int) - ((m % 10 : Nat) : Int)) ^ 2 : Int) : ℝ) ≤ 162 := by
      exact_mod_cast hs2
    constructor
    · rw [Real.lt_sqrt (by norm_num)]
      refine lt_of_lt_of_le ?_ c1
      norm_num
    · rw [Real.sqrt_le_iff]
      refine ⟨by norm_num, le_trans c2 ?_⟩
      norm_num
  unfold Node.Spread
  refine List.Nodup.pairwise_of_forall_ne lattice_nodup ?_
  intro a ha b hb hab
  refine ⟨key a ha b hb hab, ?_⟩
  rw [distL2_comm b a]
  exact key a ha b hb hab

/-- The scaled squared distances from the lattice points to `[5.2, 5.1]`, by index. -/
theorem lattice_query_sorted :
    (((List.range 100).map (fun n : Nat =>
        ((10 * ((n / 10 : Nat) : Int) - 52) ^ 2 + (10 * ((n % 10 : Nat) : Int) - 51) ^ 2 : Int))
      ).insertionSort (· ≤ ·)).take 4 = [5, 65, 85, 125] := by
  decide

theorem lattice_query_unique :
    ∀ n < 100,
      (((10 * ((n / 10 : Nat) : Int) - 52) ^ 2 + (10 * ((n % 10 : Nat) : Int) - 51) ^ 2 = 5 →
        n = 55) ∧
      ((10 * ((n / 10 : Nat) : Int) - 52) ^ 2 + (10 * ((n % 10 : Nat) : Int) - 51) ^ 2 = 65 →
        n = 65) ∧
      ((10 * ((n / 10 : Nat) : Int) - 52) ^ 2 + (10 * ((n % 10 : Nat) : Int) - 51) ^ 2 = 85 →
        n = 56) ∧
      ((10 * ((n / 10 : Nat) : Int) - 52) ^ 2 + (10 * ((n % 10 : Nat) : Int) - 51) ^ 2 = 125 →
        n = 54)) ∧
      0 ≤ ((10 * ((n / 10 : Nat) : Int) - 52) ^ 2 + (10 * ((n % 10 : Nat) : Int) - 51) ^ 2) ∧
      ((10 * ((n / 10 : Nat) : Int) - 52) ^ 2 + (10 * ((n % 10 : Nat) : Int) - 51) ^ 2) ≤
        10000 := by
  decide

end CoverTree
end ofxCoverTree

namespace ofxCoverTree
namespace CoverTree

/-- Sorting a permutation of a list of numbers gives the same list. -/
theorem insertionSort_perm {α : Type} [LinearOrder α] {l l' : List α} (h : l.Perm l') :
    l.insertionSort (· ≤ ·) = l'.insertionSort (· ≤ ·) :=
  List.eq_of_perm_of_sorted
    (((List.perm_insertionSort _ l).trans h).trans (List.perm_insertionSort _ l').symm)
    (List.sorted_insertionSort _ l) (List.sorted_insertionSort _ l')

theorem lattice_distances (k : Nat) :
    (lattice ℝ).map (fun y => distL2 Real.sqrt y ⟨26/5, 51/10, k⟩) =
      ((List.range 100).map (fun n : Nat =>
        ((10 * ((n / 10 : Nat) : Int) - 52) ^ 2 + (10 * ((n % 10 : Nat) : Int) - 51) ^ 2 : Int))
      ).map (fun z : Int => Real.sqrt ((z : ℝ) / 100)) := by
  unfold lattice
  rw [List.map_map, List.map_map]
  apply List.map_congr_left
  intro n _
  exact distL2_lattice_query _ _ _

/-- The four smallest distances from the lattice to `[5.2, 5.1]`, in ascending order. -/
theorem lattice_nearest_distances (k : Nat) :
    (((lattice ℝ).map (fun y => distL2 Real.sqrt y ⟨26/5, 51/10, k⟩)).insertionSort
      (· ≤ ·)).take 4 =
      [Real.sqrt (((5 : Int) : ℝ) / 100), Real.sqrt (((65 : Int) : ℝ) / 100),
        Real.sqrt (((85 : Int) : ℝ) / 100), Real.sqrt (((125 : Int) : ℝ) / 100)] := by
  rw [lattice_distances, ← List.map_insertionSort (· ≤ ·) (· ≤ ·), ← List.map_take,
    lattice_query_sorted]
  · rfl
  · intro a ha b hb
    obtain ⟨n, hn, rfl⟩ := List.mem_map.1 ha
    obtain ⟨m, hm, rfl⟩ := List.mem_map.1 hb
    have h0 := (lattice_query_unique m (List.mem_range.1 hm)).2.1
    rw [Real.sqrt_le_sqrt_iff (by positivity)]
    rw [div_le_div_iff_of_pos_right (by norm_num : (0 : ℝ) < 100)]
    exact Int.cast_le.symm

/-- A lattice point at one of the four smallest distances from `[5.2, 5.1]` is the lattice
point at that distance. -/
theorem lattice_point_of_distance (a : item ℝ) (ha : a ∈ lattice ℝ) (k : Nat) (v : Int)
    (hv : distL2 Real.sqrt a ⟨26/5, 51/10, k⟩ = Real.sqrt ((v : ℝ) / 100)) (hv0 : 0 ≤ v) :
    (v = 5 → a = latticeAt 5 5) ∧ (v = 65 → a = latticeAt 6 5) ∧
      (v = 85 → a = latticeAt 5 6) ∧ (v = 125 → a = latticeAt 5 4) := by
  obtain ⟨n, hn, rfl⟩ := (mem_lattice a).1 ha
  obtain ⟨⟨h1, h2, h3, h4⟩, h0, -⟩ := lattice_query_unique n hn
  rw [distL2_lattice_query] at hv
  have hv2 : ((10 * ((n / 10 : Nat) : Int) - 52) ^ 2 + (10 * ((n % 10 : Nat) : Int) - 51) ^ 2) =
      v := by
    have h5 := (Real.sqrt_inj (by positivity) (by positivity)).1 hv
    have h6 := (div_left_inj' (by norm_num : (100 : ℝ) ≠ 0)).1 h5
    exact_mod_cast h6
  refine ⟨fun h => ?_, fun h => ?_, fun h => ?_, fun h => ?_⟩
  · rw [h1 (hv2.trans h)]
  · rw [h2 (hv2.trans h)]
  · rw [h3 (hv2.trans h)]
  · rw [h4 (hv2.trans h)]

/-- The batch constructor returns on every ordering of the lattice; in the tree it builds,
`nearNeighbors([5.2, 5.1], 4)` returns the lattice points `(5, 5)`, `(6, 5)`, `(5, 6)` and
`(5, 4)`, in this order. -/
theorem lattice_answers (debug : Bool) (junk : ℝ) (pList : List (item ℝ))
    (hp : pList.Perm (lattice ℝ)) (fuel : Nat) (hfuel : 100 < fuel) (k : Nat) :
    ∃ t t', ofList (distL2 Real.sqrt) debug junk fuel pList (13/10) = .ok t ∧
      t.nearNeighbors (distL2 Real.sqrt) floatMax ⟨26/5, 51/10, k⟩ 4 =
        .ok ([latticeAt 5 5, latticeAt 6 5, latticeAt 5 6, latticeAt 5 4], t') := by
  have hlen : pList.length = 100 := hp.length_eq.trans lattice_length
  have hne : pList ≠ [] := by
    intro h
    rw [h] at hlen
    cases hlen
  obtain ⟨t, ht, -, hs, hpts⟩ := @ofList_returns_sound _ _ _ _ debug junk _ _ _
    (by norm_num : (-1024 : Int) ≤ -1) (by norm_num) (by norm_num : (0 : Int) ≤ 11)
    (by norm_num) (by norm_num : (1 : ℝ) < 13/10) pList hne
    (Node.spread_perm hp.symm lattice_spread) fuel (by omega)
  have hpl : t.points.Perm (lattice ℝ) := hpts.trans hp
  have hmem : ∀ y ∈ t.points, y ∈ lattice ℝ := fun y hy => hpl.mem_iff.1 hy
  have hmax : ∀ y ∈ t.points, distL2 Real.sqrt y ⟨26/5, 51/10, k⟩ < floatMax := by
    intro y hy
    obtain ⟨n, hn, rfl⟩ := (mem_lattice y).1 (hmem y hy)
    obtain ⟨-, h0, h1⟩ := lattice_query_unique n hn
    rw [distL2_lattice_query, Real.sqrt_lt' (by unfold floatMax; norm_num)]
    have h2 : (((10 * ((n / 10 : Nat) : Int) - 52) ^ 2 +
        (10 * ((n % 10 : Nat) : Int) - 51) ^ 2 : Int) : ℝ) ≤ 10000 := by
      exact_mod_cast h1
    unfold floatMax
    refine lt_of_le_of_lt (div_le_div_of_nonneg_right h2 (by norm_num)) ?_
    norm_num
  obtain ⟨res, t', hres, hl, hsub, hd⟩ := nearNeighbors_sorted (distL2 Real.sqrt)
    distL2_triangle floatMax t hs ⟨26/5, 51/10, k⟩ 4 (by norm_num)
    (by rw [hpl.length_eq, lattice_length]; norm_num) hmax
  rw [insertionSort_perm (hpl.map _), lattice_nearest_distances] at hd
  refine ⟨t, t', ht, ?_⟩
  rw [hres]
  have hin : ∀ y ∈ res, y ∈ lattice ℝ := fun y hy =>
    hmem y (Multiset.mem_coe.1 (Multiset.mem_of_le hsub (Multiset.mem_coe.2 hy)))
  match res, hl, hd, hin with
  | [a, b, c, d], _, hd, hin =>
    simp only [List.map_cons, List.map_nil, List.cons.injEq, and_true] at hd
    obtain ⟨ha, hb, hc, hd⟩ := hd
    rw [(lattice_point_of_distance a (hin a (by simp)) k 5 ha (by norm_num)).1 rfl,
      (lattice_point_of_distance b (hin b (by simp)) k 65 hb (by norm_num)).2.1 rfl,
      (lattice_point_of_distance c (hin c (by simp)) k 85 hc (by norm_num)).2.2.1 rfl,
      (lattice_point_of_distance d (hin d (by simp)) k 125 hd (by norm_num)).2.2.2 rfl]

/-- C15 (scenario 3, as the code answers it): for every ordering of the `100` points of the
integer lattice with coordinates `0` to `9`, every build and every step budget above `100`,
the batch constructor with base `1.3` returns a tree, and on it `nearNeighbors([5.2, 5.1], 4)`
returns the lattice points `(5, 5)`, `(6, 5)`, `(5, 6)` and `(5, 4)`, in ascending distance:
the fourth nearest point is `(5, 4)` and `(5, 6)` is nearer than `(4, 5)`. -/
theorem scenario_lattice (debug : Bool) (junk : ℝ) (pList : List (item ℝ))
    (hp : pList.Perm (lattice ℝ)) (fuel : Nat) (hfuel : 100 < fuel) (k : Nat) :
    ∃ t t', ofList (distL2 Real.sqrt) debug junk fuel pList (13/10) = .ok t ∧
      t.nearNeighbors (distL2 Real.sqrt) floatMax ⟨26/5, 51/10, k⟩ 4 =
        .ok ([latticeAt 5 5, latticeAt 6 5, latticeAt 5 6, latticeAt 5 4], t') :=
  lattice_answers debug junk pList hp fuel hfuel k

/-- The lattice row by row, the debug build, step budget `101` and query id `100`. -/
theorem scenario_lattice_witness :
    (lattice ℝ).Perm (lattice ℝ) ∧ 100 < 101 ∧
      ∃ t t', ofList (distL2 Real.sqrt) true 0 101 (lattice ℝ) (13/10) = .ok t ∧
        t.nearNeighbors (distL2 Real.sqrt) floatMax ⟨26/5, 51/10, 100⟩ 4 =
          .ok ([latticeAt 5 5, latticeAt 6 5, latticeAt 5 6, latticeAt 5 4], t') :=
  ⟨List.Perm.refl _, by decide,
    scenario_lattice true 0 (lattice ℝ) (List.Perm.refl _) 101 (by decide) 100⟩

/-- The answer of scenario 3 is not the one listed: on the tree that the batch constructor
builds from the lattice row by row, the list that `nearNeighbors([5.2, 5.1], 4)` returns
holds the lattice point `(5, 6)` and does not hold the lattice point `(4, 5)`. -/
theorem scenario_lattice_other_point :
    ∃ t res t', ofList (distL2 Real.sqrt) true 0 101 (lattice ℝ) (13/10) = .ok t ∧
      t.nearNeighbors (distL2 Real.sqrt) floatMax ⟨26/5, 51/10, 100⟩ 4 = .ok (res, t') ∧
      (latticeAt 5 6 : item ℝ) ∈ res ∧ (latticeAt 4 5 : item ℝ) ∉ res := by
  obtain ⟨t, t', ht, h⟩ := lattice_answers true 0 (lattice ℝ) (List.Perm.refl _) 101
    (by decide) 100
  refine ⟨t, _, t', ht, h, by simp, ?_⟩
  intro hmem
  simp only [List.mem_cons, List.mem_singleton, List.not_mem_nil, or_false] at hmem
  have hid : ∀ i j : Nat, (latticeAt 4 5 : item ℝ) = latticeAt i j → 10 * 4 + 5 = 10 * i + j :=
    fun i j h => congrArg item.id h
  rcases hmem with h | h | h | h
  · exact absurd (hid _ _ h) (by decide)
  · exact absurd (hid _ _ h) (by decide)
  · exact absurd (hid _ _ h) (by decide)
  · exact absurd (hid _ _ h) (by decide)

end CoverTree
end ofxCoverTree

namespace ofxCoverTree
namespace CoverTree

theorem heightList_duplicateChain (l : Int) (n : Nat) :
    Node.heightList (duplicateChain l n) = n := by
  induction n generalizing l with
  | zero => rfl
  | succ n ih =>
    rw [duplicateChain, Node.heightList_cons, Node.height_mk, ih, Node.heightList_nil]
    omega

/-- The internal `insert` of the point `0` below a chain of copies of `0` that stays within
the table adds one copy at the bottom. -/
theorem insert_duplicateChain (debug : Bool) (m : Nat) (l : Int) (fuel : Nat) (ms : Int)
    (hfuel : m < fuel) (hl : -1024 ≤ l - m) (hl2 : l ≤ 1023) :
    Node.insert dist1 (13/10) debug 0 0 fuel ms (Node.mk 0 (duplicateChain l m) l 0 0) =
      .ok (Node.mk 0 (duplicateChain l (m + 1)) l 0 0,
        if ms > l - m - 1 then l - m - 1 else ms) := by
  induction m generalizing l fuel ms with
  | zero =>
    obtain ⟨fuel, rfl⟩ : ∃ f, fuel = f + 1 := ⟨fuel - 1, by omega⟩
    have hc : (Node.mk (0 : ℚ) ([] : List (Node ℚ ℚ)) l (0 : ℚ) 0).covdist (13/10 : ℚ) =
        .ok ((13/10 : ℚ) ^ l) := Node.covdist_of_range _ _ (by simpa using hl) hl2
    have hpos : (0 : ℚ) < (13/10 : ℚ) ^ l := zpow_pos (by norm_num) _
    have hck : Node.checkInput dist1 (13/10) debug
        (Node.mk (0 : ℚ) ([] : List (Node ℚ ℚ)) l (0 : ℚ) 0) 0 = .ok () := by
      unfold Node.checkInput
      cases debug
      · rfl
      · simp only [if_true, hc]
        rw [if_neg]
        simp only [Node._p_mk, dist1, sub_self, abs_zero]
        exact not_lt.2 hpos.le
    rw [Node.insert, duplicateChain, hck]
    simp only [bind, Except.bind, Node.children_mk, Node.insertLoop, pure, Except.pure]
    simp only [Node.setChild, Node.setChildren, Node.level_mk, Node.children_mk,
      List.nil_append, duplicateChain, Nat.cast_zero, sub_zero]
    split <;> rfl
  | succ m ih =>
    obtain ⟨fuel, rfl⟩ : ∃ f, fuel = f + 1 := ⟨fuel - 1, by omega⟩
    have hl1 : -1024 ≤ l - 1 - (m : Int) := by push_cast at hl; omega
    have hc : (Node.mk (0 : ℚ) (duplicateChain l (m + 1)) l (0 : ℚ) 0).covdist (13/10 : ℚ) =
        .ok ((13/10 : ℚ) ^ l) := Node.covdist_of_range _ _ (by simp only [Node.level_mk]; omega) hl2
    have hpos : ∀ k : Int, (0 : ℚ) < (13/10 : ℚ) ^ k := fun k => zpow_pos (by norm_num) _
    have hck : Node.checkInput dist1 (13/10) debug
        (Node.mk (0 : ℚ) (duplicateChain l (m + 1)) l (0 : ℚ) 0) 0 = .ok () := by
      unfold Node.checkInput
      cases debug
      · rfl
      · simp only [if_true, hc]
        rw [if_neg]
        simp only [Node._p_mk, dist1, sub_self, abs_zero]
        exact not_lt.2 (hpos l).le
    have hcc : ((Node.mk (0 : ℚ) (duplicateChain (l - 1) m) (l - 1) (0 : ℚ) 0).setTempDist
        (dist1 (Node.mk (0 : ℚ) (duplicateChain (l - 1) m) (l - 1) (0 : ℚ) 0)._p 0)) =
        Node.mk (0 : ℚ) (duplicateChain (l - 1) m) (l - 1) (0 : ℚ) 0 := by
      simp [Node.setTempDist, dist1]
    have hcd : (Node.mk (0 : ℚ) (duplicateChain (l - 1) m) (l - 1) (0 : ℚ) 0).covdist
        (13/10 : ℚ) = .ok ((13/10 : ℚ) ^ (l - 1)) :=
      Node.covdist_of_range _ _ (by simp only [Node.level_mk]; omega)
        (by simp only [Node.level_mk]; omega)
    rw [Node.insert, hck]
    simp only [bind, Except.bind, Node.children_mk]
    rw [duplicateChain, Node.insertLoop]
    simp only [hcc, hcd, bind, Except.bind, Node.tempDist_mk]
    rw [if_pos (hpos _).le, ih (l - 1) fuel ms (by omega) hl1 (by omega)]
    simp only [pure, Except.pure, Node.setChildren]
    have e1 : l - 1 - (m : Int) - 1 = l - ((m + 1 : Nat) : Int) - 1 := by push_cast; ring
    rw [e1]
    rfl

/-- The internal `insert` of the point `0` below a chain of copies of `0` that reaches below
level `-1024` reads `powdict` outside the table. -/
theorem insert_duplicateChain_outside (debug : Bool) (m : Nat) (l : Int) (fuel : Nat)
    (ms : Int) (hfuel : m < fuel) (hl : l - m < -1024) (hl1 : -1024 ≤ l) (hl2 : l ≤ 1023) :
    Node.insert dist1 (13/10) debug 0 0 fuel ms (Node.mk 0 (duplicateChain l m) l 0 0) =
      .error .tableRange := by
  induction m generalizing l fuel ms with
  | zero => simp at hl; omega
  | succ m ih =>
    obtain ⟨fuel, rfl⟩ : ∃ f, fuel = f + 1 := ⟨fuel - 1, by omega⟩
    have hc : (Node.mk (0 : ℚ) (duplicateChain l (m + 1)) l (0 : ℚ) 0).covdist (13/10 : ℚ) =
        .ok ((13/10 : ℚ) ^ l) := Node.covdist_of_range _ _ hl1 hl2
    have hpos : ∀ k : Int, (0 : ℚ) < (13/10 : ℚ) ^ k := fun k => zpow_pos (by norm_num) _
    have hck : Node.checkInput dist1 (13/10) debug
        (Node.mk (0 : ℚ) (duplicateChain l (m + 1)) l (0 : ℚ) 0) 0 = .ok () := by
      unfold Node.checkInput
      cases debug
      · rfl
      · simp only [if_true, hc]
        rw [if_neg]
        simp only [Node._p_mk, dist1, sub_self, abs_zero]
        exact not_lt.2 (hpos l).le
    have hcc : ((Node.mk (0 : ℚ) (duplicateChain (l - 1) m) (l - 1) (0 : ℚ) 0).setTempDist
        (dist1 (Node.mk (0 : ℚ) (duplicateChain (l - 1) m) (l - 1) (0 : ℚ) 0)._p 0)) =
        Node.mk (0 : ℚ) (duplicateChain (l - 1) m) (l - 1) (0 : ℚ) 0 := by
      simp [Node.setTempDist, dist1]
    rw [Node.insert, hck]
    simp only [bind, Except.bind, Node.children_mk]
    rw [duplicateChain, Node.insertLoop]
    simp only [hcc, bind, Except.bind]
    by_cases hlow : l - 1 < -1024
    · have hcd : (Node.mk (0 : ℚ) (duplicateChain (l - 1) m) (l - 1) (0 : ℚ) 0).covdist
          (13/10 : ℚ) = .error .tableRange := by
        unfold Node.covdist
        rw [if_neg]
        simp only [Node.level_mk]
        omega
      simp only [hcd]
    · have hcd : (Node.mk (0 : ℚ) (duplicateChain (l - 1) m) (l - 1) (0 : ℚ) 0).covdist
          (13/10 : ℚ) = .ok ((13/10 : ℚ) ^ (l - 1)) :=
        Node.covdist_of_range _ _ (by simp only [Node.level_mk]; omega)
          (by simp only [Node.level_mk]; omega)
      simp only [hcd, Node.tempDist_mk]
      rw [if_pos (hpos _).le, ih (l - 1) fuel ms (by omega) (by push_cast at hl; omega)
        (by omega) (by omega)]

/-- The public `insert(0)` on the chain of `n` copies of `0`, for `n` up to `1024`. -/
theorem insert_sampleChain (debug : Bool) (n : Nat) (hn : n ≤ 1024) :
    (sampleChain n).insert dist1 debug 0 0 = .ok (sampleChain (n + 1)) := by
  have hc : (sampleChain n).root.covdist (sampleChain n).base = .ok ((13/10 : ℚ) ^ (0 : Int)) :=
    Node.covdist_of_range _ _ (by simp [sampleChain]) (by simp [sampleChain])
  unfold insert
  simp only [hc, bind, Except.bind]
  rw [if_neg (by simp [sampleChain, dist1])]
  have hr : (sampleChain n).root.setTempDist (dist1 (sampleChain n).root._p 0) =
      Node.mk 0 (duplicateChain 0 n) 0 0 0 := by
    simp [sampleChain, Node.setTempDist, dist1]
  rw [hr]
  simp only [Node.height_mk, heightList_duplicateChain]
  have h := insert_duplicateChain debug n 0 (1 + n) (sampleChain n).minScale (by omega)
    (by omega) (by omega)
  simp only [sampleChain] at h ⊢
  rw [h]
  simp only [pure, Except.pure]
  congr 2
  by_cases h0 : n = 0
  · subst h0
    simp
  · simp only [h0, if_false]
    rw [if_pos (by omega), if_neg (Nat.succ_ne_zero n)]
    push_cast
    ring

/-- The public `insert(0)` on a chain of `1025` or more copies of `0`. -/
theorem insert_sampleChain_outside (debug : Bool) (n : Nat) (hn : 1025 ≤ n) :
    (sampleChain n).insert dist1 debug 0 0 = .error .tableRange := by
  have hc : (sampleChain n).root.covdist (sampleChain n).base =
      .ok ((13/10 : ℚ) ^ (0 : Int)) :=
    Node.covdist_of_range _ _ (by simp [sampleChain]) (by simp [sampleChain])
  unfold insert
  simp only [hc, bind, Except.bind]
  rw [if_neg (by simp [sampleChain, dist1])]
  have hr : (sampleChain n).root.setTempDist (dist1 (sampleChain n).root._p 0) =
      Node.mk 0 (duplicateChain 0 n) 0 0 0 := by
    simp [sampleChain, Node.setTempDist, dist1]
  rw [hr]
  simp only [Node.height_mk, heightList_duplicateChain]
  have h := insert_duplicateChain_outside debug n 0 (1 + n) (sampleChain n).minScale
    (by omega) (by omega) (by omega) (by omega)
  simp only [sampleChain] at h ⊢
  rw [h]

theorem foldlM_sampleChain (debug : Bool) (k n : Nat) (h : n + k ≤ 1025) :
    (List.replicate k (0 : ℚ)).foldlM (insert dist1 debug 0) (sampleChain n) =
      .ok (sampleChain (n + k)) := by
  induction k generalizing n with
  | zero => rfl
  | succ k ih =>
    rw [List.replicate_succ, List.foldlM_cons, insert_sampleChain debug n (by omega)]
    simp only [bind, Except.bind]
    rw [ih (n + 1) (by omega)]
    congr 2
    omega

end CoverTree
end ofxCoverTree

namespace ofxCoverTree
namespace CoverTree
variable {P α : Type} [LinearOrderedField α]

/-- C13 (as the code behaves): nothing checks an index into `powdict`, so exhaustion is not
reported; what holds is that the public `insert(p)` reads the table only inside its `2048`
entries, and returns, when the base exceeds `1`, every level of the tree lies between `lo` and
`hi` with `-1024 ≤ lo` and `hi ≤ 1023`, and `p` is more than `base ^ lo` and at most
`base ^ (hi - 1)` away from every stored point; the levels then stay between `lo` and `hi`. -/
theorem insert_within_table (dist : P → P → α) (debug : Bool) (junk : α) (lo hi : Int)
    (hlo : -1024 ≤ lo) (hhi : hi ≤ 1023) (t : CoverTree P α) (hbase : 1 < t.base) (p : P)
    (hlev : Node.LevelsIn lo hi t.root)
    (hfar : ∀ x ∈ t.root.mpoints, t.base ^ lo < dist x p ∧ dist x p ≤ t.base ^ (hi - 1)) :
    ∃ t', t.insert dist debug junk p = .ok t' ∧ Node.LevelsIn lo hi t'.root :=
  insert_returns hlo hhi t hbase p hlev hfar

/-- The singleton `0` and the point `1`, with the levels between `-1` and `1`. -/
theorem insert_within_table_witness :
    (-1024 : Int) ≤ -1 ∧ (1 : Int) ≤ 1023 ∧ 1 < (ofPoint 0 0 (13/10) : CoverTree ℚ ℚ).base ∧
      Node.LevelsIn (-1) 1 (ofPoint 0 0 (13/10) : CoverTree ℚ ℚ).root ∧
      (∀ x ∈ (ofPoint 0 0 (13/10) : CoverTree ℚ ℚ).root.mpoints,
        (ofPoint 0 0 (13/10) : CoverTree ℚ ℚ).base ^ (-1 : Int) < dist1 x 1 ∧
          dist1 x 1 ≤ (ofPoint 0 0 (13/10) : CoverTree ℚ ℚ).base ^ ((1 : Int) - 1)) ∧
      ∃ t', (ofPoint 0 0 (13/10) : CoverTree ℚ ℚ).insert dist1 true 0 1 = .ok t' ∧
        Node.LevelsIn (-1) 1 t'.root :=
  have hlev : Node.LevelsIn (-1) 1 (ofPoint 0 0 (13/10) : CoverTree ℚ ℚ).root := by
    intro n hn
    have h : n = Node.mk 0 [] 0 0 0 := by simpa [ofPoint, Node.subtrees, Node.subtreesList] using hn
    subst h
    exact ⟨by decide, by decide⟩
  have hfar : ∀ x ∈ (ofPoint 0 0 (13/10) : CoverTree ℚ ℚ).root.mpoints,
      (ofPoint 0 0 (13/10) : CoverTree ℚ ℚ).base ^ (-1 : Int) < dist1 x 1 ∧
        dist1 x 1 ≤ (ofPoint 0 0 (13/10) : CoverTree ℚ ℚ).base ^ ((1 : Int) - 1) := by
    intro x hx
    have h : x = 0 := by
      simpa [ofPoint, Node.mpoints_mk] using hx
    subst h
    simp only [ofPoint, dist1]
    norm_num
  ⟨by decide, by decide, by simp only [ofPoint]; norm_num, hlev, hfar,
    insert_within_table dist1 true 0 (-1) 1 (by decide) (by decide) (ofPoint 0 0 (13/10))
      (by simp only [ofPoint]; norm_num) 1 hlev hfar⟩

/-- Power-table exhaustion is not reported: `CoverTree(0)` followed by `1025` calls
`insert(0)` returns the chain of copies of `0` that reaches down to level `-1025`, and the next
`insert(0)` reads `powdict[-1]` (the entry for level `-1025`), in the debug build and in the
release build alike; no check stands between the level and the read. -/
theorem insert_reads_outside_table :
    (List.replicate 1025 (0 : ℚ)).foldlM (insert dist1 true 0) (ofPoint 0 0 (13/10)) =
        .ok (sampleChain 1025) ∧
      (List.replicate 1025 (0 : ℚ)).foldlM (insert dist1 false 0) (ofPoint 0 0 (13/10)) =
        .ok (sampleChain 1025) ∧
      (sampleChain 1025).insert dist1 true 0 0 = .error .tableRange ∧
      (sampleChain 1025).insert dist1 false 0 0 = .error .tableRange := by
  have e : (ofPoint 0 0 (13/10) : CoverTree ℚ ℚ) = sampleChain 0 := rfl
  rw [e]
  exact ⟨(foldlM_sampleChain true 1025 0 (by norm_num)).trans (by rw [Nat.zero_add]),
    (foldlM_sampleChain false 1025 0 (by norm_num)).trans (by rw [Nat.zero_add]),
    insert_sampleChain_outside true 1025 (le_refl _),
    insert_sampleChain_outside false 1025 (le_refl _)⟩

end CoverTree
end ofxCoverTree

namespace ofxCoverTree
namespace Node
variable {P α : Type} [LinearOrderedField α]

theorem liftWhile_level_le {dist : P → P → α} {base : α} {p : P} (fuel : Nat)
    (root r : Node P α) (h : liftWhile dist base p fuel root = .ok r) :
    root.level ≤ r.level := by
  induction fuel generalizing root with
  | zero => simp [liftWhile] at h
  | succ fuel ih =>
    simp only [liftWhile] at h
    obtain ⟨cd, -, h⟩ := bind_eq_ok h
    split at h
    · have := ih _ h
      rw [level_liftRoot] at this
      omega
    · simp only [pure, Except.pure] at h
      injection h with h
      subst h
      exact le_refl _

theorem spread_mono {dist : P → P → α} {a b a' b' : α} (ha : a ≤ a') (hb : b' ≤ b)
    {l : List P} (h : Spread dist a' b' l) : Spread dist a b l := by
  unfold Spread at h ⊢
  exact h.imp (fun hxy => ⟨⟨lt_of_le_of_lt ha hxy.1.1, le_trans hxy.1.2 hb⟩,
    ⟨lt_of_le_of_lt ha hxy.2.1, le_trans hxy.2.2 hb⟩⟩)

theorem spread_map_range {dist : P → P → α} {a b : α} (f : Nat → P) (n : Nat)
    (h : ∀ i j, i < j → j < n → (a < dist (f i) (f j) ∧ dist (f i) (f j) ≤ b) ∧
      (a < dist (f j) (f i) ∧ dist (f j) (f i) ≤ b)) :
    Spread dist a b ((List.range n).map f) := by
  unfold Spread
  rw [List.pairwise_map]
  exact (List.pairwise_lt_range n).imp_of_mem
    (fun _ hb hlt => h _ _ hlt (List.mem_range.1 hb))

end Node

namespace CoverTree
variable {P α : Type} [LinearOrderedField α]

/-- The public `insert` never lowers the level of the root, and raises it when the root does
not cover the new point. -/
theorem insert_root_level {dist : P → P → α} {debug : Bool} {junk : α} {t t' : CoverTree P α}
    {p : P} (h : t.insert dist debug junk p = .ok t') :
    t.root.level ≤ t'.root.level ∧
      (∀ cd, t.root.covdist t.base = .ok cd → cd < dist t.root._p p →
        t.root.level < t'.root.level) := by
  unfold insert at h
  obtain ⟨cd, hcd, h⟩ := bind_eq_ok h
  split at h
  · obtain ⟨root, hroot, h⟩ := bind_eq_ok h
    simp only [pure, Except.pure] at h
    injection h with h
    subst h
    have := Node.liftWhile_level_le _ _ _ hroot
    simp only [Node.level_mk]
    exact ⟨by omega, fun _ _ _ => by omega⟩
  · rename_i hnot
    obtain ⟨r, hr, h⟩ := bind_eq_ok h
    simp only [pure, Except.pure] at h
    injection h with h
    subst h
    have hk := Node.inserted_key (Node.insert_inserted _ _ _ _ hr)
    have hl : r.1.level = t.root.level := by
      have := congrArg Prod.snd hk
      simpa [Node.key] using this
    simp only
    refine ⟨by omega, fun cd2 hcd2 hlt => ?_⟩
    rw [hcd] at hcd2
    injection hcd2 with hcd2
    subst hcd2
    exact absurd hlt hnot

theorem foldlM_insert_root_level {dist : P → P → α} {debug : Bool} {junk : α} (ps : List P)
    (t t' : CoverTree P α) (h : ps.foldlM (insert dist debug junk) t = .ok t') :
    t.root.level ≤ t'.root.level := by
  induction ps generalizing t with
  | nil =>
    simp only [List.foldlM, pure, Except.pure] at h
    injection h with h
    subst h
    exact le_refl _
  | cons p ps ih =>
    rw [List.foldlM_cons] at h
    obtain ⟨t1, ht1, h⟩ := bind_eq_ok h
    exact le_trans (insert_root_level ht1).1 (ih t1 h)

theorem calc_maxdist_root_level {dist : P → P → α} {fuel : Nat} {t t' : CoverTree P α}
    (h : t.calc_maxdist dist fuel = .ok t') : t'.root.level = t.root.level := by
  unfold calc_maxdist at h
  obtain ⟨r, hr, h⟩ := bind_eq_ok h
  simp only [pure, Except.pure] at h
  injection h with h
  subst h
  have := congrArg Prod.snd (Node.key_of_erase (Node.calc_maxdist_erase dist fuel _ _ hr))
  simpa [Node.key] using this

/-- The root of the tree that the batch constructor builds is above level `0` when the first
point inserted is more than `1` away from the root point. -/
theorem ofList_root_level_pos {dist : P → P → α} {debug : Bool} {junk : α} {fuel : Nat}
    {mid : List P} {x p : P} {base : α} {t : CoverTree P α}
    (h : ofList dist debug junk fuel (mid ++ [x]) base = .ok t) (hh : mid.head? = some p)
    (hfar : 1 < dist x p) : 0 < t.root.level := by
  cases mid with
  | nil => cases hh
  | cons p' rest =>
    simp only [List.head?_cons, Option.some.injEq] at hh
    subst hh
    unfold ofList at h
    rw [List.getLast?_append_of_ne_nil _ (List.cons_ne_nil _ _)] at h
    simp only [List.getLast?_singleton, List.dropLast_concat] at h
    obtain ⟨t2, ht2, h⟩ := bind_eq_ok h
    rw [List.foldlM_cons] at ht2
    obtain ⟨t1, ht1, ht2⟩ := bind_eq_ok ht2
    have h1 := (insert_root_level ht1).2 1
      (by
        have := Node.covdist_of_range base (ofPoint junk x base).root
          (by simp [ofPoint]) (by simp [ofPoint])
        simpa [ofPoint] using this)
      (by simpa [ofPoint] using hfar)
    have h2 := foldlM_insert_root_level _ _ _ ht2
    have h3 := calc_maxdist_root_level h
    have h0 : (ofPoint junk x base).root.level = 0 := rfl
    omega

theorem foldlM_lookup (f : CoverTree P α → P → Except Fault (CoverTree P α)) (pList : List P)
    (is : List Int) (ps : List P)
    (h : is.map (fun i => pList[i.toNat]?) = ps.map some) (t : CoverTree P α) :
    is.foldlM
      (fun t i =>
        match pList[i.toNat]? with
        | none => .error .vectorRange
        | some p => f t p) t = ps.foldlM f t := by
  induction is generalizing ps t with
  | nil =>
    cases ps with
    | nil => rfl
    | cons p ps => cases h
  | cons i is ih =>
    cases ps with
    | nil => cases h
    | cons p ps =>
      simp only [List.map_cons, List.cons.injEq] at h
      rw [List.foldlM_cons, List.foldlM_cons]
      simp only [h.1]
      congr 1
      funext t1
      exact ih ps h.2 t1

/-- The range constructor on the entries `b` to `e - 1` builds the tree that the batch
constructor builds from the same entries with the first moved to the end. -/
theorem ofRange_eq_ofList (dist : P → P → α) (debug : Bool) (junk : α) (fuel : Nat)
    (pList pre mid post : List P) (x : P) (b e : Int) (base : α)
    (hl : pList = pre ++ x :: (mid ++ post)) (hb : b = pre.length)
    (he : e = b + 1 + mid.length) :
    ofRange dist debug junk fuel pList b e base =
      ofList dist debug junk fuel (mid ++ [x]) base := by
  subst hb he hl
  unfold ofRange ofList
  rw [if_neg (by omega)]
  have h1 : (pre ++ x :: (mid ++ post))[((pre.length : Int)).toNat]? = some x := by
    rw [Int.toNat_natCast, List.getElem?_append_right (le_refl _)]
    simp
  rw [h1, List.getLast?_append_of_ne_nil _ (List.cons_ne_nil _ _)]
  simp only [List.getLast?_singleton, List.dropLast_concat]
  congr 1
  apply foldlM_lookup
  unfold rangeIndices
  rw [List.map_map]
  have h2 : ((pre.length : Int) + 1 + (mid.length : Int) - ((pre.length : Int) + 1)).toNat =
      mid.length := by
    rw [add_sub_cancel_left, Int.toNat_natCast]
  rw [h2]
  apply List.ext_getElem
  · simp
  · intro n hn1 hn2
    simp only [List.length_map, List.length_range] at hn1
    simp only [List.getElem_map, List.getElem_range, Function.comp]
    have h3 : ((pre.length : Int) + 1 + (n : Int)).toNat = pre.length + (1 + n) := by
      omega
    rw [h3, List.getElem?_append_right (Nat.le_add_right _ _), Nat.add_sub_cancel_left,
      Nat.add_comm 1 n, List.getElem?_cons_succ, List.getElem?_append_left hn1,
      List.getElem?_eq_getElem hn1]

end CoverTree

namespace ParallelMake
variable {P α : Type} [LinearOrderedField α]

/-- Below the threshold `compute` is the range constructor. -/
theorem compute_run (dist : P → P → α) (debug : Bool) (junk : α) (fuel : Nat) (pList : List P)
    (base : α) (left right : Int) (h : right - left < 50000) :
    compute dist debug junk fuel pList base left right =
      CoverTree.ofRange dist debug junk fuel pList left right base := by
  rw [compute, dif_pos h]

/-- At and above the threshold `compute` builds the two halves and merges the first into the
second, whatever their root levels. -/
theorem compute_split (dist : P → P → α) (debug : Bool) (junk : α) (fuel : Nat)
    (pList : List P) (base : α) (left right : Int) (h : 50000 ≤ right - left) :
    compute dist debug junk fuel pList base left right =
      (compute dist debug junk fuel pList base left (left + (right - left) / 2) >>= fun t1 =>
        compute dist debug junk fuel pList base (left + (right - left) / 2) right >>= fun t2 =>
          t2.merge dist debug junk t1) := by
  rw [compute, dif_neg (by omega)]
  simp only [gt_iff_lt, lt_self_iff_false, if_false]

end ParallelMake
end ofxCoverTree

namespace ofxCoverTree
namespace CoverTree

theorem dist1_bounds {x y a b : ℚ} (ha : 0 ≤ a) (h1 : a < y - x) (h2 : y - x ≤ b) :
    (a < dist1 x y ∧ dist1 x y ≤ b) ∧ (a < dist1 y x ∧ dist1 y x ≤ b) := by
  have e1 : dist1 x y = |y - x| := abs_sub_comm x y
  have e2 : dist1 y x = |y - x| := rfl
  rw [e1, e2]
  have h3 : a < |y - x| := lt_of_lt_of_le h1 (le_abs_self _)
  have h4 : |y - x| ≤ b := abs_le.2 ⟨by linarith, h2⟩
  exact ⟨⟨h3, h4⟩, ⟨h3, h4⟩⟩

theorem mem_map_range {f : Nat → ℚ} {n : Nat} {y : ℚ} (h : y ∈ (List.range n).map f) :
    ∃ i : Nat, i < n ∧ (i : ℚ) + 1 ≤ n ∧ f i = y := by
  obtain ⟨i, hi, rfl⟩ := List.mem_map.1 h
  rw [List.mem_range] at hi
  exact ⟨i, hi, by exact_mod_cast hi, rfl⟩

/-- The even numbers from `0` to `49998` are pairwise more than `1` and at most `49998`
apart. -/
theorem sampleBatch_first_spread :
    Node.Spread dist1 1 49998 (0 :: (List.range 24999).map (fun (i : Nat) => 2 * ((i : ℚ) + 1))) := by
  unfold Node.Spread
  rw [List.pairwise_cons]
  constructor
  · intro y hy
    obtain ⟨i, -, hi, rfl⟩ := mem_map_range hy
    have h0 : (0 : ℚ) ≤ i := Nat.cast_nonneg i
    push_cast at hi
    exact dist1_bounds (by norm_num) (by linarith) (by linarith)
  · apply Node.spread_map_range
    intro i j hij hj
    have h0 : (0 : ℚ) ≤ i := Nat.cast_nonneg i
    have h1 : (i : ℚ) + 1 ≤ j := by exact_mod_cast hij
    have h2 : (j : ℚ) + 1 ≤ 24999 := by exact_mod_cast hj
    exact dist1_bounds (by norm_num) (by linarith) (by linarith)

/-- The multiples of `1/65536` of the batch are pairwise more than `1/70000` and at most `1/2`
apart. -/
theorem sampleBatch_second_spread :
    Node.Spread dist1 (1/70000) (1/2)
      (1/65536 :: (List.range 24999).map (fun (j : Nat) => ((j : ℚ) + 2) / 65536)) := by
  unfold Node.Spread
  rw [List.pairwise_cons]
  constructor
  · intro y hy
    obtain ⟨i, -, hi, rfl⟩ := mem_map_range hy
    have h0 : (0 : ℚ) ≤ i := Nat.cast_nonneg i
    push_cast at hi
    exact dist1_bounds (by norm_num) (by linarith) (by linarith)
  · apply Node.spread_map_range
    intro i j hij hj
    have h0 : (0 : ℚ) ≤ i := Nat.cast_nonneg i
    have h1 : (i : ℚ) + 1 ≤ j := by exact_mod_cast hij
    have h2 : (j : ℚ) + 1 ≤ 24999 := by exact_mod_cast hj
    exact dist1_bounds (by norm_num) (by linarith) (by linarith)

/-- The points of the whole batch are pairwise more than `1/70000` and at most `49998`
apart. -/
theorem sampleBatch_spread : Node.Spread dist1 (1/70000) 49998 sampleBatch := by
  have h1 := @Node.spread_mono ℚ ℚ _ dist1 (1/70000) 49998 _ _
    (by norm_num) (by norm_num) _ sampleBatch_first_spread
  have h2 := @Node.spread_mono ℚ ℚ _ dist1 (1/70000) 49998 _ _
    (le_refl _) (by norm_num) _ sampleBatch_second_spread
  unfold Node.Spread at h1 h2 ⊢
  unfold sampleBatch
  rw [List.pairwise_append]
  refine ⟨h1, h2, ?_⟩
  intro x hx y hy
  have hy2 : 1/65536 ≤ y ∧ y ≤ 1/2 := by
    rcases List.mem_cons.1 hy with rfl | hy
    · norm_num
    · obtain ⟨i, -, hi, rfl⟩ := mem_map_range hy
      have h0 : (0 : ℚ) ≤ i := Nat.cast_nonneg i
      push_cast at hi
      constructor <;> linarith
  rcases List.mem_cons.1 hx with rfl | hx
  · exact dist1_bounds (by norm_num) (by linarith) (by linarith)
  · obtain ⟨i, -, hi, rfl⟩ := mem_map_range hx
    have h0 : (0 : ℚ) ≤ i := Nat.cast_nonneg i
    push_cast at hi
    have h := @dist1_bounds y (2 * ((i : ℚ) + 1)) (1/70000) 49998 (by norm_num) (by linarith)
      (by linarith)
    exact ⟨h.2, h.1⟩

theorem sampleBatch_length : sampleBatch.length = 50000 := by
  unfold sampleBatch
  rw [List.length_append, List.length_cons, List.length_cons, List.length_map, List.length_map,
    List.length_range]

end CoverTree
end ofxCoverTree

namespace ofxCoverTree
namespace CoverTree

/-- The builder of the first half of the sample batch returns a tree whose root is above
level `0`, the builder of the second half a tree whose root is at level `0` or below. -/
theorem sampleBatch_halves (debug : Bool) (fuel : Nat) (hfuel : 25000 < fuel) :
    ∃ t1 t2, ParallelMake.compute dist1 debug 0 fuel sampleBatch (13/10) 0 25000 = .ok t1 ∧
      ParallelMake.compute dist1 debug 0 fuel sampleBatch (13/10) 25000 50000 = .ok t2 ∧
      0 < t1.root.level ∧ t2.root.level ≤ 0 := by
  have hlen : ((List.range 24999).map (fun (i : Nat) => 2 * ((i : ℚ) + 1))).length = 24999 := by
    rw [List.length_map, List.length_range]
  have hlen2 : ((List.range 24999).map
      (fun (j : Nat) => ((j : ℚ) + 2) / 65536)).length = 24999 := by
    rw [List.length_map, List.length_range]
  have e1 : ParallelMake.compute dist1 debug 0 fuel sampleBatch (13/10) 0 25000 =
      ofList dist1 debug 0 fuel
        ((List.range 24999).map (fun (i : Nat) => 2 * ((i : ℚ) + 1)) ++ [0]) (13/10) := by
    rw [ParallelMake.compute_run _ _ _ _ _ _ _ _ (by norm_num)]
    exact ofRange_eq_ofList dist1 debug 0 fuel sampleBatch []
      ((List.range 24999).map (fun (i : Nat) => 2 * ((i : ℚ) + 1)))
      (1/65536 :: (List.range 24999).map (fun (j : Nat) => ((j : ℚ) + 2) / 65536))
      0 0 25000 (13/10) (by rw [sampleBatch, List.nil_append, List.cons_append]) rfl
      (by rw [hlen]; norm_num)
  have e2 : ParallelMake.compute dist1 debug 0 fuel sampleBatch (13/10) 25000 50000 =
      ofList dist1 debug 0 fuel
        ((List.range 24999).map (fun (j : Nat) => ((j : ℚ) + 2) / 65536) ++ [1/65536])
        (13/10) := by
    rw [ParallelMake.compute_run _ _ _ _ _ _ _ _ (by norm_num)]
    exact ofRange_eq_ofList dist1 debug 0 fuel sampleBatch
      (0 :: (List.range 24999).map (fun (i : Nat) => 2 * ((i : ℚ) + 1)))
      ((List.range 24999).map (fun (j : Nat) => ((j : ℚ) + 2) / 65536)) []
      (1/65536) 25000 50000 (13/10) (by rw [sampleBatch, List.append_nil])
      (by rw [List.length_cons, hlen]; norm_num) (by rw [hlen2]; norm_num)
  obtain ⟨t1, ht1, -⟩ := @ofList_returns ℚ ℚ _ dist1 debug 0
    (13/10) 0 43 (by norm_num) (by norm_num) (by norm_num)
    (by norm_num) (by norm_num)
    ((List.range 24999).map (fun (i : Nat) => 2 * ((i : ℚ) + 1)) ++ [0])
    (by simp)
    (Node.spread_perm (List.perm_append_singleton _ _).symm
      (Node.spread_mono (by norm_num) (by norm_num) sampleBatch_first_spread))
    fuel (by rw [List.length_append, hlen]; exact hfuel)
  obtain ⟨t2, ht2, hl2⟩ := @ofList_returns ℚ ℚ _ dist1 debug 0
    (13/10) (-43) 0 (by norm_num) (by norm_num) (by norm_num)
    (by norm_num) (by norm_num)
    ((List.range 24999).map (fun (j : Nat) => ((j : ℚ) + 2) / 65536) ++ [1/65536])
    (by simp)
    (Node.spread_perm (List.perm_append_singleton _ _).symm
      (Node.spread_mono (by norm_num) (by norm_num) sampleBatch_second_spread))
    fuel (by rw [List.length_append, hlen2]; exact hfuel)
  refine ⟨t1, t2, e1.trans ht1, e2.trans ht2, ?_, ?_⟩
  · refine ofList_root_level_pos (p := 2) ht1 ?_ ?_
    · rw [List.head?_map, List.head?_range]
      simp
    · simp only [dist1]
      norm_num
  · exact (((Node.levelsIn_iff _ _ _).1 hl2).1).2

/-- The debug build of `compute` on the sample batch: `merge` is called on the second tree and
its assertion on the root levels fails. -/
theorem sampleBatch_compute (fuel : Nat) (hfuel : 25000 < fuel) :
    ParallelMake.compute dist1 true 0 fuel sampleBatch (13/10) 0 50000 =
      .error .assertion := by
  obtain ⟨t1, t2, h1, h2, hl1, hl2⟩ := sampleBatch_halves true fuel hfuel
  rw [ParallelMake.compute_split _ _ _ _ _ _ _ _ (by norm_num)]
  have e : (0 : Int) + (50000 - 0) / 2 = 25000 := by norm_num
  rw [e, h1, h2]
  simp only [bind, Except.bind]
  unfold merge checkLevels
  rw [if_pos rfl, if_neg (by omega)]
  rfl

/-- The sequential batch constructor returns on the sample batch. -/
theorem sampleBatch_ofList (debug : Bool) (fuel : Nat) (hfuel : 50000 < fuel) :
    ∃ t, ofList dist1 debug 0 fuel sampleBatch (13/10) = .ok t := by
  obtain ⟨t, ht, -⟩ := @ofList_returns ℚ ℚ _ dist1 debug 0
    (13/10) (-43) 43 (by norm_num) (by norm_num) (by norm_num)
    (by norm_num) (by norm_num) sampleBatch
    (by intro h; have := sampleBatch_length; rw [h] at this; cases this)
    (Node.spread_mono (by norm_num) (by norm_num) sampleBatch_spread)
    fuel (by rw [sampleBatch_length]; exact hfuel)
  exact ⟨t, ht⟩

end CoverTree
end ofxCoverTree

namespace ofxCoverTree
namespace CoverTree

/-- The sequential batch constructor returns no tree on the batch `0`, `0`, `1/2`, whatever
the step budget: the copy of `0` below the node `0` leaves that node with `maxdistUB == 0`. -/
theorem ofList_duplicate_first (fuel : Nat) (t : CoverTree ℚ ℚ) :
    ofList dist1 true 0 fuel [0, 0, 1/2] (13/10) ≠ .ok t := by
  intro h
  unfold ofList at h
  have h0 : ([0, 0, 1/2] : List ℚ).getLast? = some (1/2) := rfl
  have h1 : ([0, 0, 1/2] : List ℚ).dropLast = [0, 0] := rfl
  have h2 : ([0, 0] : List ℚ).foldlM (insert dist1 true 0) (ofPoint 0 (1/2) (13/10)) =
      .ok ⟨13/10, Node.mk (1/2) [Node.mk 0 [Node.mk 0 [] (-2) 0 0] (-1) 0 0] 0 0 (1/2),
        -2, 0⟩ := by decide!
  rw [h0] at h
  simp only [h1, h2, bind, Except.bind] at h
  unfold calc_maxdist at h
  obtain ⟨r, hr, -⟩ := bind_eq_ok h
  have hreg := Node.calc_maxdist_regular dist1 fuel _ _ hr
  have hc := ((Node.regular_iff dist1 _).1
    (((Node.regular_iff dist1 _).1 hreg).2 (Node.mk 0 [Node.mk 0 [] (-2) 0 0] (-1) 0 0)
      (List.mem_singleton.2 rfl))).1 (List.cons_ne_nil _ _)
  exact hc (by decide!)

/-- C12 fails: on the sample batch of `50000` points both halves are built, the tree `T1` of
the first half has its root above level `0` and the tree `T2` of the second half at level `0`
or below, and `compute` calls `merge` on `T2` with `T1` as argument, in the debug and in the
release build; in the debug build the assertion of `merge` on the root levels fails.  The
comparison in `compute` reads the level of `T1` on both sides, so the second tree is always the
receiver. -/
theorem compute_receiver_is_second :
    (∀ debug : Bool, ∃ t1 t2,
      ParallelMake.compute dist1 debug 0 25001 sampleBatch (13/10) 0 25000 = .ok t1 ∧
      ParallelMake.compute dist1 debug 0 25001 sampleBatch (13/10) 25000 50000 = .ok t2 ∧
      t2.root.level < t1.root.level ∧
      ParallelMake.compute dist1 debug 0 25001 sampleBatch (13/10) 0 50000 =
        t2.merge dist1 debug 0 t1) ∧
    ParallelMake.compute dist1 true 0 25001 sampleBatch (13/10) 0 50000 = .error .assertion := by
  refine ⟨fun debug => ?_, sampleBatch_compute 25001 (by norm_num)⟩
  obtain ⟨t1, t2, h1, h2, hl1, hl2⟩ := sampleBatch_halves debug 25001 (by norm_num)
  refine ⟨t1, t2, h1, h2, by omega, ?_⟩
  rw [ParallelMake.compute_split _ _ _ _ _ _ _ _ (by norm_num)]
  have e : (0 : Int) + (50000 - 0) / 2 = 25000 := by norm_num
  rw [e, h1, h2]
  rfl

/-- C16 fails above and below the threshold: on the sample batch of `50000` points the
sequential batch constructor returns a tree while the debug build of `compute` stops at the
assertion of `merge`; on the batch `0`, `0`, `1/2` the builder returns the tree of the range
constructor while the sequential batch constructor returns no tree, whatever the step
budget. -/
theorem compute_differs_from_batch_constructor :
    ((∃ t, ofList dist1 true 0 50001 sampleBatch (13/10) = .ok t) ∧
      ParallelMake.compute dist1 true 0 50001 sampleBatch (13/10) 0 50000 =
        .error .assertion) ∧
    (ParallelMake.compute dist1 true 0 10 [0, 0, 1/2] (13/10) 0 3 =
        .ok ⟨13/10, Node.mk 0 [Node.mk 0 [Node.mk (1/2) [] (-2) 0 0] (-1) (1/2) (1/2)] 0 (1/2)
          (1/2), -2, 0⟩ ∧
      ∀ fuel t, ofList dist1 true 0 fuel [0, 0, 1/2] (13/10) ≠ .ok t) := by
  refine ⟨⟨sampleBatch_ofList true 50001 (by norm_num),
    sampleBatch_compute 50001 (by norm_num)⟩, ?_, ofList_duplicate_first⟩
  rw [ParallelMake.compute_run _ _ _ _ _ _ _ _ (by norm_num)]
  decide!

end CoverTree
end ofxCoverTree

namespace ofxCoverTree
namespace CoverTree

theorem sampleZeroRoot_built : ofList dist1 true 0 10 [1, 0] (13/10) = .ok sampleZeroRoot := by
  decide!

theorem sampleZeroRoot_sound : sampleZeroRoot.root.SoundUB dist1 :=
  Node.soundUB_of_tightUB (ofList_tightUB dist1 true 0 10 [1, 0] (13/10) sampleZeroRoot
    sampleZeroRoot_built)

/-- C25 fails on a tree whose root is the zero vector: the batch constructor builds from the
points `1`, `0` the root `0` with the child `1` and sound `maxdistUB`; the sentinel of
`nearNeighborsMulti` is `numericMax * 0 = 0`, at distance `0` from the query `0`, so no node
beats it and the child fails the pruning test: the call returns two copies of the sentinel
point, at the distances `0`, `0`, where `nearNeighbors` returns the stored points `0`, `1`, at
the distances `0`, `1`. -/
theorem nearNeighborsMulti_zero_root :
    ofList dist1 true 0 10 [1, 0] (13/10) = .ok sampleZeroRoot ∧
      sampleZeroRoot.root.SoundUB dist1 ∧
      sampleZeroRoot.root._p = 0 ∧
      sampleZeroRoot.nearNeighborsMulti dist1 scale1 floatMax 0 2 =
        .ok ([0, 0], sampleZeroRoot) ∧
      (∃ t', sampleZeroRoot.nearNeighbors dist1 floatMax 0 2 = .ok ([0, 1], t')) ∧
      ([0, 0] : List ℚ).map (fun y => dist1 y 0) ≠ ([0, 1] : List ℚ).map (fun y => dist1 y 0) := by
  refine ⟨sampleZeroRoot_built, sampleZeroRoot_sound, rfl, by decide!,
    ⟨⟨13/10, Node.mk 0 [Node.mk 1 [] (-1) 0 1] 0 1 0, -1, 0⟩, by decide!⟩,
    by decide!⟩

end CoverTree
end ofxCoverTree

namespace ofxCoverTree
namespace Node
variable {P α : Type} [LinearOrderedField α]

/-- The loop of the internal `insert` on children none of which covers `p`: every child gets
its `tempDist`, none is descended into. -/
theorem insertLoop_none {dist : P → P → α} {base : α} {p : P}
    {recurse : Int → Node P α → Except Fault (Node P α × Int)} (ms : Int)
    (cs : List (Node P α))
    (h : ∀ x ∈ cs, ∃ cd, x.covdist base = .ok cd ∧ cd < dist x._p p) :
    insertLoop dist base p recurse ms cs = .ok (setTempDists dist p cs, none) := by
  induction cs with
  | nil => rfl
  | cons c cs ih =>
    obtain ⟨cd, hcd, hlt⟩ := h c (List.mem_cons_self _ _)
    rw [insertLoop]
    simp only [covdist_setTempDist, hcd, bind, Except.bind, setTempDist_tempDist]
    rw [if_neg (not_le.2 hlt), ih (fun x hx => h x (List.mem_cons_of_mem _ hx))]
    rfl

/-- The loop of the internal `insert` on children the first of which to cover `p` is `c`: the
children before `c` get their `tempDist`, `c` is descended into, the children after `c` are
not touched. -/
theorem insertLoop_first {dist : P → P → α} {base : α} {p : P}
    {recurse : Int → Node P α → Except Fault (Node P α × Int)} (ms : Int)
    (pre : List (Node P α)) (c : Node P α) (post : List (Node P α))
    (hpre : ∀ x ∈ pre, ∃ cd, x.covdist base = .ok cd ∧ cd < dist x._p p)
    (hc : ∃ cd, c.covdist base = .ok cd ∧ dist c._p p ≤ cd) :
    insertLoop dist base p recurse ms (pre ++ c :: post) =
      (recurse ms (c.setTempDist (dist c._p p))).map
        (fun r => (setTempDists dist p pre ++ r.1 :: post, some r.2)) := by
  induction pre with
  | nil =>
    obtain ⟨cd, hcd, hle⟩ := hc
    rw [List.nil_append, insertLoop]
    simp only [covdist_setTempDist, hcd, bind, Except.bind, setTempDist_tempDist]
    rw [if_pos hle]
    cases recurse ms (c.setTempDist (dist c._p p)) <;> rfl
  | cons x pre ih =>
    obtain ⟨cd, hcd, hlt⟩ := hpre x (List.mem_cons_self _ _)
    rw [List.cons_append, insertLoop]
    simp only [covdist_setTempDist, hcd, bind, Except.bind, setTempDist_tempDist]
    rw [if_neg (not_le.2 hlt), ih (fun y hy => hpre y (List.mem_cons_of_mem _ hy))]
    cases recurse ms (c.setTempDist (dist c._p p)) <;> rfl

end Node

namespace CoverTree
variable {P α : Type} [LinearOrderedField α]

/-- C21 (tie-break of the internal `insert`, as the code behaves): once the entry check of
`insert(current, p)` has passed, the call descends into the first child `c`, in stored order,
with `dist(c.p, p) <= covdist(c)`: its outcome is that of `insert(c, p)`, with the subtree of
`c` replaced by the result, the children after `c` untouched, and the children before `c`
changed in their field `tempDist`, which the loop sets to their distance from `p`.  If no
child covers `p`, every child gets its `tempDist` and a new leaf holding `p`, with
`level = current.level - 1` and `maxdistUB = 0`, is appended as the last child; `minScale`
becomes that level when it was larger. -/
theorem internal_insert_tie_break (dist : P → P → α) (base : α) (debug : Bool) (junk : α)
    (p : P) (fuel : Nat) (ms : Int) (current : Node P α)
    (hck : Node.checkInput dist base debug current p = .ok ()) :
    (∀ pre c post, current.children = pre ++ c :: post →
      (∀ x ∈ pre, ∃ cd, x.covdist base = .ok cd ∧ cd < dist x._p p) →
      (∃ cd, c.covdist base = .ok cd ∧ dist c._p p ≤ cd) →
      Node.insert dist base debug junk p (fuel + 1) ms current =
        (Node.insert dist base debug junk p fuel ms (c.setTempDist (dist c._p p))).map
          (fun r => (current.setChildren (Node.setTempDists dist p pre ++ r.1 :: post), r.2))) ∧
    ((∀ x ∈ current.children, ∃ cd, x.covdist base = .ok cd ∧ cd < dist x._p p) →
      Node.insert dist base debug junk p (fuel + 1) ms current =
        .ok (current.setChildren (Node.setTempDists dist p current.children ++
            [Node.mk p [] (current.level - 1) 0 junk]),
          if ms > current.level - 1 then current.level - 1 else ms)) := by
  constructor
  · intro pre c post hcs hpre hc
    rw [Node.insert, hck]
    simp only [bind, Except.bind]
    rw [hcs, Node.insertLoop_first ms pre c post hpre hc]
    cases Node.insert dist base debug junk p fuel ms (c.setTempDist (dist c._p p)) <;> rfl
  · intro hall
    rw [Node.insert, hck]
    simp only [bind, Except.bind]
    rw [Node.insertLoop_none ms current.children hall]
    simp only [Node.setChild, Node.setChildren_children, Node.setChildren_level, pure,
      Except.pure]
    split <;> rfl

/-- The root of `sampleSiblings` and the point `-3/4`, in the debug build. -/
theorem internal_insert_tie_break_witness :
    Node.checkInput dist1 (13/10) true sampleSiblings.root (-3/4) = .ok () ∧
    ((∀ pre c post, sampleSiblings.root.children = pre ++ c :: post →
      (∀ x ∈ pre, ∃ cd, x.covdist (13/10 : ℚ) = .ok cd ∧ cd < dist1 x._p (-3/4)) →
      (∃ cd, c.covdist (13/10 : ℚ) = .ok cd ∧ dist1 c._p (-3/4) ≤ cd) →
      Node.insert dist1 (13/10) true 0 (-3/4) (1 + 1) (-1) sampleSiblings.root =
        (Node.insert dist1 (13/10) true 0 (-3/4) 1 (-1) (c.setTempDist (dist1 c._p (-3/4)))).map
          (fun r => (sampleSiblings.root.setChildren
            (Node.setTempDists dist1 (-3/4) pre ++ r.1 :: post), r.2))) ∧
    ((∀ x ∈ sampleSiblings.root.children,
        ∃ cd, x.covdist (13/10 : ℚ) = .ok cd ∧ cd < dist1 x._p (-3/4)) →
      Node.insert dist1 (13/10) true 0 (-3/4) (1 + 1) (-1) sampleSiblings.root =
        .ok (sampleSiblings.root.setChildren
            (Node.setTempDists dist1 (-3/4) sampleSiblings.root.children ++
              [Node.mk (-3/4) [] (sampleSiblings.root.level - 1) 0 0]),
          if (-1 : Int) > sampleSiblings.root.level - 1 then sampleSiblings.root.level - 1
          else -1))) :=
  ⟨by decide!,
    internal_insert_tie_break dist1 (13/10) true 0 (-3/4) 1 (-1) sampleSiblings.root
      (by decide!)⟩

/-- The internal `insert` does not leave every other child as it was: on the root of
`sampleSiblings`, whose children are `1` and `-1`, `insert(root, -3/4)` descends into the
second child, and the first child, which carried `tempDist = 2`, carries `tempDist = 7/4`
afterwards; the public `insert(-3/4)` is that call. -/
theorem internal_insert_writes_sibling :
    Built dist1 true sampleSiblings ∧
      sampleSiblings.root.children = [Node.mk 1 [] (-1) 0 2, Node.mk (-1) [] (-1) 0 0] ∧
      Node.insert dist1 (13/10) true 0 (-3/4) 2 (-1)
          (sampleSiblings.root.setTempDist (dist1 sampleSiblings.root._p (-3/4))) =
        .ok (sampleDescended.root, -2) ∧
      sampleSiblings.insert dist1 true 0 (-3/4) = .ok sampleDescended ∧
      sampleDescended.root.children =
        [Node.mk 1 [] (-1) 0 (7/4), Node.mk (-1) [Node.mk (-3/4) [] (-2) 0 0] (-1) 0 (1/4)] ∧
      Node.mk 1 [] (-1) 0 2 ∉ sampleDescended.root.children := by
  refine ⟨?_, rfl, by decide!, by decide!, rfl, by decide!⟩
  have h1 : Built dist1 true (ofPoint 0 0 (13/10) : CoverTree ℚ ℚ) := Built.ofPoint 0 0 (13/10)
  have h2 : Built dist1 true sampleChild :=
    Built.insert 0 _ 1 sampleChild h1 (by decide!)
  exact Built.insert 0 _ (-1) sampleSiblings h2 (by decide!)

end CoverTree
end ofxCoverTree

namespace ofxCoverTree
namespace Node
variable {P α : Type} [LinearOrderedField α]

/-- Every point of a subtree with sound `maxdistUB` is at least `dist(c.p, q) - maxdistUB` away
from the query. -/
theorem prune_bound_dist {dist : P → P → α} (htri : ∀ x y z, dist x z ≤ dist x y + dist y z)
    {q : P} {c : Node P α} (hs : SoundUB dist c) {y : P} (hy : y ∈ c.mpoints) :
    dist c._p q - c.maxdistUB ≤ dist y q := by
  have h := prune_bound htri (q := q) (c := c.setTempDist (dist c._p q))
    (soundUB_setTempDist.2 hs) rfl (by rw [mpoints_setTempDist]; exact hy)
  exact h

/-- The loop of `nearestNeighborMulti`, run with a threshold that is not below the distance of
the best node: the best node it returns is as near as the one it started from and as every
point below the children. -/
theorem nearestMultiLoop_spec {dist : P → P → α}
    (htri : ∀ x y z, dist x z ≤ dist x y + dist y z) {q : P} (T : α)
    (recurse : Node P α → Node P α → Node P α) (cs : List (Node P α))
    (hcs : ∀ c ∈ cs, SoundUB dist c)
    (hrec : ∀ c ∈ cs, ∀ nn : Node P α,
      dist (recurse c nn)._p q ≤ dist nn._p q ∧
      (recurse c nn = nn ∨ (recurse c nn)._p ∈ c.mpoints) ∧
      ∀ y ∈ c.mpoints, dist (recurse c nn)._p q ≤ dist y q)
    (nn : Node P α) (hT : dist nn._p q ≤ T) :
    dist (nearestMultiLoop dist q T recurse cs nn)._p q ≤ dist nn._p q ∧
      (nearestMultiLoop dist q T recurse cs nn = nn ∨
        (nearestMultiLoop dist q T recurse cs nn)._p ∈ mpointsList cs) ∧
      ∀ y ∈ mpointsList cs, dist (nearestMultiLoop dist q T recurse cs nn)._p q ≤ dist y q := by
  induction cs generalizing nn with
  | nil =>
    simp only [nearestMultiLoop]
    exact ⟨le_refl _, Or.inl trivial, fun y hy => by simp at hy⟩
  | cons c cs ih =>
    have hcs' : ∀ x ∈ cs, SoundUB dist x := fun x hx => hcs x (List.mem_cons_of_mem _ hx)
    have hrec' := fun x hx => hrec x (List.mem_cons_of_mem _ hx)
    simp only [nearestMultiLoop]
    split
    · obtain ⟨r1, r2, r3⟩ := hrec c (List.mem_cons_self _ _) nn
      obtain ⟨i1, i2, i3⟩ := ih hcs' hrec' (recurse c nn) (le_trans r1 hT)
      refine ⟨le_trans i1 r1, ?_, ?_⟩
      · rcases i2 with h | h
        · rw [h]
          rcases r2 with h2 | h2
          · exact Or.inl h2
          · exact Or.inr (by rw [mpointsList_cons]; exact Multiset.mem_add.2 (Or.inl h2))
        · exact Or.inr (by rw [mpointsList_cons]; exact Multiset.mem_add.2 (Or.inr h))
      · intro y hy
        rw [mpointsList_cons] at hy
        rcases Multiset.mem_add.1 hy with hy | hy
        · exact le_trans i1 (r3 y hy)
        · exact i3 y hy
    · rename_i hprune
      obtain ⟨i1, i2, i3⟩ := ih hcs' hrec' nn hT
      refine ⟨i1, ?_, ?_⟩
      · rcases i2 with h | h
        · exact Or.inl h
        · exact Or.inr (by rw [mpointsList_cons]; exact Multiset.mem_add.2 (Or.inr h))
      · intro y hy
        rw [mpointsList_cons] at hy
        rcases Multiset.mem_add.1 hy with hy | hy
        · have hb := prune_bound_dist htri (q := q) (hcs c (List.mem_cons_self _ _)) hy
          have : T ≤ dist c._p q - c.maxdistUB := not_lt.1 hprune
          linarith
        · exact i3 y hy

/-- The helper `nearestNeighborMulti`, on a subtree with sound `maxdistUB`, returns a best node
that is as near as every point of the subtree and as the best node it was given. -/
theorem nearestNeighborMulti_spec {dist : P → P → α}
    (htri : ∀ x y z, dist x z ≤ dist x y + dist y z) {q : P} (fuel : Nat)
    (current : Node P α) (hf : current.height ≤ fuel) (hs : SoundUB dist current)
    (nn : Node P α) :
    dist (nearestNeighborMulti dist q fuel current nn)._p q ≤ dist nn._p q ∧
      (nearestNeighborMulti dist q fuel current nn = nn ∨
        (nearestNeighborMulti dist q fuel current nn)._p ∈ current.mpoints) ∧
      ∀ y ∈ current.mpoints, dist (nearestNeighborMulti dist q fuel current nn)._p q ≤ dist y q := by
  induction fuel generalizing current nn with
  | zero => rw [height_eq] at hf; omega
  | succ fuel ih =>
    simp only [nearestNeighborMulti]
    have hch : ∀ c ∈ current.children, SoundUB dist c := (soundUB_iff.1 hs).2
    have hrec : ∀ c ∈ current.children, ∀ nn : Node P α,
        dist (nearestNeighborMulti dist q fuel c nn)._p q ≤ dist nn._p q ∧
        (nearestNeighborMulti dist q fuel c nn = nn ∨
          (nearestNeighborMulti dist q fuel c nn)._p ∈ c.mpoints) ∧
        ∀ y ∈ c.mpoints, dist (nearestNeighborMulti dist q fuel c nn)._p q ≤ dist y q := by
      intro c hc nn
      have := height_child_lt hc
      exact ih c (by omega) (hch c hc) nn
    by_cases hlt : dist current._p q < dist nn._p q
    · rw [if_pos hlt]
      obtain ⟨i1, i2, i3⟩ := nearestMultiLoop_spec htri (dist nn._p q)
        (nearestNeighborMulti dist q fuel) current.children hch hrec current hlt.le
      refine ⟨le_trans i1 hlt.le, Or.inr ?_, ?_⟩
      · rw [mpoints_eq]
        rcases i2 with h | h
        · rw [h]; exact Multiset.mem_cons_self _ _
        · exact Multiset.mem_cons_of_mem h
      · intro y hy
        rw [mpoints_eq, Multiset.mem_cons] at hy
        rcases hy with rfl | hy
        · exact i1
        · exact i3 y hy
    · rw [if_neg hlt]
      obtain ⟨i1, i2, i3⟩ := nearestMultiLoop_spec htri (dist nn._p q)
        (nearestNeighborMulti dist q fuel) current.children hch hrec nn (le_refl _)
      refine ⟨i1, ?_, ?_⟩
      · rcases i2 with h | h
        · exact Or.inl h
        · exact Or.inr (by rw [mpoints_eq]; exact Multiset.mem_cons_of_mem h)
      · intro y hy
        rw [mpoints_eq, Multiset.mem_cons] at hy
        rcases hy with rfl | hy
        · exact le_trans i1 (not_lt.1 hlt)
        · exact i3 y hy

end Node

namespace CoverTree
variable {P α : Type} [LinearOrderedField α]

/-- On a tree whose `maxdistUB` fields are sound, `nearestNeighborMulti(q)` returns a stored
point that no stored point is nearer to `q` than. -/
theorem nearestNeighborMulti_min (dist : P → P → α)
    (htri : ∀ x y z, dist x z ≤ dist x y + dist y z) (t : CoverTree P α)
    (hs : t.root.SoundUB dist) (q : P) :
    (t.nearestNeighborMulti dist q).1 ∈ t.points ∧
      ∀ y ∈ t.points, dist (t.nearestNeighborMulti dist q).1 q ≤ dist y q := by
  obtain ⟨-, h2, h3⟩ := Node.nearestNeighborMulti_spec htri (q := q) t.root.height t.root
    (le_refl _) hs t.root
  unfold nearestNeighborMulti points
  simp only
  constructor
  · rw [← Node.mem_mpoints_iff]
    rcases h2 with h | h
    · rw [h, Node.mpoints_eq]
      exact Multiset.mem_cons_self _ _
    · exact h
  · intro y hy
    exact h3 y (Node.mem_mpoints_iff.2 hy)

/-- C24 (the variant of the nearest-neighbour query that recomputes distances, for a metric
with the triangle inequality): on a tree whose `maxdistUB` fields are sound, when `dist`
satisfies the triangle inequality,
`nearestNeighborMulti(q)` returns a stored point, at the same distance from `q` as the point
that `nearestNeighbor(q)` returns, which is the least distance from `q` to a stored point; and
the tree after the call is the tree before the call. -/
theorem nearestNeighborMulti_agrees (dist : P → P → α)
    (htri : ∀ x y z, dist x z ≤ dist x y + dist y z) (t : CoverTree P α)
    (hs : t.root.SoundUB dist) (q : P) :
    (t.nearestNeighborMulti dist q).1 ∈ t.points ∧
      dist (t.nearestNeighborMulti dist q).1 q = dist (t.nearestNeighbor dist q).1 q ∧
      (∀ y ∈ t.points, dist (t.nearestNeighborMulti dist q).1 q ≤ dist y q) ∧
      (t.nearestNeighborMulti dist q).2 = t := by
  obtain ⟨m1, m2⟩ := nearestNeighborMulti_min dist htri t hs q
  obtain ⟨n1, n2⟩ := nearestNeighbor_min dist htri t hs q
  exact ⟨m1, le_antisymm (m2 _ n1) (n2 _ m1), m2, rfl⟩

/-- On the tree built from `1/2`, `3`, `0` and the query `1/4`. -/
theorem nearestNeighborMulti_agrees_witness :
    (∀ x y z : ℚ, dist1 x z ≤ dist1 x y + dist1 y z) ∧ sampleUpdated.root.SoundUB dist1 ∧
      (sampleUpdated.nearestNeighborMulti dist1 (1/4)).1 ∈ sampleUpdated.points ∧
      dist1 (sampleUpdated.nearestNeighborMulti dist1 (1/4)).1 (1/4) =
        dist1 (sampleUpdated.nearestNeighbor dist1 (1/4)).1 (1/4) ∧
      (∀ y ∈ sampleUpdated.points,
        dist1 (sampleUpdated.nearestNeighborMulti dist1 (1/4)).1 (1/4) ≤ dist1 y (1/4)) ∧
      (sampleUpdated.nearestNeighborMulti dist1 (1/4)).2 = sampleUpdated :=
  ⟨dist1_triangle, sampleUpdated_sound,
    nearestNeighborMulti_agrees dist1 dist1_triangle sampleUpdated sampleUpdated_sound (1/4)⟩

end CoverTree
end ofxCoverTree

namespace ofxCoverTree
namespace Node
variable {P α : Type} [LinearOrderedField α]

theorem covering_iff_keyInv (dist : P → P → α) (base : α) (t : Node P α) :
    Covering dist base t ↔ KeyInv (CoverAt dist base) t := by
  unfold Covering KeyInv CoverAt
  simp [key]

theorem covering_iff (dist : P → P → α) (base : α) (n : Node P α) :
    Covering dist base n ↔
      ∀ c ∈ n.children, dist n._p c._p ≤ base ^ n.level ∧ Covering dist base c := by
  rw [covering_iff_keyInv, keyInv_iff]
  constructor
  · rintro ⟨h1, h2⟩ c hc
    exact ⟨h1 c.key (List.mem_map.2 ⟨c, hc, rfl⟩), (covering_iff_keyInv _ _ c).2 (h2 c hc)⟩
  · intro h
    refine ⟨?_, fun c hc => (covering_iff_keyInv _ _ c).1 (h c hc).2⟩
    intro k hk
    obtain ⟨c, hc, rfl⟩ := List.mem_map.1 hk
    exact (h c hc).1

theorem two_zpow_pred_le {base : α} (hb : 2 ≤ base) (l : Int) :
    2 * base ^ (l - 1) ≤ base ^ l := by
  have hpos : (0 : α) < base := by linarith
  have h0 : (0 : α) ≤ base ^ (l - 1) := (zpow_pos hpos _).le
  have h1 : base ^ l = base ^ (l - 1) * base := by
    rw [← zpow_add_one₀ hpos.ne']
    congr 1
    ring
  rw [h1, mul_comm]
  exact mul_le_mul_of_nonneg_left hb h0

/-- In a nested and covered tree with base at least `2`, every proper descendant of a node of
level `l` lies within `2 * base ^ l` of it. -/
theorem descendants_within {dist : P → P → α} {base : α} (hb : 2 ≤ base)
    (htri : ∀ x y z, dist x z ≤ dist x y + dist y z) (n : Node P α) :
    Nesting n → Covering dist base n →
      ∀ y ∈ mpointsList n.children, dist n._p y ≤ 2 * base ^ n.level := by
  induction n using Node.induct with
  | h p cs l u t ih =>
    intro hn hc y hy
    rw [nesting_iff] at hn
    rw [covering_iff] at hc
    simp only [children_mk, _p_mk, level_mk] at hn hc hy ⊢
    obtain ⟨c, hcm, hyc⟩ := mem_mpointsList.1 hy
    have hpos : (0 : α) < base := by linarith
    have hl0 : (0 : α) ≤ base ^ l := (zpow_pos hpos _).le
    rw [mpoints_eq, Multiset.mem_cons] at hyc
    rcases hyc with rfl | hyc
    · have := (hc c hcm).1
      linarith
    · have h1 := ih c hcm (hn c hcm).2 (hc c hcm).2 y hyc
      rw [(hn c hcm).1] at h1
      have h2 := (hc c hcm).1
      have h3 := htri p c._p y
      have h4 := two_zpow_pred_le hb l
      linarith

/-- Root lifting keeps covering in a nested tree when the base is at least `2`: the leaf made
root is within `base ^ (level + 1)` of the old root. -/
theorem covering_liftRoot {dist : P → P → α} {base : α} (hb : 2 ≤ base)
    (hsymm : ∀ x y, dist x y = dist y x)
    (htri : ∀ x y z, dist x z ≤ dist x y + dist y z) {root : Node P α}
    (hn : Nesting root) (hc : Covering dist base root) :
    Covering dist base (liftRoot root) := by
  unfold liftRoot
  split
  · rename_i r hr
    obtain ⟨h1, h2, h3, h4⟩ := peel_facts (CoverAt dist base)
      (fun _ _ _ _ hsub hq k hk => hq k (hsub.subset hk)) root r hr
    have hk : r.1._p = root._p ∧ r.1.level = root.level := by
      have a := congrArg Prod.fst h1
      have b := congrArg Prod.snd h1
      exact ⟨a, b⟩
    have hmem : r.2._p ∈ mpointsList root.children := by
      rw [mpoints_eq, mpoints_eq r.1, hk.1, Multiset.cons_swap] at h3
      have := (Multiset.cons_inj_right _).1 h3
      rw [this]
      exact Multiset.mem_cons_self _ _
    have hfar := descendants_within hb htri root hn hc _ hmem
    rw [covering_iff]
    simp only [setChildren_children, setChildren_p, setChildren_level, setLevel_p,
      setLevel_level, h2, List.nil_append, List.mem_singleton]
    intro c hcm
    subst hcm
    refine ⟨?_, (covering_iff_keyInv _ _ _).2 (h4 ((covering_iff_keyInv _ _ _).1 hc))⟩
    rw [hk.1, hsymm]
    have := two_zpow_pred_le hb (root.level + 1)
    rw [add_sub_cancel_right] at this
    linarith
  · rename_i hr
    have hch := peel_eq_none hr
    rw [covering_iff]
    intro c hcm
    have : c ∈ root.children := hcm
    rw [hch] at this
    cases this

/-- The root-lifting loop keeps nesting and covering when the base is at least `2`, and ends
with the new point within `2 * covdist` of the root. -/
theorem liftWhile_covering {dist : P → P → α} {base : α} {p : P} (hb : 2 ≤ base)
    (hsymm : ∀ x y, dist x y = dist y x)
    (htri : ∀ x y z, dist x z ≤ dist x y + dist y z) (fuel : Nat) (root r : Node P α)
    (h : liftWhile dist base p fuel root = .ok r) (hn : Nesting root)
    (hc : Covering dist base root) :
    Nesting r ∧ Covering dist base r ∧ dist r._p p ≤ 2 * base ^ r.level := by
  induction fuel generalizing root with
  | zero => simp [liftWhile] at h
  | succ fuel ih =>
    simp only [liftWhile] at h
    obtain ⟨cd, hcd, h⟩ := bind_eq_ok h
    split at h
    · exact ih _ h (nesting_liftRoot hn) (covering_liftRoot hb hsymm htri hn hc)
    · rename_i hle
      simp only [pure, Except.pure] at h
      injection h with h
      subst h
      rw [(covdist_eq hcd).1] at hle
      exact ⟨hn, hc, not_lt.1 hle⟩

/-- The internal `insert` keeps covering when the node it is called on covers the point. -/
theorem inserted_covering {dist : P → P → α} {base junk : α} {p : P} {cur r : Node P α}
    (h : Inserted dist base junk p cur r) :
    dist cur._p p ≤ base ^ cur.level → Covering dist base cur → Covering dist base r := by
  induction h with
  | leaf q cs l u t hfar =>
    intro hcov hc
    rw [covering_iff] at hc ⊢
    simp only [children_mk, _p_mk, level_mk] at hc hcov ⊢
    intro c hcm
    rcases List.mem_append.1 hcm with hcm | hcm
    · obtain ⟨x, hx, rfl⟩ := mem_setTempDists hcm
      have := hc x hx
      exact ⟨this.1, (covering_iff _ _ _).2 ((covering_iff _ _ x).1 this.2)⟩
    · rw [List.mem_singleton] at hcm
      subst hcm
      refine ⟨hcov, ?_⟩
      rw [covering_iff]
      intro c hc2
      cases hc2
  | descend q pre c post l u t c' hpre hcc hins ih =>
    intro hcov hc
    rw [covering_iff] at hc ⊢
    simp only [children_mk, _p_mk, level_mk] at hc hcov ⊢
    have hkey := inserted_key hins
    have hp' : c'._p = c._p := congrArg Prod.fst hkey
    have hl' : c'.level = c.level := congrArg Prod.snd hkey
    intro x hxm
    rcases List.mem_append.1 hxm with hxm | hxm
    · obtain ⟨y, hy, rfl⟩ := mem_setTempDists hxm
      have := hc y (List.mem_append.2 (Or.inl hy))
      exact ⟨this.1, (covering_iff _ _ _).2 ((covering_iff _ _ y).1 this.2)⟩
    · rcases List.mem_cons.1 hxm with rfl | hxm
      · have hcx := hc c (List.mem_append.2 (Or.inr (List.mem_cons_self _ _)))
        refine ⟨by rw [hp']; exact hcx.1, ih hcc ?_⟩
        exact (covering_iff _ _ _).2 ((covering_iff _ _ c).1 hcx.2)
      · exact hc x (List.mem_append.2 (Or.inr (List.mem_cons_of_mem _ hxm)))

end Node

namespace CoverTree
variable {P α : Type} [LinearOrderedField α]

/-- The public `insert` keeps nesting and covering when the base is at least `2`. -/
theorem insert_keeps_covering {dist : P → P → α} (hsymm : ∀ x y, dist x y = dist y x)
    (htri : ∀ x y z, dist x z ≤ dist x y + dist y z) {debug : Bool} {junk : α}
    {t t' : CoverTree P α} (hb : 2 ≤ t.base) (hn : t.root.Nesting)
    (hc : t.root.Covering dist t.base) {p : P} (h : t.insert dist debug junk p = .ok t') :
    t'.root.Nesting ∧ t'.root.Covering dist t'.base := by
  have hbase := (insert_facts h).1
  have hnest : t'.root.Nesting :=
    (Node.nesting_iff_keyInv _).2 ((insert_facts h).2.2 _ (Node.stable_nestAt dist t.base)
      ((Node.nesting_iff_keyInv _).1 hn))
  refine ⟨hnest, ?_⟩
  rw [hbase]
  unfold insert at h
  obtain ⟨cd, hcd, h⟩ := bind_eq_ok h
  split at h
  · obtain ⟨root, hroot, h⟩ := bind_eq_ok h
    simp only [pure, Except.pure] at h
    injection h with h
    subst h
    obtain ⟨-, g2, g3⟩ := Node.liftWhile_covering hb hsymm htri _ _ _ hroot hn hc
    rw [Node.covering_iff]
    simp only [Node.children_mk, Node._p_mk, Node.level_mk, List.mem_singleton]
    intro c hcm
    subst hcm
    refine ⟨?_, g2⟩
    rw [hsymm]
    have := Node.two_zpow_pred_le hb (c.level + 1)
    rw [add_sub_cancel_right] at this
    linarith
  · rename_i hle
    obtain ⟨r, hr, h⟩ := bind_eq_ok h
    simp only [pure, Except.pure] at h
    injection h with h
    subst h
    have hins := Node.insert_inserted _ _ _ _ hr
    rw [(Node.covdist_eq hcd).1] at hle
    refine Node.inserted_covering hins (not_lt.1 hle) ?_
    exact (Node.covering_iff _ _ _).2 ((Node.covering_iff _ _ t.root).1 hc)

end CoverTree
end ofxCoverTree

namespace ofxCoverTree
namespace CoverTree
variable {P α : Type} [LinearOrderedField α]

theorem sampleBaseTwo_invariants :
    sampleBaseTwo.root.Nesting ∧ sampleBaseTwo.root.Covering dist1 sampleBaseTwo.base := by
  have h0n : (ofPoint 0 0 2 : CoverTree ℚ ℚ).root.Nesting := by
    rw [Node.nesting_iff]
    intro c hc
    cases hc
  have h0c : (ofPoint 0 0 2 : CoverTree ℚ ℚ).root.Covering dist1
      (ofPoint 0 0 2 : CoverTree ℚ ℚ).base := by
    rw [Node.covering_iff]
    intro c hc
    cases hc
  have h1 : (ofPoint 0 0 2 : CoverTree ℚ ℚ).insert dist1 true 0 1 = .ok sampleBaseTwo := by
    decide!
  exact insert_keeps_covering dist1_comm dist1_triangle (le_refl _) h0n h0c h1

end CoverTree
end ofxCoverTree

namespace ofxCoverTree
namespace Node
variable {P α : Type} [LinearOrderedField α]

/-- An ascending list splits into the entries below a bound, followed by the others. -/
theorem ascending_split (v : α) (l : List (Node P α)) (h : Ascending l) :
    l = l.filter (fun a => decide (a.tempDist < v)) ++
      l.filter (fun a => decide (¬ a.tempDist < v)) := by
  induction l with
  | nil => rfl
  | cons a l ih =>
    unfold Ascending at h
    rw [List.pairwise_cons] at h
    have ih' := ih h.2
    by_cases ha : a.tempDist < v
    · rw [List.filter_cons_of_pos (by simpa using ha),
        List.filter_cons_of_neg (by simpa using ha), List.cons_append, ← ih']
    · have hall : ∀ b ∈ l, ¬ b.tempDist < v := fun b hb hlt =>
        ha (lt_of_le_of_lt (h.1 b hb) hlt)
      have h1 : l.filter (fun a => decide (a.tempDist < v)) = [] := by
        rw [List.filter_eq_nil_iff]
        intro b hb
        simpa using hall b hb
      have h2 : l.filter (fun a => decide (¬ a.tempDist < v)) = l := by
        rw [List.filter_eq_self]
        intro b hb
        simpa using hall b hb
      rw [List.filter_cons_of_neg (by simpa using ha),
        List.filter_cons_of_pos (by simpa using ha), h1, h2, List.nil_append]

end Node

namespace CoverTree
variable {P α : Type} [LinearOrderedField α]

/-- With more neighbours asked for than points stored, `nearNeighbors` returns every stored
point, in ascending distance, followed by the points of the sentinels that were not
displaced. -/
theorem nearNeighbors_padded [Inhabited P] (dist : P → P → α)
    (htri : ∀ x y z, dist x z ≤ dist x y + dist y z) (numericMax : α) (t : CoverTree P α)
    (hs : t.root.SoundUB dist) (q : P) (k : Nat) (hkn : t.points.length < k)
    (hmax : ∀ y ∈ t.points, dist y q < numericMax) :
    ∃ L t', t.nearNeighbors dist numericMax q k =
        .ok (L ++ List.replicate (k - t.points.length) default, t') ∧
      L.Perm t.points ∧ (L.map (fun y => dist y q)).Sorted (· ≤ ·) := by
  have hk0 : k ≠ 0 := by omega
  have hne : List.replicate k (Node.mk (default : P) [] 0 (0 : α) numericMax) ≠ [] := by
    intro h
    have := congrArg List.length h
    simp at this
    exact hk0 this
  have hspec := Node.nearNeighbors_spec htri (q := q)
    (t.root.setTempDist (dist t.root._p q)).height (t.root.setTempDist (dist t.root._p q))
    (le_refl _) (Node.soundUB_setTempDist.2 hs) rfl _ hne (Node.ascending_replicate k _)
  rw [Node.candidates_setTempDist] at hspec
  unfold nearNeighbors
  rw [if_neg hk0]
  simp only
  generalize (Node.nearNeighbors dist q (t.root.setTempDist (dist t.root._p q)).height
    (t.root.setTempDist (dist t.root._p q))
    (List.replicate k (Node.mk (default : P) [] 0 (0 : α) numericMax))) = res at hspec
  obtain ⟨hasc, hlen, ⟨R, heq, hR⟩, -⟩ := hspec
  rw [List.length_replicate] at hlen
  have hcard : Multiset.card (Node.candidates dist q t.root) = t.points.length := by
    unfold Node.candidates Node.mpoints
    simp [points]
  have hcand : ∀ x ∈ Node.candidates dist q t.root, x.1 < numericMax := by
    intro x hx
    unfold Node.candidates at hx
    obtain ⟨y, hy, rfl⟩ := Multiset.mem_map.1 hx
    exact hmax y (Node.mem_mpoints_iff.1 hy)
  have hdummy : Multiset.filter (fun x : α × P => x.1 < numericMax)
      (Node.entries (List.replicate k (Node.mk (default : P) [] 0 (0 : α) numericMax))) = 0 := by
    rw [Multiset.filter_eq_nil]
    intro x hx
    obtain ⟨a, ha, rfl⟩ := Node.mem_entries.1 hx
    rw [List.eq_of_mem_replicate ha]
    simp [Node.entry]
  have hfilt := congrArg (Multiset.filter (fun x : α × P => x.1 < numericMax)) heq
  rw [Multiset.filter_add, Multiset.filter_add, hdummy, zero_add,
    Multiset.filter_eq_self.2 hcand] at hfilt
  have hc3 : Multiset.card (Node.entries res.2) = k := by
    unfold Node.entries; simp [hlen]
  -- nothing nearer than a sentinel was left out
  have hRz : Multiset.filter (fun x : α × P => x.1 < numericMax) R = 0 := by
    rw [Multiset.filter_eq_nil]
    intro x hx hlt
    have hself : Multiset.filter (fun x : α × P => x.1 < numericMax) (Node.entries res.2) =
        Node.entries res.2 := by
      rw [Multiset.filter_eq_self]
      intro y hy
      obtain ⟨a, ha, rfl⟩ := Node.mem_entries.1 hy
      exact lt_of_le_of_lt (hR x hx a ha) hlt
    rw [hself] at hfilt
    have hc := congrArg Multiset.card hfilt
    rw [Multiset.card_add, hcard, hc3] at hc
    omega
  rw [hRz, add_zero] at hfilt
  -- the entries of the list below the sentinel value are the candidates
  have hlow : ((res.2.filter (fun a => decide (a.tempDist < numericMax))).map Node.entry :
      List (α × P)) = (Node.candidates dist q t.root : Multiset (α × P)) := by
    rw [hfilt]
    unfold Node.entries
    rw [Multiset.filter_coe, List.filter_map]
    rfl
  have htd : ∀ a ∈ res.2.filter (fun a => decide (a.tempDist < numericMax)),
      a.tempDist = dist a._p q := by
    intro a ha
    have : Node.entry a ∈ Node.candidates dist q t.root := by
      rw [← hlow]
      exact Multiset.mem_coe.2 (List.mem_map.2 ⟨a, ha, rfl⟩)
    unfold Node.candidates at this
    obtain ⟨y, -, hy⟩ := Multiset.mem_map.1 this
    have h1 := congrArg Prod.fst hy
    have h2 := congrArg Prod.snd hy
    simp only [Node.entry] at h1 h2
    rw [← h1, h2]
  -- the other entries are sentinels
  have hhigh : ∀ a ∈ res.2.filter (fun a => decide (¬ a.tempDist < numericMax)),
      a._p = default := by
    intro a ha
    obtain ⟨ha1, ha2⟩ := List.mem_filter.1 ha
    have ha3 : ¬ a.tempDist < numericMax := by simpa using ha2
    have hmem : Node.entry a ∈ Node.entries (List.replicate k
        (Node.mk (default : P) [] 0 (0 : α) numericMax)) + Node.candidates dist q t.root := by
      rw [heq]
      exact Multiset.mem_add.2 (Or.inl (Node.mem_entries.2 ⟨a, ha1, rfl⟩))
    rcases Multiset.mem_add.1 hmem with h | h
    · obtain ⟨b, hb, hab⟩ := Node.mem_entries.1 h
      rw [List.eq_of_mem_replicate hb] at hab
      have := congrArg Prod.snd hab
      simpa [Node.entry] using this.symm
    · exact absurd (hcand _ h) ha3
  have hsplit := Node.ascending_split numericMax res.2 hasc
  have hlenlow : (res.2.filter (fun a => decide (a.tempDist < numericMax))).length =
      t.points.length := by
    have := congrArg Multiset.card hlow
    rw [Multiset.coe_card, List.length_map, hcard] at this
    exact this
  have hlenhigh : (res.2.filter (fun a => decide (¬ a.tempDist < numericMax))).length =
      k - t.points.length := by
    have := congrArg List.length hsplit
    rw [List.length_append, hlen, hlenlow] at this
    omega
  have hres : List.map Node._p res.2 =
      (res.2.filter (fun a => decide (a.tempDist < numericMax))).map Node._p ++
        List.replicate (k - t.points.length) default := by
    conv_lhs => rw [hsplit]
    rw [List.map_append]
    congr 1
    rw [← hlenhigh, ← List.length_map _ Node._p]
    apply List.eq_replicate_of_mem
    intro y hy
    obtain ⟨a, ha, rfl⟩ := List.mem_map.1 hy
    exact hhigh a ha
  refine ⟨(res.2.filter (fun a => decide (a.tempDist < numericMax))).map Node._p,
    ⟨t.base, res.1, t.minScale, t.maxScale⟩, ?_, ?_, ?_⟩
  · rw [hres]
  · apply Multiset.coe_eq_coe.1
    have h2 := congrArg (Multiset.map Prod.snd) hlow
    have h3 : Multiset.map Prod.snd (Node.candidates dist q t.root) = (t.points : Multiset P) := by
      unfold Node.candidates Node.mpoints points
      rw [Multiset.map_map]
      simp
    rw [h3, Multiset.map_coe, List.map_map] at h2
    rw [← h2]
    rfl
  · have h1 : List.map (fun y => dist y q)
        (List.map Node._p (res.2.filter (fun a => decide (a.tempDist < numericMax)))) =
        (res.2.filter (fun a => decide (a.tempDist < numericMax))).map Node.tempDist := by
      rw [List.map_map]
      apply List.map_congr_left
      intro a ha
      exact (htd a ha).symm
    rw [h1]
    unfold List.Sorted
    rw [List.pairwise_map]
    exact List.Pairwise.sublist (List.filter_sublist _) hasc

end CoverTree
end ofxCoverTree

namespace ofxCoverTree
namespace CoverTree
variable {P α : Type} [LinearOrderedField α]

theorem sampleOther_sound : sampleOther.root.SoundUB dist1 :=
  Node.soundUB_of_tightUB (ofList_tightUB dist1 true 0 10 [5/2, 7/2, 3] (13/10) sampleOther
    (by decide!))

end CoverTree
end ofxCoverTree

namespace ofxCoverTree
namespace Node
variable {P α : Type} [LinearOrderedField α]

theorem reordered_refl (n : Node P α) : Reordered n n := by
  induction n using Node.induct with
  | h p cs l u t ih =>
    exact Reordered.mk p cs cs cs l u t t (List.forall₂_same.2 ih) (List.Perm.refl _)

theorem reordered_of_setTempDist {a b : Node P α} {d : α} (h : Reordered (a.setTempDist d) b) :
    Reordered a b := by
  cases a with
  | mk p cs l u t =>
    cases h with
    | mk _ _ bs cs' _ _ _ t' h1 h2 => exact Reordered.mk p cs bs cs' l u t t' h1 h2

theorem reordered_setTempDist {a b : Node P α} {d : α} (h : Reordered a b) :
    Reordered a (b.setTempDist d) := by
  cases h with
  | mk p cs bs cs' l u t t' h1 h2 => exact Reordered.mk p cs bs cs' l u t d h1 h2

/-- A node whose children were given their `tempDist`, sorted, and then replaced one by one by
reordered subtrees is a reordering of the node. -/
theorem reordered_query {dist : P → P → α} {q : P} (current : Node P α)
    (out : List (Node P α))
    (h : List.Forall₂ Reordered (sortChildren (setTempDists dist q current.children)) out) :
    Reordered current (current.setChildren out) := by
  obtain ⟨b, hb1, hb2⟩ := List.perm_comp_forall₂ (sortChildren_perm _).symm h
  cases current with
  | mk p cs l u t =>
    simp only [children_mk, setTempDists] at hb1
    rw [List.forall₂_map_left_iff] at hb1
    exact Reordered.mk p cs b out l u t t
      (hb1.imp (fun _ _ hxy => reordered_of_setTempDist hxy)) hb2

theorem nearestLoop_reordered (recurse : Node P α → Node P α → Node P α × Node P α)
    (hrec : ∀ c nn, Reordered c (recurse c nn).1) (cs : List (Node P α)) (nn : Node P α) :
    List.Forall₂ Reordered cs (nearestLoop recurse cs nn).1 := by
  induction cs generalizing nn with
  | nil => exact List.Forall₂.nil
  | cons c cs ih =>
    simp only [nearestLoop]
    split
    · exact List.Forall₂.cons (hrec c nn) (ih _)
    · exact List.Forall₂.cons (reordered_refl c) (ih _)

theorem nearLoop_reordered
    (recurse : Node P α → List (Node P α) → Node P α × List (Node P α))
    (hrec : ∀ c l, Reordered c (recurse c l).1) (cs : List (Node P α)) (l : List (Node P α)) :
    List.Forall₂ Reordered cs (nearLoop recurse cs l).1 := by
  induction cs generalizing l with
  | nil => exact List.Forall₂.nil
  | cons c cs ih =>
    simp only [nearLoop]
    split
    · exact List.forall₂_same.2 (fun x _ => reordered_refl x)
    · split
      · exact List.Forall₂.cons (hrec c l) (ih _)
      · exact List.Forall₂.cons (reordered_refl c) (ih _)

theorem rangeLoop_reordered (range : α)
    (recurse : Node P α → List (Node P α) → Node P α × List (Node P α))
    (hrec : ∀ c l, Reordered c (recurse c l).1) (cs : List (Node P α)) (l : List (Node P α)) :
    List.Forall₂ Reordered cs (rangeLoop range recurse cs l).1 := by
  induction cs generalizing l with
  | nil => exact List.Forall₂.nil
  | cons c cs ih =>
    simp only [rangeLoop]
    split
    · exact List.Forall₂.cons (hrec c l) (ih _)
    · exact List.Forall₂.cons (reordered_refl c) (ih _)

/-- The helper `nearestNeighbor` leaves a reordering of the subtree it visits. -/
theorem nearestNeighbor_reordered (dist : P → P → α) (q : P) (fuel : Nat)
    (current nn : Node P α) : Reordered current (nearestNeighbor dist q fuel current nn).1 := by
  induction fuel generalizing current nn with
  | zero => exact reordered_refl current
  | succ fuel ih =>
    simp only [nearestNeighbor]
    exact reordered_query current _ (nearestLoop_reordered _ ih _ _)

/-- The helper `nearNeighbors` leaves a reordering of the subtree it visits. -/
theorem nearNeighbors_reordered (dist : P → P → α) (q : P) (fuel : Nat)
    (current : Node P α) (l : List (Node P α)) :
    Reordered current (nearNeighbors dist q fuel current l).1 := by
  induction fuel generalizing current l with
  | zero => exact reordered_refl current
  | succ fuel ih =>
    simp only [nearNeighbors]
    split
    · exact reordered_refl current
    · exact reordered_query current _ (nearLoop_reordered _ ih _ _)

/-- The helper `rangeNeighbors` leaves a reordering of the subtree it visits. -/
theorem rangeNeighbors_reordered (dist : P → P → α) (q : P) (range : α) (fuel : Nat)
    (current : Node P α) (l : List (Node P α)) :
    Reordered current (rangeNeighbors dist q range fuel current l).1 := by
  induction fuel generalizing current l with
  | zero => exact reordered_refl current
  | succ fuel ih =>
    simp only [rangeNeighbors]
    exact reordered_query current _ (rangeLoop_reordered range _ ih _ _)

theorem forall₂_forall_iff {R : Node P α → Node P α → Prop} {S : Node P α → Prop}
    {cs bs : List (Node P α)} (h : List.Forall₂ R cs bs)
    (hS : ∀ c ∈ cs, ∀ b, R c b → (S c ↔ S b)) : (∀ c ∈ cs, S c) ↔ ∀ b ∈ bs, S b := by
  induction h with
  | nil => simp
  | @cons a b as bs' hab _ ih =>
    have i1 := hS a (List.mem_cons_self _ _) b hab
    have i2 := ih (fun c hc => hS c (List.mem_cons_of_mem _ hc))
    simp only [List.forall_mem_cons, i1, i2]

theorem forall₂_map_eq {R : Node P α → Node P α → Prop} {B : Type} {f : Node P α → B}
    {cs bs : List (Node P α)} (h : List.Forall₂ R cs bs)
    (hf : ∀ c ∈ cs, ∀ b, R c b → f c = f b) : cs.map f = bs.map f := by
  induction h with
  | nil => rfl
  | @cons a b as bs' hab _ ih =>
    rw [List.map_cons, List.map_cons, hf a (List.mem_cons_self _ _) b hab,
      ih (fun c hc => hf c (List.mem_cons_of_mem _ hc))]

theorem mpointsList_eq_of_map {cs bs : List (Node P α)}
    (h : cs.map mpoints = bs.map mpoints) : mpointsList cs = mpointsList bs := by
  induction cs generalizing bs with
  | nil =>
    cases bs with
    | nil => rfl
    | cons b bs => cases h
  | cons c cs ih =>
    cases bs with
    | nil => cases h
    | cons b bs =>
      simp only [List.map_cons, List.cons.injEq] at h
      rw [mpointsList_cons, mpointsList_cons, h.1, ih h.2]

/-- What a reordering keeps: the point, level and `maxdistUB` of the root, the stored points,
every invariant that reads of the children of a node only the multiset of their points and
levels, and the soundness of `maxdistUB`. -/
theorem reordered_keeps (dist : P → P → α) (a : Node P α) :
    ∀ b, Reordered a b →
      a.key = b.key ∧ a.maxdistUB = b.maxdistUB ∧ a.mpoints = b.mpoints ∧
      (∀ Q : P → Int → List (P × Int) → Prop,
        (∀ p l ks ks', ks.Perm ks' → (Q p l ks ↔ Q p l ks')) → (KeyInv Q a ↔ KeyInv Q b)) ∧
      (SoundUB dist a ↔ SoundUB dist b) := by
  induction a using Node.induct with
  | h p cs l u t ih =>
    intro b hab
    cases hab with
    | mk _ _ bs cs' _ _ _ t' h1 h2 =>
      have hkeys : cs.map key = bs.map key :=
        forall₂_map_eq h1 (fun c hc b hcb => (ih c hc b hcb).1)
      have hpts : mpointsList cs = mpointsList cs' := by
        rw [mpointsList_eq_of_map
          (forall₂_map_eq h1 (fun c hc b hcb => (ih c hc b hcb).2.2.1)), mpointsList_perm h2]
      refine ⟨rfl, rfl, ?_, ?_, ?_⟩
      · rw [mpoints_mk, mpoints_mk, hpts]
      · intro Q hQ
        rw [keyInv_iff, keyInv_iff]
        simp only [_p_mk, level_mk, children_mk]
        have e1 : Q p l (cs.map key) ↔ Q p l (cs'.map key) := by
          rw [hkeys]
          exact hQ p l _ _ (h2.map key)
        have e2 : (∀ c ∈ cs, KeyInv Q c) ↔ ∀ c ∈ cs', KeyInv Q c := by
          rw [forall₂_forall_iff h1 (fun c hc b hcb => (ih c hc b hcb).2.2.2.1 Q hQ)]
          exact ⟨fun h c hc => h c (h2.mem_iff.2 hc), fun h c hc => h c (h2.mem_iff.1 hc)⟩
        rw [e1, e2]
      · rw [soundUB_iff, soundUB_iff]
        simp only [_p_mk, maxdistUB_mk, children_mk]
        have e2 : (∀ c ∈ cs, SoundUB dist c) ↔ ∀ c ∈ cs', SoundUB dist c := by
          rw [forall₂_forall_iff h1 (fun c hc b hcb => (ih c hc b hcb).2.2.2.2)]
          exact ⟨fun h c hc => h c (h2.mem_iff.2 hc), fun h c hc => h c (h2.mem_iff.1 hc)⟩
        rw [hpts, e2]

theorem separation_iff_keyInv (dist : P → P → α) (base : α) (t : Node P α) :
    Separation dist base t ↔ KeyInv (SepAt dist base) t := by
  unfold Separation KeyInv SepAt
  constructor
  · intro h n hn
    rw [List.pairwise_map]
    exact h n hn
  · intro h n hn
    have := h n hn
    rw [List.pairwise_map] at this
    exact this

/-- A reordering keeps nesting, covering and separation. -/
theorem reordered_invariants (dist : P → P → α) (base : α) {a b : Node P α}
    (h : Reordered a b) :
    (Nesting a ↔ Nesting b) ∧ (Covering dist base a ↔ Covering dist base b) ∧
      (Separation dist base a ↔ Separation dist base b) := by
  have hk := (reordered_keeps dist a b h).2.2.2.1
  refine ⟨?_, ?_, ?_⟩
  · rw [nesting_iff_keyInv, nesting_iff_keyInv]
    apply hk
    intro p l ks ks' hp
    unfold NestAt
    exact ⟨fun h k hk => h k (hp.mem_iff.2 hk), fun h k hk => h k (hp.mem_iff.1 hk)⟩
  · rw [covering_iff_keyInv, covering_iff_keyInv]
    apply hk
    intro p l ks ks' hp
    unfold CoverAt
    exact ⟨fun h k hk => h k (hp.mem_iff.2 hk), fun h k hk => h k (hp.mem_iff.1 hk)⟩
  · rw [separation_iff_keyInv, separation_iff_keyInv]
    apply hk
    intro p l ks ks' hp
    unfold SepAt
    exact List.Perm.pairwise_iff (fun {x y} hxy => And.intro hxy.2 hxy.1) hp

end Node
end ofxCoverTree

namespace ofxCoverTree
namespace CoverTree
variable {P α : Type} [LinearOrderedField α]

/-- Each of the three queries leaves a tree whose root is a reordering of the root before the
call, under the same `base`, `minScale` and `maxScale`. -/
theorem query_reordered [Inhabited P] (dist : P → P → α) (numericMax : α) (t : CoverTree P α)
    (q : P) (range : α) (k : Nat) (t' : CoverTree P α)
    (h : t' = (t.nearestNeighbor dist q).2 ∨ t' = (t.rangeNeighbors dist q range).2 ∨
      ∃ res, t.nearNeighbors dist numericMax q k = .ok (res, t')) :
    t'.base = t.base ∧ t'.minScale = t.minScale ∧ t'.maxScale = t.maxScale ∧
      Node.Reordered t.root t'.root := by
  rcases h with h | h | ⟨res, h⟩
  · subst h
    exact ⟨rfl, rfl, rfl, Node.reordered_of_setTempDist
      (Node.nearestNeighbor_reordered dist q _ _ _)⟩
  · subst h
    exact ⟨rfl, rfl, rfl, Node.reordered_of_setTempDist
      (Node.rangeNeighbors_reordered dist q range _ _ _)⟩
  · unfold nearNeighbors at h
    split at h
    · cases h
    · injection h with h
      injection h with h1 h2
      subst h2
      exact ⟨rfl, rfl, rfl, Node.reordered_of_setTempDist
        (Node.nearNeighbors_reordered dist q _ _ _)⟩

/-- C22 (queries only reorder): for each of `nearestNeighbor(q)`, `rangeNeighbors(q, r)` and
`nearNeighbors(q, k)`, the tree after the call has the same `base`, `minScale` and `maxScale`,
and its root is a reordering of the root before the call: every node keeps its point, level
and `maxdistUB`, and its children are the same subtrees in some order, up to `tempDist`.
Hence the stored points, nesting, covering, separation and the soundness of `maxdistUB` are
the same before and after.  `nearNeighbors` returns for every `k` other than `0`. -/
theorem queries_only_reorder [Inhabited P] (dist : P → P → α) (numericMax : α)
    (t : CoverTree P α) (q : P) (range : α) (k : Nat) :
    (∀ t', (t' = (t.nearestNeighbor dist q).2 ∨ t' = (t.rangeNeighbors dist q range).2 ∨
        ∃ res, t.nearNeighbors dist numericMax q k = .ok (res, t')) →
      t'.base = t.base ∧ t'.minScale = t.minScale ∧ t'.maxScale = t.maxScale ∧
      Node.Reordered t.root t'.root ∧
      (t'.points : Multiset P) = (t.points : Multiset P) ∧
      (t.root.Nesting ↔ t'.root.Nesting) ∧
      (t.root.Covering dist t.base ↔ t'.root.Covering dist t'.base) ∧
      (t.root.Separation dist t.base ↔ t'.root.Separation dist t'.base) ∧
      (t.root.SoundUB dist ↔ t'.root.SoundUB dist)) ∧
    (k ≠ 0 → ∃ res t', t.nearNeighbors dist numericMax q k = .ok (res, t')) := by
  constructor
  · intro t' h
    obtain ⟨h1, h2, h3, h4⟩ := query_reordered dist numericMax t q range k t' h
    obtain ⟨-, -, k3, -, k5⟩ := Node.reordered_keeps dist t.root t'.root h4
    obtain ⟨i1, i2, i3⟩ := Node.reordered_invariants dist t.base h4
    rw [h1]
    exact ⟨rfl, h2, h3, h4, k3.symm, i1, i2, i3, k5⟩
  · intro hk
    unfold nearNeighbors
    rw [if_neg hk]
    exact ⟨_, _, rfl⟩

/-- The tree with root `0` and the children `1`, `-1`, and the query `-1`: the call
`nearestNeighbor(-1)` leaves the children in the order `-1`, `1`, with their distances in
`tempDist`. -/
theorem queries_only_reorder_witness :
    (sampleSiblings.nearestNeighbor dist1 (-1)).2 =
        ⟨13/10, Node.mk 0 [Node.mk (-1) [] (-1) 0 0, Node.mk 1 [] (-1) 0 2] 0 0 1, -1, 0⟩ ∧
      Node.Reordered sampleSiblings.root
        (Node.mk 0 [Node.mk (-1) [] (-1) 0 0, Node.mk 1 [] (-1) 0 2] 0 0 1) ∧
      ((⟨13/10, Node.mk 0 [Node.mk (-1) [] (-1) 0 0, Node.mk 1 [] (-1) 0 2] 0 0 1, -1, 0⟩ :
          CoverTree ℚ ℚ).points : Multiset ℚ) = (sampleSiblings.points : Multiset ℚ) :=
  have h : (sampleSiblings.nearestNeighbor dist1 (-1)).2 =
      ⟨13/10, Node.mk 0 [Node.mk (-1) [] (-1) 0 0, Node.mk 1 [] (-1) 0 2] 0 0 1, -1, 0⟩ := by
    decide!
  have g := (queries_only_reorder dist1 1000 sampleSiblings (-1) 0 1).1
    ⟨13/10, Node.mk 0 [Node.mk (-1) [] (-1) 0 0, Node.mk 1 [] (-1) 0 2] 0 0 1, -1, 0⟩
    (Or.inl h.symm)
  ⟨h, g.2.2.2.1, g.2.2.2.2.1⟩

end CoverTree
end ofxCoverTree

namespace ofxCoverTree

/-- The rounded integer is within a half of the number. -/
theorem roundEven_near (x : ℚ) : |(roundEven x : ℚ) - x| ≤ 1/2 := by
  have h1 : (⌊x⌋ : ℚ) ≤ x := Int.floor_le x
  have h2 : x < (⌊x⌋ : ℚ) + 1 := Int.lt_floor_add_one x
  unfold roundEven
  rw [abs_le]
  split_ifs with a b c
  · constructor <;> linarith
  · push_cast
    constructor <;> linarith
  · constructor <;> linarith
  · push_cast
    constructor <;> linarith

/-- Known values of type `float`: the constants `0.1f` and `1.3f`, the square root of `2`, and
numbers that the type holds exactly. -/
theorem roundFloat_values :
    roundFloat (1/10) = 13421773/134217728 ∧ roundFloat (13/10) = 5452595/4194304 ∧
      sqrtFloat 2 = 11863283/8388608 ∧ roundFloat (13/67108864) = 13/67108864 ∧
      roundFloat (-1/2) = -1/2 ∧ roundFloat (3/33554432) = 3/33554432 ∧
      sqrtFloat (1/4) = 1/2 ∧ sqrtFloat 9 = 3 := by
  decide!

/-- The distances in `float` between the sample points and the query `3 / 2 ^ 25`.  The
distance from `-1/2` is half way between two values of the type and is rounded up, to
`1/2 + 2 ^ (-23)`. -/
theorem distFloat_values :
    distFloat (-1/2) (3/33554432) = 4194305/8388608 ∧
      distFloat 0 (3/33554432) = 6/67108864 ∧
      distFloat (13/67108864) (3/33554432) = 7/67108864 ∧
      distFloat (1/4) (3/33554432) = 16777210/67108864 ∧
      distFloat (-1/2) 0 = 1/2 ∧
      distFloat (13/67108864) (-1/2) = 8388611/16777216 := by
  decide!

/-- The distance computed in `float` arithmetic does not satisfy the triangle inequality: from
`-1/2` to `3 / 2 ^ 25` it is `1/2 + 8 / 2 ^ 26`, by way of `0` it is `1/2 + 6 / 2 ^ 26`. -/
theorem distFloat_not_triangle :
    ¬ ∀ x y z : ℚ, distFloat x z ≤ distFloat x y + distFloat y z := by
  intro h
  have h1 := h (-1/2) 0 (3/33554432)
  revert h1
  decide!

namespace CoverTree

theorem sampleRounded_built :
    ofList distFloat true 0 10 [-1/2, 0, 13/67108864] (13/10) = .ok sampleRounded := by
  decide!

theorem sampleRounded_sound : sampleRounded.root.SoundUB distFloat :=
  Node.soundUB_of_tightUB (ofList_tightUB distFloat true 0 10 [-1/2, 0, 13/67108864] (13/10)
    sampleRounded sampleRounded_built)

theorem sampleRoundedFour_built :
    ofList distFloat true 0 10 [13/67108864, -1/2, 0, 1/4] (13/10) = .ok sampleRoundedFour := by
  decide!

theorem sampleRoundedFour_sound : sampleRoundedFour.root.SoundUB distFloat :=
  Node.soundUB_of_tightUB (ofList_tightUB distFloat true 0 10 [13/67108864, -1/2, 0, 1/4]
    (13/10) sampleRoundedFour sampleRoundedFour_built)

/-- C2, counterexample: with the distance computed in `float` arithmetic, on the tree that the
batch constructor builds from `-1/2`, `0`, `13 / 2 ^ 26` (its `maxdistUB` fields are sound),
`nearNeighbors(3 / 2 ^ 25, 1)` returns the point `13 / 2 ^ 26` at distance `7 / 2 ^ 26`, although
the stored point `0` is at distance `6 / 2 ^ 26`: the returned distance is not the smallest
one. -/
theorem nearNeighbors_misses_nearer_point :
    ofList distFloat true 0 10 [-1/2, 0, 13/67108864] (13/10) = .ok sampleRounded ∧
      sampleRounded.root.SoundUB distFloat ∧
      1 ≤ sampleRounded.points.length ∧
      (∀ y ∈ sampleRounded.points, distFloat y (3/33554432) < floatMax) ∧
      (∃ t', sampleRounded.nearNeighbors distFloat floatMax (3/33554432) 1 =
        .ok ([13/67108864], t')) ∧
      (0 : ℚ) ∈ sampleRounded.points ∧
      distFloat 0 (3/33554432) = 6/67108864 ∧
      distFloat (13/67108864) (3/33554432) = 7/67108864 ∧
      ¬ ∃ res t', sampleRounded.nearNeighbors distFloat floatMax (3/33554432) 1 =
          .ok (res, t') ∧ res.length = 1 ∧
        (res : Multiset ℚ) ≤ (sampleRounded.points : Multiset ℚ) ∧
        res.map (fun y => distFloat y (3/33554432)) =
          ((sampleRounded.points.map (fun y => distFloat y (3/33554432))).insertionSort
            (· ≤ ·)).take 1 := by
  have hq : sampleRounded.nearNeighbors distFloat floatMax (3/33554432) 1 =
      .ok ([13/67108864], ⟨13/10, Node.mk (13/67108864) [Node.mk (-1/2) [Node.mk 0 [] (-2) 0 0]
        (-1) (1/2) (4194305/8388608)] 0 (8388611/16777216) (7/67108864), -2, 0⟩) := by
    decide!
  refine ⟨sampleRounded_built, sampleRounded_sound, by decide!, by decide!, ⟨_, hq⟩, by decide!,
    by decide!, by decide!, ?_⟩
  rintro ⟨res, t', h, -, -, hm⟩
  rw [hq] at h
  injection h with h
  injection h with h1 h2
  subst h1
  revert hm
  decide!

/-- C3, counterexample: with the distance computed in `float` arithmetic, on the tree that the
batch constructor builds from `-1/2`, `0`, `13 / 2 ^ 26` (its `maxdistUB` fields are sound),
`rangeNeighbors(3 / 2 ^ 25, 7 / 2 ^ 26)` returns no point, although the stored point `0` is at
distance `6 / 2 ^ 26`, which is less than the radius. -/
theorem rangeNeighbors_misses_point_in_range :
    ofList distFloat true 0 10 [-1/2, 0, 13/67108864] (13/10) = .ok sampleRounded ∧
      sampleRounded.root.SoundUB distFloat ∧
      (0 : ℚ) ∈ sampleRounded.points ∧
      distFloat 0 (3/33554432) < 7/67108864 ∧
      (sampleRounded.rangeNeighbors distFloat (3/33554432) (7/67108864)).1 = [] ∧
      ((sampleRounded.rangeNeighbors distFloat (3/33554432) (7/67108864)).1 : Multiset ℚ) ≠
        (sampleRounded.points : Multiset ℚ).filter
          (fun y => distFloat y (3/33554432) < 7/67108864) := by
  have hq : (sampleRounded.rangeNeighbors distFloat (3/33554432) (7/67108864)).1 = [] := by
    decide!
  have h0 : (0 : ℚ) ∈ sampleRounded.points := by decide!
  have hd : distFloat 0 (3/33554432) < 7/67108864 := by decide!
  refine ⟨sampleRounded_built, sampleRounded_sound, h0, hd, hq, ?_⟩
  intro h
  have hmem : (0 : ℚ) ∈ (sampleRounded.points : Multiset ℚ).filter
      (fun y => distFloat y (3/33554432) < 7/67108864) :=
    Multiset.mem_filter.2 ⟨Multiset.mem_coe.2 h0, hd⟩
  rw [← h, hq] at hmem
  exact absurd hmem (by simp)

/-- C24, counterexample: with the distance computed in `float` arithmetic, on the tree that the
batch constructor builds from `13 / 2 ^ 26`, `-1/2`, `0`, `1/4` (its `maxdistUB` fields are
sound), for the query `3 / 2 ^ 25` the call `nearestNeighbor` returns the point `13 / 2 ^ 26` at
distance `7 / 2 ^ 26` and the call `nearestNeighborMulti` the point `0` at distance
`6 / 2 ^ 26`: the two distances differ. -/
theorem nearestNeighborMulti_differs_from_nearestNeighbor :
    ofList distFloat true 0 10 [13/67108864, -1/2, 0, 1/4] (13/10) = .ok sampleRoundedFour ∧
      sampleRoundedFour.root.SoundUB distFloat ∧
      (sampleRoundedFour.nearestNeighbor distFloat (3/33554432)).1 = 13/67108864 ∧
      (sampleRoundedFour.nearestNeighborMulti distFloat (3/33554432)).1 = 0 ∧
      distFloat (13/67108864) (3/33554432) = 7/67108864 ∧
      distFloat 0 (3/33554432) = 6/67108864 ∧
      distFloat (sampleRoundedFour.nearestNeighborMulti distFloat (3/33554432)).1 (3/33554432) ≠
        distFloat (sampleRoundedFour.nearestNeighbor distFloat (3/33554432)).1 (3/33554432) := by
  refine ⟨sampleRoundedFour_built, sampleRoundedFour_sound, by decide!, by decide!, by decide!,
    by decide!, by decide!⟩

end CoverTree
end ofxCoverTree
